import Mathlib

/-! # structured-merge-diff: the schema-directed compare walk

A shallow embedding of `typed/compare.go` (the `compareWalker`) together with the
parts of the value, schema and field-path packages it consumes.  The walker itself
is translated from the Go source; the packages it imports are not part of the
sources at hand and are modelled from the specification, which is said at each
such definition.

Conventions of the embedding:

* a Go interface value that may be `nil` (`value.Value`, `value.List`, `value.Map`)
  is an `Option`; `none` is `nil` ("not present on this side"), whereas
  `Value.null` is an explicit null;
* the `*Comparison` shared by all walker frames is passed in and handed back;
* the receiver `w` mutated by a method is handed back by it;
* recursion is bounded by a fuel argument, `none` meaning that the fuel ran out;
  `compareWalker.fuel` is enough fuel for a frame (`compare_isSome`).
-/

set_option autoImplicit false

namespace SMD

/-! ## Values -/

/-- Modelled from the spec: the payload of `Float(f64)`.  A 64-bit float is not a
number (NaN), an infinity, or a number, held as the rational it denotes (the two zeros
denote the same number).  Every 64-bit float is one of these; the statements about all
values hold of all of them. -/
inductive F64 where
  | nan
  | inf (negative : Bool)
  | num (q : Rat)
  deriving DecidableEq

/-- Modelled from the spec: an integer as a float, for "numeric cross-kind (Int vs
Float) compares by value": the number the integer is, with no rounding. -/
def F64.ofInt (i : Int) : F64 := .num i

/-- The `==` of two 64-bit floats: NaN equals nothing, not even itself. -/
def F64.eq : F64 → F64 → Bool
  | .num a, .num b => decide (a = b)
  | .inf a, .inf b => a == b
  | _, _ => false

/-- The `<` of two 64-bit floats: false as soon as one of them is NaN. -/
def F64.lt : F64 → F64 → Bool
  | .num a, .num b => decide (a < b)
  | .num _, .inf negative => !negative
  | .inf negative, .num _ => negative
  | .inf a, .inf b => a && !b
  | _, _ => false

/-- Whether the float is NaN. -/
def F64.isNaN : F64 → Bool
  | .nan => true
  | _ => false

/-- Modelled from the spec: `value.Value`, the tagged variant
`Null | Bool | Int | Float | String | List | Map`, "`Float(f64)`".  A map is its list of
fields in insertion order, and a well-formed map has no key twice (`Value.WF`). -/
inductive Value where
  | null
  | bool (b : Bool)
  | int (i : Int)
  | float (f : F64)
  | string (s : String)
  | list (items : List Value)
  | map (fields : List (String × Value))

/-- The Go interface `value.List`: the elements, in order. -/
abbrev ValueList := List Value

/-- The Go interface `value.Map`: the fields, in insertion order. -/
abbrev ValueMap := List (String × Value)

/-- Modelled from the spec: `value.Map.Get`, the value stored under `key`, if any. -/
def ValueMap.Get : ValueMap → String → Option Value
  | [], _ => none
  | (k, v) :: rest, key => if k = key then some v else ValueMap.Get rest key

/-- The keys of a map, in insertion order. -/
def ValueMap.keys (m : ValueMap) : List String := m.map Prod.fst

mutual
/-- Modelled from the spec: `value.Equals`.  Numerics compare across `int`/`float` by
numeric value, two floats as floats do (`F64.eq`: NaN equals nothing), strings and bools
structurally, lists element by element, maps by key-set equality and per-key recursive
equality. -/
def Value.Equals : Value → Value → Bool
  | .null, w => match w with
    | .null => true
    | _ => false
  | .bool a, w => match w with
    | .bool b => a == b
    | _ => false
  | .int a, w => match w with
    | .int b => a == b
    | .float b => F64.eq (F64.ofInt a) b
    | _ => false
  | .float a, w => match w with
    | .int b => F64.eq a (F64.ofInt b)
    | .float b => F64.eq a b
    | _ => false
  | .string a, w => match w with
    | .string b => a == b
    | _ => false
  | .list xs, w => match w with
    | .list ys => Value.equalsList xs ys
    | _ => false
  | .map xs, w => match w with
    | .map ys =>
      ys.all (fun f => (ValueMap.keys xs).contains f.1) && Value.equalsFields xs ys
    | _ => false
/-- Element-wise equality of two lists of values. -/
def Value.equalsList : List Value → List Value → Bool
  | [], ys => ys.isEmpty
  | x :: xs, ys => match ys with
    | [] => false
    | y :: ys => x.Equals y && Value.equalsList xs ys
/-- Every field of the first map is in the second, with an equal value. -/
def Value.equalsFields : List (String × Value) → List (String × Value) → Bool
  | [], _ => true
  | (k, v) :: xs, ys =>
    (match ValueMap.Get ys k with
     | some v2 => v.Equals v2
     | none => false) && Value.equalsFields xs ys
end

mutual
/-- Well-formed values: no map, at any depth, has a key twice (a Go map cannot). -/
def Value.WF : Value → Bool
  | .list xs => Value.wfList xs
  | .map xs => decide (ValueMap.keys xs).Nodup && Value.wfFields xs
  | _ => true
/-- All elements of a list are well formed. -/
def Value.wfList : List Value → Bool
  | [] => true
  | x :: xs => x.WF && Value.wfList xs
/-- All field values of a map are well formed. -/
def Value.wfFields : List (String × Value) → Bool
  | [] => true
  | (_, v) :: xs => v.WF && Value.wfFields xs
end

mutual
/-- No float in the value, at any depth, is NaN. -/
def Value.NoNaN : Value → Bool
  | .float f => !f.isNaN
  | .list xs => Value.noNaNList xs
  | .map xs => Value.noNaNFields xs
  | _ => true
/-- No element of the list has a NaN. -/
def Value.noNaNList : List Value → Bool
  | [] => true
  | x :: xs => x.NoNaN && Value.noNaNList xs
/-- No field value of the map has a NaN. -/
def Value.noNaNFields : List (String × Value) → Bool
  | [] => true
  | (_, v) :: xs => v.NoNaN && Value.noNaNFields xs
end

mutual
/-- The number of nested levels of a value; bounds the depth of a walk over it. -/
def Value.depth : Value → Nat
  | .list xs => Value.depthList xs + 1
  | .map xs => Value.depthFields xs + 1
  | _ => 1
/-- The largest depth among the elements of a list. -/
def Value.depthList : List Value → Nat
  | [] => 0
  | x :: xs => max x.depth (Value.depthList xs)
/-- The largest depth among the field values of a map. -/
def Value.depthFields : List (String × Value) → Nat
  | [] => 0
  | (_, v) :: xs => max v.depth (Value.depthFields xs)
end

/-- A scalar value: what a key field or a set element contributes to a path element
(`ScalarValue` in the spec's `Key([(FieldName, ScalarValue)])` and `Value(ScalarValue)`). -/
inductive ScalarValue where
  | bool (b : Bool)
  | int (i : Int)
  | float (f : F64)
  | string (s : String)
  deriving DecidableEq

/-- Equality of scalars, as `value.Equals` has it: numerics compare across
`int`/`float` by numeric value, two floats as floats do (NaN equals nothing). -/
def ScalarValue.Equals : ScalarValue → ScalarValue → Bool
  | .bool a, .bool b => a == b
  | .int a, .int b => a == b
  | .int a, .float b => F64.eq (F64.ofInt a) b
  | .float a, .int b => F64.eq a (F64.ofInt b)
  | .float a, .float b => F64.eq a b
  | .string a, .string b => a == b
  | _, _ => false

/-- The scalar is no NaN. -/
def ScalarValue.NoNaN : ScalarValue → Bool
  | .float f => !f.isNaN
  | _ => true

/-- The scalar a value is, if it is one (null, lists and maps are none). -/
def Value.asScalar : Value → Option ScalarValue
  | .bool b => some (.bool b)
  | .int i => some (.int i)
  | .float q => some (.float q)
  | .string s => some (.string s)
  | _ => none

/-- Modelled from the spec: `schema.Scalar`, `Scalar ∈ {string, numeric, boolean, untyped}`. -/
inductive Scalar where
  | numeric
  | string
  | boolean
  | untyped
  deriving DecidableEq

/-- Modelled from the spec: `schema.ElementRelationship`; lists are atomic, associative
or sets, maps are atomic or separable. -/
inductive ElementRelationship where
  | associative
  | atomic
  | separable
  | set
  deriving DecidableEq

/-- Modelled from the spec: one member of a union, `{fieldName, discriminatorValue}`. -/
structure UnionField where
  FieldName : String
  DiscriminatorValue : String
  deriving DecidableEq

/-- Modelled from the spec: `UnionSpec`,
`{ discriminator: FieldName?, deduceDiscriminator: bool, fields }`. -/
structure UnionSpec where
  Discriminator : Option String
  DeduceDiscriminator : Bool
  Fields : List UnionField
  deriving DecidableEq

mutual
/-- Modelled from the spec: `schema.TypeRef`, a named reference or an inline atom. -/
inductive TypeRef where
  | namedType (name : String)
  | inlined (a : Atom)
/-- Modelled from the spec: `schema.Atom`, exactly one of scalar, list, map, untyped. -/
inductive Atom where
  | scalar (t : Scalar)
  | list (t : ListType)
  | map (t : MapType)
  | untyped
/-- Modelled from the spec: `schema.List`,
`List { elementType, elementRelationship, keys }`. -/
inductive ListType where
  | mk (ElementType : TypeRef) (ElementRelationship : ElementRelationship)
      (Keys : List String)
/-- Modelled from the spec: `schema.Map`,
`Map { fields, elementType?, elementRelationship, unions }`. -/
inductive MapType where
  | mk (Fields : StructFields) (ElementType : OptionalTypeRef)
      (ElementRelationship : ElementRelationship) (Unions : List UnionSpec)
/-- The declared fields `[{name, type}]` of a map type. -/
inductive StructFields where
  | nil
  | cons (Name : String) (FieldType : TypeRef) (rest : StructFields)
/-- The optional `elementType` of a map type. -/
inductive OptionalTypeRef where
  | none
  | some (t : TypeRef)
end

deriving instance DecidableEq for TypeRef, Atom, ListType, MapType, StructFields,
  OptionalTypeRef

/-- The `ElementType` of a list type. -/
def ListType.ElementType : ListType → TypeRef
  | .mk e _ _ => e

/-- The `ElementRelationship` of a list type. -/
def ListType.ElementRelationship : ListType → ElementRelationship
  | .mk _ r _ => r

/-- The `Keys` of a list type. -/
def ListType.Keys : ListType → List String
  | .mk _ _ k => k

/-- The declared `Fields` of a map type. -/
def MapType.Fields : MapType → StructFields
  | .mk f _ _ _ => f

/-- Modelled from the spec: the `ElementType` of a map type; a map type without one has
the inline untyped atom ("else from `elementType`, else *Untyped*"). -/
def MapType.ElementType : MapType → TypeRef
  | .mk _ .none _ _ => .inlined .untyped
  | .mk _ (.some t) _ _ => t

/-- The `ElementRelationship` of a map type. -/
def MapType.ElementRelationship : MapType → ElementRelationship
  | .mk _ _ r _ => r

/-- Modelled from the spec: `schema.Map.FindField`, the type of the declared field
named `key`, if the map type declares one. -/
def StructFields.find : StructFields → String → Option TypeRef
  | .nil, _ => none
  | .cons n t rest, key => if n = key then some t else rest.find key

/-- Modelled from the spec: `schema.Map.FindField`. -/
def MapType.FindField (t : MapType) (key : String) : Option TypeRef :=
  t.Fields.find key

/-- Modelled from the spec: a named type of the schema registry. -/
structure TypeDef where
  Name : String
  Atom : Atom

/-- Modelled from the spec: `schema.Schema`, a registry of named types. -/
structure Schema where
  Types : List TypeDef

/-- The first type of the registry that has the given name. -/
def Schema.FindNamedType : List TypeDef → String → Option Atom
  | [], _ => none
  | d :: rest, name => if d.Name = name then some d.Atom else Schema.FindNamedType rest name

/-- Modelled from the spec: `schema.Schema.Resolve`, "resolve `typeRef` to an `Atom` via
the schema; a missing named type is an error" (`none`). -/
def Schema.Resolve (s : Schema) : TypeRef → Option Atom
  | .namedType name => Schema.FindNamedType s.Types name
  | .inlined a => some a

/-! ## Field paths -/

/-- Modelled from the spec: `fieldpath.PathElement`, exactly one of a field name, a key
(the key fields of an associative list element), a value (a set element) and an
index. -/
inductive PathElement where
  | fieldName (name : String)
  | key (fields : List (String × ScalarValue))
  | value (v : ScalarValue)
  | index (i : Nat)
  deriving DecidableEq

/-- Equality of two key tuples: the same field names in the same order, with equal
values. -/
def PathElement.keyEquals :
    List (String × ScalarValue) → List (String × ScalarValue) → Bool
  | [], [] => true
  | (n, v) :: xs, (m, u) :: ys => n == m && v.Equals u && PathElement.keyEquals xs ys
  | _, _ => false

/-- Modelled from the spec: `PathElement.Equals`, equality by structure within each
variant, with the values compared as values are. -/
def PathElement.Equals : PathElement → PathElement → Bool
  | .fieldName a, .fieldName b => a == b
  | .key a, .key b => PathElement.keyEquals a b
  | .value a, .value b => a.Equals b
  | .index a, .index b => a == b
  | _, _ => false

/-- No scalar of the path element is NaN. -/
def PathElement.NoNaN : PathElement → Bool
  | .key fields => fields.all (fun f => f.2.NoNaN)
  | .value v => v.NoNaN
  | _ => true

/-- Modelled from the spec: `fieldpath.Path`, an ordered sequence of path elements. -/
abbrev Path := List PathElement

/-- Equality of two paths, element by element. -/
def Path.Equals : Path → Path → Bool
  | [], [] => true
  | a :: p, b :: q => a.Equals b && Path.Equals p q
  | _, _ => false

/-- The path `q` lies at or below the path `p`: `p` is a prefix of `q`, up to equality
of path elements. -/
def Path.isPrefixOf : Path → Path → Bool
  | [], _ => true
  | _ :: _, [] => false
  | a :: p, b :: q => a.Equals b && Path.isPrefixOf p q

/-- Modelled from the spec: `fieldpath.Set`, a set of paths with `Insert` and `Has`.
The paths are kept in the order of their insertion; a path inserted again is listed
again, which `Has` cannot tell. -/
structure PathSet where
  paths : List Path
  deriving DecidableEq

/-- The empty set of paths. -/
def PathSet.empty : PathSet := ⟨[]⟩

/-- Modelled from the spec: `fieldpath.Set.Insert`. -/
def PathSet.Insert (s : PathSet) (p : Path) : PathSet := ⟨s.paths ++ [p]⟩

/-- Modelled from the spec: `fieldpath.Set.Has`. -/
def PathSet.Has (s : PathSet) (p : Path) : Bool := s.paths.any (fun q => Path.Equals q p)

/-- Modelled from the spec: `fieldpath.PathElementSet`, a set of path elements. -/
structure PathElementSet where
  members : List PathElement

/-- Modelled from the spec: `fieldpath.PathElementSet.Insert`. -/
def PathElementSet.Insert (s : PathElementSet) (pe : PathElement) : PathElementSet :=
  ⟨s.members ++ [pe]⟩

/-- Modelled from the spec: `fieldpath.PathElementSet.Has`. -/
def PathElementSet.Has (s : PathElementSet) (pe : PathElement) : Bool :=
  s.members.any (fun q => q.Equals pe)

/-- Modelled from the spec: `fieldpath.PathElementValueMap`, the children of one side
"indexed by `PathElement`". -/
structure PathElementValueMap where
  members : List (PathElement × Value)

/-- Modelled from the spec: `fieldpath.PathElementValueMap.Insert`.  The spec does not
say what inserting under a path element that is already there does; here the entry
that was there stays the one `Get` answers with. -/
def PathElementValueMap.Insert (m : PathElementValueMap) (pe : PathElement) (v : Value) :
    PathElementValueMap :=
  ⟨m.members ++ [(pe, v)]⟩

/-- The first entry of a list of entries whose path element equals `pe`. -/
def PathElementValueMap.find : List (PathElement × Value) → PathElement → Option Value
  | [], _ => none
  | (q, v) :: rest, pe => if q.Equals pe then some v else PathElementValueMap.find rest pe

/-- Modelled from the spec: `fieldpath.PathElementValueMap.Get`. -/
def PathElementValueMap.Get (m : PathElementValueMap) (pe : PathElement) : Option Value :=
  PathElementValueMap.find m.members pe

/-! ## Helpers of the typed package -/

/-- Which side of the comparison a message is about (`"lhs: "`, `"rhs: "`). -/
inductive Side where
  | lhs
  | rhs
  deriving DecidableEq

/-- One entry of `ValidationErrors`, by the message `errorf` formats:
* `noSides`: "at least one of lhs and rhs must be provided";
* `noTypeFound`: "schema error: no type found matching: %v", with `*typeRef.NamedType`;
* `deref`: "%v: %v", a side and the error of `listValue` or `mapValue`;
* `element`: "rhs: element %v: %v" (or "lhs: ..."), an index and the error of
  `listItemToPathElement`;
* `duplicateEntries`: "rhs: duplicate entries for key %v" (or "lhs: ..."). -/
inductive ValidationError where
  | noSides
  | noTypeFound (name : Option String)
  | deref (side : Side) (err : String)
  | element (side : Side) (index : Nat) (err : String)
  | duplicateEntries (side : Side) (pe : PathElement)
  deriving DecidableEq

/-- The Go type `ValidationErrors`. -/
abbrev ValidationErrors := List ValidationError

/-- The name a type reference carries (`typeRef.NamedType`), if it is a named one. -/
def TypeRef.NamedType : TypeRef → Option String
  | .namedType name => some name
  | .inlined _ => none

/-- Modelled from the spec: `listValue`; an explicit null is a valid (nil) list, a list
is itself, anything else is an error. -/
def listValue : Value → Except String (Option ValueList)
  | .null => .ok none
  | .list xs => .ok (some xs)
  | _ => .error "expected list"

/-- Modelled from the spec: `mapValue`; an explicit null is a valid (nil) map, a map is
itself, anything else is an error. -/
def mapValue : Value → Except String (Option ValueMap)
  | .null => .ok none
  | .map xs => .ok (some xs)
  | _ => .error "expected map"

/-- Projects the key fields out of a map: every key field must be there, as a scalar. -/
def projectKeys (m : ValueMap) : List String → Except String (List (String × ScalarValue))
  | [] => .ok []
  | k :: ks =>
    match ValueMap.Get m k with
    | none => .error "missing key"
    | some v =>
      match v.asScalar with
      | none => .error "missing key"
      | some sv =>
        match projectKeys m ks with
        | .error e => .error e
        | .ok rest => .ok ((k, sv) :: rest)

/-- Lexicographic order of two strings by their characters. -/
def charsLess : List Char → List Char → Bool
  | _, [] => false
  | [], _ :: _ => true
  | a :: as, b :: bs =>
    if a.toNat < b.toNat then true
    else if b.toNat < a.toNat then false
    else charsLess as bs

/-- The order of field names. -/
def fieldNameLess (a b : String) : Bool := charsLess a.data b.data

/-- Inserts a key field into a tuple sorted by field name. -/
def insertKeyField (f : String × ScalarValue) :
    List (String × ScalarValue) → List (String × ScalarValue)
  | [] => [f]
  | g :: rest =>
    if fieldNameLess g.1 f.1 then g :: insertKeyField f rest else f :: g :: rest

/-- Canonical order of a key tuple: "`Key` tuples are sorted by field name". -/
def sortKeyFields : List (String × ScalarValue) → List (String × ScalarValue)
  | [] => []
  | f :: rest => insertKeyField f (sortKeyFields rest)

/-- Modelled from the spec: the `Key(...)` path element of an element of a keyed
associative list; the "child must be a map containing every key field as a scalar;
else error". -/
def keyedAssociativeListItemToPathElement (t : ListType) (child : Value) :
    Except String PathElement :=
  match child with
  | .map fields =>
    match projectKeys fields t.Keys with
    | .error e => .error e
    | .ok kvs => .ok (.key (sortKeyFields kvs))
  | _ => .error "associative list with keys may not have non-map elements"

/-- Modelled from the spec: the `Value(child)` path element of a set element; the
"child must be scalar; else error". -/
def setItemToPathElement (child : Value) : Except String PathElement :=
  match child.asScalar with
  | some sv => .ok (.value sv)
  | none => .error "set element must be a scalar"

/-- Modelled from the spec: `listItemToPathElement` (`pathElementFromListItem`); "for
Associative lists returns `Key(...)` ...; for Set lists returns `Value(child)` ...; else
`Index(index)`".  A set list is declared either with the relationship `set` or, as in
the schema of `TestExample`, as an associative list without keys. -/
def listItemToPathElement (t : ListType) (index : Nat) (child : Value) :
    Except String PathElement :=
  match t.ElementRelationship with
  | .associative =>
    if t.Keys.length > 0 then keyedAssociativeListItemToPathElement t child
    else setItemToPathElement child
  | .set => setItemToPathElement child
  | _ => .ok (.index index)

/-- Modelled from the spec: `deduceAtom`, "deduce each side's concrete atom from its
value shape when the schema says *Untyped*".  An untyped value is an opaque leaf, so
the list and the map deduced for it are atomic; an absent side and an explicit null
have no shape and stay untyped. -/
def deduceAtom (a : Atom) (v : Option Value) : Atom :=
  match a with
  | .untyped =>
    match v with
    | some (.list _) => .list (.mk (.inlined .untyped) .atomic [])
    | some (.map _) => .map (.mk .nil .none .atomic [])
    | some (.bool _) => .scalar .untyped
    | some (.int _) => .scalar .untyped
    | some (.float _) => .scalar .untyped
    | some (.string _) => .scalar .untyped
    | _ => .untyped
  | a => a

/-! ## The compare walker (`typed/compare.go`) -/

/-- The result of a comparison: the paths added, removed and modified
(`typed.Comparison`). -/
structure Comparison where
  Added : PathSet
  Removed : PathSet
  Modified : PathSet
  deriving DecidableEq

/-- The comparison a walk starts from: three empty sets. -/
def Comparison.empty : Comparison := ⟨PathSet.empty, PathSet.empty, PathSet.empty⟩

/-- The Go struct `compareWalker`.  The schema is a parameter of the walk, the shared
`*Comparison` is passed alongside, and the pool `spareWalkers` of frames to reuse,
which `prepareDescent` overwrites entirely before use, is left out. -/
structure compareWalker where
  lhs : Option Value
  rhs : Option Value
  typeRef : TypeRef
  inLeaf : Bool
  path : Path

/-- What a method of the walker hands back: the receiver and the shared comparison
after the call, and the errors returned; `none` when the fuel ran out. -/
abbrev WalkResult := Option (compareWalker × Comparison × ValidationErrors)

/-- The type of `compare`, as the visitors of children call it. -/
abbrev CompareFn := compareWalker → Comparison → WalkResult

/-- Go: `func (w *compareWalker) doLeaf()`. -/
def compareWalker.doLeaf (w : compareWalker) (c : Comparison) : compareWalker × Comparison :=
  let w := { w with inLeaf := true }
  match w.lhs, w.rhs with
  | none, _ => (w, { c with Added := c.Added.Insert w.path })
  | some _, none => (w, { c with Removed := c.Removed.Insert w.path })
  | some l, some r =>
    if !(Value.Equals r l) then (w, { c with Modified := c.Modified.Insert w.path })
    else (w, c)

/-- Go: `func (w *compareWalker) doScalar(t *schema.Scalar) (errs ValidationErrors)`. -/
def compareWalker.doScalar (w : compareWalker) (_t : Scalar) (c : Comparison) :
    compareWalker × Comparison × ValidationErrors :=
  let (w, c) := w.doLeaf c
  (w, c, [])

/-- Go: `func (w *compareWalker) prepareDescent(pe, tr) *compareWalker`; the new frame
is a copy of `w` (`*w2 = *w`) with the type, the longer path, and no sides yet. -/
def compareWalker.prepareDescent (w : compareWalker) (pe : PathElement) (tr : TypeRef) :
    compareWalker :=
  { w with typeRef := tr, path := w.path ++ [pe], lhs := none, rhs := none }

/-- Go: `func (w *compareWalker) finishDescent(w2 *compareWalker)`. -/
def compareWalker.finishDescent (w w2 : compareWalker) : compareWalker :=
  { w with path := w2.path.dropLast }

/-- Go: `func (w *compareWalker) derefList(prefix, v, dest)`; hands back the errors
and `*dest`. -/
def compareWalker.derefList (side : Side) (v : Option Value) (dest : Option ValueList) :
    ValidationErrors × Option ValueList :=
  match v with
  | none => ([], dest)
  | some v =>
    match listValue v with
    | .error err => ([.deref side err], dest)
    | .ok l => ([], l)

/-- Go: `func (w *compareWalker) derefMap(prefix, v, dest)`; hands back the errors
and `*dest`. -/
def compareWalker.derefMap (side : Side) (v : Option Value) (dest : Option ValueMap) :
    ValidationErrors × Option ValueMap :=
  match v with
  | none => ([], dest)
  | some v =>
    match mapValue v with
    | .error err => ([.deref side err], dest)
    | .ok m => ([], m)

/-- The Go test `l == nil || l.Length() == 0` on a list or on a map. -/
def nilOrEmpty {α : Type} : Option (List α) → Bool
  | none => true
  | some l => l.length == 0

/-- First loop of `visitListItems`, "collect all RHS children": the errors, the map
`observedRHS` and `rhsOrder` after the children from index `i` on. -/
def compareWalker.collectRHS (t : ListType) :
    ValueList → Nat → ValidationErrors → PathElementValueMap → List PathElement →
    ValidationErrors × PathElementValueMap × List PathElement
  | [], _, errs, observedRHS, rhsOrder => (errs, observedRHS, rhsOrder)
  | child :: rest, i, errs, observedRHS, rhsOrder =>
    match listItemToPathElement t i child with
    | .error err =>
      compareWalker.collectRHS t rest (i + 1) (errs ++ [.element .rhs i err]) observedRHS
        rhsOrder
    | .ok pe =>
      let errs :=
        if (observedRHS.Get pe).isSome then errs ++ [.duplicateEntries .rhs pe] else errs
      compareWalker.collectRHS t rest (i + 1) errs (observedRHS.Insert pe child)
        (rhsOrder ++ [pe])

/-- Second loop of `visitListItems`, "merge with LHS children", from index `i` on. -/
def compareWalker.mergeLHS (cmp : CompareFn) (t : ListType)
    (observedRHS : PathElementValueMap) :
    ValueList → Nat → compareWalker → Comparison → ValidationErrors → PathElementSet →
    Option (compareWalker × Comparison × ValidationErrors × PathElementSet)
  | [], _, w, c, errs, observedLHS => some (w, c, errs, observedLHS)
  | child :: rest, i, w, c, errs, observedLHS =>
    match listItemToPathElement t i child with
    | .error err =>
      compareWalker.mergeLHS cmp t observedRHS rest (i + 1) w c
        (errs ++ [.element .lhs i err]) observedLHS
    | .ok pe =>
      if observedLHS.Has pe then
        compareWalker.mergeLHS cmp t observedRHS rest (i + 1) w c
          (errs ++ [.duplicateEntries .lhs pe]) observedLHS
      else
        let observedLHS := observedLHS.Insert pe
        let w2 := w.prepareDescent pe t.ElementType
        let w2 := { w2 with lhs := some child }
        let w2 :=
          match observedRHS.Get pe with
          | some rchild => { w2 with rhs := some rchild }
          | none => w2
        match cmp w2 c with
        | none => none
        | some (w2, c, e) =>
          compareWalker.mergeLHS cmp t observedRHS rest (i + 1) (w.finishDescent w2) c
            (errs ++ e) observedLHS

/-- Third loop of `visitListItems`, over `rhsOrder`: the children only the RHS has. -/
def compareWalker.visitRHSOnly (cmp : CompareFn) (t : ListType)
    (observedRHS : PathElementValueMap) (observedLHS : PathElementSet) :
    List PathElement → compareWalker → Comparison → ValidationErrors → WalkResult
  | [], w, c, errs => some (w, c, errs)
  | pe :: rest, w, c, errs =>
    if observedLHS.Has pe then
      compareWalker.visitRHSOnly cmp t observedRHS observedLHS rest w c errs
    else
      let value := observedRHS.Get pe
      let w2 := w.prepareDescent pe t.ElementType
      let w2 := { w2 with rhs := value }
      match cmp w2 c with
      | none => none
      | some (w2, c, e) =>
        compareWalker.visitRHSOnly cmp t observedRHS observedLHS rest (w.finishDescent w2) c
          (errs ++ e)

/-- Go: `func (w *compareWalker) visitListItems(t *schema.List, lhs, rhs value.List)`. -/
def compareWalker.visitListItems (cmp : CompareFn) (t : ListType)
    (lhs rhs : Option ValueList) (w : compareWalker) (c : Comparison) : WalkResult :=
  let (errs, observedRHS, rhsOrder) :=
    match rhs with
    | some rhs => compareWalker.collectRHS t rhs 0 [] ⟨[]⟩ []
    | none => ([], ⟨[]⟩, [])
  let merged :=
    match lhs with
    | some lhs => compareWalker.mergeLHS cmp t observedRHS lhs 0 w c errs ⟨[]⟩
    | none => some (w, c, errs, ⟨[]⟩)
  match merged with
  | none => none
  | some (w, c, errs, observedLHS) =>
    compareWalker.visitRHSOnly cmp t observedRHS observedLHS rhsOrder w c errs

/-- Go: `func (w *compareWalker) doList(t *schema.List) (errs ValidationErrors)`; the
errors of the two `derefList` calls are dropped, as in the source. -/
def compareWalker.doList (cmp : CompareFn) (t : ListType) (w : compareWalker)
    (c : Comparison) : WalkResult :=
  let lhs := (compareWalker.derefList .lhs w.lhs none).2
  let rhs := (compareWalker.derefList .rhs w.rhs none).2
  let emptyPromoteToLeaf := nilOrEmpty lhs && nilOrEmpty rhs
  if t.ElementRelationship = .atomic || emptyPromoteToLeaf then
    let (w, c) := w.doLeaf c
    some (w, c, [])
  else
    w.visitListItems cmp t lhs rhs c

/-- Go: `func (w *compareWalker) visitMapItem(t *schema.Map, key string, lhs, rhs)`. -/
def compareWalker.visitMapItem (cmp : CompareFn) (t : MapType) (key : String)
    (lhs rhs : Option Value) (w : compareWalker) (c : Comparison) : WalkResult :=
  let fieldType :=
    match t.FindField key with
    | some sf => sf
    | none => t.ElementType
  let pe := PathElement.fieldName key
  let w2 := w.prepareDescent pe fieldType
  let w2 := { w2 with lhs := lhs, rhs := rhs }
  match cmp w2 c with
  | none => none
  | some (w2, c, errs) => some (w.finishDescent w2, c, errs)

/-- First loop of `visitMapItems`: `lhs.Iterate`, each key with the value the RHS has
for it, if any. -/
def compareWalker.visitLHSFields (cmp : CompareFn) (t : MapType) (rhs : Option ValueMap) :
    ValueMap → compareWalker → Comparison → ValidationErrors → WalkResult
  | [], w, c, errs => some (w, c, errs)
  | (key, val) :: rest, w, c, errs =>
    let rval :=
      match rhs with
      | some rhs => ValueMap.Get rhs key
      | none => none
    match w.visitMapItem cmp t key (some val) rval c with
    | none => none
    | some (w, c, e) => compareWalker.visitLHSFields cmp t rhs rest w c (errs ++ e)

/-- Second loop of `visitMapItems`: `rhs.Iterate`, the keys the LHS does not have. -/
def compareWalker.visitRHSFields (cmp : CompareFn) (t : MapType) (lhs : Option ValueMap) :
    ValueMap → compareWalker → Comparison → ValidationErrors → WalkResult
  | [], w, c, errs => some (w, c, errs)
  | (key, val) :: rest, w, c, errs =>
    let inLHS :=
      match lhs with
      | some lhs => (ValueMap.Get lhs key).isSome
      | none => false
    if inLHS then compareWalker.visitRHSFields cmp t lhs rest w c errs
    else
      match w.visitMapItem cmp t key none (some val) c with
      | none => none
      | some (w, c, e) => compareWalker.visitRHSFields cmp t lhs rest w c (errs ++ e)

/-- Go: `func (w *compareWalker) visitMapItems(t *schema.Map, lhs, rhs value.Map)`. -/
def compareWalker.visitMapItems (cmp : CompareFn) (t : MapType)
    (lhs rhs : Option ValueMap) (w : compareWalker) (c : Comparison) : WalkResult :=
  let first :=
    match lhs with
    | some l => compareWalker.visitLHSFields cmp t rhs l w c []
    | none => some (w, c, [])
  match first with
  | none => none
  | some (w, c, errs) =>
    match rhs with
    | some r => compareWalker.visitRHSFields cmp t lhs r w c errs
    | none => some (w, c, errs)

/-- Go: `func (w *compareWalker) doMap(t *schema.Map) (errs ValidationErrors)`; the
errors of the two `derefMap` calls are dropped, as in the source. -/
def compareWalker.doMap (cmp : CompareFn) (t : MapType) (w : compareWalker)
    (c : Comparison) : WalkResult :=
  let lhs := (compareWalker.derefMap .lhs w.lhs none).2
  let rhs := (compareWalker.derefMap .rhs w.rhs none).2
  let emptyPromoteToLeaf := nilOrEmpty lhs && nilOrEmpty rhs
  if t.ElementRelationship = .atomic || emptyPromoteToLeaf then
    let (w, c) := w.doLeaf c
    some (w, c, [])
  else if lhs.isNone && rhs.isNone then
    some (w, c, [])
  else
    w.visitMapItems cmp t lhs rhs c

/-- Modelled from the spec: `handleAtom`, "dispatch on atom kind: `doScalar`, `doList`,
`doMap`, `doUntyped`".  The walker of `compare.go` has no `doUntyped`; an untyped atom
is "treated as opaque leaf", which is `doLeaf`. -/
def handleAtom (cmp : CompareFn) (a : Atom) (_tr : TypeRef) (w : compareWalker)
    (c : Comparison) : WalkResult :=
  match a with
  | .scalar t => some (w.doScalar t c)
  | .list t => w.doList cmp t c
  | .map t => w.doMap cmp t c
  | .untyped =>
    let (w, c) := w.doLeaf c
    some (w, c, [])

/-- Go: `func (w *compareWalker) compare() (errs ValidationErrors)`; the first argument
after the schema is the fuel, one unit for each level of descent. -/
def compareWalker.compare (s : Schema) : Nat → CompareFn
  | 0, _, _ => none
  | n + 1, w, c =>
    if w.lhs.isNone && w.rhs.isNone then
      some (w, c, [.noSides])
    else
      match s.Resolve w.typeRef with
      | none => some (w, c, [.noTypeFound w.typeRef.NamedType])
      | some a =>
        let alhs := deduceAtom a w.lhs
        let arhs := deduceAtom a w.rhs
        let handled : WalkResult :=
          if alhs = arhs then
            handleAtom (compareWalker.compare s n) arhs w.typeRef w c
          else
            match handleAtom (compareWalker.compare s n) alhs w.typeRef w c with
            | none => none
            | some (w, c, errs) =>
              match handleAtom (compareWalker.compare s n) arhs w.typeRef w c with
              | none => none
              | some (w, c, errs2) => some (w, c, errs ++ errs2)
        match handled with
        | none => none
        | some (w, c, errs) =>
          if !w.inLeaf then
            if w.lhs.isNone then
              some (w, { c with Added := c.Added.Insert w.path }, errs)
            else if w.rhs.isNone then
              some (w, { c with Removed := c.Removed.Insert w.path }, errs)
            else some (w, c, errs)
          else some (w, c, errs)

/-- The depth of an optional side: an absent side has none. -/
def sideDepth : Option Value → Nat
  | none => 0
  | some v => v.depth

/-- Fuel that is enough for the walk of a frame: one more than the depth of its
deeper side. -/
def compareWalker.fuel (w : compareWalker) : Nat := max (sideDepth w.lhs) (sideDepth w.rhs) + 1

/-- The frame a walk starts from: both sides present, the empty path, not in a leaf. -/
def compareWalker.root (tr : TypeRef) (lhs rhs : Value) : compareWalker :=
  { lhs := some lhs, rhs := some rhs, typeRef := tr, inLeaf := false, path := [] }

/-- Modelled from the spec: `TypedValue.Compare`, "`Compare(a, b) -> Comparison | Error`
where `a, b` are TypedValues sharing a schema and type": the walk of the root frame
from the empty comparison; hands back the comparison and the errors. -/
def Compare (s : Schema) (tr : TypeRef) (lhs rhs : Value) :
    Option (Comparison × ValidationErrors) :=
  match compareWalker.compare s (compareWalker.root tr lhs rhs).fuel
      (compareWalker.root tr lhs rhs) Comparison.empty with
  | none => none
  | some (_, c, errs) => some (c, errs)

/-! ## The walk as a sequence of steps

What a visitor does with its children is, step by step, either to append an error of
its own or to run `compare` on the frame of a child.  The definitions below list these
steps; `visitListItems_eq_runSteps` and `visitMapItems_eq_runSteps` show that the
visitors of the source do exactly that. -/

/-- The union of two sets of paths. -/
def PathSet.append (a b : PathSet) : PathSet := ⟨a.paths ++ b.paths⟩

/-- The union, set by set, of two comparisons. -/
def Comparison.append (c d : Comparison) : Comparison :=
  ⟨c.Added.append d.Added, c.Removed.append d.Removed, c.Modified.append d.Modified⟩

/-- A step of a visitor: an error of its own, or the descent into a child frame. -/
inductive Step where
  | error (e : ValidationError)
  | descend (w2 : compareWalker)

/-- Runs the steps in order, from the comparison `c` and the errors `errs`. -/
def runSteps (cmp : CompareFn) :
    List Step → Comparison → ValidationErrors → Option (Comparison × ValidationErrors)
  | [], c, errs => some (c, errs)
  | .error e :: rest, c, errs => runSteps cmp rest c (errs ++ [e])
  | .descend w2 :: rest, c, errs =>
    match cmp w2 c with
    | none => none
    | some (_, c, e) => runSteps cmp rest c (errs ++ e)

/-- The frame of a list element: the child frame of `w` for the path element `pe`,
with the given sides. -/
def compareWalker.itemFrame (w : compareWalker) (t : ListType) (pe : PathElement)
    (lhs rhs : Option Value) : compareWalker :=
  { w.prepareDescent pe t.ElementType with lhs := lhs, rhs := rhs }

/-- The steps of the second loop of `visitListItems`. -/
def compareWalker.lhsSteps (t : ListType) (observedRHS : PathElementValueMap)
    (w : compareWalker) : ValueList → Nat → PathElementSet → List Step
  | [], _, _ => []
  | child :: rest, i, observedLHS =>
    match listItemToPathElement t i child with
    | .error err =>
      .error (.element .lhs i err) ::
        compareWalker.lhsSteps t observedRHS w rest (i + 1) observedLHS
    | .ok pe =>
      if observedLHS.Has pe then
        .error (.duplicateEntries .lhs pe) ::
          compareWalker.lhsSteps t observedRHS w rest (i + 1) observedLHS
      else
        .descend (w.itemFrame t pe (some child) (observedRHS.Get pe)) ::
          compareWalker.lhsSteps t observedRHS w rest (i + 1) (observedLHS.Insert pe)

/-- The set `observedLHS` after the second loop of `visitListItems`. -/
def compareWalker.lhsObserved (t : ListType) : ValueList → Nat → PathElementSet → PathElementSet
  | [], _, observedLHS => observedLHS
  | child :: rest, i, observedLHS =>
    match listItemToPathElement t i child with
    | .error _ => compareWalker.lhsObserved t rest (i + 1) observedLHS
    | .ok pe =>
      if observedLHS.Has pe then compareWalker.lhsObserved t rest (i + 1) observedLHS
      else compareWalker.lhsObserved t rest (i + 1) (observedLHS.Insert pe)

/-- The steps of the third loop of `visitListItems`. -/
def compareWalker.rhsOnlySteps (t : ListType) (observedRHS : PathElementValueMap)
    (observedLHS : PathElementSet) (w : compareWalker) : List PathElement → List Step
  | [] => []
  | pe :: rest =>
    if observedLHS.Has pe then
      compareWalker.rhsOnlySteps t observedRHS observedLHS w rest
    else
      .descend (w.itemFrame t pe none (observedRHS.Get pe)) ::
        compareWalker.rhsOnlySteps t observedRHS observedLHS w rest

/-- What the first loop of `visitListItems` collects from the RHS (nothing from a nil
list). -/
def compareWalker.collected (t : ListType) (rhs : Option ValueList) :
    ValidationErrors × PathElementValueMap × List PathElement :=
  match rhs with
  | some rhs => compareWalker.collectRHS t rhs 0 [] ⟨[]⟩ []
  | none => ([], ⟨[]⟩, [])

/-- The elements of a list that may be nil. -/
def itemsOf {α : Type} : Option (List α) → List α
  | none => []
  | some l => l

/-- The steps of `visitListItems` after the collection of the RHS. -/
def compareWalker.listSteps (t : ListType) (lhs rhs : Option ValueList) (w : compareWalker) :
    List Step :=
  compareWalker.lhsSteps t (compareWalker.collected t rhs).2.1 w (itemsOf lhs) 0 ⟨[]⟩ ++
    compareWalker.rhsOnlySteps t (compareWalker.collected t rhs).2.1
      (compareWalker.lhsObserved t (itemsOf lhs) 0 ⟨[]⟩) w (compareWalker.collected t rhs).2.2

/-- The type under which `visitMapItem` compares the field `key`. -/
def MapType.fieldType (t : MapType) (key : String) : TypeRef :=
  match t.FindField key with
  | some sf => sf
  | none => t.ElementType

/-- The frame of a map field: the child frame of `w` for the field `key`, with the
given sides. -/
def compareWalker.fieldFrame (w : compareWalker) (t : MapType) (key : String)
    (lhs rhs : Option Value) : compareWalker :=
  { w.prepareDescent (.fieldName key) (t.fieldType key) with lhs := lhs, rhs := rhs }

/-- The value a map that may be nil has for a key. -/
def getOf (m : Option ValueMap) (key : String) : Option Value :=
  match m with
  | some m => ValueMap.Get m key
  | none => none

/-- The steps of the first loop of `visitMapItems`. -/
def compareWalker.lhsFieldSteps (t : MapType) (rhs : Option ValueMap) (w : compareWalker) :
    ValueMap → List Step
  | [] => []
  | (key, val) :: rest =>
    .descend (w.fieldFrame t key (some val) (getOf rhs key)) ::
      compareWalker.lhsFieldSteps t rhs w rest

/-- The steps of the second loop of `visitMapItems`. -/
def compareWalker.rhsFieldSteps (t : MapType) (lhs : Option ValueMap) (w : compareWalker) :
    ValueMap → List Step
  | [] => []
  | (key, val) :: rest =>
    if (getOf lhs key).isSome then compareWalker.rhsFieldSteps t lhs w rest
    else
      .descend (w.fieldFrame t key none (some val)) ::
        compareWalker.rhsFieldSteps t lhs w rest

/-- The steps of `visitMapItems`. -/
def compareWalker.mapSteps (t : MapType) (lhs rhs : Option ValueMap) (w : compareWalker) :
    List Step :=
  compareWalker.lhsFieldSteps t rhs w (itemsOf lhs) ++
    compareWalker.rhsFieldSteps t lhs w (itemsOf rhs)

/-- A `compare` that hands its frame back with the path it came with. -/
def KeepsPath (cmp : CompareFn) : Prop :=
  ∀ w c r, cmp w c = some r → r.1.path = w.path

/-- What a handler may have done to its frame: nothing, or set `inLeaf`. -/
def compareWalker.sameButLeaf (w w2 : compareWalker) : Prop :=
  w2 = w ∨ w2 = { w with inLeaf := true }

/-- What both branches of `compare` do with the atoms deduced for the two sides. -/
def compareWalker.handleBoth (cmp : CompareFn) (alhs arhs : Atom) (w : compareWalker)
    (c : Comparison) : WalkResult :=
  if alhs = arhs then handleAtom cmp arhs w.typeRef w c
  else
    match handleAtom cmp alhs w.typeRef w c with
    | none => none
    | some (w1, c1, errs) =>
      match handleAtom cmp arhs w1.typeRef w1 c1 with
      | none => none
      | some (w2, c2, errs2) => some (w2, c2, errs ++ errs2)

/-- The last step of `compare`: a frame that is no leaf and has one side only is
recorded itself. -/
def compareWalker.recordRoot (r : compareWalker × Comparison × ValidationErrors) :
    compareWalker × Comparison × ValidationErrors :=
  if !r.1.inLeaf then
    if r.1.lhs.isNone then (r.1, { r.2.1 with Added := r.2.1.Added.Insert r.1.path }, r.2.2)
    else if r.1.rhs.isNone then
      (r.1, { r.2.1 with Removed := r.2.1.Removed.Insert r.1.path }, r.2.2)
    else r
  else r

/-- A result seen from the comparison `c` instead of the empty one. -/
def liftFrame (c : Comparison) (r : compareWalker × Comparison × ValidationErrors) :
    compareWalker × Comparison × ValidationErrors :=
  (r.1, c.append r.2.1, r.2.2)

/-- A `compare` that only adds to the comparison it is given: its result from `c` is
its result from the empty comparison, appended to `c`. -/
def Frames (cmp : CompareFn) : Prop :=
  ∀ w c, cmp w c = Option.map (liftFrame c) (cmp w Comparison.empty)

/-- The elements of a list for which `listItemToPathElement` gives a path element, each
with that path element, in order; `i` is the index of the first element. -/
def okItems (t : ListType) : ValueList → Nat → List (PathElement × Value)
  | [], _ => []
  | child :: rest, i =>
    match listItemToPathElement t i child with
    | .error _ => okItems t rest (i + 1)
    | .ok pe => (pe, child) :: okItems t rest (i + 1)

/-- One `compare` gives every result the other gives. -/
def CompareLe (cmp cmp2 : CompareFn) : Prop :=
  ∀ w c r, cmp w c = some r → cmp2 w c = some r

/-- The three sets of a comparison. -/
inductive DiffKind where
  | added
  | removed
  | modified
  deriving DecidableEq

/-- The set of a comparison of the given kind. -/
def Comparison.get (c : Comparison) : DiffKind → PathSet
  | .added => c.Added
  | .removed => c.Removed
  | .modified => c.Modified

/-- The frame of the witnesses: a string scalar at the path `.name`, with the given sides. -/
def exLeaf (lhs rhs : Option Value) : compareWalker :=
  { lhs := lhs, rhs := rhs, typeRef := .inlined (.scalar .string), inLeaf := false,
    path := [.fieldName "name"] }

/-- The frame of the witness of C8: an atomic list of strings at the path `.tags`. -/
def exAtomic : compareWalker :=
  { lhs := some (.list [.string "a", .string "b"]), rhs := some (.list [.string "a"]),
    typeRef := .inlined (.list (.mk (.inlined (.scalar .string)) .atomic [])),
    inLeaf := false, path := [.fieldName "tags"] }

/-- The map without the field `key`. -/
def ValueMap.erase (m : ValueMap) (key : String) : ValueMap :=
  m.filter (fun f => !(f.1 == key))

/-- The map that may be nil, without the field `key`. -/
def eraseOf (m : Option ValueMap) (key : String) : Option ValueMap :=
  match m with
  | some m => some (ValueMap.erase m key)
  | none => none

/-- The comparison after the steps, whatever the errors. -/
def runCmp (cmp : CompareFn) (steps : List Step) (c : Comparison) : Option Comparison :=
  Option.map Prod.fst (runSteps cmp steps c [])

/-- The map type of the witness of C10: the field `a` is numeric, the field `b` has the
named type `missing`, which no schema here declares. -/
def exMapType : MapType :=
  .mk (.cons "a" (.inlined (.scalar .numeric)) (.cons "b" (.namedType "missing") .nil))
    .none .separable []

/-- The parent frame of the witness of C10. -/
def exParent : compareWalker :=
  { lhs := some (.map [("a", .int 1), ("b", .int 2)]),
    rhs := some (.map [("a", .int 2), ("b", .int 3)]),
    typeRef := .inlined (.map exMapType), inLeaf := false, path := [] }

/-- The value `v` is no leaf under the type `tr`: the type resolves to a list type or to
a map type that is not atomic, and `v` is a non-empty list, respectively map. -/
def NonLeafAt (s : Schema) (tr : TypeRef) (v : Value) : Prop :=
  (∃ t x xs, s.Resolve tr = some (.list t) ∧ t.ElementRelationship ≠ .atomic ∧
    v = .list (x :: xs)) ∨
  (∃ t f fs, s.Resolve tr = some (.map t) ∧ t.ElementRelationship ≠ .atomic ∧
    v = .map (f :: fs))

/-- The frame of the witness of C6: the map `{a: 1}` at the path `.m`, on the right
side only. -/
def exAbsent : compareWalker :=
  { lhs := none, rhs := some (.map [("a", .int 1)]),
    typeRef := .inlined (.map (.mk (.cons "a" (.inlined (.scalar .numeric)) .nil) .none
      .separable [])),
    inLeaf := false, path := [.fieldName "m"] }

/-- The schema of the counterexample to C7: `outer` is a map with a field `x` and a
field `m` of the map type `inner`, which has a numeric field `a`. -/
def exNested : Schema :=
  ⟨[⟨"inner", .map (.mk (.cons "a" (.inlined (.scalar .numeric)) .nil) .none .separable [])⟩,
    ⟨"outer", .map (.mk (.cons "x" (.inlined (.scalar .numeric))
      (.cons "m" (.namedType "inner") .nil)) .none .separable [])⟩]⟩

/-- The list type of `TestExample`: an associative list of strings, without keys. -/
def exSetType : ListType := .mk (.inlined (.scalar .string)) .associative []

/-- The entry `(q, child)` is in the list, and no entry before it has a path element
equal to `q`: it is the first occurrence of its path element. -/
def IsFirst : List (PathElement × Value) → PathElement → Value → Prop
  | [], _, _ => False
  | e :: rest, q, child => e = (q, child) ∨ (e.1.Equals q = false ∧ IsFirst rest q child)

/-- No path element repeats among the elements of the list `l` of type `t`. -/
def NoRepeat (t : ListType) (l : ValueList) : Prop :=
  (okItems t l 0).Pairwise (fun a b => a.1.Equals b.1 = false)

/-- A keyed associative list type. -/
def ListType.isKeyed (t : ListType) : Prop :=
  t.ElementRelationship = .associative ∧ t.Keys.length > 0

/-- The path element of an element of a keyed associative list, with the element. -/
def keyedItem (t : ListType) (child : Value) : Option (PathElement × Value) :=
  match keyedAssociativeListItemToPathElement t child with
  | .error _ => none
  | .ok pe => some (pe, child)

/-- The list type of the witness of C4: maps keyed by the field `k`. -/
def exKeyedType : ListType :=
  .mk (.inlined (.map (.mk (.cons "k" (.inlined (.scalar .string)) .nil) .none .separable [])))
    .associative ["k"]

/-- The frame of the witness of C4: `[{k: a}, {k: b}]` on the left, `[{k: b}, {k: a}]` on
the right. -/
def exKeyedFrame : compareWalker :=
  { lhs := some (.list [.map [("k", .string "a")], .map [("k", .string "b")]]),
    rhs := some (.list [.map [("k", .string "b")], .map [("k", .string "a")]]),
    typeRef := .inlined (.list exKeyedType), inLeaf := false, path := [] }

/-- The frame is handled as a leaf under the atom `a`: the atom is a scalar or untyped,
or an atomic list or map, or both sides are nil or empty. -/
def compareWalker.atomIsLeaf (a : Atom) (w : compareWalker) : Bool :=
  match a with
  | .list t =>
    t.ElementRelationship = .atomic ||
      (nilOrEmpty (compareWalker.derefList .lhs w.lhs none).2 &&
        nilOrEmpty (compareWalker.derefList .rhs w.rhs none).2)
  | .map t =>
    t.ElementRelationship = .atomic ||
      (nilOrEmpty (compareWalker.derefMap .lhs w.lhs none).2 &&
        nilOrEmpty (compareWalker.derefMap .rhs w.rhs none).2)
  | _ => true

/-- The steps of the visitor of the frame under the atom `a`; a leaf has none. -/
def compareWalker.atomSteps (a : Atom) (w : compareWalker) : List Step :=
  if w.atomIsLeaf a then []
  else
    match a with
    | .list t =>
      w.listSteps t (compareWalker.derefList .lhs w.lhs none).2
        (compareWalker.derefList .rhs w.rhs none).2
    | .map t =>
      w.mapSteps t (compareWalker.derefMap .lhs w.lhs none).2
        (compareWalker.derefMap .rhs w.rhs none).2
    | _ => []

/-- The errors the visitor of the frame starts with, under the atom `a`. -/
def compareWalker.atomErrors (a : Atom) (w : compareWalker) : ValidationErrors :=
  match a with
  | .list t => (compareWalker.collected t (compareWalker.derefList .rhs w.rhs none).2).1
  | _ => []

/-- The child frames of a frame: the steps of its visitor, if it has a type and is no
leaf. -/
def compareWalker.nodeSteps (s : Schema) (w : compareWalker) : List Step :=
  match s.Resolve w.typeRef with
  | some a => w.atomSteps a
  | none => []

/-- Whether the frame is handled as a leaf; its type resolves. -/
def compareWalker.nodeIsLeaf (s : Schema) (w : compareWalker) : Bool :=
  match s.Resolve w.typeRef with
  | some a => w.atomIsLeaf a
  | none => true

/-- Whether a frame with the given sides that records its own path records it in the
set `k`: in `Added` without `lhs`, in `Removed` with `lhs` and without `rhs`, and
in `Modified`, which only a leaf does, with two sides that are not equal. -/
def sidesRecord (lhs rhs : Option Value) (leaf : Bool) : DiffKind → Bool
  | .added => lhs.isNone
  | .removed => lhs.isSome && rhs.isNone
  | .modified =>
    match lhs, rhs with
    | some l, some r => leaf && !(Value.Equals r l)
    | _, _ => false

/-- Whether the walk of the frame inserts the path of the frame itself into the set
`k`. -/
def compareWalker.ownInsert (s : Schema) (w : compareWalker) (k : DiffKind) : Bool :=
  if w.lhs.isNone && w.rhs.isNone then false
  else
    match s.Resolve w.typeRef with
    | none => false
    | some _ =>
      if w.nodeIsLeaf s then sidesRecord w.lhs w.rhs true k
      else !w.inLeaf && sidesRecord w.lhs w.rhs false k

/-- The other set: `Added` for `Removed` and the reverse, `Modified` for itself. -/
def DiffKind.swap : DiffKind → DiffKind
  | .added => .removed
  | .removed => .added
  | .modified => .modified

/-- The number of repeated occurrences among path elements: those that equal a path
element before them, in the list or among the `earlier` ones. -/
def repeatedOccurrences (earlier : List PathElement) : List PathElement → Nat
  | [] => 0
  | pe :: rest =>
    (if earlier.any (fun q => q.Equals pe) then 1 else 0) +
      repeatedOccurrences (earlier ++ [pe]) rest

/-- The error is a "duplicate entries" error about the given side. -/
def isDuplicateError (side : Side) : ValidationError → Bool
  | .duplicateEntries sd _ => sd == side
  | _ => false

/-- How many of the entries have a path element equal to `pe`. -/
def occurrences (items : List (PathElement × Value)) (pe : PathElement) : Nat :=
  items.countP (fun e => e.1.Equals pe)

/-- The path element `pe` is repeated on a side: it occurs more than once among the
elements of `lhs` or among those of `rhs`. -/
def isRepeated (t : ListType) (lhs rhs : ValueList) (pe : PathElement) : Bool :=
  decide (2 ≤ occurrences (okItems t lhs 0) pe) || decide (2 ≤ occurrences (okItems t rhs 0) pe)

/-- The list `l` without the elements whose path element is repeated on a side. -/
def dropRepeated (t : ListType) (lhs rhs : ValueList) (l : ValueList) : ValueList :=
  l.filter (fun x =>
    match listItemToPathElement t 0 x with
    | .ok pe => !(isRepeated t lhs rhs pe)
    | .error _ => true)

/-- The errors of the steps themselves. -/
def stepErrors : List Step → ValidationErrors
  | [] => []
  | .error e :: rest => e :: stepErrors rest
  | .descend _ :: rest => stepErrors rest

/-- An associative list type, with keys or without (a set). -/
def ListType.isAssociative (t : ListType) : Prop :=
  t.ElementRelationship = .associative ∨ t.ElementRelationship = .set

/-- The frame of the witness of C9: the set list `[a, a, b]` on the left, where `a` is
repeated, and `[b, c]` on the right. -/
def exDupFrame : compareWalker :=
  { lhs := some (.list [.string "a", .string "a", .string "b"]),
    rhs := some (.list [.string "b", .string "c"]),
    typeRef := .inlined (.list exSetType), inLeaf := false, path := [.fieldName "list"] }

/-- The sides of the frame are well formed. -/
def SidesWF (w : compareWalker) : Prop :=
  (∀ v, w.lhs = some v → v.WF = true) ∧ (∀ v, w.rhs = some v → v.WF = true)

/-- The optional `elementType` a map type declares. -/
def MapType.declaredElementType : MapType → OptionalTypeRef
  | .mk _ e _ _ => e

/-- The frame of the witness of C18: an explicit null against the empty list, under a
set list type, at the path `.list`. -/
def exNullEmpty : compareWalker :=
  { lhs := some .null, rhs := some (.list []), typeRef := .inlined (.list exSetType),
    inLeaf := false, path := [.fieldName "list"] }

/-- The frame of the witness of C19: a list against a string under the untyped atom. -/
def exMixed : compareWalker :=
  { lhs := some (.list [.int 1]), rhs := some (.string "x"), typeRef := .inlined .untyped,
    inLeaf := false, path := [.fieldName "z"] }

/-- Three-way comparison of two strings by their characters (`strings.Compare`). -/
def compareChars : List Char → List Char → Ordering
  | [], [] => .eq
  | [], _ :: _ => .lt
  | _ :: _, [] => .gt
  | a :: as, b :: bs =>
    if a.toNat < b.toNat then .lt
    else if b.toNat < a.toNat then .gt
    else compareChars as bs

/-- Three-way comparison of two strings. -/
def compareStrings (a b : String) : Ordering := compareChars a.data b.data

/-- Three-way comparison of two numbers, "within numeric, compare numerically". -/
def compareRat (a b : Rat) : Ordering :=
  if a < b then .lt else if b < a then .gt else .eq

/-- Three-way comparison of two floats by `<`: neither before the other when neither is
less, as with a NaN. -/
def compareF64 (a b : F64) : Ordering :=
  if a.lt b then .lt else if b.lt a then .gt else .eq

/-- Three-way comparison of two booleans, `false` before `true`. -/
def compareBool : Bool → Bool → Ordering
  | false, true => .lt
  | true, false => .gt
  | _, _ => .eq

/-- The kinds of values that the "total ordering of values" ranks, "variant rank" over
null, bool, int/float, string, list and map: ints and floats are one kind. -/
inductive ValueKind where
  | null
  | bool
  | numeric
  | string
  | list
  | map
  deriving DecidableEq, Repr

/-- The kind of a value. -/
def Value.kind : Value → ValueKind
  | .null => .null
  | .bool _ => .bool
  | .int _ => .numeric
  | .float _ => .numeric
  | .string _ => .string
  | .list _ => .list
  | .map _ => .map

/-- Modelled from the spec: the rank of the kinds as section 4.3 gives it, "variant rank
`null < bool < int/float < string < list < map`". -/
def specRank : ValueKind → Nat
  | .null => 0
  | .bool => 1
  | .numeric => 2
  | .string => 3
  | .list => 4
  | .map => 5

/-- The rank of the kinds in the order of the rows of `TestValueLess`
(`value/less_test.go`): numerics, strings, bools, lists, maps, null. -/
def testRank : ValueKind → Nat
  | .numeric => 0
  | .string => 1
  | .bool => 2
  | .list => 3
  | .map => 4
  | .null => 5

/-- Lexicographic three-way comparison of two lists under `cmp`, "within list,
lexicographic"; a proper prefix comes first. -/
def compareList (cmp : Value → Value → Ordering) : List Value → List Value → Ordering
  | [], [] => .eq
  | [], _ :: _ => .lt
  | _ :: _, [] => .gt
  | x :: xs, y :: ys =>
    match cmp x y with
    | .eq => compareList cmp xs ys
    | o => o

/-- Lexicographic three-way comparison of two sequences of fields, each pair by key and
then by value, "sorted key-then-value lexicographic". -/
def compareFields (cmp : Value → Value → Ordering) :
    List (String × Value) → List (String × Value) → Ordering
  | [], [] => .eq
  | [], _ :: _ => .lt
  | _ :: _, [] => .gt
  | (k, v) :: xs, (k2, v2) :: ys =>
    match compareStrings k k2 with
    | .eq =>
      match cmp v v2 with
      | .eq => compareFields cmp xs ys
      | o => o
    | o => o

/-- Inserts a field into a sequence sorted by key. -/
def insertField (f : String × Value) : List (String × Value) → List (String × Value)
  | [] => [f]
  | g :: rest =>
    if compareStrings f.1 g.1 = .gt then g :: insertField f rest else f :: g :: rest

/-- The fields of a map sorted by key. -/
def sortFields : List (String × Value) → List (String × Value)
  | [] => []
  | f :: rest => insertField f (sortFields rest)

/-- Modelled from the spec: `value.Compare`, the three-way form of the "total ordering
of values", under a rank of the kinds and with fuel for the nesting.  Values of kinds of
different rank compare by the rank, "variant rank"; "within numeric, compare
numerically; within list, lexicographic; within map, sorted key-then-value
lexicographic".  The rank is a parameter: the spec gives one (`specRank`) and the rows
of `TestValueLess` assert another (`testRank`). -/
def Value.compareN (rank : ValueKind → Nat) : Nat → Value → Value → Ordering
  | 0, _, _ => .eq
  | n + 1, a, b =>
    if rank a.kind < rank b.kind then .lt
    else if rank b.kind < rank a.kind then .gt
    else
      match a, b with
      | .int x, .int y => compareRat x y
      | .int x, .float y => compareF64 (F64.ofInt x) y
      | .float x, .int y => compareF64 x (F64.ofInt y)
      | .float x, .float y => compareF64 x y
      | .string x, .string y => compareStrings x y
      | .bool x, .bool y => compareBool x y
      | .list xs, .list ys => compareList (Value.compareN rank n) xs ys
      | .map xs, .map ys =>
        compareFields (Value.compareN rank n) (sortFields xs) (sortFields ys)
      | _, _ => .eq

/-- Modelled from the spec: `value.Compare` under a rank of the kinds, with fuel enough
for both values (`compareN_fuel`). -/
def Value.CompareBy (rank : ValueKind → Nat) (a b : Value) : Ordering :=
  Value.compareN rank (max a.depth b.depth) a b

/-- Modelled from the spec: `value.Less` under a rank of the kinds, `a` comes strictly
before `b` in the ordering of values. -/
def LessBy (rank : ValueKind → Nat) (a b : Value) : Bool := Value.CompareBy rank a b == .lt

/-- The three-way comparison of values in the order of `TestValueLess`. -/
def Value.Compare (a b : Value) : Ordering := Value.CompareBy testRank a b

/-- The order `value.Less` of values, in the order of `TestValueLess`. -/
def Less (a b : Value) : Bool := LessBy testRank a b

/-- The key `a` comes strictly before the key `b`. -/
def keyLt (a b : String) : Prop := compareStrings a b = .lt

instance : DecidableRel keyLt := fun a b => by
  unfold keyLt
  infer_instance

/-- The number a numeric value denotes. -/
def Value.asNumber : Value → Option Rat
  | .int i => some i
  | .float (.num q) => some q
  | _ => none

/-- The rows of the table of `TestValueLess` (`value/less_test.go`): `a`, `b` and `eq`.
The test expects `a < b` and not `b < a`, unless `eq`, in which case it expects `Less`
to be false in both orders. -/
def lessTestTable : List (Value × Value × Bool) :=
  [ (.float (.num 1.14), .float (.num 3.14), false),
    (.float (.num 1), .float (.num 1), true),
    (.float (.num 1), .int 1, true),
    (.float (.num 1), .int 2, false),
    (.float (.num 1), .string "aoeu", false),
    (.float (.num 1), .bool true, false),
    (.float (.num 1), .list [], false),
    (.float (.num 1), .map [], false),
    (.float (.num 1), .null, false),
    (.int 1, .int 2, false),
    (.int 1, .int 1, true),
    (.int 1, .float (.num 1), true),
    (.int 1, .float (.num 2), false),
    (.int 1, .string "aoeu", false),
    (.int 1, .bool true, false),
    (.int 1, .list [], false),
    (.int 1, .map [], false),
    (.int 1, .null, false),
    (.string "b-12", .string "b-9", false),
    (.string "folate", .string "folate", true),
    (.string "folate", .bool true, false),
    (.string "folate", .list [], false),
    (.string "folate", .map [], false),
    (.string "folate", .null, false),
    (.bool false, .bool true, false),
    (.bool false, .bool false, true),
    (.bool true, .bool true, true),
    (.bool false, .list [], false),
    (.bool false, .map [], false),
    (.bool false, .null, false),
    (.list [], .list [], true),
    (.list [.int 1], .list [.int 1], true),
    (.list [.int 1], .list [.int 2], false),
    (.list [.int 1], .list [.int 1, .int 1], false),
    (.list [.int 1, .int 1], .list [.int 2], false),
    (.list [], .map [], false),
    (.list [], .null, false),
    (.map [("carotine", .int 1)], .map [("carotine", .int 1)], true),
    (.map [("carotine", .int 1)], .map [("carotine", .int 2)], false),
    (.map [("carotine", .int 1)], .map [("ethanol", .int 1)], false),
    (.map [("carotine", .int 1)], .map [("ethanol", .int 1), ("carotine", .int 2)], false),
    (.map [("carotine", .int 1)], .map [("carotine", .int 1), ("ethanol", .int 1)], false),
    (.map [("carotine", .int 1), ("ethanol", .int 1)], .map [("carotine", .int 2)], false),
    (.map [], .null, false) ]

/-- What `TestValueLess` checks on a row, of the order under a rank of the kinds. -/
def lessRowHolds (rank : ValueKind → Nat) (r : Value × Value × Bool) : Bool :=
  if r.2.2 then !(LessBy rank r.1 r.2.1) && !(LessBy rank r.2.1 r.1)
  else LessBy rank r.1 r.2.1 && !(LessBy rank r.2.1 r.1)

/-- Every row of the table of `TestValueLess` holds of the order under the rank. -/
def lessTableHolds (rank : ValueKind → Nat) : Bool := lessTestTable.all (lessRowHolds rank)

/-- The `Unions` of a map type. -/
def MapType.Unions : MapType → List UnionSpec
  | .mk _ _ _ u => u

/-- Modelled from the spec: the error of union normalisation, "multiple union members
set", with the members that are set. -/
inductive UnionError where
  | multipleMembers (fields : List String)
  deriving DecidableEq

/-- Sets the field `key` of a map: the value of the field is replaced where the field
is, and a field the map does not have is added at the end. -/
def ValueMap.set : ValueMap → String → Value → ValueMap
  | [], key, v => [(key, v)]
  | (k, x) :: rest, key, v =>
    if k = key then (k, v) :: rest else (k, x) :: ValueMap.set rest key v

/-- Clears the fields with the given names from a map. -/
def ValueMap.clear (m : ValueMap) (names : List String) : ValueMap :=
  m.filter (fun f => !(names.contains f.1))

/-- The names of the member fields of a union. -/
def UnionSpec.memberNames (u : UnionSpec) : List String := u.Fields.map (fun g => g.FieldName)

/-- Modelled from the spec: "`present = { fieldName | value[fieldName] is set }`", the
member fields of the union that the map has. -/
def UnionSpec.present (u : UnionSpec) (m : ValueMap) : List String :=
  u.memberNames.dedup.filter (fun f => (ValueMap.Get m f).isSome)

/-- The `discriminatorValue` of the member field `f` of a union. -/
def UnionSpec.discriminatorValueOf (u : UnionSpec) (f : String) : Option String :=
  match u.Fields.find? (fun g => g.FieldName == f) with
  | some g => some g.DiscriminatorValue
  | none => none

/-- The member fields of a union that do not match the discriminator value `dv`. -/
def UnionSpec.mismatched (u : UnionSpec) (dv : String) : List String :=
  u.memberNames.filter (fun f =>
    !(u.Fields.any (fun g => g.FieldName == f && g.DiscriminatorValue == dv)))

/-- Modelled from the spec: the normalisation of one union of a map type (section 4.5),
on the map value `given`, writing to `out`.  "If `|present| > 1` → error".  With
`deduceDiscriminator`: "if `|present| == 1`, set `discriminator` to the matching
`discriminatorValue` (overwrite any existing value); if `|present| == 0`, leave
discriminator as-is".  Else, with an explicit discriminator that is set: "clear the
inconsistent member(s) that do not match the discriminator ... keep the matching
member". -/
def UnionSpec.Normalize (u : UnionSpec) (given out : ValueMap) : Except UnionError ValueMap :=
  if 1 < (u.present given).length then .error (.multipleMembers (u.present given))
  else if u.DeduceDiscriminator then
    match u.present given, u.Discriminator with
    | [f], some d =>
      match u.discriminatorValueOf f with
      | some dv => .ok (ValueMap.set out d (.string dv))
      | none => .ok out
    | _, _ => .ok out
  else
    match u.Discriminator with
    | none => .ok out
    | some d =>
      match ValueMap.Get given d with
      | some (.string dv) => .ok (ValueMap.clear out (u.mismatched dv))
      | _ => .ok out

/-- Modelled from the spec: "given a map value whose type carries one or more
`UnionSpec`s, for each spec: ...", the unions of the type in order, each on the given
map value. -/
def applyUnions (given : ValueMap) : List UnionSpec → ValueMap → Except UnionError ValueMap
  | [], out => .ok out
  | u :: us, out =>
    match u.Normalize given out with
    | .error e => .error e
    | .ok out2 => applyUnions given us out2

mutual
/-- Modelled from the spec: the walk of `NormalizeUnions` over a value and its type; it
"runs bottom-up so nested unions are normalized from inside out": the fields of a map
and the elements of a list first, under their types, then the unions of the map type.
A value whose type does not resolve to a map or list type of its shape has no union
and stays as it is. -/
def normalizeValue (s : Schema) : TypeRef → Value → Except UnionError Value
  | tr, .map fields =>
    match s.Resolve tr with
    | some (.map t) =>
      match normalizeFields s t fields with
      | .error e => .error e
      | .ok fs =>
        match applyUnions fs t.Unions fs with
        | .error e => .error e
        | .ok m => .ok (.map m)
    | _ => .ok (.map fields)
  | tr, .list items =>
    match s.Resolve tr with
    | some (.list t) =>
      match normalizeList s t.ElementType items with
      | .error e => .error e
      | .ok xs => .ok (.list xs)
    | _ => .ok (.list items)
  | _, v => .ok v
/-- The elements of a list, normalised under the element type. -/
def normalizeList (s : Schema) : TypeRef → List Value → Except UnionError (List Value)
  | _, [] => .ok []
  | tr, x :: xs =>
    match normalizeValue s tr x with
    | .error e => .error e
    | .ok x2 =>
      match normalizeList s tr xs with
      | .error e => .error e
      | .ok xs2 => .ok (x2 :: xs2)
/-- The fields of a map, each normalised under its type (`MapType.fieldType`). -/
def normalizeFields (s : Schema) :
    MapType → List (String × Value) → Except UnionError (List (String × Value))
  | _, [] => .ok []
  | t, (k, v) :: rest =>
    match normalizeValue s (t.fieldType k) v with
    | .error e => .error e
    | .ok v2 =>
      match normalizeFields s t rest with
      | .error e => .error e
      | .ok rest2 => .ok ((k, v2) :: rest2)
end

/-- Modelled from the spec: `NormalizeUnions(v) -> v' | Error`, on a typed value. -/
def NormalizeUnions (s : Schema) (tr : TypeRef) (v : Value) : Except UnionError Value :=
  normalizeValue s tr v

/-- The first union of the type `union` of `unionParser` (`typed/union_test.go`): the
discriminator `discriminator` is deduced from the members `one`, `two` and `three`. -/
def exDeduced : UnionSpec :=
  { Discriminator := some "discriminator", DeduceDiscriminator := true,
    Fields := [⟨"one", "One"⟩, ⟨"two", "TWO"⟩, ⟨"three", "three"⟩] }

/-- The second union of the type `union` of `unionParser`: the discriminator `letter`,
not deduced, and the members `a` and `b`. -/
def exLetter : UnionSpec :=
  { Discriminator := some "letter", DeduceDiscriminator := false,
    Fields := [⟨"a", "A"⟩, ⟨"b", "b"⟩] }

/-- The map type `union` of `unionParser` (`typed/union_test.go`). -/
def exUnionType : MapType :=
  .mk
    (.cons "discriminator" (.inlined (.scalar .string))
      (.cons "one" (.inlined (.scalar .numeric))
        (.cons "two" (.inlined (.scalar .numeric))
          (.cons "three" (.inlined (.scalar .numeric))
            (.cons "letter" (.inlined (.scalar .string))
              (.cons "a" (.inlined (.scalar .numeric))
                (.cons "b" (.inlined (.scalar .numeric)) .nil)))))))
    .none .separable [exDeduced, exLetter]

/-- The schema of `unionParser`. -/
def exUnionSchema : Schema := ⟨[⟨"union", .map exUnionType⟩]⟩

/-- The member fields of all the unions of a list. -/
def membersOf (us : List UnionSpec) : List String := us.flatMap (fun u => u.memberNames)

/-- The field the union fills in: its discriminator, if it deduces it. -/
def UnionSpec.deduced (u : UnionSpec) : Option String :=
  if u.DeduceDiscriminator then u.Discriminator else none

/-- The unions of a map type are apart: the discriminator that a union deduces is not a
member field of a union of the map type and not the discriminator of another union of
it.  Unions without `deduceDiscriminator` are free to have the same discriminator, and
to have a discriminator that is a member field. -/
def unionsApart (us : List UnionSpec) : Bool :=
  us.all (fun u =>
    match u.deduced with
    | some d =>
      !((membersOf us).contains d) &&
        us.all (fun u2 => decide (u2 = u) || decide (u2.Discriminator ≠ some d))
    | none => true)

mutual
/-- The unions of every map type in the type are apart (`unionsApart`). -/
def TypeRef.unionsOK : TypeRef → Bool
  | .namedType _ => true
  | .inlined a => a.unionsOK
/-- The unions of every map type in the atom are apart. -/
def Atom.unionsOK : Atom → Bool
  | .scalar _ => true
  | .list t => t.unionsOK
  | .map t => t.unionsOK
  | .untyped => true
/-- The unions of every map type in the list type are apart. -/
def ListType.unionsOK : ListType → Bool
  | .mk e _ _ => e.unionsOK
/-- The unions of the map type and of every map type in it are apart. -/
def MapType.unionsOK : MapType → Bool
  | .mk f e _ u => unionsApart u && f.unionsOK && e.unionsOK
/-- The unions of every map type in the declared fields are apart. -/
def StructFields.unionsOK : StructFields → Bool
  | .nil => true
  | .cons _ t rest => t.unionsOK && rest.unionsOK
/-- The unions of every map type in the optional type are apart. -/
def OptionalTypeRef.unionsOK : OptionalTypeRef → Bool
  | .none => true
  | .some t => t.unionsOK
end

/-- The unions of every map type of the schema are apart. -/
def Schema.unionsOK (s : Schema) : Bool := s.Types.all (fun d => d.Atom.unionsOK)

/-- The map type of the counterexample to C14: the discriminator `d` that the second
union deduces is a member field of the first union. -/
def exOverlapType : MapType :=
  .mk
    (.cons "one" (.inlined (.scalar .numeric))
      (.cons "x" (.inlined (.scalar .numeric))
        (.cons "d" (.inlined (.scalar .string))
          (.cons "letter" (.inlined (.scalar .string)) .nil))))
    .none .separable
    [ { Discriminator := some "letter", DeduceDiscriminator := false,
        Fields := [⟨"d", "D"⟩, ⟨"x", "X"⟩] },
      { Discriminator := some "d", DeduceDiscriminator := true,
        Fields := [⟨"one", "One"⟩] } ]

/-- The map type of the counterexample to C13: the discriminator `d` that the first
union deduces is a member field of the second union, which comes after it and clears
it. -/
def exLateType : MapType :=
  .mk
    (.cons "one" (.inlined (.scalar .numeric))
      (.cons "x" (.inlined (.scalar .numeric))
        (.cons "d" (.inlined (.scalar .string))
          (.cons "letter" (.inlined (.scalar .string)) .nil))))
    .none .separable
    [ { Discriminator := some "d", DeduceDiscriminator := true,
        Fields := [⟨"one", "One"⟩] },
      { Discriminator := some "letter", DeduceDiscriminator := false,
        Fields := [⟨"d", "D"⟩, ⟨"x", "X"⟩] } ]

/-- A map type for the counterexample to C14: the discriminator `d` that the first union
deduces is also the discriminator, not deduced, of the second union. -/
def exSharedType : MapType :=
  .mk
    (.cons "one" (.inlined (.scalar .numeric))
      (.cons "a" (.inlined (.scalar .numeric))
        (.cons "b" (.inlined (.scalar .numeric))
          (.cons "d" (.inlined (.scalar .string)) .nil))))
    .none .separable
    [ { Discriminator := some "d", DeduceDiscriminator := true,
        Fields := [⟨"one", "One"⟩] },
      { Discriminator := some "d", DeduceDiscriminator := false,
        Fields := [⟨"a", "A"⟩, ⟨"b", "One"⟩] } ]

/-- A map type for the counterexample to C14: the first two unions deduce the same
discriminator `d`, and the member `x` of the second is a member of the third union,
which clears it. -/
def exTwinType : MapType :=
  .mk
    (.cons "one" (.inlined (.scalar .numeric))
      (.cons "x" (.inlined (.scalar .numeric))
        (.cons "y" (.inlined (.scalar .numeric))
          (.cons "letter" (.inlined (.scalar .string))
            (.cons "d" (.inlined (.scalar .string)) .nil)))))
    .none .separable
    [ { Discriminator := some "d", DeduceDiscriminator := true,
        Fields := [⟨"one", "One"⟩] },
      { Discriminator := some "d", DeduceDiscriminator := true,
        Fields := [⟨"x", "X"⟩] },
      { Discriminator := some "letter", DeduceDiscriminator := false,
        Fields := [⟨"x", "X"⟩, ⟨"y", "Y"⟩] } ]

/-- A map type for the counterexample to C14: the discriminator `d` that the first union
deduces is a member field of the second union, which deduces `e`. -/
def exChainType : MapType :=
  .mk
    (.cons "one" (.inlined (.scalar .numeric))
      (.cons "d" (.inlined (.scalar .string))
        (.cons "e" (.inlined (.scalar .string)) .nil)))
    .none .separable
    [ { Discriminator := some "d", DeduceDiscriminator := true,
        Fields := [⟨"one", "One"⟩] },
      { Discriminator := some "e", DeduceDiscriminator := true,
        Fields := [⟨"d", "D"⟩] } ]

/-- A map type whose unions are both without `deduceDiscriminator` and have the same
discriminator `kind`, which is also a member field of the second union. -/
def exExplicitType : MapType :=
  .mk
    (.cons "kind" (.inlined (.scalar .string))
      (.cons "a" (.inlined (.scalar .numeric))
        (.cons "b" (.inlined (.scalar .numeric))
          (.cons "c" (.inlined (.scalar .numeric)) .nil))))
    .none .separable
    [ { Discriminator := some "kind", DeduceDiscriminator := false,
        Fields := [⟨"a", "A"⟩, ⟨"b", "B"⟩] },
      { Discriminator := some "kind", DeduceDiscriminator := false,
        Fields := [⟨"c", "A"⟩, ⟨"kind", "K"⟩] } ]

/-- Modelled from the spec: the ownership map, "`Path → Set<OwnerId>`", in its canonical
form, "a sequence of `(ownerId, PathSet)` tuples". -/
abbrev Owners := List (String × PathSet)

/-- The owners of a path. -/
def Owners.ownersOf (o : Owners) (p : Path) : List String :=
  (o.filter (fun e => e.2.Has p)).map Prod.fst

/-- The set of paths without the path `p`. -/
def PathSet.remove (ps : PathSet) (p : Path) : PathSet :=
  ⟨ps.paths.filter (fun q => !(Path.Equals q p))⟩

/-- What the walk of `Apply` gives for a frame: the value of the node in the new live
(`none` when the node is removed), the conflicts, as pairs of a path and an owner of it,
the paths the applier owns from now on and the paths it gives up. -/
structure ApplyOut where
  value : Option Value
  conflicts : List (Path × String)
  owned : List Path
  released : List Path

/-- Modelled from the spec: the rule of `Apply` at a leaf, the frame pairing the live
value (`lhs`) with the value of the config (`rhs`).  "If `config` has the path: the path
is owned by `owner` in the output ownership.  If another owner currently owns this path
and its current live value differs from `config`: conflict"; the value is that of the
config.  "If `config` does not have the path but `live` does, and the path was owned by
`owner` alone: the path is removed"; otherwise "the live value is preserved". -/
def applyLeaf (owners : Owners) (owner : String) (w : compareWalker) : ApplyOut :=
  match w.rhs with
  | some c =>
    let differs :=
      match w.lhs with
      | some l => !(Value.Equals l c)
      | none => false
    { value := some c,
      conflicts :=
        if differs then
          ((owners.ownersOf w.path).filter (fun o => o != owner)).map (fun o => (w.path, o))
        else [],
      owned := [w.path],
      released := [] }
  | none =>
    if owners.ownersOf w.path = [owner] then
      { value := none, conflicts := [], owned := [], released := [w.path] }
    else { value := w.lhs, conflicts := [], owned := [], released := [] }

/-- The frames of the children of a frame, in the order of the walk: "live order first,
then config-only elements in config order". -/
def childFrames (s : Schema) (w : compareWalker) : List compareWalker :=
  (w.nodeSteps s).filterMap (fun st =>
    match st with
    | .descend f => some f
    | .error _ => none)

/-- Runs the walk on the frames of the children, in order. -/
def applyChildren (f : compareWalker → Option ApplyOut) :
    List compareWalker → Option (List (compareWalker × ApplyOut))
  | [] => some []
  | w :: rest =>
    match f w with
    | none => none
    | some r =>
      match applyChildren f rest with
      | none => none
      | some rs => some ((w, r) :: rs)

/-- The key of the field a frame is for: the field name its path ends with. -/
def fieldKey (w : compareWalker) : String :=
  match w.path.getLast? with
  | some (.fieldName k) => k
  | _ => ""

/-- The node of the new live, from what the walk gives for its children: the map of the
fields that are left, or the list of the elements that are left. -/
def assemble (s : Schema) (w : compareWalker) (rs : List (compareWalker × ApplyOut)) :
    ApplyOut :=
  { value :=
      match s.Resolve w.typeRef with
      | some (.map _) =>
        some (.map (rs.filterMap (fun r =>
          match r.2.value with
          | some v => some (fieldKey r.1, v)
          | none => none)))
      | _ => some (.list (rs.filterMap (fun r => r.2.value))),
    conflicts := rs.flatMap (fun r => r.2.conflicts),
    owned := rs.flatMap (fun r => r.2.owned),
    released := rs.flatMap (fun r => r.2.released) }

/-- Modelled from the spec: the walk of `Apply`, "walker pairs `(live, config)`", with
fuel: a leaf of the typed walk is settled by `applyLeaf`, another node from its
children. -/
def applyN (s : Schema) (owners : Owners) (owner : String) :
    Nat → compareWalker → Option ApplyOut
  | 0, _ => none
  | n + 1, w =>
    if w.nodeIsLeaf s then some (applyLeaf owners owner w)
    else
      match applyChildren (applyN s owners owner n) (childFrames s w) with
      | none => none
      | some rs => some (assemble s w rs)

/-- Modelled from the spec: the ownership after an `Apply`; the applier owns the paths
the config has and no longer the paths removed, and an owner in conflict with a forced
apply no longer owns the path of the conflict. -/
def Owners.update (owners : Owners) (owner : String) (r : ApplyOut) : Owners :=
  let others := (owners.filter (fun e => e.1 != owner)).map (fun e =>
    (e.1, r.conflicts.foldl (fun ps pc => if pc.2 == e.1 then ps.remove pc.1 else ps) e.2))
  let mine :=
    match owners.find? (fun e => e.1 == owner) with
    | some e => e.2
    | none => PathSet.empty
  let mine := r.released.foldl PathSet.remove mine
  let mine := r.owned.foldl (fun ps p => if ps.Has p then ps else ps.Insert p) mine
  others.filter (fun e => !e.2.paths.isEmpty) ++
    (if mine.paths.isEmpty then [] else [(owner, mine)])

/-- Modelled from the spec: what `Apply` returns, "`(newLive, newOwners)` or a conflict
error", the conflict error listing "`(path, currentOwner)` pairs". -/
inductive ApplyResult where
  | conflict (cs : List (Path × String))
  | ok (newLive : Value) (newOwners : Owners)

/-- Modelled from the spec: `Apply(live, config, owners, owner, force)`; "on conflict
without `force`, the operation fails with a conflict report listing all conflicting
paths and their current owners".  The validation of the two values against the type is
not part of the model. -/
def Apply (s : Schema) (tr : TypeRef) (live config : Value) (owners : Owners)
    (owner : String) (force : Bool) : Option ApplyResult :=
  match applyN s owners owner (compareWalker.root tr live config).fuel
      (compareWalker.root tr live config) with
  | none => none
  | some r =>
    if !force && !r.conflicts.isEmpty then some (.conflict r.conflicts)
    else some (.ok (r.value.getD .null) (owners.update owner r))

/-- The frame `f` is reached by the typed walk from the frame `w`. -/
inductive Reach (s : Schema) : compareWalker → compareWalker → Prop where
  | here (w : compareWalker) : Reach s w w
  | child (w f f2 : compareWalker) : Step.descend f ∈ w.nodeSteps s → Reach s f f2 →
      Reach s w f2

/-- The schema of `TestExample` (`merge/update_test.go`): the type `lists` with the field
`list`, an associative list of strings. -/
def exListsSchema : Schema :=
  ⟨[⟨"lists", .map (.mk (.cons "list" (.inlined (.list exSetType)) .nil) .none .separable [])⟩]⟩

/-- The direct sub-values of a value: the elements of a list, the field values of a
map; a scalar and null have none. -/
def Value.children : Value → List Value
  | .list xs => xs
  | .map fs => fs.map Prod.snd
  | _ => []

/-- A schema whose named type refers to itself: `node` is a map with a numeric field `v`
and a field `next` of the type `node`. -/
def exRecursive : Schema :=
  ⟨[⟨"node", .map (.mk (.cons "v" (.inlined (.scalar .numeric))
    (.cons "next" (.namedType "node") .nil)) .none .separable [])⟩]⟩

/-- The map type of the witness of C21: three numeric fields `a`, `b` and `c`. -/
def exAbcType : MapType :=
  .mk (.cons "a" (.inlined (.scalar .numeric)) (.cons "b" (.inlined (.scalar .numeric))
    (.cons "c" (.inlined (.scalar .numeric)) .nil))) .none .separable []

/-- The map type of the witness of C10: the fields `a` and `c` are numeric, the field
`b` has the named type `missing`, which no schema here declares. -/
def exMapTypeC : MapType :=
  .mk (.cons "a" (.inlined (.scalar .numeric)) (.cons "b" (.namedType "missing")
    (.cons "c" (.inlined (.scalar .numeric)) .nil))) .none .separable []

/-- The parent frame of the witness of C10; only the right side has the field `c`. -/
def exParentC : compareWalker :=
  { lhs := some (.map [("a", .int 1), ("b", .int 2)]),
    rhs := some (.map [("a", .int 2), ("b", .int 3), ("c", .int 5)]),
    typeRef := .inlined (.map exMapTypeC), inLeaf := false, path := [] }

/-! # Theorems -/

/-! ## Equality of scalars, path elements and paths is an equivalence -/

theorem f64eq_refl (a : F64) (h : a.isNaN = false) : a.eq a = true := by
  cases a <;> simp_all [F64.eq, F64.isNaN]

theorem f64eq_symm (a b : F64) : a.eq b = b.eq a := by
  cases a <;> cases b <;> simp [F64.eq, eq_comm]

theorem f64eq_trans {a b c : F64} (hab : a.eq b = true) (hbc : b.eq c = true) :
    a.eq c = true := by
  cases a <;> cases b <;> cases c <;> simp_all [F64.eq]

theorem f64eq_eq {a b : F64} (h : a.eq b = true) : a = b := by
  cases a <;> cases b <;> simp_all [F64.eq]

theorem scalarEquals_refl (a : ScalarValue) (h : a.NoNaN = true) : a.Equals a = true := by
  cases a <;> simp_all [ScalarValue.Equals, ScalarValue.NoNaN, f64eq_refl]

theorem scalarEquals_symm (a b : ScalarValue) : a.Equals b = b.Equals a := by
  cases a <;> cases b <;> simp [ScalarValue.Equals, eq_comm, f64eq_symm]

theorem scalarEquals_trans {a b c : ScalarValue} (hab : a.Equals b = true)
    (hbc : b.Equals c = true) : a.Equals c = true := by
  rcases a with _ | _ | (_ | _ | _) | _ <;> rcases b with _ | _ | (_ | _ | _) | _ <;>
    rcases c with _ | _ | (_ | _ | _) | _ <;>
    simp_all [ScalarValue.Equals, F64.eq, F64.ofInt]

theorem scalarEquals_self {a b : ScalarValue} (h : a.Equals b = true) :
    a.Equals a = true :=
  scalarEquals_trans h (by rw [scalarEquals_symm]; exact h)

theorem keyEquals_refl (a : List (String × ScalarValue))
    (h : ∀ f ∈ a, f.2.Equals f.2 = true) : PathElement.keyEquals a a = true := by
  induction a with
  | nil => rfl
  | cons f rest ih =>
    obtain ⟨n, v⟩ := f
    have h1 := h (n, v) (List.mem_cons_self _ _)
    have h2 := ih (fun g hg => h g (List.mem_cons_of_mem _ hg))
    simp only [PathElement.keyEquals, beq_self_eq_true, Bool.true_and, Bool.and_eq_true]
    exact ⟨h1, h2⟩

theorem keyEquals_symm (a b : List (String × ScalarValue)) :
    PathElement.keyEquals a b = PathElement.keyEquals b a := by
  induction a generalizing b with
  | nil => cases b <;> rfl
  | cons f rest ih =>
    obtain ⟨n, v⟩ := f
    cases b with
    | nil => rfl
    | cons g rest2 =>
      obtain ⟨m, u⟩ := g
      simp only [PathElement.keyEquals]
      rw [ih rest2, scalarEquals_symm v u]
      have hnm : (n == m) = (m == n) := by
        by_cases h : n = m
        · subst h
          rfl
        · have h2 : ¬ m = n := fun e => h e.symm
          simp [h, h2]
      rw [hnm]

theorem keyEquals_trans {a b c : List (String × ScalarValue)}
    (hab : PathElement.keyEquals a b = true) (hbc : PathElement.keyEquals b c = true) :
    PathElement.keyEquals a c = true := by
  induction a generalizing b c with
  | nil =>
    cases b with
    | nil => exact hbc
    | cons g rest2 => simp [PathElement.keyEquals] at hab
  | cons f rest ih =>
    obtain ⟨n, v⟩ := f
    cases b with
    | nil => simp [PathElement.keyEquals] at hab
    | cons g rest2 =>
      obtain ⟨m, u⟩ := g
      cases c with
      | nil => simp [PathElement.keyEquals] at hbc
      | cons h rest3 =>
        obtain ⟨k, x⟩ := h
        simp only [PathElement.keyEquals, Bool.and_eq_true, beq_iff_eq] at hab hbc ⊢
        exact ⟨⟨hab.1.1.trans hbc.1.1, scalarEquals_trans hab.1.2 hbc.1.2⟩,
          ih hab.2 hbc.2⟩

theorem peEquals_refl (a : PathElement) (h : a.NoNaN = true) : a.Equals a = true := by
  cases a with
  | fieldName n => simp [PathElement.Equals]
  | index i => simp [PathElement.Equals]
  | value v => exact scalarEquals_refl v h
  | key fields =>
    simp only [PathElement.NoNaN, List.all_eq_true] at h
    exact keyEquals_refl fields (fun f hf => scalarEquals_refl f.2 (h f hf))

theorem peEquals_symm (a b : PathElement) : a.Equals b = b.Equals a := by
  cases a <;> cases b <;> simp only [PathElement.Equals]
  · rename_i n m
    by_cases h : n = m
    · subst h
      rfl
    · have h2 : ¬ m = n := fun e => h e.symm
      simp [h, h2]
  · exact keyEquals_symm _ _
  · exact scalarEquals_symm _ _
  · rename_i n m
    by_cases h : n = m
    · subst h
      rfl
    · have h2 : ¬ m = n := fun e => h e.symm
      simp [h, h2]

theorem peEquals_trans {a b c : PathElement} (hab : a.Equals b = true)
    (hbc : b.Equals c = true) : a.Equals c = true := by
  cases a <;> cases b <;> cases c <;>
    simp only [PathElement.Equals, beq_iff_eq, Bool.false_eq_true] at hab hbc ⊢
  · exact hab.trans hbc
  · exact keyEquals_trans hab hbc
  · exact scalarEquals_trans hab hbc
  · exact hab.trans hbc

theorem pathEquals_refl (p : Path) (h : ∀ a ∈ p, a.Equals a = true) :
    Path.Equals p p = true := by
  induction p with
  | nil => rfl
  | cons a rest ih =>
    simp only [Path.Equals, Bool.and_eq_true]
    exact ⟨h a (List.mem_cons_self _ _), ih (fun b hb => h b (List.mem_cons_of_mem _ hb))⟩

theorem dropLast_append_singleton {α : Type} (l : List α) (a : α) :
    (l ++ [a]).dropLast = l := by
  simp

theorem finishDescent_eq (w w2 : compareWalker) (pe : PathElement)
    (h : w2.path = w.path ++ [pe]) : w.finishDescent w2 = w := by
  cases w
  simp [compareWalker.finishDescent, h]

theorem mergeLHS_eq_runSteps {cmp : CompareFn} (hk : KeepsPath cmp) (t : ListType)
    (observedRHS : PathElementValueMap) (lhs : ValueList) :
    ∀ (i : Nat) (w : compareWalker) (c : Comparison) (errs : ValidationErrors)
      (observedLHS : PathElementSet),
      compareWalker.mergeLHS cmp t observedRHS lhs i w c errs observedLHS =
        Option.map (fun r => (w, r.1, r.2, compareWalker.lhsObserved t lhs i observedLHS))
          (runSteps cmp (compareWalker.lhsSteps t observedRHS w lhs i observedLHS) c errs) := by
  induction lhs with
  | nil => intro i w c errs observedLHS; rfl
  | cons child rest ih =>
    intro i w c errs observedLHS
    simp only [compareWalker.mergeLHS, compareWalker.lhsSteps, compareWalker.lhsObserved]
    cases hpe : listItemToPathElement t i child with
    | error err => simp only [runSteps]; exact ih _ _ _ _ _
    | ok pe =>
      simp only
      by_cases hhas : observedLHS.Has pe = true
      · simp only [hhas, if_true, runSteps]; exact ih _ _ _ _ _
      · simp only [hhas, if_false, runSteps, Bool.false_eq_true]
        have hframe : (match observedRHS.Get pe with
            | some rchild =>
              { (w.prepareDescent pe t.ElementType) with lhs := some child, rhs := some rchild }
            | none => { (w.prepareDescent pe t.ElementType) with lhs := some child }) =
            w.itemFrame t pe (some child) (observedRHS.Get pe) := by
          cases observedRHS.Get pe <;> rfl
        rw [hframe]
        cases hc : cmp (w.itemFrame t pe (some child) (observedRHS.Get pe)) c with
        | none => rfl
        | some r =>
          obtain ⟨w2, c2, e⟩ := r
          have hp := hk _ _ _ hc
          simp only
          rw [finishDescent_eq w w2 pe hp]
          exact ih _ _ _ _ _

theorem visitRHSOnly_eq_runSteps {cmp : CompareFn} (hk : KeepsPath cmp) (t : ListType)
    (observedRHS : PathElementValueMap) (observedLHS : PathElementSet)
    (order : List PathElement) :
    ∀ (w : compareWalker) (c : Comparison) (errs : ValidationErrors),
      compareWalker.visitRHSOnly cmp t observedRHS observedLHS order w c errs =
        Option.map (fun r => (w, r.1, r.2))
          (runSteps cmp (compareWalker.rhsOnlySteps t observedRHS observedLHS w order) c errs) := by
  induction order with
  | nil => intro w c errs; rfl
  | cons pe rest ih =>
    intro w c errs
    simp only [compareWalker.visitRHSOnly, compareWalker.rhsOnlySteps]
    by_cases hhas : observedLHS.Has pe = true
    · simp only [hhas, if_true]; exact ih _ _ _
    · simp only [hhas, if_false, runSteps, Bool.false_eq_true]
      have hframe : ({ (w.prepareDescent pe t.ElementType) with rhs := observedRHS.Get pe } :
          compareWalker) = w.itemFrame t pe none (observedRHS.Get pe) := rfl
      rw [hframe]
      cases hc : cmp (w.itemFrame t pe none (observedRHS.Get pe)) c with
      | none => rfl
      | some r =>
        obtain ⟨w2, c2, e⟩ := r
        have hp := hk _ _ _ hc
        simp only
        rw [finishDescent_eq w w2 pe hp]
        exact ih _ _ _

theorem runSteps_append (cmp : CompareFn) (xs ys : List Step) :
    ∀ (c : Comparison) (errs : ValidationErrors),
      runSteps cmp (xs ++ ys) c errs =
        (runSteps cmp xs c errs).bind (fun r => runSteps cmp ys r.1 r.2) := by
  induction xs with
  | nil => intro c errs; rfl
  | cons x rest ih =>
    intro c errs
    cases x with
    | error e => simp only [List.cons_append, runSteps]; exact ih _ _
    | descend w2 =>
      simp only [List.cons_append, runSteps]
      cases cmp w2 c with
      | none => rfl
      | some r => exact ih _ _

theorem visitListItems_eq_runSteps {cmp : CompareFn} (hk : KeepsPath cmp) (t : ListType)
    (lhs rhs : Option ValueList) (w : compareWalker) (c : Comparison) :
    w.visitListItems cmp t lhs rhs c =
      Option.map (fun r => (w, r.1, r.2))
        (runSteps cmp (w.listSteps t lhs rhs) c (compareWalker.collected t rhs).1) := by
  have hcol : (match rhs with
      | some rhs => compareWalker.collectRHS t rhs 0 [] ⟨[]⟩ []
      | none => ([], ⟨[]⟩, [])) = compareWalker.collected t rhs := rfl
  unfold compareWalker.visitListItems
  rw [hcol]
  simp only [compareWalker.listSteps, runSteps_append]
  generalize compareWalker.collected t rhs = col
  obtain ⟨errs, observedRHS, order⟩ := col
  simp only
  cases lhs with
  | none =>
    simp only [itemsOf, compareWalker.lhsSteps, compareWalker.lhsObserved, runSteps,
      Option.some_bind]
    exact visitRHSOnly_eq_runSteps hk t _ _ _ _ _ _
  | some l =>
    simp only [itemsOf]
    rw [mergeLHS_eq_runSteps hk]
    cases runSteps cmp (compareWalker.lhsSteps t observedRHS w l 0 ⟨[]⟩) c errs with
    | none => rfl
    | some r =>
      simp only [Option.map_some', Option.some_bind]
      exact visitRHSOnly_eq_runSteps hk t _ _ _ _ _ _

theorem visitMapItem_eq {cmp : CompareFn} (hk : KeepsPath cmp) (t : MapType) (key : String)
    (lhs rhs : Option Value) (w : compareWalker) (c : Comparison) :
    w.visitMapItem cmp t key lhs rhs c =
      Option.map (fun r => (w, r.2.1, r.2.2)) (cmp (w.fieldFrame t key lhs rhs) c) := by
  have hframe : ({ (w.prepareDescent (.fieldName key)
      (match t.FindField key with
        | some sf => sf
        | none => t.ElementType)) with lhs := lhs, rhs := rhs } : compareWalker) =
      w.fieldFrame t key lhs rhs := rfl
  simp only [compareWalker.visitMapItem, hframe]
  cases hc : cmp (w.fieldFrame t key lhs rhs) c with
  | none => rfl
  | some r =>
    obtain ⟨w2, c2, e⟩ := r
    have hp := hk _ _ _ hc
    simp only [Option.map_some']
    rw [finishDescent_eq w w2 (.fieldName key) hp]

theorem getOf_eq (m : Option ValueMap) (key : String) :
    (match m with
      | some m => ValueMap.Get m key
      | none => none) = getOf m key := rfl

theorem getOf_isSome_eq (m : Option ValueMap) (key : String) :
    (match m with
      | some m => (ValueMap.Get m key).isSome
      | none => false) = (getOf m key).isSome := by
  cases m <;> rfl

theorem visitLHSFields_eq_runSteps {cmp : CompareFn} (hk : KeepsPath cmp) (t : MapType)
    (rhs : Option ValueMap) (lhs : ValueMap) :
    ∀ (w : compareWalker) (c : Comparison) (errs : ValidationErrors),
      compareWalker.visitLHSFields cmp t rhs lhs w c errs =
        Option.map (fun r => (w, r.1, r.2))
          (runSteps cmp (compareWalker.lhsFieldSteps t rhs w lhs) c errs) := by
  induction lhs with
  | nil => intro w c errs; rfl
  | cons f rest ih =>
    intro w c errs
    obtain ⟨key, val⟩ := f
    simp only [compareWalker.visitLHSFields, compareWalker.lhsFieldSteps, runSteps, getOf_eq]
    rw [visitMapItem_eq hk]
    cases cmp (w.fieldFrame t key (some val) (getOf rhs key)) c with
    | none => rfl
    | some r => exact ih _ _ _

theorem visitRHSFields_eq_runSteps {cmp : CompareFn} (hk : KeepsPath cmp) (t : MapType)
    (lhs : Option ValueMap) (rhs : ValueMap) :
    ∀ (w : compareWalker) (c : Comparison) (errs : ValidationErrors),
      compareWalker.visitRHSFields cmp t lhs rhs w c errs =
        Option.map (fun r => (w, r.1, r.2))
          (runSteps cmp (compareWalker.rhsFieldSteps t lhs w rhs) c errs) := by
  induction rhs with
  | nil => intro w c errs; rfl
  | cons f rest ih =>
    intro w c errs
    obtain ⟨key, val⟩ := f
    simp only [compareWalker.visitRHSFields, compareWalker.rhsFieldSteps, getOf_isSome_eq]
    by_cases hin : (getOf lhs key).isSome = true
    · simp only [hin, if_true]; exact ih _ _ _
    · simp only [hin, if_false, runSteps, Bool.false_eq_true]
      rw [visitMapItem_eq hk]
      cases cmp (w.fieldFrame t key none (some val)) c with
      | none => rfl
      | some r => exact ih _ _ _

theorem visitMapItems_eq_runSteps {cmp : CompareFn} (hk : KeepsPath cmp) (t : MapType)
    (lhs rhs : Option ValueMap) (w : compareWalker) (c : Comparison) :
    w.visitMapItems cmp t lhs rhs c =
      Option.map (fun r => (w, r.1, r.2)) (runSteps cmp (w.mapSteps t lhs rhs) c []) := by
  unfold compareWalker.visitMapItems
  simp only [compareWalker.mapSteps, runSteps_append]
  have hfirst : (match lhs with
      | some l => compareWalker.visitLHSFields cmp t rhs l w c []
      | none => some (w, c, [])) =
      Option.map (fun r => (w, r.1, r.2))
        (runSteps cmp (compareWalker.lhsFieldSteps t rhs w (itemsOf lhs)) c []) := by
    cases lhs with
    | none => rfl
    | some l => exact visitLHSFields_eq_runSteps hk t rhs l w c []
  rw [hfirst]
  cases runSteps cmp (compareWalker.lhsFieldSteps t rhs w (itemsOf lhs)) c [] with
  | none => rfl
  | some r =>
    simp only [Option.map_some', Option.some_bind]
    cases rhs with
    | none => rfl
    | some m => exact visitRHSFields_eq_runSteps hk t lhs m w r.1 r.2

/-! ## What a handler hands back -/

theorem doLeaf_fst (w : compareWalker) (c : Comparison) :
    (w.doLeaf c).1 = { w with inLeaf := true } := by
  unfold compareWalker.doLeaf
  simp only
  split
  · rfl
  · rfl
  · split <;> rfl

theorem sameButLeaf_trans {w w2 w3 : compareWalker} (h1 : w.sameButLeaf w2)
    (h2 : w2.sameButLeaf w3) : w.sameButLeaf w3 := by
  rcases h1 with h1 | h1 <;> rcases h2 with h2 | h2 <;> subst h1 <;> subst h2
  · exact Or.inl rfl
  · exact Or.inr rfl
  · exact Or.inr rfl
  · exact Or.inr rfl

theorem sameButLeaf_path {w w2 : compareWalker} (h : w.sameButLeaf w2) : w2.path = w.path := by
  rcases h with h | h <;> subst h <;> rfl

theorem sameButLeaf_lhs {w w2 : compareWalker} (h : w.sameButLeaf w2) : w2.lhs = w.lhs := by
  rcases h with h | h <;> subst h <;> rfl

theorem sameButLeaf_rhs {w w2 : compareWalker} (h : w.sameButLeaf w2) : w2.rhs = w.rhs := by
  rcases h with h | h <;> subst h <;> rfl

theorem sameButLeaf_typeRef {w w2 : compareWalker} (h : w.sameButLeaf w2) :
    w2.typeRef = w.typeRef := by
  rcases h with h | h <;> subst h <;> rfl

theorem doList_sameButLeaf {cmp : CompareFn} (hk : KeepsPath cmp) (t : ListType)
    (w : compareWalker) (c : Comparison) (r : compareWalker × Comparison × ValidationErrors)
    (h : w.doList cmp t c = some r) : w.sameButLeaf r.1 := by
  unfold compareWalker.doList at h
  simp only at h
  split at h
  · simp only [Option.some.injEq] at h
    subst h
    exact Or.inr (doLeaf_fst w c)
  · rw [visitListItems_eq_runSteps hk] at h
    simp only [Option.map_eq_some'] at h
    obtain ⟨a, _, ha⟩ := h
    subst ha
    exact Or.inl rfl

theorem doMap_sameButLeaf {cmp : CompareFn} (hk : KeepsPath cmp) (t : MapType)
    (w : compareWalker) (c : Comparison) (r : compareWalker × Comparison × ValidationErrors)
    (h : w.doMap cmp t c = some r) : w.sameButLeaf r.1 := by
  unfold compareWalker.doMap at h
  simp only at h
  split at h
  · simp only [Option.some.injEq] at h
    subst h
    exact Or.inr (doLeaf_fst w c)
  · split at h
    · simp only [Option.some.injEq] at h
      subst h
      exact Or.inl rfl
    · rw [visitMapItems_eq_runSteps hk] at h
      simp only [Option.map_eq_some'] at h
      obtain ⟨a, _, ha⟩ := h
      subst ha
      exact Or.inl rfl

theorem handleAtom_sameButLeaf {cmp : CompareFn} (hk : KeepsPath cmp) (a : Atom)
    (tr : TypeRef) (w : compareWalker) (c : Comparison)
    (r : compareWalker × Comparison × ValidationErrors)
    (h : handleAtom cmp a tr w c = some r) : w.sameButLeaf r.1 := by
  cases a with
  | scalar t =>
    simp only [handleAtom, compareWalker.doScalar, Option.some.injEq] at h
    subst h
    exact Or.inr (doLeaf_fst w c)
  | list t => exact doList_sameButLeaf hk t w c r h
  | map t => exact doMap_sameButLeaf hk t w c r h
  | untyped =>
    simp only [handleAtom, Option.some.injEq] at h
    subst h
    exact Or.inr (doLeaf_fst w c)

theorem compare_succ (s : Schema) (n : Nat) (w : compareWalker) (c : Comparison) :
    compareWalker.compare s (n + 1) w c =
      if w.lhs.isNone && w.rhs.isNone then some (w, c, [.noSides])
      else
        match s.Resolve w.typeRef with
        | none => some (w, c, [.noTypeFound w.typeRef.NamedType])
        | some a =>
          Option.map compareWalker.recordRoot
            (w.handleBoth (compareWalker.compare s n) (deduceAtom a w.lhs)
              (deduceAtom a w.rhs) c) := by
  rw [compareWalker.compare]
  split
  · rfl
  · split
    · rfl
    · rename_i a _
      simp only [compareWalker.handleBoth]
      by_cases hd : deduceAtom a w.lhs = deduceAtom a w.rhs
      · simp only [hd, if_true]
        cases handleAtom (compareWalker.compare s n) (deduceAtom a w.rhs) w.typeRef w c with
        | none => rfl
        | some r =>
          obtain ⟨w1, c1, e1⟩ := r
          simp only [Option.map_some', compareWalker.recordRoot]
          cases w1.inLeaf <;> cases w1.lhs <;> cases w1.rhs <;> rfl
      · simp only [hd, if_false]
        cases handleAtom (compareWalker.compare s n) (deduceAtom a w.lhs) w.typeRef w c with
        | none => rfl
        | some r =>
          obtain ⟨w1, c1, e1⟩ := r
          simp only
          cases handleAtom (compareWalker.compare s n) (deduceAtom a w.rhs) w1.typeRef w1 c1 with
          | none => rfl
          | some r2 =>
            obtain ⟨w2, c2, e2⟩ := r2
            simp only [Option.map_some', compareWalker.recordRoot]
            cases w2.inLeaf <;> cases w2.lhs <;> cases w2.rhs <;> rfl

theorem recordRoot_fst (r : compareWalker × Comparison × ValidationErrors) :
    (compareWalker.recordRoot r).1 = r.1 := by
  unfold compareWalker.recordRoot
  split
  · split
    · rfl
    · split <;> rfl
  · rfl

theorem handleBoth_sameButLeaf {cmp : CompareFn} (hk : KeepsPath cmp) (alhs arhs : Atom)
    (w : compareWalker) (c : Comparison) (r : compareWalker × Comparison × ValidationErrors)
    (h : w.handleBoth cmp alhs arhs c = some r) : w.sameButLeaf r.1 := by
  unfold compareWalker.handleBoth at h
  split at h
  · exact handleAtom_sameButLeaf hk _ _ _ _ _ h
  · cases h1 : handleAtom cmp alhs w.typeRef w c with
    | none => simp [h1] at h
    | some r1 =>
      obtain ⟨w1, c1, e1⟩ := r1
      simp only [h1] at h
      cases h2 : handleAtom cmp arhs w1.typeRef w1 c1 with
      | none => simp [h2] at h
      | some r2 =>
        obtain ⟨w2, c2, e2⟩ := r2
        simp only [h2, Option.some.injEq] at h
        subst h
        exact sameButLeaf_trans (handleAtom_sameButLeaf hk _ _ _ _ _ h1)
          (handleAtom_sameButLeaf hk arhs w1.typeRef w1 c1 (w2, c2, e2) h2)

theorem compare_sameButLeaf (s : Schema) :
    ∀ (n : Nat) (w : compareWalker) (c : Comparison)
      (r : compareWalker × Comparison × ValidationErrors),
      compareWalker.compare s n w c = some r → w.sameButLeaf r.1 := by
  intro n
  induction n with
  | zero => intro w c r h; simp [compareWalker.compare] at h
  | succ n ih =>
    intro w c r h
    have hk : KeepsPath (compareWalker.compare s n) :=
      fun w c r h => sameButLeaf_path (ih w c r h)
    rw [compare_succ] at h
    split at h
    · simp only [Option.some.injEq] at h
      subst h
      exact Or.inl rfl
    · split at h
      · simp only [Option.some.injEq] at h
        subst h
        exact Or.inl rfl
      · simp only [Option.map_eq_some'] at h
        obtain ⟨r1, h1, h2⟩ := h
        subst h2
        rw [recordRoot_fst]
        exact handleBoth_sameButLeaf hk _ _ _ _ _ h1

theorem compare_keepsPath (s : Schema) (n : Nat) : KeepsPath (compareWalker.compare s n) :=
  fun w c r h => sameButLeaf_path (compare_sameButLeaf s n w c r h)

/-! ## The walk only appends to the comparison -/

@[simp] theorem pathSet_append_empty (a : PathSet) : a.append PathSet.empty = a := by
  cases a
  simp [PathSet.append, PathSet.empty]

@[simp] theorem pathSet_empty_append (a : PathSet) : PathSet.empty.append a = a := by
  cases a
  simp [PathSet.append, PathSet.empty]

theorem pathSet_append_assoc (a b c : PathSet) :
    (a.append b).append c = a.append (b.append c) := by
  simp [PathSet.append]

theorem pathSet_append_Insert (a b : PathSet) (p : Path) :
    a.append (b.Insert p) = (a.append b).Insert p := by
  simp [PathSet.append, PathSet.Insert]

@[simp] theorem comparison_append_empty (c : Comparison) : c.append Comparison.empty = c := by
  cases c
  simp [Comparison.append, Comparison.empty]

@[simp] theorem comparison_empty_append (c : Comparison) : Comparison.empty.append c = c := by
  cases c
  simp [Comparison.append, Comparison.empty]

theorem comparison_append_assoc (a b c : Comparison) :
    (a.append b).append c = a.append (b.append c) := by
  simp [Comparison.append, pathSet_append_assoc]

theorem liftFrame_liftFrame (c d : Comparison)
    (r : compareWalker × Comparison × ValidationErrors) :
    liftFrame c (liftFrame d r) = liftFrame (c.append d) r := by
  simp [liftFrame, comparison_append_assoc]

theorem liftFrame_empty (r : compareWalker × Comparison × ValidationErrors) :
    liftFrame Comparison.empty r = r := by
  simp [liftFrame]

theorem runSteps_frames {cmp : CompareFn} (hf : Frames cmp) (steps : List Step) :
    ∀ (c : Comparison) (errs : ValidationErrors),
      runSteps cmp steps c errs =
        Option.map (fun r => (c.append r.1, errs ++ r.2))
          (runSteps cmp steps Comparison.empty []) := by
  induction steps with
  | nil => intro c errs; simp [runSteps]
  | cons x rest ih =>
    intro c errs
    cases x with
    | error e =>
      simp only [runSteps, List.nil_append]
      rw [ih c (errs ++ [e]), ih Comparison.empty [e]]
      cases runSteps cmp rest Comparison.empty [] with
      | none => rfl
      | some r => simp [List.append_assoc]
    | descend w2 =>
      simp only [runSteps, List.nil_append]
      rw [hf w2 c]
      cases cmp w2 Comparison.empty with
      | none => rfl
      | some r1 =>
        obtain ⟨w1, d, e⟩ := r1
        simp only [Option.map_some', liftFrame]
        rw [ih (c.append d) (errs ++ e), ih d e]
        cases runSteps cmp rest Comparison.empty [] with
        | none => rfl
        | some r => simp [List.append_assoc, comparison_append_assoc]

theorem doLeaf_frames (w : compareWalker) (c : Comparison) :
    w.doLeaf c = ((w.doLeaf Comparison.empty).1, c.append (w.doLeaf Comparison.empty).2) := by
  obtain ⟨ca, cr, cm⟩ := c
  unfold compareWalker.doLeaf
  simp only
  split
  · simp [Comparison.append, Comparison.empty, pathSet_append_Insert]
  · simp [Comparison.append, Comparison.empty, pathSet_append_Insert]
  · split <;> simp [Comparison.append, Comparison.empty, pathSet_append_Insert]

theorem doList_frames {cmp : CompareFn} (hk : KeepsPath cmp) (hf : Frames cmp) (t : ListType)
    (w : compareWalker) (c : Comparison) :
    w.doList cmp t c = Option.map (liftFrame c) (w.doList cmp t Comparison.empty) := by
  unfold compareWalker.doList
  simp only
  split
  · rw [doLeaf_frames w c]
    simp [liftFrame]
  · rw [visitListItems_eq_runSteps hk, visitListItems_eq_runSteps hk, runSteps_frames hf]
    generalize (compareWalker.collected t _).1 = errs
    rw [runSteps_frames hf _ Comparison.empty errs]
    cases runSteps cmp _ Comparison.empty [] with
    | none => rfl
    | some r => simp [liftFrame]

theorem doMap_frames {cmp : CompareFn} (hk : KeepsPath cmp) (hf : Frames cmp) (t : MapType)
    (w : compareWalker) (c : Comparison) :
    w.doMap cmp t c = Option.map (liftFrame c) (w.doMap cmp t Comparison.empty) := by
  unfold compareWalker.doMap
  simp only
  split
  · rw [doLeaf_frames w c]
    simp [liftFrame]
  · split
    · simp [liftFrame]
    · rw [visitMapItems_eq_runSteps hk, visitMapItems_eq_runSteps hk, runSteps_frames hf]
      cases runSteps cmp _ Comparison.empty [] with
      | none => rfl
      | some r => simp [liftFrame]

theorem handleAtom_frames {cmp : CompareFn} (hk : KeepsPath cmp) (hf : Frames cmp) (a : Atom)
    (tr : TypeRef) (w : compareWalker) (c : Comparison) :
    handleAtom cmp a tr w c = Option.map (liftFrame c) (handleAtom cmp a tr w Comparison.empty) := by
  cases a with
  | scalar t =>
    simp only [handleAtom, compareWalker.doScalar, Option.map_some']
    rw [doLeaf_frames w c]
    simp [liftFrame]
  | list t => exact doList_frames hk hf t w c
  | map t => exact doMap_frames hk hf t w c
  | untyped =>
    simp only [handleAtom, Option.map_some']
    rw [doLeaf_frames w c]
    simp [liftFrame]

theorem handleBoth_frames {cmp : CompareFn} (hk : KeepsPath cmp) (hf : Frames cmp)
    (alhs arhs : Atom) (w : compareWalker) (c : Comparison) :
    w.handleBoth cmp alhs arhs c =
      Option.map (liftFrame c) (w.handleBoth cmp alhs arhs Comparison.empty) := by
  unfold compareWalker.handleBoth
  split
  · exact handleAtom_frames hk hf _ _ _ _
  · rw [handleAtom_frames hk hf alhs w.typeRef w c]
    cases handleAtom cmp alhs w.typeRef w Comparison.empty with
    | none => rfl
    | some r1 =>
      obtain ⟨w1, c1, e1⟩ := r1
      simp only [Option.map_some', liftFrame]
      rw [handleAtom_frames hk hf arhs w1.typeRef w1 (c.append c1),
        handleAtom_frames hk hf arhs w1.typeRef w1 c1]
      cases handleAtom cmp arhs w1.typeRef w1 Comparison.empty with
      | none => rfl
      | some r2 => simp [liftFrame, comparison_append_assoc]

theorem recordRoot_liftFrame (c : Comparison)
    (r : compareWalker × Comparison × ValidationErrors) :
    compareWalker.recordRoot (liftFrame c r) = liftFrame c (compareWalker.recordRoot r) := by
  obtain ⟨w, d, e⟩ := r
  simp only [compareWalker.recordRoot, liftFrame]
  split
  · split
    · simp [Comparison.append, pathSet_append_Insert]
    · split
      · simp [Comparison.append, pathSet_append_Insert]
      · rfl
  · rfl

theorem compare_frames (s : Schema) : ∀ n : Nat, Frames (compareWalker.compare s n) := by
  intro n
  induction n with
  | zero => intro w c; rfl
  | succ n ih =>
    intro w c
    rw [compare_succ, compare_succ]
    split
    · simp [liftFrame]
    · split
      · simp [liftFrame]
      · rw [handleBoth_frames (compare_keepsPath s n) ih]
        cases w.handleBoth (compareWalker.compare s n) _ _ Comparison.empty with
        | none => rfl
        | some r => simp [recordRoot_liftFrame]

/-! ## What the first two loops of `visitListItems` observe -/

theorem collectRHS_snd (t : ListType) (rhs : ValueList) :
    ∀ (i : Nat) (errs : ValidationErrors) (m : PathElementValueMap) (order : List PathElement),
      (compareWalker.collectRHS t rhs i errs m order).2 =
        (⟨m.members ++ okItems t rhs i⟩, order ++ (okItems t rhs i).map Prod.fst) := by
  induction rhs with
  | nil => intro i errs m order; simp [compareWalker.collectRHS, okItems]
  | cons child rest ih =>
    intro i errs m order
    simp only [compareWalker.collectRHS, okItems]
    cases listItemToPathElement t i child with
    | error err => exact ih _ _ _ _
    | ok pe =>
      simp only
      rw [ih]
      simp [PathElementValueMap.Insert]

theorem collected_snd (t : ListType) (rhs : Option ValueList) :
    (compareWalker.collected t rhs).2 =
      (⟨okItems t (itemsOf rhs) 0⟩, (okItems t (itemsOf rhs) 0).map Prod.fst) := by
  cases rhs with
  | none => rfl
  | some l =>
    simp only [compareWalker.collected, itemsOf]
    rw [collectRHS_snd]
    simp

theorem okItems_mem (t : ListType) (l : ValueList) :
    ∀ (i : Nat) (q : PathElement) (v : Value), (q, v) ∈ okItems t l i → v ∈ l := by
  induction l with
  | nil => intro i q v h; simp [okItems] at h
  | cons child rest ih =>
    intro i q v h
    simp only [okItems] at h
    cases hpe : listItemToPathElement t i child with
    | error err =>
      rw [hpe] at h
      exact List.mem_cons_of_mem _ (ih _ _ _ h)
    | ok pe =>
      rw [hpe] at h
      simp only [List.mem_cons, Prod.mk.injEq] at h
      rcases h with h | h
      · rw [h.2]
        exact List.mem_cons_self _ _
      · exact List.mem_cons_of_mem _ (ih _ _ _ h)

theorem find_mem (ms : List (PathElement × Value)) (pe : PathElement) (v : Value)
    (h : PathElementValueMap.find ms pe = some v) :
    ∃ q, (q, v) ∈ ms ∧ q.Equals pe = true := by
  induction ms with
  | nil => simp [PathElementValueMap.find] at h
  | cons e rest ih =>
    obtain ⟨q, u⟩ := e
    simp only [PathElementValueMap.find] at h
    by_cases hq : q.Equals pe = true
    · simp only [hq, if_true, Option.some.injEq] at h
      subst h
      exact ⟨q, List.mem_cons_self _ _, hq⟩
    · simp only [hq, if_false, Bool.false_eq_true] at h
      obtain ⟨q2, hm, he⟩ := ih h
      exact ⟨q2, List.mem_cons_of_mem _ hm, he⟩

theorem find_eq_none_iff (ms : List (PathElement × Value)) (pe : PathElement) :
    PathElementValueMap.find ms pe = none ↔ ∀ e ∈ ms, e.1.Equals pe = false := by
  induction ms with
  | nil => simp [PathElementValueMap.find]
  | cons e rest ih =>
    obtain ⟨q, u⟩ := e
    simp only [PathElementValueMap.find, List.mem_cons, forall_eq_or_imp]
    by_cases hq : q.Equals pe = true
    · simp [hq]
    · simp only [hq, if_false, Bool.false_eq_true, ih]
      simp [hq]

theorem Has_iff (obs : PathElementSet) (pe : PathElement) :
    obs.Has pe = true ↔ ∃ q ∈ obs.members, q.Equals pe = true := by
  simp [PathElementSet.Has]

theorem Has_Insert (obs : PathElementSet) (q pe : PathElement) :
    (obs.Insert q).Has pe = (obs.Has pe || q.Equals pe) := by
  simp [PathElementSet.Has, PathElementSet.Insert]

theorem lhsObserved_Has (t : ListType) (l : ValueList) :
    ∀ (i : Nat) (obs : PathElementSet) (pe : PathElement),
      (compareWalker.lhsObserved t l i obs).Has pe = true ↔
        (obs.Has pe = true ∨ ∃ e ∈ okItems t l i, e.1.Equals pe = true) := by
  induction l with
  | nil => intro i obs pe; simp [compareWalker.lhsObserved, okItems]
  | cons child rest ih =>
    intro i obs pe
    simp only [compareWalker.lhsObserved, okItems]
    cases listItemToPathElement t i child with
    | error err => exact ih _ _ _
    | ok q =>
      simp only [List.mem_cons, exists_eq_or_imp]
      by_cases hq : obs.Has q = true
      · simp only [hq, if_true]
        rw [ih]
        constructor
        · rintro (h | h)
          · exact Or.inl h
          · exact Or.inr (Or.inr h)
        · rintro (h | h | h)
          · exact Or.inl h
          · left
            obtain ⟨r, hr, hrq⟩ := (Has_iff obs q).1 hq
            exact (Has_iff obs pe).2 ⟨r, hr, peEquals_trans hrq h⟩
          · exact Or.inr h
      · simp only [hq, if_false, Bool.false_eq_true]
        rw [ih, Has_Insert]
        simp only [Bool.or_eq_true]
        tauto

/-! ## The child frames of a visitor -/

theorem lhsSteps_descend_mem (t : ListType) (observedRHS : PathElementValueMap)
    (w : compareWalker) (l : ValueList) :
    ∀ (i : Nat) (obs : PathElementSet) (w2 : compareWalker),
      Step.descend w2 ∈ compareWalker.lhsSteps t observedRHS w l i obs →
        ∃ pe child, (pe, child) ∈ okItems t l i ∧ obs.Has pe = false ∧
          w2 = w.itemFrame t pe (some child) (observedRHS.Get pe) := by
  induction l with
  | nil => intro i obs w2 h; simp [compareWalker.lhsSteps] at h
  | cons child rest ih =>
    intro i obs w2 h
    simp only [compareWalker.lhsSteps, okItems] at h ⊢
    cases hpe : listItemToPathElement t i child with
    | error err =>
      rw [hpe] at h
      simp only [List.mem_cons, false_or, reduceCtorEq] at h
      exact ih _ _ _ h
    | ok q =>
      rw [hpe] at h
      simp only at h ⊢
      by_cases hq : obs.Has q = true
      · simp only [hq, if_true, List.mem_cons, false_or, reduceCtorEq] at h
        obtain ⟨pe, ch, hm, hh, he⟩ := ih _ _ _ h
        exact ⟨pe, ch, List.mem_cons_of_mem _ hm, hh, he⟩
      · simp only [hq, if_false, Bool.false_eq_true, List.mem_cons, Step.descend.injEq] at h
        rcases h with h | h
        · exact ⟨q, child, List.mem_cons_self _ _, by simpa using hq, h⟩
        · obtain ⟨pe, ch, hm, hh, he⟩ := ih _ _ _ h
          rw [Has_Insert] at hh
          simp only [Bool.or_eq_false_iff] at hh
          exact ⟨pe, ch, List.mem_cons_of_mem _ hm, hh.1, he⟩

theorem rhsOnlySteps_descend_mem (t : ListType) (observedRHS : PathElementValueMap)
    (observedLHS : PathElementSet) (w : compareWalker) (order : List PathElement)
    (w2 : compareWalker) :
    Step.descend w2 ∈ compareWalker.rhsOnlySteps t observedRHS observedLHS w order ↔
      ∃ pe ∈ order, observedLHS.Has pe = false ∧
        w2 = w.itemFrame t pe none (observedRHS.Get pe) := by
  induction order with
  | nil => simp [compareWalker.rhsOnlySteps]
  | cons q rest ih =>
    simp only [compareWalker.rhsOnlySteps, List.mem_cons, exists_eq_or_imp]
    by_cases hq : observedLHS.Has q = true
    · simp only [hq, if_true, ih]
      simp
    · simp only [hq, if_false, Bool.false_eq_true, List.mem_cons, Step.descend.injEq, ih]
      simp [hq]

theorem lhsFieldSteps_descend_mem (t : MapType) (rhs : Option ValueMap) (w : compareWalker)
    (l : ValueMap) (w2 : compareWalker) :
    Step.descend w2 ∈ compareWalker.lhsFieldSteps t rhs w l ↔
      ∃ f ∈ l, w2 = w.fieldFrame t f.1 (some f.2) (getOf rhs f.1) := by
  induction l with
  | nil => simp [compareWalker.lhsFieldSteps]
  | cons f rest ih =>
    obtain ⟨key, val⟩ := f
    simp [compareWalker.lhsFieldSteps, ih]

theorem rhsFieldSteps_descend_mem (t : MapType) (lhs : Option ValueMap) (w : compareWalker)
    (r : ValueMap) (w2 : compareWalker) :
    Step.descend w2 ∈ compareWalker.rhsFieldSteps t lhs w r ↔
      ∃ f ∈ r, getOf lhs f.1 = none ∧ w2 = w.fieldFrame t f.1 none (some f.2) := by
  induction r with
  | nil => simp [compareWalker.rhsFieldSteps]
  | cons f rest ih =>
    obtain ⟨key, val⟩ := f
    simp only [compareWalker.rhsFieldSteps, List.mem_cons, exists_eq_or_imp]
    by_cases hq : (getOf lhs key).isSome = true
    · simp only [hq, if_true, ih]
      have : getOf lhs key ≠ none := by
        intro h
        simp [h] at hq
      simp [this]
    · simp only [hq, if_false, Bool.false_eq_true, List.mem_cons, Step.descend.injEq, ih]
      have : getOf lhs key = none := by
        cases h : getOf lhs key with
        | none => rfl
        | some v => simp [h] at hq
      simp [this]

theorem valueMap_Get_mem (m : ValueMap) (key : String) (v : Value)
    (h : ValueMap.Get m key = some v) : (key, v) ∈ m := by
  induction m with
  | nil => simp [ValueMap.Get] at h
  | cons f rest ih =>
    obtain ⟨k, u⟩ := f
    simp only [ValueMap.Get] at h
    by_cases hk : k = key
    · simp only [hk, if_true, Option.some.injEq] at h
      subst h
      subst hk
      exact List.mem_cons_self _ _
    · simp only [hk, if_false] at h
      exact List.mem_cons_of_mem _ (ih h)

/-! ## Fuel -/

theorem depthList_mem (l : List Value) (v : Value) (h : v ∈ l) :
    v.depth ≤ Value.depthList l := by
  induction l with
  | nil => simp at h
  | cons x rest ih =>
    simp only [Value.depthList]
    rcases List.mem_cons.1 h with h | h
    · subst h
      exact le_max_left _ _
    · exact le_trans (ih h) (le_max_right _ _)

theorem depthFields_mem (m : List (String × Value)) (f : String × Value) (h : f ∈ m) :
    f.2.depth ≤ Value.depthFields m := by
  induction m with
  | nil => simp at h
  | cons x rest ih =>
    obtain ⟨k, u⟩ := x
    simp only [Value.depthFields]
    rcases List.mem_cons.1 h with h | h
    · subst h
      exact le_max_left _ _
    · exact le_trans (ih h) (le_max_right _ _)

theorem runSteps_isSome (cmp : CompareFn) (steps : List Step)
    (h : ∀ w2, Step.descend w2 ∈ steps → ∀ c, (cmp w2 c).isSome = true) :
    ∀ (c : Comparison) (errs : ValidationErrors), (runSteps cmp steps c errs).isSome = true := by
  induction steps with
  | nil => intro c errs; rfl
  | cons x rest ih =>
    intro c errs
    have hrest : ∀ w2, Step.descend w2 ∈ rest → ∀ c, (cmp w2 c).isSome = true :=
      fun w2 hm => h w2 (List.mem_cons_of_mem _ hm)
    cases x with
    | error e => exact ih hrest _ _
    | descend w2 =>
      simp only [runSteps]
      have := h w2 (List.mem_cons_self _ _) c
      cases hc : cmp w2 c with
      | none => simp [hc] at this
      | some r => exact ih hrest _ _

theorem runSteps_mono {cmp cmp2 : CompareFn} (hle : CompareLe cmp cmp2) (steps : List Step) :
    ∀ (c : Comparison) (errs : ValidationErrors) (r : Comparison × ValidationErrors),
      runSteps cmp steps c errs = some r → runSteps cmp2 steps c errs = some r := by
  induction steps with
  | nil => intro c errs r h; exact h
  | cons x rest ih =>
    intro c errs r h
    cases x with
    | error e => exact ih _ _ _ h
    | descend w2 =>
      simp only [runSteps] at h ⊢
      cases hc : cmp w2 c with
      | none => simp [hc] at h
      | some r1 =>
        rw [hle _ _ _ hc]
        rw [hc] at h
        exact ih _ _ _ h

theorem collected_Get_mem (t : ListType) (rhs : Option ValueList) (pe : PathElement)
    (v : Value) (h : (compareWalker.collected t rhs).2.1.Get pe = some v) :
    v ∈ itemsOf rhs := by
  rw [collected_snd] at h
  obtain ⟨q, hm, _⟩ := find_mem _ _ _ h
  exact okItems_mem t _ _ _ _ hm

theorem collected_Get_isSome (t : ListType) (rhs : Option ValueList) (pe : PathElement)
    (h : pe ∈ (compareWalker.collected t rhs).2.2) (hs : pe.Equals pe = true) :
    ((compareWalker.collected t rhs).2.1.Get pe).isSome = true := by
  rw [collected_snd] at h ⊢
  simp only [List.mem_map] at h
  obtain ⟨e, he, hpe⟩ := h
  cases hf : PathElementValueMap.Get ⟨okItems t (itemsOf rhs) 0⟩ pe with
  | some v => rfl
  | none =>
    have := (find_eq_none_iff _ _).1 hf e he
    rw [hpe, hs] at this
    cases this

theorem collected_order_nonempty (t : ListType) (rhs : Option ValueList) (pe : PathElement)
    (h : pe ∈ (compareWalker.collected t rhs).2.2) : itemsOf rhs ≠ [] := by
  rw [collected_snd] at h
  intro hnil
  rw [hnil] at h
  simp [okItems] at h

theorem listSteps_frame (t : ListType) (lhs rhs : Option ValueList) (w w2 : compareWalker)
    (h : Step.descend w2 ∈ w.listSteps t lhs rhs) :
    (∃ pe, w2 = w.itemFrame t pe w2.lhs w2.rhs) ∧ (∀ v, w2.lhs = some v → v ∈ itemsOf lhs) ∧
      (∀ v, w2.rhs = some v → v ∈ itemsOf rhs) ∧
      (w2.lhs.isSome = true ∨ w2.rhs.isSome = true ∨
        (itemsOf rhs ≠ [] ∧ ∃ pe, w2.path = w.path ++ [pe] ∧ pe.Equals pe = false)) := by
  simp only [compareWalker.listSteps, List.mem_append] at h
  rcases h with h | h
  · obtain ⟨pe, child, hm, _, he⟩ := lhsSteps_descend_mem _ _ _ _ _ _ _ h
    subst he
    refine ⟨⟨pe, rfl⟩, ?_, ?_, Or.inl rfl⟩
    · intro v hv
      simp only [compareWalker.itemFrame, Option.some.injEq] at hv
      subst hv
      exact okItems_mem t _ _ _ _ hm
    · intro v hv
      exact collected_Get_mem t rhs pe v hv
  · obtain ⟨pe, hm, _, he⟩ := (rhsOnlySteps_descend_mem _ _ _ _ _ _).1 h
    subst he
    refine ⟨⟨pe, rfl⟩, ?_, ?_, Or.inr ?_⟩
    · intro v hv
      simp [compareWalker.itemFrame] at hv
    · intro v hv
      exact collected_Get_mem t rhs pe v hv
    · cases hs : pe.Equals pe with
      | true => exact Or.inl (collected_Get_isSome t rhs pe hm hs)
      | false => exact Or.inr ⟨collected_order_nonempty t rhs pe hm, pe, rfl, hs⟩

theorem getOf_mem (m : Option ValueMap) (key : String) (v : Value) (h : getOf m key = some v) :
    (key, v) ∈ itemsOf m := by
  cases m with
  | none => simp [getOf] at h
  | some l => exact valueMap_Get_mem l key v h

theorem mapSteps_frame (t : MapType) (lhs rhs : Option ValueMap) (w w2 : compareWalker)
    (h : Step.descend w2 ∈ w.mapSteps t lhs rhs) :
    (∃ key, w2 = w.fieldFrame t key w2.lhs w2.rhs ∧
      (∀ v, w2.lhs = some v → (key, v) ∈ itemsOf lhs) ∧
      (∀ v, w2.rhs = some v → (key, v) ∈ itemsOf rhs)) ∧
      (w2.lhs.isSome = true ∨ w2.rhs.isSome = true) := by
  simp only [compareWalker.mapSteps, List.mem_append] at h
  rcases h with h | h
  · obtain ⟨f, hm, he⟩ := (lhsFieldSteps_descend_mem _ _ _ _ _).1 h
    subst he
    refine ⟨⟨f.1, rfl, ?_, ?_⟩, Or.inl rfl⟩
    · intro v hv
      simp only [compareWalker.fieldFrame, Option.some.injEq] at hv
      subst hv
      exact hm
    · intro v hv
      exact getOf_mem rhs f.1 v hv
  · obtain ⟨f, hm, _, he⟩ := (rhsFieldSteps_descend_mem _ _ _ _ _).1 h
    subst he
    refine ⟨⟨f.1, rfl, ?_, ?_⟩, Or.inr rfl⟩
    · intro v hv
      simp [compareWalker.fieldFrame] at hv
    · intro v hv
      simp only [compareWalker.fieldFrame, Option.some.injEq] at hv
      subst hv
      exact hm

theorem derefList_eq (side : Side) (v : Option Value) :
    (compareWalker.derefList side v none).2 =
      match v with
      | some (.list l) => some l
      | _ => none := by
  cases v with
  | none => rfl
  | some x => cases x <;> rfl

theorem derefMap_eq (side : Side) (v : Option Value) :
    (compareWalker.derefMap side v none).2 =
      match v with
      | some (.map m) => some m
      | _ => none := by
  cases v with
  | none => rfl
  | some x => cases x <;> rfl

theorem derefList_depth (side : Side) (v : Option Value) (x : Value)
    (h : x ∈ itemsOf (compareWalker.derefList side v none).2) : x.depth < sideDepth v := by
  rw [derefList_eq] at h
  split at h
  · rename_i l
    simp only [itemsOf] at h
    simp only [sideDepth, Value.depth]
    exact Nat.lt_succ_of_le (depthList_mem l x h)
  · simp [itemsOf] at h

theorem derefMap_depth (side : Side) (v : Option Value) (f : String × Value)
    (h : f ∈ itemsOf (compareWalker.derefMap side v none).2) : f.2.depth < sideDepth v := by
  rw [derefMap_eq] at h
  split at h
  · rename_i m
    simp only [itemsOf] at h
    simp only [sideDepth, Value.depth]
    exact Nat.lt_succ_of_le (depthFields_mem m f h)
  · simp [itemsOf] at h

theorem fuel_pos_of_isSome (w : compareWalker)
    (h : w.lhs.isSome = true ∨ w.rhs.isSome = true) :
    0 < max (sideDepth w.lhs) (sideDepth w.rhs) := by
  have hpos : ∀ v : Value, 0 < v.depth := by
    intro v
    cases v <;> simp [Value.depth]
  rcases h with h | h
  · cases hl : w.lhs with
    | none => simp [hl] at h
    | some x => exact lt_of_lt_of_le (hpos x) (le_max_left _ _)
  · cases hr : w.rhs with
    | none => simp [hr] at h
    | some x => exact lt_of_lt_of_le (hpos x) (le_max_right _ _)

theorem child_fuel_lt (w w2 : compareWalker)
    (hl : ∀ v, w2.lhs = some v → v.depth < sideDepth w.lhs)
    (hr : ∀ v, w2.rhs = some v → v.depth < sideDepth w.rhs)
    (hs : w2.lhs.isSome = true ∨ w2.rhs.isSome = true) : w2.fuel < w.fuel := by
  simp only [compareWalker.fuel]
  generalize sideDepth w.lhs = a at hl ⊢
  generalize sideDepth w.rhs = b at hr ⊢
  cases h2l : w2.lhs with
  | none =>
    cases h2r : w2.rhs with
    | none => simp [h2l, h2r] at hs
    | some y =>
      have := hr y h2r
      simp only [sideDepth]
      omega
  | some x =>
    have h1 := hl x h2l
    cases h2r : w2.rhs with
    | none =>
      simp only [sideDepth]
      omega
    | some y =>
      have h2 := hr y h2r
      simp only [sideDepth]
      omega

theorem listSteps_fuel (t : ListType) (w w2 : compareWalker)
    (h : Step.descend w2 ∈ w.listSteps t (compareWalker.derefList .lhs w.lhs none).2
      (compareWalker.derefList .rhs w.rhs none).2) : w2.fuel < w.fuel := by
  obtain ⟨_, hl, hr, hs⟩ := listSteps_frame _ _ _ _ _ h
  rcases hs with hs | hs | ⟨hne, _⟩
  · exact child_fuel_lt w w2 (fun v hv => derefList_depth _ _ _ (hl v hv))
      (fun v hv => derefList_depth _ _ _ (hr v hv)) (Or.inl hs)
  · exact child_fuel_lt w w2 (fun v hv => derefList_depth _ _ _ (hl v hv))
      (fun v hv => derefList_depth _ _ _ (hr v hv)) (Or.inr hs)
  · obtain ⟨x, hx⟩ := List.exists_mem_of_ne_nil _ hne
    have hx2 := derefList_depth _ _ _ hx
    cases h2l : w2.lhs with
    | some y =>
      exact child_fuel_lt w w2 (fun v hv => derefList_depth _ _ _ (hl v hv))
        (fun v hv => derefList_depth _ _ _ (hr v hv)) (Or.inl (by rw [h2l]; rfl))
    | none =>
      cases h2r : w2.rhs with
      | some y =>
        exact child_fuel_lt w w2 (fun v hv => derefList_depth _ _ _ (hl v hv))
          (fun v hv => derefList_depth _ _ _ (hr v hv)) (Or.inr (by rw [h2r]; rfl))
      | none =>
        have h1 : w2.fuel = 1 := by simp [compareWalker.fuel, h2l, h2r, sideDepth]
        have h2 : sideDepth w.rhs ≤ max (sideDepth w.lhs) (sideDepth w.rhs) :=
          le_max_right _ _
        rw [h1]
        unfold compareWalker.fuel
        omega

theorem doList_isSome {cmp : CompareFn} (hk : KeepsPath cmp) (t : ListType)
    (w : compareWalker) (h : ∀ w2 c, w2.fuel < w.fuel → (cmp w2 c).isSome = true)
    (c : Comparison) : (w.doList cmp t c).isSome = true := by
  unfold compareWalker.doList
  simp only
  split
  · rfl
  · rw [visitListItems_eq_runSteps hk]
    simp only [Option.isSome_map']
    apply runSteps_isSome
    intro w2 hm c2
    exact h w2 c2 (listSteps_fuel t w w2 hm)

theorem doMap_isSome {cmp : CompareFn} (hk : KeepsPath cmp) (t : MapType)
    (w : compareWalker) (h : ∀ w2 c, w2.fuel < w.fuel → (cmp w2 c).isSome = true)
    (c : Comparison) : (w.doMap cmp t c).isSome = true := by
  unfold compareWalker.doMap
  simp only
  split
  · rfl
  · split
    · rfl
    · rw [visitMapItems_eq_runSteps hk]
      simp only [Option.isSome_map']
      apply runSteps_isSome
      intro w2 hm c2
      obtain ⟨⟨key, _, hl, hr⟩, hs⟩ := mapSteps_frame _ _ _ _ _ hm
      exact h w2 c2 (child_fuel_lt w w2 (fun v hv => derefMap_depth _ _ _ (hl v hv))
        (fun v hv => derefMap_depth _ _ _ (hr v hv)) hs)

theorem handleAtom_isSome {cmp : CompareFn} (hk : KeepsPath cmp) (a : Atom) (tr : TypeRef)
    (w : compareWalker) (h : ∀ w2 c, w2.fuel < w.fuel → (cmp w2 c).isSome = true)
    (c : Comparison) : (handleAtom cmp a tr w c).isSome = true := by
  cases a with
  | scalar t => rfl
  | list t => exact doList_isSome hk t w h c
  | map t => exact doMap_isSome hk t w h c
  | untyped => rfl

theorem sameButLeaf_fuel {w w2 : compareWalker} (h : w.sameButLeaf w2) : w2.fuel = w.fuel := by
  rcases h with h | h <;> subst h <;> rfl

theorem handleBoth_isSome {cmp : CompareFn} (hk : KeepsPath cmp) (alhs arhs : Atom)
    (w : compareWalker) (h : ∀ w2 c, w2.fuel < w.fuel → (cmp w2 c).isSome = true)
    (c : Comparison) : (w.handleBoth cmp alhs arhs c).isSome = true := by
  unfold compareWalker.handleBoth
  split
  · exact handleAtom_isSome hk _ _ _ h _
  · have h1 := handleAtom_isSome hk alhs w.typeRef w h c
    cases hc : handleAtom cmp alhs w.typeRef w c with
    | none => simp [hc] at h1
    | some r1 =>
      obtain ⟨w1, c1, e1⟩ := r1
      have hsame := handleAtom_sameButLeaf hk _ _ _ _ _ hc
      have h2 := handleAtom_isSome hk arhs w1.typeRef w1
        (fun w2 c2 hlt => h w2 c2 (by rw [← sameButLeaf_fuel hsame]; exact hlt)) c1
      simp only
      cases hc2 : handleAtom cmp arhs w1.typeRef w1 c1 with
      | none => simp [hc2] at h2
      | some r2 => rfl

/-- The walk of a frame returns when it is given the fuel of the frame, or more. -/
theorem compare_isSome (s : Schema) :
    ∀ (n : Nat) (w : compareWalker) (c : Comparison), w.fuel ≤ n →
      (compareWalker.compare s n w c).isSome = true := by
  intro n
  induction n with
  | zero =>
    intro w c h
    simp [compareWalker.fuel] at h
  | succ n ih =>
    intro w c h
    rw [compare_succ]
    split
    · rfl
    · split
      · rfl
      · simp only [Option.isSome_map']
        exact handleBoth_isSome (compare_keepsPath s n) _ _ w
          (fun w2 c2 hlt => ih w2 c2 (by omega)) c

theorem doList_mono {cmp cmp2 : CompareFn} (hk : KeepsPath cmp) (hk2 : KeepsPath cmp2)
    (hle : CompareLe cmp cmp2) (t : ListType) (w : compareWalker) (c : Comparison)
    (r : compareWalker × Comparison × ValidationErrors) (h : w.doList cmp t c = some r) :
    w.doList cmp2 t c = some r := by
  unfold compareWalker.doList at h ⊢
  simp only at h ⊢
  split
  · rename_i hc
    simpa [hc] using h
  · rename_i hc
    simp only [hc, if_false, Bool.false_eq_true] at h
    rw [visitListItems_eq_runSteps hk] at h
    rw [visitListItems_eq_runSteps hk2]
    simp only [Option.map_eq_some'] at h ⊢
    obtain ⟨a, ha, har⟩ := h
    exact ⟨a, runSteps_mono hle _ _ _ _ ha, har⟩

theorem doMap_mono {cmp cmp2 : CompareFn} (hk : KeepsPath cmp) (hk2 : KeepsPath cmp2)
    (hle : CompareLe cmp cmp2) (t : MapType) (w : compareWalker) (c : Comparison)
    (r : compareWalker × Comparison × ValidationErrors) (h : w.doMap cmp t c = some r) :
    w.doMap cmp2 t c = some r := by
  unfold compareWalker.doMap at h ⊢
  simp only at h ⊢
  split
  · rename_i hc
    simpa [hc] using h
  · rename_i hc
    simp only [hc, if_false, Bool.false_eq_true] at h
    split
    · rename_i hc2
      simpa [hc2] using h
    · rename_i hc2
      simp only [hc2, if_false, Bool.false_eq_true] at h
      rw [visitMapItems_eq_runSteps hk] at h
      rw [visitMapItems_eq_runSteps hk2]
      simp only [Option.map_eq_some'] at h ⊢
      obtain ⟨a, ha, har⟩ := h
      exact ⟨a, runSteps_mono hle _ _ _ _ ha, har⟩

theorem handleAtom_mono {cmp cmp2 : CompareFn} (hk : KeepsPath cmp) (hk2 : KeepsPath cmp2)
    (hle : CompareLe cmp cmp2) (a : Atom) (tr : TypeRef) (w : compareWalker) (c : Comparison)
    (r : compareWalker × Comparison × ValidationErrors) (h : handleAtom cmp a tr w c = some r) :
    handleAtom cmp2 a tr w c = some r := by
  cases a with
  | scalar t => exact h
  | list t => exact doList_mono hk hk2 hle t w c r h
  | map t => exact doMap_mono hk hk2 hle t w c r h
  | untyped => exact h

theorem handleBoth_mono {cmp cmp2 : CompareFn} (hk : KeepsPath cmp) (hk2 : KeepsPath cmp2)
    (hle : CompareLe cmp cmp2) (alhs arhs : Atom) (w : compareWalker) (c : Comparison)
    (r : compareWalker × Comparison × ValidationErrors)
    (h : w.handleBoth cmp alhs arhs c = some r) : w.handleBoth cmp2 alhs arhs c = some r := by
  unfold compareWalker.handleBoth at h ⊢
  split
  · rename_i hc
    simp only [hc, if_true] at h
    exact handleAtom_mono hk hk2 hle _ _ _ _ _ h
  · rename_i hc
    simp only [hc, if_false] at h
    cases h1 : handleAtom cmp alhs w.typeRef w c with
    | none => simp [h1] at h
    | some r1 =>
      obtain ⟨w1, c1, e1⟩ := r1
      rw [handleAtom_mono hk hk2 hle _ _ _ _ _ h1]
      simp only [h1] at h ⊢
      cases h2 : handleAtom cmp arhs w1.typeRef w1 c1 with
      | none => simp [h2] at h
      | some r2 =>
        rw [handleAtom_mono hk hk2 hle _ _ _ _ _ h2]
        simpa [h2] using h

/-- More fuel does not change the result of a walk that returned. -/
theorem compare_mono (s : Schema) :
    ∀ (n : Nat), CompareLe (compareWalker.compare s n) (compareWalker.compare s (n + 1)) := by
  intro n
  induction n with
  | zero => intro w c r h; simp [compareWalker.compare] at h
  | succ n ih =>
    intro w c r h
    rw [compare_succ] at h ⊢
    split
    · rename_i hc
      simpa [hc] using h
    · rename_i hc
      simp only [hc, if_false, Bool.false_eq_true] at h
      split
      · rename_i hres
        simpa [hres] using h
      · rename_i a hres
        simp only [hres, Option.map_eq_some'] at h ⊢
        obtain ⟨r1, h1, h2⟩ := h
        exact ⟨r1, handleBoth_mono (compare_keepsPath s n) (compare_keepsPath s (n + 1)) ih
          _ _ _ _ _ h1, h2⟩

theorem compare_mono_le (s : Schema) (n m : Nat) (hnm : n ≤ m) :
    CompareLe (compareWalker.compare s n) (compareWalker.compare s m) := by
  induction hnm with
  | refl => intro w c r h; exact h
  | step _ ih => intro w c r h; exact compare_mono s _ w c r (ih w c r h)

/-! ## The paths a walk inserts -/

theorem comparison_get_append (c d : Comparison) (k : DiffKind) :
    ((c.append d).get k).paths = (c.get k).paths ++ (d.get k).paths := by
  cases k <;> rfl

theorem comparison_get_empty (k : DiffKind) : (Comparison.empty.get k).paths = [] := by
  cases k <;> rfl

theorem runSteps_mem {cmp : CompareFn} (hf : Frames cmp) (steps : List Step) :
    ∀ (c : Comparison) (errs : ValidationErrors) (r : Comparison × ValidationErrors),
      runSteps cmp steps c errs = some r → ∀ (k : DiffKind) (p : Path),
        p ∈ (r.1.get k).paths ↔
          (p ∈ (c.get k).paths ∨ ∃ w2, Step.descend w2 ∈ steps ∧
            ∃ r2, cmp w2 Comparison.empty = some r2 ∧ p ∈ (r2.2.1.get k).paths) := by
  induction steps with
  | nil =>
    intro c errs r h k p
    simp only [runSteps, Option.some.injEq] at h
    subst h
    simp
  | cons x rest ih =>
    intro c errs r h k p
    cases x with
    | error e =>
      simp only [runSteps] at h
      rw [ih _ _ _ h k p]
      simp
    | descend w2 =>
      simp only [runSteps] at h
      rw [hf w2 c] at h
      cases hc : cmp w2 Comparison.empty with
      | none => simp [hc] at h
      | some r1 =>
        obtain ⟨w1, d, e⟩ := r1
        simp only [hc, Option.map_some', liftFrame] at h
        rw [ih _ _ _ h k p, comparison_get_append]
        simp only [List.mem_append, List.mem_cons, Step.descend.injEq, exists_eq_or_imp]
        constructor
        · rintro ((h1 | h1) | h1)
          · exact Or.inl h1
          · exact Or.inr (Or.inl ⟨_, hc, h1⟩)
          · exact Or.inr (Or.inr h1)
        · rintro (h1 | ⟨r2, h2, h3⟩ | h1)
          · exact Or.inl (Or.inl h1)
          · rw [hc] at h2
            simp only [Option.some.injEq] at h2
            subst h2
            exact Or.inl (Or.inr h3)
          · exact Or.inr h1

theorem doLeaf_snd (w : compareWalker) (c : Comparison) :
    (w.doLeaf c).2 =
      match w.lhs, w.rhs with
      | none, _ => { c with Added := c.Added.Insert w.path }
      | some _, none => { c with Removed := c.Removed.Insert w.path }
      | some l, some r =>
        if Value.Equals r l = false then { c with Modified := c.Modified.Insert w.path } else c := by
  unfold compareWalker.doLeaf
  simp only
  split
  · rfl
  · rfl
  · split <;> simp_all

theorem doLeaf_mem (w : compareWalker) (c : Comparison) (k : DiffKind) (p : Path)
    (h : p ∈ (((w.doLeaf c).2).get k).paths) : p ∈ (c.get k).paths ∨ p = w.path := by
  rw [doLeaf_snd] at h
  split at h
  · cases k <;> simp_all [Comparison.get, PathSet.Insert]
  · cases k <;> simp_all [Comparison.get, PathSet.Insert]
  · split at h
    · cases k <;> simp_all [Comparison.get, PathSet.Insert]
    · exact Or.inl h

theorem recordRoot_mem (r : compareWalker × Comparison × ValidationErrors) (k : DiffKind)
    (p : Path) (h : p ∈ (((compareWalker.recordRoot r).2.1).get k).paths) :
    p ∈ (r.2.1.get k).paths ∨ p = r.1.path := by
  unfold compareWalker.recordRoot at h
  split at h
  · split at h
    · cases k <;> simp_all [Comparison.get, PathSet.Insert]
    · split at h
      · cases k <;> simp_all [Comparison.get, PathSet.Insert]
      · exact Or.inl h
  · exact Or.inl h

theorem itemFrame_path (w : compareWalker) (t : ListType) (pe : PathElement)
    (l r : Option Value) : (w.itemFrame t pe l r).path = w.path ++ [pe] := rfl

theorem fieldFrame_path (w : compareWalker) (t : MapType) (key : String)
    (l r : Option Value) : (w.fieldFrame t key l r).path = w.path ++ [.fieldName key] := rfl

theorem handleAtom_below {cmp : CompareFn} (hk : KeepsPath cmp) (hf : Frames cmp)
    (hb : ∀ w2 r2, cmp w2 Comparison.empty = some r2 → ∀ k, ∀ p ∈ (r2.2.1.get k).paths,
      w2.path <+: p)
    (a : Atom) (tr : TypeRef) (w : compareWalker) (c : Comparison)
    (r : compareWalker × Comparison × ValidationErrors) (h : handleAtom cmp a tr w c = some r)
    (k : DiffKind) (p : Path) (hp : p ∈ (r.2.1.get k).paths) :
    p ∈ (c.get k).paths ∨ w.path <+: p := by
  have hleaf : ∀ r : compareWalker × Comparison × ValidationErrors,
      r = ((w.doLeaf c).1, (w.doLeaf c).2, []) → p ∈ (r.2.1.get k).paths →
        p ∈ (c.get k).paths ∨ w.path <+: p := by
    intro r hr hp
    subst hr
    rcases doLeaf_mem w c k p hp with h1 | h1
    · exact Or.inl h1
    · exact Or.inr (h1 ▸ List.prefix_refl _)
  have hsteps : ∀ (steps : List Step) (errs : ValidationErrors),
      (∀ w2, Step.descend w2 ∈ steps → ∃ pe, w2.path = w.path ++ [pe]) →
      Option.map (fun r => (w, r.1, r.2)) (runSteps cmp steps c errs) = some r →
        p ∈ (c.get k).paths ∨ w.path <+: p := by
    intro steps errs hst h
    simp only [Option.map_eq_some'] at h
    obtain ⟨a, ha, har⟩ := h
    subst har
    rcases (runSteps_mem hf steps c errs a ha k p).1 hp with h1 | ⟨w2, hm, r2, hr2, hp2⟩
    · exact Or.inl h1
    · obtain ⟨pe, hpe⟩ := hst w2 hm
      have := hb w2 r2 hr2 k p hp2
      rw [hpe] at this
      exact Or.inr (List.IsPrefix.trans (List.prefix_append _ _) this)
  cases a with
  | scalar t => exact hleaf r (by simpa [handleAtom, compareWalker.doScalar] using h.symm) hp
  | untyped => exact hleaf r (by simpa [handleAtom] using h.symm) hp
  | list t =>
    simp only [handleAtom, compareWalker.doList] at h
    split at h
    · exact hleaf r (by simpa using h.symm) hp
    · rw [visitListItems_eq_runSteps hk] at h
      refine hsteps _ _ ?_ h
      intro w2 hm
      obtain ⟨⟨pe, hpe⟩, _⟩ := listSteps_frame _ _ _ _ _ hm
      exact ⟨pe, by rw [hpe]; rfl⟩
  | map t =>
    simp only [handleAtom, compareWalker.doMap] at h
    split at h
    · exact hleaf r (by simpa using h.symm) hp
    · split at h
      · simp only [Option.some.injEq] at h
        subst h
        exact Or.inl hp
      · rw [visitMapItems_eq_runSteps hk] at h
        refine hsteps _ _ ?_ h
        intro w2 hm
        obtain ⟨⟨key, hkey, _⟩, _⟩ := mapSteps_frame _ _ _ _ _ hm
        exact ⟨.fieldName key, by rw [hkey]; rfl⟩

theorem handleBoth_below {cmp : CompareFn} (hk : KeepsPath cmp) (hf : Frames cmp)
    (hb : ∀ w2 r2, cmp w2 Comparison.empty = some r2 → ∀ k, ∀ p ∈ (r2.2.1.get k).paths,
      w2.path <+: p)
    (alhs arhs : Atom) (w : compareWalker) (c : Comparison)
    (r : compareWalker × Comparison × ValidationErrors)
    (h : w.handleBoth cmp alhs arhs c = some r)
    (k : DiffKind) (p : Path) (hp : p ∈ (r.2.1.get k).paths) :
    p ∈ (c.get k).paths ∨ w.path <+: p := by
  unfold compareWalker.handleBoth at h
  split at h
  · exact handleAtom_below hk hf hb _ _ _ _ _ h k p hp
  · cases h3 : handleAtom cmp alhs w.typeRef w c with
    | none => simp [h3] at h
    | some r3 =>
      obtain ⟨w3, c3, e3⟩ := r3
      simp only [h3] at h
      cases h4 : handleAtom cmp arhs w3.typeRef w3 c3 with
      | none => simp [h4] at h
      | some r4 =>
        obtain ⟨w4, c4, e4⟩ := r4
        simp only [h4, Option.some.injEq] at h
        subst h
        rcases handleAtom_below hk hf hb _ _ _ _ _ h4 k p hp with h5 | h5
        · exact handleAtom_below hk hf hb _ _ _ _ _ h3 k p h5
        · rw [sameButLeaf_path (handleAtom_sameButLeaf hk _ _ _ _ _ h3)] at h5
          exact Or.inr h5

/-- Every path a walk inserts lies at or below the path of its frame. -/
theorem compare_below (s : Schema) :
    ∀ (n : Nat) (w : compareWalker) (c : Comparison)
      (r : compareWalker × Comparison × ValidationErrors),
      compareWalker.compare s n w c = some r → ∀ (k : DiffKind), ∀ p ∈ (r.2.1.get k).paths,
        p ∈ (c.get k).paths ∨ w.path <+: p := by
  intro n
  induction n with
  | zero => intro w c r h; simp [compareWalker.compare] at h
  | succ n ih =>
    intro w c r h k p hp
    have hk := compare_keepsPath s n
    have hf := compare_frames s n
    have hb : ∀ w2 r2, compareWalker.compare s n w2 Comparison.empty = some r2 →
        ∀ k, ∀ p ∈ (r2.2.1.get k).paths, w2.path <+: p := by
      intro w2 r2 h2 k p hp
      rcases ih w2 _ r2 h2 k p hp with h1 | h1
      · rw [comparison_get_empty] at h1
        cases h1
      · exact h1
    rw [compare_succ] at h
    split at h
    · simp only [Option.some.injEq] at h
      subst h
      exact Or.inl hp
    · split at h
      · simp only [Option.some.injEq] at h
        subst h
        exact Or.inl hp
      · simp only [Option.map_eq_some'] at h
        obtain ⟨r1, h1, h2⟩ := h
        subst h2
        have hsame := handleBoth_sameButLeaf hk _ _ _ _ _ h1
        rcases recordRoot_mem r1 k p hp with hp1 | hp1
        · exact handleBoth_below hk hf hb _ _ _ _ _ h1 k p hp1
        · rw [hp1, sameButLeaf_path hsame]
          exact Or.inr (List.prefix_refl _)

/-! ## Leaves -/

theorem deduceAtom_of_ne_untyped (a : Atom) (v : Option Value) (h : a ≠ .untyped) :
    deduceAtom a v = a := by
  cases a <;> first | rfl | exact absurd rfl h

theorem recordRoot_of_inLeaf (r : compareWalker × Comparison × ValidationErrors)
    (h : r.1.inLeaf = true) : compareWalker.recordRoot r = r := by
  simp [compareWalker.recordRoot, h]

theorem compare_of_leafAtom (s : Schema) (n : Nat) (w : compareWalker) (c : Comparison)
    (a : Atom) (hsides : ¬ (w.lhs = none ∧ w.rhs = none)) (hres : s.Resolve w.typeRef = some a)
    (hne : a ≠ .untyped)
    (hleaf : handleAtom (compareWalker.compare s n) a w.typeRef w c =
      some ((w.doLeaf c).1, (w.doLeaf c).2, [])) :
    compareWalker.compare s (n + 1) w c = some ((w.doLeaf c).1, (w.doLeaf c).2, []) := by
  rw [compare_succ]
  have h1 : (w.lhs.isNone && w.rhs.isNone) = false := by
    cases hl : w.lhs <;> cases hr : w.rhs <;> simp_all
  simp only [h1, Bool.false_eq_true, if_false, hres, deduceAtom_of_ne_untyped a _ hne,
    compareWalker.handleBoth, if_true, hleaf, Option.map_some']
  rw [recordRoot_of_inLeaf]
  rw [doLeaf_fst]

/-- C3 (leaf classification).  At a leaf with path `p`, `doLeaf` does exactly one of four
things: with `lhs` absent and `rhs` present it inserts `p` into `Added`; with `rhs`
absent and `lhs` present it inserts `p` into `Removed`; with both present and not equal
it inserts `p` into `Modified`; with both present and equal it changes no set.  A frame
whose type resolves to a scalar is such a leaf: its walk returns what `doLeaf` gives,
without errors, and inserts nothing else. -/
theorem C3_leaf_classification (w : compareWalker) (c : Comparison) :
    (∀ r, w.lhs = none → w.rhs = some r →
      (w.doLeaf c).2 = { c with Added := c.Added.Insert w.path }) ∧
    (∀ l, w.lhs = some l → w.rhs = none →
      (w.doLeaf c).2 = { c with Removed := c.Removed.Insert w.path }) ∧
    (∀ l r, w.lhs = some l → w.rhs = some r → Value.Equals r l = false →
      (w.doLeaf c).2 = { c with Modified := c.Modified.Insert w.path }) ∧
    (∀ l r, w.lhs = some l → w.rhs = some r → Value.Equals r l = true →
      (w.doLeaf c).2 = c) ∧
    (∀ (s : Schema) (n : Nat) (t : Scalar), ¬ (w.lhs = none ∧ w.rhs = none) →
      s.Resolve w.typeRef = some (.scalar t) →
      compareWalker.compare s (n + 1) w c = some ((w.doLeaf c).1, (w.doLeaf c).2, [])) := by
  refine ⟨?_, ?_, ?_, ?_, ?_⟩
  · intro r hl hr
    rw [doLeaf_snd, hl, hr]
  · intro l hl hr
    rw [doLeaf_snd, hl, hr]
  · intro l r hl hr he
    rw [doLeaf_snd, hl, hr]
    simp [he]
  · intro l r hl hr he
    rw [doLeaf_snd, hl, hr]
    simp [he]
  · intro s n t hsides hres
    exact compare_of_leafAtom s n w c _ hsides hres (by simp) rfl

theorem C3_leaf_classification_witness :
    ((exLeaf none (some (.string "a"))).doLeaf Comparison.empty).2 =
        { Comparison.empty with Added := PathSet.empty.Insert [.fieldName "name"] } ∧
      ((exLeaf (some (.string "a")) none).doLeaf Comparison.empty).2 =
        { Comparison.empty with Removed := PathSet.empty.Insert [.fieldName "name"] } ∧
      ((exLeaf (some (.string "a")) (some (.string "b"))).doLeaf Comparison.empty).2 =
        { Comparison.empty with Modified := PathSet.empty.Insert [.fieldName "name"] } ∧
      ((exLeaf (some (.int 1)) (some (.float (.num 1)))).doLeaf Comparison.empty).2 =
        Comparison.empty ∧
      compareWalker.compare ⟨[]⟩ 1 (exLeaf (some (.string "a")) (some (.string "b")))
          Comparison.empty =
        some ({ exLeaf (some (.string "a")) (some (.string "b")) with inLeaf := true },
          { Comparison.empty with Modified := PathSet.empty.Insert [.fieldName "name"] }, []) :=
  ⟨(C3_leaf_classification (exLeaf none (some (.string "a"))) Comparison.empty).1 _ rfl rfl,
    (C3_leaf_classification (exLeaf (some (.string "a")) none) Comparison.empty).2.1 _ rfl rfl,
    (C3_leaf_classification (exLeaf (some (.string "a")) (some (.string "b")))
      Comparison.empty).2.2.1 _ _ rfl rfl (by decide),
    (C3_leaf_classification (exLeaf (some (.int 1)) (some (.float (.num 1))))
      Comparison.empty).2.2.2.1 _ _ rfl rfl (by decide),
    (C3_leaf_classification (exLeaf (some (.string "a")) (some (.string "b")))
      Comparison.empty).2.2.2.2 ⟨[]⟩ 0 .string (by simp [exLeaf]) rfl⟩

theorem pathSet_Insert_ne (a : PathSet) (p : Path) : a ≠ a.Insert p := by
  intro h
  have := congrArg (fun x => x.paths.length) h
  simp [PathSet.Insert] at this

theorem doLeaf_Modified_iff (w : compareWalker) (c : Comparison) :
    (w.doLeaf c).2.Modified = c.Modified.Insert w.path ↔
      ∃ l r, w.lhs = some l ∧ w.rhs = some r ∧ Value.Equals r l = false := by
  rw [doLeaf_snd]
  constructor
  · intro h
    split at h
    · exact absurd h (pathSet_Insert_ne _ _)
    · exact absurd h (pathSet_Insert_ne _ _)
    · rename_i l r hl hr
      split at h
      · rename_i he
        exact ⟨l, r, hl, hr, he⟩
      · exact absurd h (pathSet_Insert_ne _ _)
  · rintro ⟨l, r, hl, hr, he⟩
    rw [hl, hr]
    simp [he]

/-- C8 (atomic nodes are never descended).  For a frame at path `p` whose type resolves
to a list or a map type with the element relationship `atomic`, whatever the two
values are, the walk returns what `doLeaf` gives, without errors: every path it
inserts is `p` itself, never a path strictly below `p`, and `p` is inserted into
`Modified` exactly when both sides are present and not equal. -/
theorem C8_atomic_never_descended (s : Schema) (n : Nat) (w : compareWalker)
    (c : Comparison) (a : Atom) (hsides : ¬ (w.lhs = none ∧ w.rhs = none))
    (hres : s.Resolve w.typeRef = some a)
    (hatomic : (∃ t, a = .list t ∧ t.ElementRelationship = .atomic) ∨
      (∃ t, a = .map t ∧ t.ElementRelationship = .atomic)) :
    compareWalker.compare s (n + 1) w c = some ((w.doLeaf c).1, (w.doLeaf c).2, []) ∧
      (∀ k p, p ∈ (((w.doLeaf c).2).get k).paths → p ∈ (c.get k).paths ∨ p = w.path) ∧
      ((w.doLeaf c).2.Modified = c.Modified.Insert w.path ↔
        ∃ l r, w.lhs = some l ∧ w.rhs = some r ∧ Value.Equals r l = false) := by
  refine ⟨?_, fun k p h => doLeaf_mem w c k p h, doLeaf_Modified_iff w c⟩
  rcases hatomic with ⟨t, ha, ht⟩ | ⟨t, ha, ht⟩
  · subst ha
    apply compare_of_leafAtom s n w c _ hsides hres (by simp)
    simp [handleAtom, compareWalker.doList, ht]
  · subst ha
    apply compare_of_leafAtom s n w c _ hsides hres (by simp)
    simp [handleAtom, compareWalker.doMap, ht]

theorem C8_atomic_never_descended_witness :
    compareWalker.compare ⟨[]⟩ 1 exAtomic Comparison.empty =
        some ((exAtomic.doLeaf Comparison.empty).1, (exAtomic.doLeaf Comparison.empty).2, []) ∧
      (∀ k p, p ∈ (((exAtomic.doLeaf Comparison.empty).2).get k).paths →
        p ∈ (Comparison.empty.get k).paths ∨ p = exAtomic.path) ∧
      ((exAtomic.doLeaf Comparison.empty).2.Modified =
          Comparison.empty.Modified.Insert exAtomic.path ↔
        ∃ l r, exAtomic.lhs = some l ∧ exAtomic.rhs = some r ∧ Value.Equals r l = false) :=
  C8_atomic_never_descended ⟨[]⟩ 0 exAtomic Comparison.empty _ (by simp [exAtomic]) rfl
    (Or.inl ⟨_, rfl, rfl⟩)

/-! ## The comparison after the steps does not depend on the errors -/

theorem runSteps_fst (cmp : CompareFn) (steps : List Step) :
    ∀ (c : Comparison) (errs : ValidationErrors),
      Option.map Prod.fst (runSteps cmp steps c errs) = runCmp cmp steps c := by
  induction steps with
  | nil => intro c errs; rfl
  | cons x rest ih =>
    intro c errs
    cases x with
    | error e =>
      simp only [runCmp, runSteps]
      rw [ih, ih]
    | descend w2 =>
      simp only [runCmp, runSteps]
      cases cmp w2 c with
      | none => rfl
      | some r =>
        simp only
        rw [ih, ih]

theorem runCmp_nil (cmp : CompareFn) (c : Comparison) : runCmp cmp [] c = some c := rfl

theorem runCmp_error (cmp : CompareFn) (e : ValidationError) (rest : List Step)
    (c : Comparison) : runCmp cmp (.error e :: rest) c = runCmp cmp rest c := by
  simp only [runCmp, runSteps]
  rw [runSteps_fst, runSteps_fst]

theorem runCmp_descend (cmp : CompareFn) (w2 : compareWalker) (rest : List Step)
    (c : Comparison) :
    runCmp cmp (.descend w2 :: rest) c = (cmp w2 c).bind (fun r => runCmp cmp rest r.2.1) := by
  simp only [runCmp, runSteps]
  cases cmp w2 c with
  | none => rfl
  | some r =>
    simp only [Option.some_bind]
    rw [runSteps_fst, runSteps_fst]

theorem runCmp_append (cmp : CompareFn) (xs ys : List Step) (c : Comparison) :
    runCmp cmp (xs ++ ys) c = (runCmp cmp xs c).bind (fun c2 => runCmp cmp ys c2) := by
  simp only [runCmp, runSteps_append]
  cases h : runSteps cmp xs c [] with
  | none => rfl
  | some r =>
    simp only [Option.some_bind, Option.map_some']
    exact runSteps_fst cmp ys r.1 r.2

theorem visitMapItems_cmp {cmp : CompareFn} (hk : KeepsPath cmp) (t : MapType)
    (lhs rhs : Option ValueMap) (w : compareWalker) (c : Comparison) :
    Option.map (fun r => (r.1, r.2.1)) (w.visitMapItems cmp t lhs rhs c) =
      Option.map (fun c2 => (w, c2)) (runCmp cmp (w.mapSteps t lhs rhs) c) := by
  rw [visitMapItems_eq_runSteps hk, runCmp]
  cases runSteps cmp (w.mapSteps t lhs rhs) c [] <;> rfl

theorem visitListItems_cmp {cmp : CompareFn} (hk : KeepsPath cmp) (t : ListType)
    (lhs rhs : Option ValueList) (w : compareWalker) (c : Comparison) :
    Option.map (fun r => (r.1, r.2.1)) (w.visitListItems cmp t lhs rhs c) =
      Option.map (fun c2 => (w, c2)) (runCmp cmp (w.listSteps t lhs rhs) c) := by
  rw [visitListItems_eq_runSteps hk, ← runSteps_fst cmp _ c (compareWalker.collected t rhs).1]
  cases runSteps cmp (w.listSteps t lhs rhs) c (compareWalker.collected t rhs).1 <;> rfl

/-! ## A missing named type -/

theorem compare_noType (s : Schema) (n : Nat) (w : compareWalker) (c : Comparison)
    (hsides : ¬ (w.lhs = none ∧ w.rhs = none)) (hres : s.Resolve w.typeRef = none) :
    compareWalker.compare s (n + 1) w c = some (w, c, [.noTypeFound w.typeRef.NamedType]) := by
  rw [compare_succ]
  have h1 : (w.lhs.isNone && w.rhs.isNone) = false := by
    cases hl : w.lhs <;> cases hr : w.rhs <;> simp_all
  simp only [h1, Bool.false_eq_true, if_false, hres]

theorem Get_erase_ne (m : ValueMap) (key k : String) (h : k ≠ key) :
    ValueMap.Get (ValueMap.erase m key) k = ValueMap.Get m k := by
  induction m with
  | nil => rfl
  | cons f rest ih =>
    obtain ⟨k2, v⟩ := f
    by_cases h2 : k2 = key
    · subst h2
      have hne : ¬ k2 = k := fun e => h e.symm
      have : ValueMap.erase ((k2, v) :: rest) k2 = ValueMap.erase rest k2 := by
        simp [ValueMap.erase]
      rw [this, ih]
      simp [ValueMap.Get, hne]
    · have : ValueMap.erase ((k2, v) :: rest) key = (k2, v) :: ValueMap.erase rest key := by
        simp [ValueMap.erase, h2]
      rw [this]
      simp only [ValueMap.Get, ih]

theorem getOf_eraseOf_ne (m : Option ValueMap) (key k : String) (h : k ≠ key) :
    getOf (eraseOf m key) k = getOf m k := by
  cases m with
  | none => rfl
  | some l => exact Get_erase_ne l key k h

theorem lhsFieldSteps_erase (s : Schema) (n : Nat) (t : MapType) (key : String)
    (hres : s.Resolve (t.fieldType key) = none) (rhs : Option ValueMap) (w : compareWalker)
    (l : ValueMap) :
    ∀ c : Comparison,
      runCmp (compareWalker.compare s (n + 1)) (compareWalker.lhsFieldSteps t rhs w l) c =
        runCmp (compareWalker.compare s (n + 1))
          (compareWalker.lhsFieldSteps t (eraseOf rhs key) w (ValueMap.erase l key)) c := by
  induction l with
  | nil => intro c; rfl
  | cons f rest ih =>
    intro c
    obtain ⟨k2, v⟩ := f
    by_cases h2 : k2 = key
    · subst h2
      have : ValueMap.erase ((k2, v) :: rest) k2 = ValueMap.erase rest k2 := by
        simp [ValueMap.erase]
      rw [this, ← ih]
      simp only [compareWalker.lhsFieldSteps, runCmp_descend]
      rw [compare_noType s n _ c (by simp [compareWalker.fieldFrame]) hres]
      rfl
    · have : ValueMap.erase ((k2, v) :: rest) key = (k2, v) :: ValueMap.erase rest key := by
        simp [ValueMap.erase, h2]
      rw [this]
      simp only [compareWalker.lhsFieldSteps, runCmp_descend, getOf_eraseOf_ne rhs key k2 h2]
      cases compareWalker.compare s (n + 1) (w.fieldFrame t k2 (some v) (getOf rhs k2)) c with
      | none => rfl
      | some r => exact ih _

theorem rhsFieldSteps_erase (s : Schema) (n : Nat) (t : MapType) (key : String)
    (hres : s.Resolve (t.fieldType key) = none) (lhs : Option ValueMap) (w : compareWalker)
    (r : ValueMap) :
    ∀ c : Comparison,
      runCmp (compareWalker.compare s (n + 1)) (compareWalker.rhsFieldSteps t lhs w r) c =
        runCmp (compareWalker.compare s (n + 1))
          (compareWalker.rhsFieldSteps t (eraseOf lhs key) w (ValueMap.erase r key)) c := by
  induction r with
  | nil => intro c; rfl
  | cons f rest ih =>
    intro c
    obtain ⟨k2, v⟩ := f
    by_cases h2 : k2 = key
    · subst h2
      have : ValueMap.erase ((k2, v) :: rest) k2 = ValueMap.erase rest k2 := by
        simp [ValueMap.erase]
      rw [this, ← ih]
      simp only [compareWalker.rhsFieldSteps]
      split
      · rfl
      · rw [runCmp_descend, compare_noType s n _ c (by simp [compareWalker.fieldFrame]) hres]
        rfl
    · have : ValueMap.erase ((k2, v) :: rest) key = (k2, v) :: ValueMap.erase rest key := by
        simp [ValueMap.erase, h2]
      rw [this]
      simp only [compareWalker.rhsFieldSteps, getOf_eraseOf_ne lhs key k2 h2]
      split
      · exact ih _
      · simp only [runCmp_descend]
        cases compareWalker.compare s (n + 1) (w.fieldFrame t k2 none (some v)) c with
        | none => rfl
        | some r => exact ih _

theorem itemsOf_eraseOf (m : Option ValueMap) (key : String) :
    itemsOf (eraseOf m key) = ValueMap.erase (itemsOf m) key := by
  cases m <;> rfl

theorem compare_unresolved (s : Schema) (n : Nat) (w : compareWalker) (c : Comparison)
    (hres : s.Resolve w.typeRef = none) :
    ∃ errs, compareWalker.compare s (n + 1) w c = some (w, c, errs) := by
  rw [compare_succ]
  split
  · exact ⟨_, rfl⟩
  · rw [hres]
    exact ⟨_, rfl⟩

theorem visitMapItems_mem (s : Schema) (n : Nat) (t : MapType) (lhs rhs : Option ValueMap)
    (w : compareWalker) (c : Comparison) (r : compareWalker × Comparison × ValidationErrors)
    (h : w.visitMapItems (compareWalker.compare s (n + 1)) t lhs rhs c = some r)
    (k : DiffKind) (p : Path) :
    p ∈ (r.2.1.get k).paths ↔
      p ∈ (c.get k).paths ∨
        ∃ f, Step.descend f ∈ w.mapSteps t lhs rhs ∧ (s.Resolve f.typeRef).isSome = true ∧
          ∃ r2, compareWalker.compare s (n + 1) f Comparison.empty = some r2 ∧
            p ∈ (r2.2.1.get k).paths := by
  rw [visitMapItems_eq_runSteps (compare_keepsPath s (n + 1))] at h
  simp only [Option.map_eq_some'] at h
  obtain ⟨x, hx, hxr⟩ := h
  subst hxr
  rw [runSteps_mem (compare_frames s (n + 1)) _ _ _ _ hx k p]
  constructor
  · rintro (hp | ⟨f, hf, r2, hr2, hp⟩)
    · exact Or.inl hp
    · refine Or.inr ⟨f, hf, ?_, r2, hr2, hp⟩
      cases hres : s.Resolve f.typeRef with
      | some a => rfl
      | none =>
        obtain ⟨errs, he⟩ := compare_unresolved s n f Comparison.empty hres
        rw [he] at hr2
        simp only [Option.some.injEq] at hr2
        rw [← hr2, comparison_get_empty] at hp
        cases hp
  · rintro (hp | ⟨f, hf, _, r2, hr2, hp⟩)
    · exact Or.inl hp
    · exact Or.inr ⟨f, hf, r2, hr2, hp⟩

/-- C10 (a missing named type aborts only its subtree).  When the type reference of a
frame names a type the schema does not have, `compare` on that frame returns exactly
one error, the schema error, and leaves `Added`, `Removed` and `Modified` as they were.
The fields of a map are visited regardless.  Every field of `lhs`, and every field of
`rhs` that `lhs` does not have, has its frame among the steps of `visitMapItems`; the
visitor returns when the fuel is enough for these frames, and what it records is what
the walks of the frames whose type resolves record: the siblings of a field of a missing
type are compared and their differences recorded, the field itself contributes nothing.
So what the visitor records is what it records with the field taken out of both
sides. -/
theorem C10_missing_type_aborts_subtree (s : Schema) (n : Nat) :
    (∀ (w : compareWalker) (c : Comparison), ¬ (w.lhs = none ∧ w.rhs = none) →
      s.Resolve w.typeRef = none →
      compareWalker.compare s (n + 1) w c =
        some (w, c, [.noTypeFound w.typeRef.NamedType])) ∧
    (∀ (t : MapType) (lhs rhs : Option ValueMap) (w : compareWalker) (c : Comparison),
      (∀ e ∈ itemsOf lhs,
        Step.descend (w.fieldFrame t e.1 (some e.2) (getOf rhs e.1)) ∈ w.mapSteps t lhs rhs) ∧
      (∀ e ∈ itemsOf rhs, getOf lhs e.1 = none →
        Step.descend (w.fieldFrame t e.1 none (some e.2)) ∈ w.mapSteps t lhs rhs) ∧
      ((∀ f, Step.descend f ∈ w.mapSteps t lhs rhs → f.fuel ≤ n + 1) →
        (w.visitMapItems (compareWalker.compare s (n + 1)) t lhs rhs c).isSome = true) ∧
      (∀ r, w.visitMapItems (compareWalker.compare s (n + 1)) t lhs rhs c = some r →
        ∀ (k : DiffKind) (p : Path), p ∈ (r.2.1.get k).paths ↔
          p ∈ (c.get k).paths ∨
            ∃ f, Step.descend f ∈ w.mapSteps t lhs rhs ∧
              (s.Resolve f.typeRef).isSome = true ∧
              ∃ r2, compareWalker.compare s (n + 1) f Comparison.empty = some r2 ∧
                p ∈ (r2.2.1.get k).paths)) ∧
    (∀ (t : MapType) (key : String) (lhs rhs : Option ValueMap) (w : compareWalker)
      (c : Comparison), s.Resolve (t.fieldType key) = none →
      Option.map (fun r => (r.1, r.2.1))
          (w.visitMapItems (compareWalker.compare s (n + 1)) t lhs rhs c) =
        Option.map (fun r => (r.1, r.2.1))
          (w.visitMapItems (compareWalker.compare s (n + 1)) t (eraseOf lhs key)
            (eraseOf rhs key) c)) := by
  refine ⟨fun w c hsides hres => compare_noType s n w c hsides hres, ?_, ?_⟩
  · intro t lhs rhs w c
    refine ⟨?_, ?_, ?_, fun r h k p => visitMapItems_mem s n t lhs rhs w c r h k p⟩
    · intro e he
      simp only [compareWalker.mapSteps, List.mem_append, lhsFieldSteps_descend_mem]
      exact Or.inl ⟨e, he, rfl⟩
    · intro e he hnone
      simp only [compareWalker.mapSteps, List.mem_append, rhsFieldSteps_descend_mem]
      exact Or.inr ⟨e, he, hnone, rfl⟩
    · intro hfuel
      rw [visitMapItems_eq_runSteps (compare_keepsPath s (n + 1))]
      simp only [Option.isSome_map']
      exact runSteps_isSome _ _
        (fun f hf c2 => compare_isSome s (n + 1) f c2 (hfuel f hf)) _ _
  · intro t key lhs rhs w c hres
    rw [visitMapItems_cmp (compare_keepsPath s (n + 1)),
      visitMapItems_cmp (compare_keepsPath s (n + 1))]
    simp only [compareWalker.mapSteps, runCmp_append, itemsOf_eraseOf]
    rw [lhsFieldSteps_erase s n t key hres rhs w (itemsOf lhs) c]
    cases runCmp (compareWalker.compare s (n + 1))
        (compareWalker.lhsFieldSteps t (eraseOf rhs key) w (ValueMap.erase (itemsOf lhs) key))
        c with
    | none => rfl
    | some c2 =>
      simp only [Option.some_bind]
      rw [rhsFieldSteps_erase s n t key hres lhs w (itemsOf rhs) c2]

theorem C10_missing_type_aborts_subtree_witness :
    compareWalker.compare ⟨[]⟩ 1
        (exParentC.fieldFrame exMapTypeC "b" (some (.int 2)) (some (.int 3)))
        Comparison.empty =
      some (exParentC.fieldFrame exMapTypeC "b" (some (.int 2)) (some (.int 3)),
        Comparison.empty, [.noTypeFound (some "missing")]) ∧
    Step.descend (exParentC.fieldFrame exMapTypeC "c" none (some (.int 5))) ∈
      exParentC.mapSteps exMapTypeC (some [("a", .int 1), ("b", .int 2)])
        (some [("a", .int 2), ("b", .int 3), ("c", .int 5)]) ∧
    Option.map (fun r => r.2)
        (exParentC.visitMapItems (compareWalker.compare ⟨[]⟩ 1) exMapTypeC
          (some [("a", .int 1), ("b", .int 2)])
          (some [("a", .int 2), ("b", .int 3), ("c", .int 5)]) Comparison.empty) =
      some (⟨⟨[[.fieldName "c"]]⟩, ⟨[]⟩, ⟨[[.fieldName "a"]]⟩⟩,
        [.noTypeFound (some "missing")]) :=
  ⟨(C10_missing_type_aborts_subtree ⟨[]⟩ 0).1 _ _ (by simp [compareWalker.fieldFrame]) rfl,
    ((C10_missing_type_aborts_subtree ⟨[]⟩ 0).2.1 exMapTypeC
      (some [("a", .int 1), ("b", .int 2)])
      (some [("a", .int 2), ("b", .int 3), ("c", .int 5)]) exParentC Comparison.empty).2.1
      ("c", .int 5) (by simp [itemsOf]) rfl,
    by decide⟩

/-! ## Frames that are no leaves -/

theorem handleBoth_nonLeaf {cmp : CompareFn} (hk : KeepsPath cmp) (s : Schema)
    (w : compareWalker) (c : Comparison) (v : Value) (hnl : NonLeafAt s w.typeRef v)
    (hv : (w.lhs = none ∧ w.rhs = some v) ∨ (w.lhs = some v ∧ w.rhs = none)) :
    ∃ a, s.Resolve w.typeRef = some a ∧
      ∀ r : compareWalker × Comparison × ValidationErrors,
        w.handleBoth cmp (deduceAtom a w.lhs) (deduceAtom a w.rhs) c = some r → r.1 = w := by
  rcases hnl with ⟨t, x, xs, hres, hrel, hval⟩ | ⟨t, f, fs, hres, hrel, hval⟩
  · refine ⟨_, hres, ?_⟩
    intro r h
    simp only [deduceAtom_of_ne_untyped (.list t) _ (by simp), compareWalker.handleBoth,
      if_true, handleAtom, compareWalker.doList, derefList_eq] at h
    have hne : (nilOrEmpty (match w.lhs with
        | some (.list l) => some l
        | _ => none) && nilOrEmpty (match w.rhs with
        | some (.list l) => some l
        | _ => none)) = false := by
      rcases hv with ⟨hl, hr⟩ | ⟨hl, hr⟩ <;> subst hval <;> simp [hl, hr, nilOrEmpty]
    simp only [hrel, hne, decide_False, Bool.or_self, Bool.false_eq_true, if_false] at h
    rw [visitListItems_eq_runSteps hk] at h
    simp only [Option.map_eq_some'] at h
    obtain ⟨a, _, ha⟩ := h
    rw [← ha]
  · refine ⟨_, hres, ?_⟩
    intro r h
    simp only [deduceAtom_of_ne_untyped (.map t) _ (by simp), compareWalker.handleBoth,
      if_true, handleAtom, compareWalker.doMap, derefMap_eq] at h
    have hne : (nilOrEmpty (match w.lhs with
        | some (.map l) => some l
        | _ => none) && nilOrEmpty (match w.rhs with
        | some (.map l) => some l
        | _ => none)) = false := by
      rcases hv with ⟨hl, hr⟩ | ⟨hl, hr⟩ <;> subst hval <;> simp [hl, hr, nilOrEmpty]
    simp only [hrel, hne, decide_False, Bool.or_self, Bool.false_eq_true, if_false] at h
    split at h
    · simp only [Option.some.injEq] at h
      rw [← h]
    · rw [visitMapItems_eq_runSteps hk] at h
      simp only [Option.map_eq_some'] at h
      obtain ⟨a, _, ha⟩ := h
      rw [← ha]

theorem compare_nonLeaf (s : Schema) (n : Nat) (w : compareWalker) (c : Comparison)
    (v : Value) (hn : w.fuel ≤ n) (hleaf : w.inLeaf = false) (hnl : NonLeafAt s w.typeRef v)
    (hv : (w.lhs = none ∧ w.rhs = some v) ∨ (w.lhs = some v ∧ w.rhs = none)) :
    ∃ r1, compareWalker.compare s n w c = some (compareWalker.recordRoot (w, r1)) := by
  have hsome := compare_isSome s n w c hn
  cases n with
  | zero => simp [compareWalker.compare] at hsome
  | succ m =>
    obtain ⟨a, hres, hfst⟩ := handleBoth_nonLeaf (compare_keepsPath s m) s w c v hnl hv
    rw [compare_succ] at hsome ⊢
    have h1 : (w.lhs.isNone && w.rhs.isNone) = false := by
      rcases hv with ⟨hl, hr⟩ | ⟨hl, hr⟩ <;> simp [hl, hr]
    simp only [h1, Bool.false_eq_true, if_false, hres] at hsome ⊢
    cases hb : w.handleBoth (compareWalker.compare s m) (deduceAtom a w.lhs)
        (deduceAtom a w.rhs) c with
    | none => simp [hb] at hsome
    | some r =>
      obtain ⟨w1, r1⟩ := r
      have := hfst (w1, r1) hb
      simp only at this
      subst this
      exact ⟨r1, rfl⟩

theorem listSteps_inLeaf (t : ListType) (lhs rhs : Option ValueList) (w w2 : compareWalker)
    (h : Step.descend w2 ∈ w.listSteps t lhs rhs) : w2.inLeaf = w.inLeaf := by
  obtain ⟨⟨pe, hpe⟩, _⟩ := listSteps_frame _ _ _ _ _ h
  rw [hpe]
  rfl

theorem mapSteps_inLeaf (t : MapType) (lhs rhs : Option ValueMap) (w w2 : compareWalker)
    (h : Step.descend w2 ∈ w.mapSteps t lhs rhs) : w2.inLeaf = w.inLeaf := by
  obtain ⟨⟨key, hkey, _⟩, _⟩ := mapSteps_frame _ _ _ _ _ h
  rw [hkey]
  rfl

theorem handleAtom_deduced_leaf (cmp : CompareFn) (a : Atom) (l r : Option Value)
    (h : deduceAtom a l ≠ deduceAtom a r) (tr : TypeRef) (w : compareWalker) (c : Comparison) :
    handleAtom cmp (deduceAtom a l) tr w c = some ((w.doLeaf c).1, (w.doLeaf c).2, []) := by
  cases a with
  | scalar t => exact absurd rfl h
  | list t => exact absurd rfl h
  | map t => exact absurd rfl h
  | untyped =>
    cases l with
    | none => rfl
    | some x => cases x <;> rfl

/-- C6 (the root of a subtree is recorded).  A frame the walk reaches is not in a leaf
(`inLeaf = false`): the root frame is not, a child frame made by `visitListItems` or
`visitMapItems` copies the flag of its parent, and a frame whose two sides deduce
different atoms is a leaf under both, so that nothing is visited below it.  When such
a frame at path `p` is no leaf, its type being a list or map type that is not atomic
and its present side a non-empty list or map, then with `lhs` absent the walk returns
and the last thing it does is to insert `p` into `Added`, and with `rhs` absent it is
to insert `p` into `Removed`. -/
theorem C6_subtree_root_recorded (s : Schema) (n : Nat) (w : compareWalker) (c : Comparison)
    (v : Value) (hn : w.fuel ≤ n) (hleaf : w.inLeaf = false)
    (hnl : NonLeafAt s w.typeRef v) :
    (w.lhs = none → w.rhs = some v →
      ∃ r, compareWalker.compare s n w c = some r ∧ r.1 = w ∧
        ∃ d : Comparison, r.2.1 = { d with Added := d.Added.Insert w.path }) ∧
    (w.lhs = some v → w.rhs = none →
      ∃ r, compareWalker.compare s n w c = some r ∧ r.1 = w ∧
        ∃ d : Comparison, r.2.1 = { d with Removed := d.Removed.Insert w.path }) ∧
    (∀ (t : ListType) (lhs rhs : Option ValueList) (w2 : compareWalker),
      Step.descend w2 ∈ w.listSteps t lhs rhs → w2.inLeaf = false) ∧
    (∀ (t : MapType) (lhs rhs : Option ValueMap) (w2 : compareWalker),
      Step.descend w2 ∈ w.mapSteps t lhs rhs → w2.inLeaf = false) ∧
    (∀ (a : Atom) (cmp : CompareFn), deduceAtom a w.lhs ≠ deduceAtom a w.rhs →
      ∀ w1 c1, handleAtom cmp (deduceAtom a w.lhs) w.typeRef w1 c1 =
          some ((w1.doLeaf c1).1, (w1.doLeaf c1).2, []) ∧
        handleAtom cmp (deduceAtom a w.rhs) w.typeRef w1 c1 =
          some ((w1.doLeaf c1).1, (w1.doLeaf c1).2, [])) := by
  refine ⟨?_, ?_, ?_, ?_, ?_⟩
  · intro hl hr
    obtain ⟨r1, h1⟩ := compare_nonLeaf s n w c v hn hleaf hnl (Or.inl ⟨hl, hr⟩)
    refine ⟨_, h1, by rw [recordRoot_fst], r1.1, ?_⟩
    simp [compareWalker.recordRoot, hleaf, hl]
  · intro hl hr
    obtain ⟨r1, h1⟩ := compare_nonLeaf s n w c v hn hleaf hnl (Or.inr ⟨hl, hr⟩)
    refine ⟨_, h1, by rw [recordRoot_fst], r1.1, ?_⟩
    simp [compareWalker.recordRoot, hleaf, hl, hr]
  · intro t lhs rhs w2 h
    rw [listSteps_inLeaf t lhs rhs w w2 h, hleaf]
  · intro t lhs rhs w2 h
    rw [mapSteps_inLeaf t lhs rhs w w2 h, hleaf]
  · intro a cmp hne w1 c1
    exact ⟨handleAtom_deduced_leaf cmp a _ _ hne _ _ _,
      handleAtom_deduced_leaf cmp a _ _ (fun e => hne e.symm) _ _ _⟩

theorem C6_subtree_root_recorded_witness :
    ∃ r, compareWalker.compare ⟨[]⟩ 3 exAbsent Comparison.empty = some r ∧ r.1 = exAbsent ∧
      ∃ d : Comparison, r.2.1 = { d with Added := d.Added.Insert exAbsent.path } :=
  (C6_subtree_root_recorded ⟨[]⟩ 3 exAbsent Comparison.empty (.map [("a", .int 1)])
    (by decide) rfl (Or.inr ⟨_, _, _, rfl, by decide, rfl⟩)).1 rfl rfl

/-! ## Sets a walk leaves alone -/

theorem runSteps_get_eq {cmp : CompareFn} (hf : Frames cmp) (steps : List Step)
    (k : DiffKind)
    (hnone : ∀ w2, Step.descend w2 ∈ steps → ∀ r2, cmp w2 Comparison.empty = some r2 →
      (r2.2.1.get k).paths = [])
    (c : Comparison) (errs : ValidationErrors) (r : Comparison × ValidationErrors)
    (h : runSteps cmp steps c errs = some r) : r.1.get k = c.get k := by
  rw [runSteps_frames hf] at h
  simp only [Option.map_eq_some'] at h
  obtain ⟨a, ha, har⟩ := h
  subst har
  have hd : (a.1.get k).paths = [] := by
    apply List.eq_nil_iff_forall_not_mem.2
    intro p hp
    rcases (runSteps_mem hf steps _ _ a ha k p).1 hp with h1 | ⟨w2, hm, r2, hr2, hp2⟩
    · rw [comparison_get_empty] at h1
      cases h1
    · rw [hnone w2 hm r2 hr2] at hp2
      cases hp2
  have : ((c.append a.1).get k).paths = (c.get k).paths := by
    rw [comparison_get_append, hd, List.append_nil]
  cases hx : (c.append a.1).get k
  cases hy : c.get k
  simp only [hx, hy] at this
  simp only [this]

theorem compare_untouched (s : Schema) (k : DiffKind) (Q : compareWalker → Prop)
    (hsb : ∀ w w2 : compareWalker, w.sameButLeaf w2 → Q w → Q w2)
    (hleafQ : ∀ (w : compareWalker) (c : Comparison), Q w → (w.doLeaf c).2.get k = c.get k)
    (hrec : ∀ r : compareWalker × Comparison × ValidationErrors, Q r.1 →
      (compareWalker.recordRoot r).2.1.get k = r.2.1.get k)
    (hlist : ∀ (w : compareWalker) (t : ListType) (w2 : compareWalker), Q w →
      Step.descend w2 ∈ w.listSteps t (compareWalker.derefList .lhs w.lhs none).2
        (compareWalker.derefList .rhs w.rhs none).2 → Q w2)
    (hmap : ∀ (w : compareWalker) (t : MapType) (w2 : compareWalker), Q w →
      Step.descend w2 ∈ w.mapSteps t (compareWalker.derefMap .lhs w.lhs none).2
        (compareWalker.derefMap .rhs w.rhs none).2 → Q w2) :
    ∀ (n : Nat) (w : compareWalker) (c : Comparison)
      (r : compareWalker × Comparison × ValidationErrors),
      compareWalker.compare s n w c = some r → Q w → r.2.1.get k = c.get k := by
  intro n
  induction n with
  | zero => intro w c r h; simp [compareWalker.compare] at h
  | succ n ih =>
    have hk := compare_keepsPath s n
    have hf := compare_frames s n
    have hchild : ∀ w2, Q w2 → ∀ r2, compareWalker.compare s n w2 Comparison.empty = some r2 →
        (r2.2.1.get k).paths = [] := by
      intro w2 hq r2 h2
      rw [ih w2 _ r2 h2 hq, comparison_get_empty]
    have hatom : ∀ (a : Atom) (tr : TypeRef) (w : compareWalker) (c : Comparison)
        (r : compareWalker × Comparison × ValidationErrors),
        handleAtom (compareWalker.compare s n) a tr w c = some r → Q w →
          r.2.1.get k = c.get k := by
      intro a tr w c r h hq
      cases a with
      | scalar t =>
        simp only [handleAtom, compareWalker.doScalar, Option.some.injEq] at h
        subst h
        exact hleafQ w c hq
      | untyped =>
        simp only [handleAtom, Option.some.injEq] at h
        subst h
        exact hleafQ w c hq
      | list t =>
        simp only [handleAtom, compareWalker.doList] at h
        split at h
        · simp only [Option.some.injEq] at h
          subst h
          exact hleafQ w c hq
        · rw [visitListItems_eq_runSteps hk] at h
          simp only [Option.map_eq_some'] at h
          obtain ⟨a, ha, har⟩ := h
          subst har
          exact runSteps_get_eq hf _ k
            (fun w2 hm r2 h2 => hchild w2 (hlist w t w2 hq hm) r2 h2) _ _ _ ha
      | map t =>
        simp only [handleAtom, compareWalker.doMap] at h
        split at h
        · simp only [Option.some.injEq] at h
          subst h
          exact hleafQ w c hq
        · split at h
          · simp only [Option.some.injEq] at h
            subst h
            rfl
          · rw [visitMapItems_eq_runSteps hk] at h
            simp only [Option.map_eq_some'] at h
            obtain ⟨a, ha, har⟩ := h
            subst har
            exact runSteps_get_eq hf _ k
              (fun w2 hm r2 h2 => hchild w2 (hmap w t w2 hq hm) r2 h2) _ _ _ ha
    intro w c r h hq
    rw [compare_succ] at h
    split at h
    · simp only [Option.some.injEq] at h
      subst h
      rfl
    · split at h
      · simp only [Option.some.injEq] at h
        subst h
        rfl
      · simp only [Option.map_eq_some'] at h
        obtain ⟨r1, h1, h2⟩ := h
        subst h2
        have hsame := handleBoth_sameButLeaf hk _ _ _ _ _ h1
        rw [hrec r1 (hsb _ _ hsame hq)]
        unfold compareWalker.handleBoth at h1
        split at h1
        · exact hatom _ _ _ _ _ h1 hq
        · rename_i a _ _
          cases h3 : handleAtom (compareWalker.compare s n) (deduceAtom a w.lhs) w.typeRef w c with
          | none => simp [h3] at h1
          | some r3 =>
            obtain ⟨w3, c3, e3⟩ := r3
            simp only [h3] at h1
            cases h4 : handleAtom (compareWalker.compare s n) (deduceAtom a w.rhs) w3.typeRef
                w3 c3 with
            | none => simp [h4] at h1
            | some r4 =>
              obtain ⟨w4, c4, e4⟩ := r4
              simp only [h4, Option.some.injEq] at h1
              subst h1
              have hq3 : Q w3 := hsb _ _ (handleAtom_sameButLeaf hk _ _ _ _ _ h3) hq
              rw [hatom _ _ _ _ _ h4 hq3]
              exact hatom _ _ _ _ _ h3 hq

theorem listSteps_lhs_none (t : ListType) (lhs rhs : Option ValueList) (w w2 : compareWalker)
    (h : Step.descend w2 ∈ w.listSteps t lhs rhs) (hl : itemsOf lhs = []) : w2.lhs = none := by
  obtain ⟨_, h1, _, _⟩ := listSteps_frame _ _ _ _ _ h
  cases hw : w2.lhs with
  | none => rfl
  | some v =>
    have := h1 v hw
    rw [hl] at this
    cases this

theorem listSteps_rhs_none (t : ListType) (lhs rhs : Option ValueList) (w w2 : compareWalker)
    (h : Step.descend w2 ∈ w.listSteps t lhs rhs) (hr : itemsOf rhs = []) :
    w2.rhs = none ∧ w2.lhs.isSome = true := by
  obtain ⟨_, _, h2, h3⟩ := listSteps_frame _ _ _ _ _ h
  cases hw : w2.rhs with
  | none =>
    rw [hw] at h3
    rcases h3 with h3 | h3 | ⟨h3, _⟩
    · exact ⟨rfl, h3⟩
    · cases h3
    · exact absurd hr h3
  | some v =>
    have := h2 v hw
    rw [hr] at this
    cases this

theorem mapSteps_lhs_none (t : MapType) (lhs rhs : Option ValueMap) (w w2 : compareWalker)
    (h : Step.descend w2 ∈ w.mapSteps t lhs rhs) (hl : itemsOf lhs = []) : w2.lhs = none := by
  obtain ⟨⟨key, _, h1, _⟩, _⟩ := mapSteps_frame _ _ _ _ _ h
  cases hw : w2.lhs with
  | none => rfl
  | some v =>
    have := h1 v hw
    rw [hl] at this
    cases this

theorem mapSteps_rhs_none (t : MapType) (lhs rhs : Option ValueMap) (w w2 : compareWalker)
    (h : Step.descend w2 ∈ w.mapSteps t lhs rhs) (hr : itemsOf rhs = []) :
    w2.rhs = none ∧ w2.lhs.isSome = true := by
  obtain ⟨⟨key, _, _, h2⟩, h3⟩ := mapSteps_frame _ _ _ _ _ h
  cases hw : w2.rhs with
  | none =>
    rw [hw] at h3
    simpa using h3
  | some v =>
    have := h2 v hw
    rw [hr] at this
    cases this

theorem derefList_none (side : Side) : itemsOf (compareWalker.derefList side none none).2 = [] :=
  rfl

theorem derefMap_none (side : Side) : itemsOf (compareWalker.derefMap side none none).2 = [] :=
  rfl

theorem compare_lhs_absent (s : Schema) (k : DiffKind) (hk : k ≠ .added) :
    ∀ (n : Nat) (w : compareWalker) (c : Comparison)
      (r : compareWalker × Comparison × ValidationErrors),
      compareWalker.compare s n w c = some r → w.lhs = none → r.2.1.get k = c.get k := by
  apply compare_untouched s k (fun w => w.lhs = none)
  · intro w w2 hs hq
    rw [sameButLeaf_lhs hs]
    exact hq
  · intro w c hq
    rw [doLeaf_snd]
    simp only [hq]
    cases k
    · exact absurd rfl hk
    · rfl
    · rfl
  · intro r hq
    simp only [compareWalker.recordRoot, hq, Option.isNone_none, if_true]
    split
    · cases k
      · exact absurd rfl hk
      · rfl
      · rfl
    · rfl
  · intro w t w2 hq hm
    rw [hq] at hm
    exact listSteps_lhs_none _ _ _ _ _ hm (derefList_none _)
  · intro w t w2 hq hm
    rw [hq] at hm
    exact mapSteps_lhs_none _ _ _ _ _ hm (derefMap_none _)

theorem compare_rhs_absent (s : Schema) (k : DiffKind) (hk : k ≠ .removed) :
    ∀ (n : Nat) (w : compareWalker) (c : Comparison)
      (r : compareWalker × Comparison × ValidationErrors),
      compareWalker.compare s n w c = some r → w.rhs = none ∧ w.lhs.isSome = true →
        r.2.1.get k = c.get k := by
  apply compare_untouched s k (fun w => w.rhs = none ∧ w.lhs.isSome = true)
  · intro w w2 hs hq
    rw [sameButLeaf_lhs hs, sameButLeaf_rhs hs]
    exact hq
  · intro w c hq
    rw [doLeaf_snd]
    obtain ⟨h1, h2⟩ := hq
    cases hl : w.lhs with
    | none => simp [hl] at h2
    | some l =>
      simp only [h1]
      cases k
      · rfl
      · exact absurd rfl hk
      · rfl
  · intro r hq
    obtain ⟨h1, h2⟩ := hq
    cases hl : r.1.lhs with
    | none => simp [hl] at h2
    | some l =>
      simp only [compareWalker.recordRoot, h1, hl, Option.isNone_none, Option.isNone_some,
        if_true, Bool.false_eq_true, if_false]
      split
      · cases k
        · rfl
        · exact absurd rfl hk
        · rfl
      · rfl
  · intro w t w2 hq hm
    rw [hq.1] at hm
    exact listSteps_rhs_none _ _ _ _ _ hm (derefList_none _)
  · intro w t w2 hq hm
    rw [hq.1] at hm
    exact mapSteps_rhs_none _ _ _ _ _ hm (derefMap_none _)

/-! ## A well-formed value equals itself -/

theorem Get_of_mem_nodup (m : ValueMap) (k : String) (v : Value)
    (hnd : (ValueMap.keys m).Nodup) (hm : (k, v) ∈ m) : ValueMap.Get m k = some v := by
  induction m with
  | nil => simp at hm
  | cons f rest ih =>
    obtain ⟨k2, u⟩ := f
    simp only [ValueMap.keys, List.map_cons, List.nodup_cons, List.mem_map, not_exists,
      not_and] at hnd
    simp only [List.mem_cons, Prod.mk.injEq] at hm
    rcases hm with ⟨h1, h2⟩ | hm
    · subst h1
      subst h2
      simp [ValueMap.Get]
    · have hne : ¬ k2 = k := by
        intro e
        exact hnd.1 (k, v) hm e.symm
      simp only [ValueMap.Get, hne, if_false]
      exact ih hnd.2 hm

/-! ## Values without NaN -/

theorem noNaNList_mem (xs : List Value) (h : Value.noNaNList xs = true) (x : Value)
    (hx : x ∈ xs) : x.NoNaN = true := by
  induction xs with
  | nil => simp at hx
  | cons y rest ih =>
    simp only [Value.noNaNList, Bool.and_eq_true] at h
    rcases List.mem_cons.1 hx with e | hm
    · rw [e]
      exact h.1
    · exact ih h.2 hm

theorem noNaNFields_mem (m : List (String × Value)) (h : Value.noNaNFields m = true)
    (f : String × Value) (hf : f ∈ m) : f.2.NoNaN = true := by
  induction m with
  | nil => simp at hf
  | cons y rest ih =>
    obtain ⟨k, u⟩ := y
    simp only [Value.noNaNFields, Bool.and_eq_true] at h
    rcases List.mem_cons.1 hf with e | hm
    · rw [e]
      exact h.1
    · exact ih h.2 hm

theorem asScalar_noNaN (v : Value) (sv : ScalarValue) (h : v.asScalar = some sv)
    (hn : v.NoNaN = true) : sv.NoNaN = true := by
  cases v <;> simp only [Value.asScalar, Option.some.injEq, reduceCtorEq] at h <;>
    subst h <;> first | rfl | exact hn

theorem projectKeys_noNaN (m : ValueMap) (hn : Value.noNaNFields m = true) :
    ∀ (ks : List String) (kvs : List (String × ScalarValue)), projectKeys m ks = .ok kvs →
      ∀ f ∈ kvs, f.2.NoNaN = true := by
  intro ks
  induction ks with
  | nil =>
    intro kvs h f hf
    simp only [projectKeys, Except.ok.injEq] at h
    rw [← h] at hf
    cases hf
  | cons k rest ih =>
    intro kvs h f hf
    simp only [projectKeys] at h
    cases hg : ValueMap.Get m k with
    | none => simp [hg] at h
    | some v =>
      cases hs : v.asScalar with
      | none => simp [hg, hs] at h
      | some sv =>
        cases hr : projectKeys m rest with
        | error e => simp [hg, hs, hr] at h
        | ok kvs2 =>
          simp only [hg, hs, hr, Except.ok.injEq] at h
          rw [← h] at hf
          rcases List.mem_cons.1 hf with e | hm
          · rw [e]
            exact asScalar_noNaN v sv hs
              (noNaNFields_mem m hn (k, v) (valueMap_Get_mem m k v hg))
          · exact ih kvs2 hr f hm

theorem insertKeyField_mem (f g : String × ScalarValue) :
    ∀ l : List (String × ScalarValue), g ∈ insertKeyField f l → g = f ∨ g ∈ l := by
  intro l
  induction l with
  | nil =>
    intro h
    simp only [insertKeyField, List.mem_singleton] at h
    exact Or.inl h
  | cons x rest ih =>
    intro h
    simp only [insertKeyField] at h
    split at h
    · rcases List.mem_cons.1 h with e | hm
      · exact Or.inr (by rw [e]; exact List.mem_cons_self _ _)
      · rcases ih hm with e | hm2
        · exact Or.inl e
        · exact Or.inr (List.mem_cons_of_mem _ hm2)
    · rcases List.mem_cons.1 h with e | hm
      · exact Or.inl e
      · exact Or.inr hm

theorem sortKeyFields_mem (g : String × ScalarValue) :
    ∀ l : List (String × ScalarValue), g ∈ sortKeyFields l → g ∈ l := by
  intro l
  induction l with
  | nil => intro h; exact h
  | cons x rest ih =>
    intro h
    simp only [sortKeyFields] at h
    rcases insertKeyField_mem x g _ h with e | hm
    · rw [e]
      exact List.mem_cons_self _ _
    · exact List.mem_cons_of_mem _ (ih hm)

theorem listItem_noNaN (t : ListType) (i : Nat) (child : Value) (pe : PathElement)
    (h : listItemToPathElement t i child = .ok pe) (hn : child.NoNaN = true) :
    pe.NoNaN = true := by
  have hset : ∀ q, setItemToPathElement child = .ok q → q.NoNaN = true := by
    intro q hq
    simp only [setItemToPathElement] at hq
    cases hs : child.asScalar with
    | none => simp [hs] at hq
    | some sv =>
      simp only [hs, Except.ok.injEq] at hq
      rw [← hq]
      exact asScalar_noNaN child sv hs hn
  have hkey : ∀ q, keyedAssociativeListItemToPathElement t child = .ok q →
      q.NoNaN = true := by
    intro q hq
    cases child with
    | map fields =>
      simp only [keyedAssociativeListItemToPathElement] at hq
      cases hp : projectKeys fields t.Keys with
      | error e => simp [hp] at hq
      | ok kvs =>
        simp only [hp, Except.ok.injEq] at hq
        rw [← hq]
        simp only [PathElement.NoNaN, List.all_eq_true]
        intro f hf
        simp only [Value.NoNaN] at hn
        exact projectKeys_noNaN fields hn _ kvs hp f (sortKeyFields_mem f kvs hf)
    | _ => simp [keyedAssociativeListItemToPathElement] at hq
  simp only [listItemToPathElement] at h
  split at h
  · split at h
    · exact hkey pe h
    · exact hset pe h
  · exact hset pe h
  · simp only [Except.ok.injEq] at h
    rw [← h]
    rfl

theorem okItems_noNaN (t : ListType) (l : ValueList) (hn : Value.noNaNList l = true) :
    ∀ (i : Nat), ∀ e ∈ okItems t l i, e.1.Equals e.1 = true := by
  induction l with
  | nil =>
    intro i e he
    simp [okItems] at he
  | cons child rest ih =>
    intro i e he
    simp only [Value.noNaNList, Bool.and_eq_true] at hn
    simp only [okItems] at he
    cases hpe : listItemToPathElement t i child with
    | error err =>
      rw [hpe] at he
      exact ih hn.2 _ e he
    | ok q =>
      rw [hpe] at he
      rcases List.mem_cons.1 he with h | h
      · rw [h]
        exact peEquals_refl q (listItem_noNaN t i child q hpe hn.1)
      · exact ih hn.2 _ e h

theorem derefList_noNaN (side : Side) (v : Option Value)
    (h : ∀ x, v = some x → x.NoNaN = true) :
    Value.noNaNList (itemsOf (compareWalker.derefList side v none).2) = true := by
  rw [derefList_eq]
  cases v with
  | none => rfl
  | some x =>
    have hx := h x rfl
    cases x <;> first | rfl | exact hx

theorem derefMap_noNaN (side : Side) (v : Option Value)
    (h : ∀ x, v = some x → x.NoNaN = true) :
    Value.noNaNFields (itemsOf (compareWalker.derefMap side v none).2) = true := by
  rw [derefMap_eq]
  cases v with
  | none => rfl
  | some x =>
    have hx := h x rfl
    cases x <;> first | rfl | exact hx

mutual
theorem valueEquals_refl : (v : Value) → v.WF = true → v.NoNaN = true → v.Equals v = true
  | .null, _, _ => rfl
  | .bool _, _, _ => by simp [Value.Equals]
  | .int _, _, _ => by simp [Value.Equals]
  | .float f, _, hn => by
    simp only [Value.NoNaN, Bool.not_eq_true'] at hn
    simp only [Value.Equals]
    exact f64eq_refl f hn
  | .string _, _, _ => by simp [Value.Equals]
  | .list xs, h, hn => by
    simp only [Value.WF] at h
    simp only [Value.NoNaN] at hn
    simp only [Value.Equals]
    exact equalsList_refl xs h hn
  | .map xs, h, hn => by
    simp only [Value.WF, Bool.and_eq_true, decide_eq_true_eq] at h
    simp only [Value.NoNaN] at hn
    simp only [Value.Equals, Bool.and_eq_true, List.all_eq_true]
    refine ⟨?_, equalsFields_refl xs xs h.2 hn
      (fun f hf => Get_of_mem_nodup xs f.1 f.2 h.1 hf)⟩
    intro f hf
    have hmem : f.1 ∈ ValueMap.keys xs := List.mem_map_of_mem Prod.fst hf
    simpa using hmem
theorem equalsList_refl : (xs : List Value) → Value.wfList xs = true →
    Value.noNaNList xs = true → Value.equalsList xs xs = true
  | [], _, _ => rfl
  | x :: xs, h, hn => by
    simp only [Value.wfList, Bool.and_eq_true] at h
    simp only [Value.noNaNList, Bool.and_eq_true] at hn
    simp only [Value.equalsList, Bool.and_eq_true]
    exact ⟨valueEquals_refl x h.1 hn.1, equalsList_refl xs h.2 hn.2⟩
theorem equalsFields_refl : (sub whole : List (String × Value)) → Value.wfFields sub = true →
    Value.noNaNFields sub = true →
    (∀ f ∈ sub, ValueMap.Get whole f.1 = some f.2) → Value.equalsFields sub whole = true
  | [], _, _, _, _ => rfl
  | (k, v) :: sub, whole, h, hn, hget => by
    simp only [Value.wfFields, Bool.and_eq_true] at h
    simp only [Value.noNaNFields, Bool.and_eq_true] at hn
    simp only [Value.equalsFields, Bool.and_eq_true]
    have h1 := hget (k, v) (List.mem_cons_self _ _)
    simp only at h1
    rw [h1]
    exact ⟨valueEquals_refl v h.1 hn.1,
      equalsFields_refl sub whole h.2 hn.2 (fun f hf => hget f (List.mem_cons_of_mem _ hf))⟩
end

theorem wfList_mem (xs : List Value) (h : Value.wfList xs = true) (x : Value) (hx : x ∈ xs) :
    x.WF = true := by
  induction xs with
  | nil => simp at hx
  | cons y rest ih =>
    simp only [Value.wfList, Bool.and_eq_true] at h
    rcases List.mem_cons.1 hx with e | hm
    · rw [e]
      exact h.1
    · exact ih h.2 hm

theorem wfFields_mem (m : List (String × Value)) (h : Value.wfFields m = true)
    (f : String × Value) (hf : f ∈ m) : f.2.WF = true := by
  induction m with
  | nil => simp at hf
  | cons y rest ih =>
    obtain ⟨k, u⟩ := y
    simp only [Value.wfFields, Bool.and_eq_true] at h
    rcases List.mem_cons.1 hf with e | hm
    · rw [e]
      exact h.1
    · exact ih h.2 hm

/-! ## The frames of a list, by first occurrence -/

theorem lhsSteps_descend_first (t : ListType) (observedRHS : PathElementValueMap)
    (w : compareWalker) (l : ValueList) (hn : Value.noNaNList l = true) :
    ∀ (i : Nat) (obs : PathElementSet) (w2 : compareWalker),
      Step.descend w2 ∈ compareWalker.lhsSteps t observedRHS w l i obs →
        ∃ pe child, obs.Has pe = false ∧
          PathElementValueMap.find (okItems t l i) pe = some child ∧
          w2 = w.itemFrame t pe (some child) (observedRHS.Get pe) := by
  induction l with
  | nil => intro i obs w2 h; simp [compareWalker.lhsSteps] at h
  | cons child rest ih =>
    intro i obs w2 h
    simp only [Value.noNaNList, Bool.and_eq_true] at hn
    have ih := ih hn.2
    simp only [compareWalker.lhsSteps, okItems] at h ⊢
    cases hpe : listItemToPathElement t i child with
    | error err =>
      rw [hpe] at h
      simp only [List.mem_cons, false_or, reduceCtorEq] at h
      exact ih _ _ _ h
    | ok q =>
      rw [hpe] at h
      simp only at h ⊢
      by_cases hq : obs.Has q = true
      · simp only [hq, if_true, List.mem_cons, false_or, reduceCtorEq] at h
        obtain ⟨pe, ch, hh, hfind, he⟩ := ih _ _ _ h
        refine ⟨pe, ch, hh, ?_, he⟩
        have hne : q.Equals pe = false := by
          cases hqe : q.Equals pe with
          | false => rfl
          | true =>
            obtain ⟨r, hr, hrq⟩ := (Has_iff obs q).1 hq
            have := (Has_iff obs pe).2 ⟨r, hr, peEquals_trans hrq hqe⟩
            rw [hh] at this
            cases this
        simp only [PathElementValueMap.find, hne, Bool.false_eq_true, if_false]
        exact hfind
      · simp only [hq, if_false, Bool.false_eq_true, List.mem_cons, Step.descend.injEq] at h
        rcases h with h | h
        · refine ⟨q, child, by simpa using hq, ?_, h⟩
          simp [PathElementValueMap.find,
            peEquals_refl q (listItem_noNaN t i child q hpe hn.1)]
        · obtain ⟨pe, ch, hh, hfind, he⟩ := ih _ _ _ h
          rw [Has_Insert] at hh
          simp only [Bool.or_eq_false_iff] at hh
          refine ⟨pe, ch, hh.1, ?_, he⟩
          simp only [PathElementValueMap.find, hh.2, Bool.false_eq_true, if_false]
          exact hfind

theorem runSteps_unchanged (cmp : CompareFn) (steps : List Step)
    (h : ∀ w2, Step.descend w2 ∈ steps → ∀ c r, cmp w2 c = some r → r.2.1 = c) :
    ∀ (c : Comparison) (errs : ValidationErrors) (r : Comparison × ValidationErrors),
      runSteps cmp steps c errs = some r → r.1 = c := by
  induction steps with
  | nil =>
    intro c errs r hr
    simp only [runSteps, Option.some.injEq] at hr
    rw [← hr]
  | cons x rest ih =>
    intro c errs r hr
    have hrest : ∀ w2, Step.descend w2 ∈ rest → ∀ c r, cmp w2 c = some r → r.2.1 = c :=
      fun w2 hm => h w2 (List.mem_cons_of_mem _ hm)
    cases x with
    | error e => exact ih hrest _ _ _ hr
    | descend w2 =>
      simp only [runSteps] at hr
      cases hc : cmp w2 c with
      | none => simp [hc] at hr
      | some r1 =>
        rw [hc] at hr
        have := h w2 (List.mem_cons_self _ _) c r1 hc
        simp only at hr
        rw [this] at hr
        exact ih hrest _ _ _ hr

/-! ## Comparing a value with itself -/

theorem derefList_wf (side : Side) (v : Value) (h : v.WF = true) :
    Value.wfList (itemsOf (compareWalker.derefList side (some v) none).2) = true := by
  cases v <;> first | rfl | exact h

theorem derefMap_wf (side : Side) (v : Value) (h : v.WF = true) :
    (ValueMap.keys (itemsOf (compareWalker.derefMap side (some v) none).2)).Nodup ∧
      Value.wfFields (itemsOf (compareWalker.derefMap side (some v) none).2) = true := by
  cases v with
  | map m =>
    simp only [Value.WF, Bool.and_eq_true, decide_eq_true_eq] at h
    exact h
  | _ => exact ⟨List.nodup_nil, rfl⟩

theorem derefList_side (s1 s2 : Side) (v : Option Value) :
    (compareWalker.derefList s1 v none).2 = (compareWalker.derefList s2 v none).2 := by
  rw [derefList_eq, derefList_eq]

theorem derefMap_side (s1 s2 : Side) (v : Option Value) :
    (compareWalker.derefMap s1 v none).2 = (compareWalker.derefMap s2 v none).2 := by
  rw [derefMap_eq, derefMap_eq]

theorem listSteps_same (t : ListType) (l : Option ValueList) (w w2 : compareWalker)
    (hn : Value.noNaNList (itemsOf l) = true) (h : Step.descend w2 ∈ w.listSteps t l l) :
    ∃ child, child ∈ itemsOf l ∧ w2.lhs = some child ∧ w2.rhs = some child := by
  simp only [compareWalker.listSteps, List.mem_append] at h
  rcases h with h | h
  · obtain ⟨pe, child, _, hfind, he⟩ := lhsSteps_descend_first _ _ _ _ hn _ _ _ h
    subst he
    obtain ⟨q, hm, _⟩ := find_mem _ _ _ hfind
    refine ⟨child, okItems_mem t _ _ _ _ hm, rfl, ?_⟩
    simp only [compareWalker.itemFrame]
    rw [collected_snd]
    exact hfind
  · obtain ⟨pe, hm, hhas, _⟩ := (rhsOnlySteps_descend_mem _ _ _ _ _ _).1 h
    rw [collected_snd] at hm
    simp only [List.mem_map] at hm
    obtain ⟨e, he, hpe⟩ := hm
    have : (compareWalker.lhsObserved t (itemsOf l) 0 ⟨[]⟩).Has pe = true :=
      (lhsObserved_Has t _ _ _ _).2
        (Or.inr ⟨e, he, by rw [hpe]; rw [← hpe]; exact okItems_noNaN t _ hn 0 e he⟩)
    rw [this] at hhas
    cases hhas

theorem mapSteps_same (t : MapType) (m : Option ValueMap) (w w2 : compareWalker)
    (hnd : (ValueMap.keys (itemsOf m)).Nodup) (h : Step.descend w2 ∈ w.mapSteps t m m) :
    ∃ f, f ∈ itemsOf m ∧ w2.lhs = some f.2 ∧ w2.rhs = some f.2 := by
  have hget : ∀ f ∈ itemsOf m, getOf m f.1 = some f.2 := by
    intro f hf
    cases m with
    | none => simp [itemsOf] at hf
    | some l => exact Get_of_mem_nodup l f.1 f.2 hnd hf
  simp only [compareWalker.mapSteps, List.mem_append] at h
  rcases h with h | h
  · obtain ⟨f, hm, he⟩ := (lhsFieldSteps_descend_mem _ _ _ _ _).1 h
    subst he
    exact ⟨f, hm, rfl, hget f hm⟩
  · obtain ⟨f, hm, hnone, _⟩ := (rhsFieldSteps_descend_mem _ _ _ _ _).1 h
    rw [hget f hm] at hnone
    cases hnone

theorem handleAtom_same {cmp : CompareFn} (hk : KeepsPath cmp)
    (hsame : ∀ w2 c r v, cmp w2 c = some r → w2.lhs = some v → w2.rhs = some v →
      v.WF = true → v.NoNaN = true → r.2.1 = c)
    (a : Atom) (tr : TypeRef) (w : compareWalker) (c : Comparison)
    (r : compareWalker × Comparison × ValidationErrors) (v : Value)
    (h : handleAtom cmp a tr w c = some r) (hl : w.lhs = some v) (hr : w.rhs = some v)
    (hwf : v.WF = true) (hnn : v.NoNaN = true) : r.2.1 = c := by
  have hleaf : (w.doLeaf c).2 = c := by
    rw [doLeaf_snd, hl, hr]
    simp [valueEquals_refl v hwf hnn]
  have hnl := derefList_noNaN .rhs (some v) (fun x hx => by
    simp only [Option.some.injEq] at hx
    rw [← hx]
    exact hnn)
  have hnm := derefMap_noNaN .rhs (some v) (fun x hx => by
    simp only [Option.some.injEq] at hx
    rw [← hx]
    exact hnn)
  cases a with
  | scalar t =>
    simp only [handleAtom, compareWalker.doScalar, Option.some.injEq] at h
    subst h
    exact hleaf
  | untyped =>
    simp only [handleAtom, Option.some.injEq] at h
    subst h
    exact hleaf
  | list t =>
    simp only [handleAtom, compareWalker.doList] at h
    split at h
    · simp only [Option.some.injEq] at h
      subst h
      exact hleaf
    · rw [visitListItems_eq_runSteps hk, hl, hr, derefList_side .lhs .rhs] at h
      simp only [Option.map_eq_some'] at h
      obtain ⟨a, ha, har⟩ := h
      subst har
      refine runSteps_unchanged cmp _ ?_ _ _ _ ha
      intro w2 hm c2 r2 h2
      obtain ⟨child, hmem, h2l, h2r⟩ := listSteps_same _ _ _ _ hnl hm
      exact hsame w2 c2 r2 child h2 h2l h2r
        (wfList_mem _ (derefList_wf .rhs v hwf) child hmem) (noNaNList_mem _ hnl child hmem)
  | map t =>
    simp only [handleAtom, compareWalker.doMap] at h
    split at h
    · simp only [Option.some.injEq] at h
      subst h
      exact hleaf
    · split at h
      · simp only [Option.some.injEq] at h
        subst h
        rfl
      · rw [visitMapItems_eq_runSteps hk, hl, hr, derefMap_side .lhs .rhs] at h
        simp only [Option.map_eq_some'] at h
        obtain ⟨a, ha, har⟩ := h
        subst har
        refine runSteps_unchanged cmp _ ?_ _ _ _ ha
        intro w2 hm c2 r2 h2
        obtain ⟨f, hmem, h2l, h2r⟩ := mapSteps_same _ _ _ _ (derefMap_wf .rhs v hwf).1 hm
        exact hsame w2 c2 r2 f.2 h2 h2l h2r
          (wfFields_mem _ (derefMap_wf .rhs v hwf).2 f hmem) (noNaNFields_mem _ hnm f hmem)

theorem compare_same (s : Schema) :
    ∀ (n : Nat) (w : compareWalker) (c : Comparison)
      (r : compareWalker × Comparison × ValidationErrors) (v : Value),
      compareWalker.compare s n w c = some r → w.lhs = some v → w.rhs = some v →
        v.WF = true → v.NoNaN = true → r.2.1 = c := by
  intro n
  induction n with
  | zero => intro w c r v h; simp [compareWalker.compare] at h
  | succ n ih =>
    intro w c r v h hl hr hwf hnn
    have hk := compare_keepsPath s n
    rw [compare_succ] at h
    split at h
    · simp only [Option.some.injEq] at h
      subst h
      rfl
    · split at h
      · simp only [Option.some.injEq] at h
        subst h
        rfl
      · simp only [Option.map_eq_some'] at h
        obtain ⟨r1, h1, h2⟩ := h
        subst h2
        have hsame := handleBoth_sameButLeaf hk _ _ _ _ _ h1
        have hrec : (compareWalker.recordRoot r1).2.1 = r1.2.1 := by
          simp only [compareWalker.recordRoot, sameButLeaf_lhs hsame, sameButLeaf_rhs hsame,
            hl, hr, Option.isNone_some, Bool.false_eq_true, if_false]
          split <;> rfl
        rw [hrec]
        simp only [compareWalker.handleBoth, hl, hr, if_true] at h1
        exact handleAtom_same hk ih _ _ _ _ _ v h1 hl hr hwf hnn

/-- C1 (compare identity), as amended.  For every schema, type reference and value `v`
that is well formed (no map has a key twice) and has no NaN in it, the compare walk with
`lhs = v` and `rhs = v`, started from the empty comparison, returns, and `Added`,
`Removed` and `Modified` are all empty. -/
theorem C1_compare_identity (s : Schema) (tr : TypeRef) (v : Value) (hwf : v.WF = true)
    (hnn : v.NoNaN = true) :
    ∃ errs, Compare s tr v v = some (Comparison.empty, errs) := by
  have hsome := compare_isSome s _ (compareWalker.root tr v v) Comparison.empty (le_refl _)
  unfold Compare
  cases h : compareWalker.compare s (compareWalker.root tr v v).fuel (compareWalker.root tr v v)
      Comparison.empty with
  | none => simp [h] at hsome
  | some r =>
    obtain ⟨w1, c1, e1⟩ := r
    have := compare_same s _ _ _ _ v h rfl rfl hwf hnn
    simp only at this
    subst this
    exact ⟨e1, rfl⟩

theorem C1_compare_identity_witness :
    (Value.map [("x", .int 1), ("m", .map [("a", .float (.num 1))])]).WF = true ∧
    (Value.map [("x", .int 1), ("m", .map [("a", .float (.num 1))])]).NoNaN = true ∧
    ∃ errs, Compare exNested (.namedType "outer")
        (.map [("x", .int 1), ("m", .map [("a", .float (.num 1))])])
        (.map [("x", .int 1), ("m", .map [("a", .float (.num 1))])]) =
      some (Comparison.empty, errs) :=
  ⟨by decide, by decide,
    C1_compare_identity exNested (.namedType "outer")
      (.map [("x", .int 1), ("m", .map [("a", .float (.num 1))])]) (by decide) (by decide)⟩

/-- The claim C1 as stated fails on a NaN: the map `{a: NaN}` compared with itself has
the path `.a` in `Modified`, since a NaN is not equal to itself. -/
theorem C1_counterexample :
    (Value.map [("a", .float .nan)]).WF = true ∧
    Compare ⟨[]⟩ (.inlined (.map exAbcType)) (.map [("a", .float .nan)])
        (.map [("a", .float .nan)]) =
      some ({ Added := ⟨[]⟩, Removed := ⟨[]⟩, Modified := ⟨[[.fieldName "a"]]⟩ }, []) :=
  ⟨by decide, by decide⟩

/-! ## Set lists of scalars -/

theorem IsFirst_mem (items : List (PathElement × Value)) (q : PathElement) (child : Value)
    (h : IsFirst items q child) : (q, child) ∈ items := by
  induction items with
  | nil => cases h
  | cons e rest ih =>
    rcases h with h | ⟨_, h⟩
    · rw [h]
      exact List.mem_cons_self _ _
    · exact List.mem_cons_of_mem _ (ih h)

theorem IsFirst_find (items : List (PathElement × Value)) (q pe : PathElement) (child : Value)
    (h : IsFirst items q child) (hq : q.Equals pe = true) :
    PathElementValueMap.find items pe = some child := by
  induction items with
  | nil => cases h
  | cons e rest ih =>
    obtain ⟨q0, v0⟩ := e
    rcases h with h | ⟨hne, h⟩
    · simp only [Prod.mk.injEq] at h
      simp [PathElementValueMap.find, h.1, h.2, hq]
    · have : q0.Equals pe = false := by
        cases hc : q0.Equals pe with
        | false => rfl
        | true =>
          have := peEquals_trans hc (by rw [peEquals_symm]; exact hq)
          simp only at hne
          rw [this] at hne
          cases hne
      simp only [PathElementValueMap.find, this, Bool.false_eq_true, if_false]
      exact ih h

theorem find_IsFirst (items : List (PathElement × Value)) (pe : PathElement) (child : Value)
    (h : PathElementValueMap.find items pe = some child) :
    ∃ q, q.Equals pe = true ∧ IsFirst items q child := by
  induction items with
  | nil => simp [PathElementValueMap.find] at h
  | cons e rest ih =>
    obtain ⟨q0, v0⟩ := e
    simp only [PathElementValueMap.find] at h
    by_cases hq : q0.Equals pe = true
    · simp only [hq, if_true, Option.some.injEq] at h
      subst h
      exact ⟨q0, hq, Or.inl rfl⟩
    · simp only [hq, Bool.false_eq_true, if_false] at h
      obtain ⟨q, hqe, hf⟩ := ih h
      refine ⟨q, hqe, Or.inr ⟨?_, hf⟩⟩
      cases hc : q0.Equals q with
      | false => rfl
      | true => exact absurd (peEquals_trans hc hqe) hq

theorem IsFirst_of_unique (items : List (PathElement × Value)) (q : PathElement) (child : Value)
    (hm : (q, child) ∈ items) (hu : ∀ e ∈ items, e.1.Equals q = true → e = (q, child)) :
    IsFirst items q child := by
  induction items with
  | nil => simp at hm
  | cons e rest ih =>
    by_cases he : e = (q, child)
    · exact Or.inl he
    · rcases List.mem_cons.1 hm with h | h
      · exact absurd h.symm he
      · refine Or.inr ⟨?_, ih h (fun e2 h2 => hu e2 (List.mem_cons_of_mem _ h2))⟩
        cases hc : e.1.Equals q with
        | false => rfl
        | true => exact absurd (hu e (List.mem_cons_self _ _) hc) he

theorem lhsSteps_descend_iff (t : ListType) (observedRHS : PathElementValueMap)
    (w : compareWalker) (l : ValueList) :
    ∀ (i : Nat) (obs : PathElementSet) (w2 : compareWalker),
      Step.descend w2 ∈ compareWalker.lhsSteps t observedRHS w l i obs ↔
        ∃ q child, IsFirst (okItems t l i) q child ∧ obs.Has q = false ∧
          w2 = w.itemFrame t q (some child) (observedRHS.Get q) := by
  induction l with
  | nil => intro i obs w2; simp [compareWalker.lhsSteps, okItems, IsFirst]
  | cons child0 rest ih =>
    intro i obs w2
    simp only [compareWalker.lhsSteps, okItems]
    cases hpe : listItemToPathElement t i child0 with
    | error err =>
      simp only [List.mem_cons, false_or, reduceCtorEq]
      exact ih _ _ _
    | ok q0 =>
      simp only
      by_cases hq : obs.Has q0 = true
      · simp only [hq, if_true, List.mem_cons, false_or, reduceCtorEq, ih, IsFirst]
        constructor
        · rintro ⟨q, child, hf, hh, he⟩
          refine ⟨q, child, Or.inr ⟨?_, hf⟩, hh, he⟩
          cases hc : q0.Equals q with
          | false => rfl
          | true =>
            obtain ⟨r, hr, hrq⟩ := (Has_iff obs q0).1 hq
            have := (Has_iff obs q).2 ⟨r, hr, peEquals_trans hrq hc⟩
            rw [hh] at this
            cases this
        · rintro ⟨q, child, hf | ⟨_, hf⟩, hh, he⟩
          · simp only [Prod.mk.injEq] at hf
            rw [← hf.1, hq] at hh
            cases hh
          · exact ⟨q, child, hf, hh, he⟩
      · simp only [hq, Bool.false_eq_true, if_false, List.mem_cons, Step.descend.injEq, ih,
          IsFirst, Has_Insert, Bool.or_eq_false_iff]
        constructor
        · rintro (h | ⟨q, child, hf, ⟨hh, hne⟩, he⟩)
          · exact ⟨q0, child0, Or.inl rfl, by simpa using hq, h⟩
          · exact ⟨q, child, Or.inr ⟨hne, hf⟩, hh, he⟩
        · rintro ⟨q, child, hf | ⟨hne, hf⟩, hh, he⟩
          · simp only [Prod.mk.injEq] at hf
            left
            rw [he, ← hf.1, ← hf.2]
          · exact Or.inr ⟨q, child, hf, ⟨hh, hne⟩, he⟩

theorem find_none_iff_Has (t : ListType) (l : ValueList) (pe : PathElement) :
    (compareWalker.lhsObserved t l 0 ⟨[]⟩).Has pe = false ↔
      PathElementValueMap.find (okItems t l 0) pe = none := by
  rw [find_eq_none_iff, ← Bool.not_eq_true, lhsObserved_Has]
  simp [PathElementSet.Has]

/-- The child frames of `visitListItems`: one for the first occurrence of each path
element of the LHS, with the first element of the RHS under an equal path element, if
any; and one for each element of the RHS whose path element the LHS does not have. -/
theorem listSteps_descend_iff (t : ListType) (lhs rhs : Option ValueList)
    (w w2 : compareWalker) :
    Step.descend w2 ∈ w.listSteps t lhs rhs ↔
      (∃ q child, IsFirst (okItems t (itemsOf lhs) 0) q child ∧
        w2 = w.itemFrame t q (some child)
          (PathElementValueMap.find (okItems t (itemsOf rhs) 0) q)) ∨
      (∃ e ∈ okItems t (itemsOf rhs) 0,
        PathElementValueMap.find (okItems t (itemsOf lhs) 0) e.1 = none ∧
        w2 = w.itemFrame t e.1 none
          (PathElementValueMap.find (okItems t (itemsOf rhs) 0) e.1)) := by
  simp only [compareWalker.listSteps, List.mem_append, lhsSteps_descend_iff,
    rhsOnlySteps_descend_mem, collected_snd, find_none_iff_Has, PathElementValueMap.Get,
    List.mem_map]
  constructor
  · rintro (⟨q, child, hf, _, he⟩ | ⟨pe, ⟨e, hm, hpe⟩, hnone, he⟩)
    · exact Or.inl ⟨q, child, hf, he⟩
    · subst hpe
      exact Or.inr ⟨e, hm, hnone, he⟩
  · rintro (⟨q, child, hf, he⟩ | ⟨e, hm, hnone, he⟩)
    · exact Or.inl ⟨q, child, hf, rfl, he⟩
    · exact Or.inr ⟨e.1, ⟨e, hm, rfl⟩, hnone, he⟩

/-! ## Lists whose order does not matter -/

theorem compare_list_both (s : Schema) (m : Nat) (w : compareWalker) (c : Comparison)
    (t : ListType) (lv rv : Value) (hres : s.Resolve w.typeRef = some (.list t))
    (hrel : t.ElementRelationship ≠ .atomic) (hl : w.lhs = some lv) (hr : w.rhs = some rv)
    (hne : (nilOrEmpty (compareWalker.derefList .lhs w.lhs none).2 &&
      nilOrEmpty (compareWalker.derefList .rhs w.rhs none).2) = false) :
    compareWalker.compare s (m + 1) w c =
      Option.map (fun x => (w, x.1, x.2))
        (runSteps (compareWalker.compare s m)
          (w.listSteps t (compareWalker.derefList .lhs w.lhs none).2
            (compareWalker.derefList .rhs w.rhs none).2) c
          (compareWalker.collected t (compareWalker.derefList .rhs w.rhs none).2).1) := by
  rw [compare_succ]
  have h1 : (w.lhs.isNone && w.rhs.isNone) = false := by simp [hl]
  simp only [h1, Bool.false_eq_true, if_false, hres,
    deduceAtom_of_ne_untyped (.list t) _ (by simp), compareWalker.handleBoth, if_true,
    handleAtom, compareWalker.doList, hrel, decide_False, Bool.false_or, hne]
  rw [visitListItems_eq_runSteps (compare_keepsPath s m)]
  cases runSteps (compareWalker.compare s m) _ c _ with
  | none => rfl
  | some x =>
    simp only [Option.map_some', Option.map_map, compareWalker.recordRoot, hl, hr,
      Option.isNone_some, Bool.false_eq_true, if_false, ite_self]

theorem okItems_keyed (t : ListType) (ht : t.isKeyed) (l : ValueList) :
    ∀ i : Nat, okItems t l i = l.filterMap (keyedItem t) := by
  induction l with
  | nil => intro i; rfl
  | cons x rest ih =>
    intro i
    have hx : listItemToPathElement t i x = keyedAssociativeListItemToPathElement t x := by
      simp [listItemToPathElement, ht.1, ht.2]
    simp only [okItems, hx, List.filterMap_cons, keyedItem]
    cases keyedAssociativeListItemToPathElement t x with
    | error e => exact ih _
    | ok pe => simp only [ih]

theorem okItems_perm (t : ListType) (ht : t.isKeyed) (l l2 : ValueList) (h : l.Perm l2) :
    (okItems t l 0).Perm (okItems t l2 0) := by
  rw [okItems_keyed t ht, okItems_keyed t ht]
  exact h.filterMap _

theorem pairwise_perm (items items2 : List (PathElement × Value)) (h : items.Perm items2)
    (hp : items.Pairwise (fun a b => a.1.Equals b.1 = false)) :
    items2.Pairwise (fun a b => a.1.Equals b.1 = false) := by
  refine (List.Perm.pairwise_iff ?_ h).1 hp
  intro a b hab
  rw [peEquals_symm]
  exact hab

theorem unique_of_pairwise (items : List (PathElement × Value))
    (hp : items.Pairwise (fun a b => a.1.Equals b.1 = false)) (e1 e2 : PathElement × Value)
    (h1 : e1 ∈ items) (h2 : e2 ∈ items) (he : e1.1.Equals e2.1 = true) : e1 = e2 := by
  induction items with
  | nil => simp at h1
  | cons x rest ih =>
    rw [List.pairwise_cons] at hp
    rcases List.mem_cons.1 h1 with a1 | a1 <;> rcases List.mem_cons.1 h2 with a2 | a2
    · rw [a1, a2]
    · subst a1
      have := hp.1 e2 a2
      rw [he] at this
      cases this
    · subst a2
      have := hp.1 e1 a1
      rw [peEquals_symm, he] at this
      cases this
    · exact ih hp.2 a1 a2

theorem IsFirst_iff_mem (items : List (PathElement × Value))
    (hp : items.Pairwise (fun a b => a.1.Equals b.1 = false)) (q : PathElement)
    (child : Value) : IsFirst items q child ↔ (q, child) ∈ items := by
  constructor
  · exact IsFirst_mem items q child
  · intro hm
    apply IsFirst_of_unique items q child hm
    intro e he heq
    exact unique_of_pairwise items hp e (q, child) he hm heq

theorem find_perm (items items2 : List (PathElement × Value)) (h : items.Perm items2)
    (hp : items.Pairwise (fun a b => a.1.Equals b.1 = false)) (pe : PathElement) :
    PathElementValueMap.find items pe = PathElementValueMap.find items2 pe := by
  cases hf : PathElementValueMap.find items pe with
  | none =>
    symm
    rw [find_eq_none_iff] at hf ⊢
    intro e he
    exact hf e (h.mem_iff.2 he)
  | some child =>
    symm
    obtain ⟨q, hq, hfirst⟩ := find_IsFirst items pe child hf
    have hm := h.mem_iff.1 (IsFirst_mem items q child hfirst)
    exact IsFirst_find items2 q pe child
      ((IsFirst_iff_mem items2 (pairwise_perm items items2 h hp) q child).2 hm) hq

theorem listSteps_perm (t : ListType) (ht : t.isKeyed) (w w2 : compareWalker)
    (l l2 r r2 : ValueList) (hpl : l.Perm l2) (hpr : r.Perm r2) (hndl : NoRepeat t l)
    (hndr : NoRepeat t r) (lv rv : Option Value) :
    Step.descend w2 ∈ w.listSteps t (some l) (some r) ↔
      Step.descend w2 ∈
        ({ w with lhs := lv, rhs := rv } : compareWalker).listSteps t (some l2) (some r2) := by
  have hL := okItems_perm t ht l l2 hpl
  have hR := okItems_perm t ht r r2 hpr
  have hframe : ∀ pe a b, ({ w with lhs := lv, rhs := rv } : compareWalker).itemFrame t pe a b =
      w.itemFrame t pe a b := fun _ _ _ => rfl
  simp only [listSteps_descend_iff, itemsOf, hframe,
    IsFirst_iff_mem _ hndl, IsFirst_iff_mem _ (pairwise_perm _ _ hL hndl),
    ← find_perm _ _ hL hndl, ← find_perm _ _ hR hndr, hL.mem_iff, hR.mem_iff]

theorem depthList_perm (l l2 : List Value) (h : l.Perm l2) :
    Value.depthList l = Value.depthList l2 := by
  induction h with
  | nil => rfl
  | cons x _ ih => simp only [Value.depthList, ih]
  | swap x y l =>
    simp only [Value.depthList]
    omega
  | trans _ _ ih1 ih2 => exact ih1.trans ih2

theorem compare_perm (s : Schema) (n : Nat) (w : compareWalker) (c : Comparison)
    (t : ListType) (l l2 r r2 : ValueList) (hn : w.fuel ≤ n)
    (hres : s.Resolve w.typeRef = some (.list t)) (ht : t.isKeyed)
    (hl : w.lhs = some (.list l)) (hr : w.rhs = some (.list r))
    (hpl : l.Perm l2) (hpr : r.Perm r2) (hndl : NoRepeat t l) (hndr : NoRepeat t r) :
    ∃ x x2, compareWalker.compare s n w c = some x ∧
      compareWalker.compare s n { w with lhs := some (.list l2), rhs := some (.list r2) } c =
        some x2 ∧
      ∀ k p, p ∈ (x.2.1.get k).paths ↔ p ∈ (x2.2.1.get k).paths := by
  have hrel : t.ElementRelationship ≠ .atomic := by
    rw [ht.1]
    simp
  by_cases hempty : l = [] ∧ r = []
  · obtain ⟨h1, h2⟩ := hempty
    subst h1
    subst h2
    have e1 := List.Perm.nil_eq hpl
    have e2 := List.Perm.nil_eq hpr
    subst e1
    subst e2
    have hw : ({ w with lhs := some (.list []), rhs := some (.list []) } : compareWalker) = w := by
      cases w
      simp only at hl hr
      simp [hl, hr]
    rw [hw]
    have hsome := compare_isSome s n w c hn
    cases hc : compareWalker.compare s n w c with
    | none => simp [hc] at hsome
    | some x => exact ⟨x, x, rfl, rfl, fun _ _ => Iff.rfl⟩
  · have hfuel : ({ w with lhs := some (.list l2), rhs := some (.list r2) } :
        compareWalker).fuel = w.fuel := by
      simp only [compareWalker.fuel, hl, hr, sideDepth, Value.depth, depthList_perm l l2 hpl,
        depthList_perm r r2 hpr]
    have hs1 := compare_isSome s n w c hn
    have hs2 := compare_isSome s n { w with lhs := some (.list l2), rhs := some (.list r2) } c
      (by rw [hfuel]; exact hn)
    cases n with
    | zero => simp [compareWalker.compare] at hs1
    | succ m =>
      have hne : (nilOrEmpty (compareWalker.derefList .lhs w.lhs none).2 &&
          nilOrEmpty (compareWalker.derefList .rhs w.rhs none).2) = false := by
        rw [hl, hr]
        cases l <;> cases r <;> simp_all [compareWalker.derefList, listValue, nilOrEmpty]
      have hne2 : (nilOrEmpty (compareWalker.derefList .lhs (some (.list l2)) none).2 &&
          nilOrEmpty (compareWalker.derefList .rhs (some (.list r2)) none).2) = false := by
        have hl2 : l2 = [] → l = [] := fun e => by
          subst e
          exact List.Perm.eq_nil hpl
        have hr2 : r2 = [] → r = [] := fun e => by
          subst e
          exact List.Perm.eq_nil hpr
        cases l2 <;> cases r2 <;> simp_all [compareWalker.derefList, listValue, nilOrEmpty]
      rw [compare_list_both s m w c t _ _ hres hrel hl hr hne] at hs1 ⊢
      rw [compare_list_both s m { w with lhs := some (.list l2), rhs := some (.list r2) } c t
        _ _ hres hrel rfl rfl hne2] at hs2 ⊢
      simp only [hl, hr, derefList_eq] at hs1 hs2 ⊢
      cases h1 : runSteps (compareWalker.compare s m) (w.listSteps t (some l) (some r)) c
          (compareWalker.collected t (some r)).1 with
      | none => simp [h1] at hs1
      | some a =>
        cases h2 : runSteps (compareWalker.compare s m)
            (({ w with lhs := some (.list l2), rhs := some (.list r2) } :
              compareWalker).listSteps t (some l2) (some r2)) c
            (compareWalker.collected t (some r2)).1 with
        | none => simp [h2] at hs2
        | some b =>
          refine ⟨_, _, rfl, rfl, ?_⟩
          intro k p
          simp only [Option.map_some']
          rw [runSteps_mem (compare_frames s m) _ _ _ _ h1 k p,
            runSteps_mem (compare_frames s m) _ _ _ _ h2 k p]
          simp only [listSteps_perm t ht w _ l l2 r r2 hpl hpr hndl hndr (some (.list l2))
            (some (.list r2))]

theorem comparison_eq_empty (d : Comparison) (h : ∀ k, (d.get k).paths = []) :
    d = Comparison.empty := by
  obtain ⟨⟨a⟩, ⟨r⟩, ⟨m⟩⟩ := d
  have h1 := h .added
  have h2 := h .removed
  have h3 := h .modified
  simp only [Comparison.get] at h1 h2 h3
  simp [Comparison.empty, PathSet.empty, h1, h2, h3]

/-- C4 (order is irrelevant for associative lists), as amended.  Let the type of a frame
resolve to a keyed associative list and let its two sides be lists in neither of which
a key tuple repeats.  Then the walk returns, and permuting the elements of `lhs` and of
`rhs` leaves `Added`, `Removed` and `Modified` with the same paths.  In particular,
when `rhs` is a permutation of an `lhs` that is well formed and has no NaN in it, the
walk inserts nothing. -/
theorem C4_order_irrelevant (s : Schema) (n : Nat) (w : compareWalker) (c : Comparison)
    (t : ListType) (l l2 r r2 : ValueList) (hn : w.fuel ≤ n)
    (hres : s.Resolve w.typeRef = some (.list t)) (ht : t.isKeyed)
    (hl : w.lhs = some (.list l)) (hr : w.rhs = some (.list r))
    (hpl : l.Perm l2) (hpr : r.Perm r2) (hndl : NoRepeat t l) (hndr : NoRepeat t r) :
    ∃ x x2, compareWalker.compare s n w c = some x ∧
      compareWalker.compare s n { w with lhs := some (.list l2), rhs := some (.list r2) } c =
        some x2 ∧
      (∀ k p, p ∈ (x.2.1.get k).paths ↔ p ∈ (x2.2.1.get k).paths) ∧
      (l.Perm r → Value.wfList l = true → Value.noNaNList l = true → x.2.1 = c) := by
  obtain ⟨x, x2, h1, h2, h3⟩ :=
    compare_perm s n w c t l l2 r r2 hn hres ht hl hr hpl hpr hndl hndr
  refine ⟨x, x2, h1, h2, h3, ?_⟩
  intro hperm hwf hnn
  obtain ⟨y, y2, g1, g2, g3⟩ := compare_perm s n w Comparison.empty t l l r l hn hres ht hl hr
    (List.Perm.refl l) hperm.symm hndl hndr
  have hy2 : y2.2.1 = Comparison.empty :=
    compare_same s n _ _ y2 (.list l) g2 rfl rfl (by simpa [Value.WF] using hwf)
      (by simpa [Value.NoNaN] using hnn)
  have hy : y.2.1 = Comparison.empty := by
    apply comparison_eq_empty
    intro k
    apply List.eq_nil_iff_forall_not_mem.2
    intro p hp
    have := (g3 k p).1 hp
    rw [hy2, comparison_get_empty] at this
    cases this
  rw [compare_frames s n w c, g1] at h1
  simp only [Option.map_some', Option.some.injEq] at h1
  rw [← h1]
  simp only [liftFrame, hy, comparison_append_empty]

theorem C4_order_irrelevant_witness :
    ∃ x x2, compareWalker.compare ⟨[]⟩ 4 exKeyedFrame Comparison.empty = some x ∧
      compareWalker.compare ⟨[]⟩ 4
        { exKeyedFrame with
          lhs := some (.list [.map [("k", .string "b")], .map [("k", .string "a")]]),
          rhs := some (.list [.map [("k", .string "a")], .map [("k", .string "b")]]) }
        Comparison.empty = some x2 ∧
      (∀ k p, p ∈ (x.2.1.get k).paths ↔ p ∈ (x2.2.1.get k).paths) ∧
      x.2.1 = Comparison.empty := by
  obtain ⟨x, x2, h1, h2, h3, h4⟩ := C4_order_irrelevant ⟨[]⟩ 4 exKeyedFrame Comparison.empty
    exKeyedType [.map [("k", .string "a")], .map [("k", .string "b")]]
    [.map [("k", .string "b")], .map [("k", .string "a")]]
    [.map [("k", .string "b")], .map [("k", .string "a")]]
    [.map [("k", .string "a")], .map [("k", .string "b")]]
    (by decide) rfl ⟨rfl, by decide⟩ rfl rfl (List.Perm.swap _ _ _) (List.Perm.swap _ _ _)
    (by simp [NoRepeat, okItems, listItemToPathElement, exKeyedType, ListType.ElementRelationship,
      ListType.Keys, keyedAssociativeListItemToPathElement, projectKeys, ValueMap.Get,
      Value.asScalar, sortKeyFields, insertKeyField, PathElement.Equals, PathElement.keyEquals,
      ScalarValue.Equals])
    (by simp [NoRepeat, okItems, listItemToPathElement, exKeyedType, ListType.ElementRelationship,
      ListType.Keys, keyedAssociativeListItemToPathElement, projectKeys, ValueMap.Get,
      Value.asScalar, sortKeyFields, insertKeyField, PathElement.Equals, PathElement.keyEquals,
      ScalarValue.Equals])
  exact ⟨x, x2, h1, h2, h3, h4 (List.Perm.swap _ _ _) (by decide) (by decide)⟩

/-- The claim C4 as stated fails on a NaN: the list `[{k: a, v: NaN}, {k: b, v: 1}]`
against the permutation `[{k: b, v: 1}, {k: a, v: NaN}]` of it has the path `[k=a].v`
in `Modified`, since the NaN of the element `k = a` is not equal to itself. -/
theorem C4_counterexample :
    (compareWalker.compare ⟨[]⟩ 4
      { exKeyedFrame with
        lhs := some (.list [.map [("k", .string "a"), ("v", .float .nan)],
          .map [("k", .string "b"), ("v", .int 1)]]),
        rhs := some (.list [.map [("k", .string "b"), ("v", .int 1)],
          .map [("k", .string "a"), ("v", .float .nan)]]) }
      Comparison.empty).map (fun x => x.2) =
    some ({ Added := ⟨[]⟩, Removed := ⟨[]⟩,
            Modified := ⟨[[.key [("k", .string "a")], .fieldName "v"]]⟩ }, []) := by
  decide!

/-! ## The walk of a frame, by its child frames -/

theorem handleAtom_eq {cmp : CompareFn} (hk : KeepsPath cmp) (a : Atom) (tr : TypeRef)
    (w : compareWalker) (c : Comparison) :
    handleAtom cmp a tr w c =
      if w.atomIsLeaf a then some ((w.doLeaf c).1, (w.doLeaf c).2, [])
      else Option.map (fun r => (w, r.1, r.2))
        (runSteps cmp (w.atomSteps a) c (w.atomErrors a)) := by
  cases a with
  | scalar t => rfl
  | untyped => rfl
  | list t =>
    simp only [handleAtom, compareWalker.doList, compareWalker.atomIsLeaf,
      compareWalker.atomSteps, compareWalker.atomErrors]
    split
    · rfl
    · exact visitListItems_eq_runSteps hk _ _ _ _ _
  | map t =>
    simp only [handleAtom, compareWalker.doMap, compareWalker.atomIsLeaf,
      compareWalker.atomSteps, compareWalker.atomErrors]
    split
    · rfl
    · rename_i hleaf
      have hnot : ((compareWalker.derefMap .lhs w.lhs none).2.isNone &&
          (compareWalker.derefMap .rhs w.rhs none).2.isNone) = false := by
        simp only [Bool.or_eq_true, decide_eq_true_eq, Bool.and_eq_true, not_or, not_and] at hleaf
        cases h1 : (compareWalker.derefMap .lhs w.lhs none).2 with
        | some m => rfl
        | none =>
          cases h2 : (compareWalker.derefMap .rhs w.rhs none).2 with
          | some m => rfl
          | none =>
            have := hleaf.2 (by rw [h1]; rfl)
            rw [h2] at this
            exact absurd rfl this
      simp only [hnot, Bool.false_eq_true, if_false]
      exact visitMapItems_eq_runSteps hk _ _ _ _ _

theorem doLeaf_mem_iff (w : compareWalker) (c : Comparison) (k : DiffKind) (p : Path) :
    p ∈ (((w.doLeaf c).2).get k).paths ↔
      p ∈ (c.get k).paths ∨ (p = w.path ∧ sidesRecord w.lhs w.rhs true k = true) := by
  rw [doLeaf_snd]
  cases hl : w.lhs with
  | none => cases k <;> simp [Comparison.get, PathSet.Insert, sidesRecord]
  | some l =>
    cases hr : w.rhs with
    | none => cases k <;> simp [Comparison.get, PathSet.Insert, sidesRecord]
    | some r =>
      cases he : Value.Equals r l <;>
        cases k <;> simp [Comparison.get, PathSet.Insert, sidesRecord, he]

theorem recordRoot_mem_iff (r : compareWalker × Comparison × ValidationErrors) (k : DiffKind)
    (p : Path) :
    p ∈ (((compareWalker.recordRoot r).2.1).get k).paths ↔
      p ∈ (r.2.1.get k).paths ∨
        (p = r.1.path ∧ (!r.1.inLeaf && sidesRecord r.1.lhs r.1.rhs false k) = true) := by
  unfold compareWalker.recordRoot
  cases hi : r.1.inLeaf with
  | true => simp
  | false =>
    cases hl : r.1.lhs with
    | none => cases k <;> simp [Comparison.get, PathSet.Insert, sidesRecord]
    | some l =>
      cases hr : r.1.rhs with
      | none => cases k <;> simp [Comparison.get, PathSet.Insert, sidesRecord]
      | some rv => cases k <;> simp [Comparison.get, PathSet.Insert, sidesRecord]

theorem atomIsLeaf_deduced (a : Atom) (v : Option Value) (w : compareWalker)
    (h : a = .untyped) : w.atomIsLeaf (deduceAtom a v) = true := by
  subst h
  cases v with
  | none => rfl
  | some x => cases x <;> rfl

theorem atomIsLeaf_sameButLeaf (a : Atom) (w w2 : compareWalker) (h : w.sameButLeaf w2) :
    w2.atomIsLeaf a = w.atomIsLeaf a := by
  rcases h with h | h <;> subst h <;> rfl

theorem handleBoth_mem_iff {cmp : CompareFn} (hk : KeepsPath cmp) (hf : Frames cmp)
    (a : Atom) (w : compareWalker) (c : Comparison)
    (x : compareWalker × Comparison × ValidationErrors)
    (h : w.handleBoth cmp (deduceAtom a w.lhs) (deduceAtom a w.rhs) c = some x)
    (k : DiffKind) (p : Path) :
    (x.1.inLeaf = (w.inLeaf || w.atomIsLeaf a)) ∧
    (p ∈ (x.2.1.get k).paths ↔
      p ∈ (c.get k).paths ∨
        (∃ f, Step.descend f ∈ w.atomSteps a ∧
          ∃ r2, cmp f Comparison.empty = some r2 ∧ p ∈ (r2.2.1.get k).paths) ∨
        (p = w.path ∧ (w.atomIsLeaf a && sidesRecord w.lhs w.rhs true k) = true)) := by
  have hone : ∀ (w : compareWalker) (c : Comparison)
      (x : compareWalker × Comparison × ValidationErrors) (b : Atom),
      handleAtom cmp b w.typeRef w c = some x →
      (x.1.inLeaf = (w.inLeaf || w.atomIsLeaf b)) ∧
      (p ∈ (x.2.1.get k).paths ↔
        p ∈ (c.get k).paths ∨
          (∃ f, Step.descend f ∈ w.atomSteps b ∧
            ∃ r2, cmp f Comparison.empty = some r2 ∧ p ∈ (r2.2.1.get k).paths) ∨
          (p = w.path ∧ (w.atomIsLeaf b && sidesRecord w.lhs w.rhs true k) = true)) := by
    intro w c x b hx
    rw [handleAtom_eq hk] at hx
    by_cases hleaf : w.atomIsLeaf b = true
    · simp only [hleaf, if_true, Option.some.injEq] at hx
      subst hx
      simp only [doLeaf_fst, Bool.or_true, true_and, doLeaf_mem_iff, compareWalker.atomSteps,
        hleaf, if_true, List.not_mem_nil, false_and, exists_false, false_or, Bool.true_and]
    · simp only [hleaf, Bool.false_eq_true, if_false, Option.map_eq_some'] at hx
      obtain ⟨y, hy, hxy⟩ := hx
      subst hxy
      simp only [Bool.not_eq_true] at hleaf
      simp only [hleaf, Bool.or_false, true_and, Bool.false_and, Bool.false_eq_true, and_false,
        or_false]
      exact runSteps_mem hf _ _ _ _ hy k p
  by_cases ha : a = .untyped
  · have hl1 := atomIsLeaf_deduced a w.lhs
    have hl2 := atomIsLeaf_deduced a w.rhs
    have hl3 : w.atomIsLeaf a = true := by
      subst ha
      rfl
    have hsteps : w.atomSteps a = [] := by simp [compareWalker.atomSteps, hl3]
    unfold compareWalker.handleBoth at h
    split at h
    · obtain ⟨g1, g2⟩ := hone w c x _ h
      rw [hl2 w ha] at g1 g2
      simp only [compareWalker.atomSteps, hl2 w ha, if_true] at g2
      rw [hl3, hsteps]
      exact ⟨g1, g2⟩
    · cases h3 : handleAtom cmp (deduceAtom a w.lhs) w.typeRef w c with
      | none => simp [h3] at h
      | some r3 =>
        obtain ⟨w3, c3, e3⟩ := r3
        simp only [h3] at h
        cases h4 : handleAtom cmp (deduceAtom a w.rhs) w3.typeRef w3 c3 with
        | none => simp [h4] at h
        | some r4 =>
          obtain ⟨w4, c4, e4⟩ := r4
          simp only [h4, Option.some.injEq] at h
          subst h
          have hs3 := handleAtom_sameButLeaf hk _ _ _ _ _ h3
          obtain ⟨g1, g2⟩ := hone w c _ _ h3
          obtain ⟨g3, g4⟩ := hone w3 c3 _ _ h4
          simp only at g1 g2 g3 g4 hs3
          rw [hl1 w ha] at g1 g2
          rw [hl2 w3 ha] at g3 g4
          simp only [compareWalker.atomSteps, hl1 w ha, if_true] at g2
          simp only [compareWalker.atomSteps, hl2 w3 ha, if_true, sameButLeaf_path hs3,
            sameButLeaf_lhs hs3, sameButLeaf_rhs hs3] at g4
          rw [hl3, hsteps]
          refine ⟨by simp [g3], ?_⟩
          simp only
          rw [g4, g2]
          simp only [List.not_mem_nil, false_and, exists_false, false_or, Bool.true_and]
          tauto
  · rw [deduceAtom_of_ne_untyped a _ ha, deduceAtom_of_ne_untyped a _ ha] at h
    simp only [compareWalker.handleBoth, if_true] at h
    exact hone w c x a h

/-- The paths the walk of a frame inserts: those the walks of its child frames insert,
and its own path if it records it. -/
theorem compare_mem_iff (s : Schema) (m : Nat) (w : compareWalker) (c : Comparison)
    (x : compareWalker × Comparison × ValidationErrors)
    (h : compareWalker.compare s (m + 1) w c = some x) (k : DiffKind) (p : Path) :
    p ∈ (x.2.1.get k).paths ↔
      p ∈ (c.get k).paths ∨
        (∃ f, Step.descend f ∈ w.nodeSteps s ∧
          ∃ r2, compareWalker.compare s m f Comparison.empty = some r2 ∧
            p ∈ (r2.2.1.get k).paths) ∨
        (p = w.path ∧ w.ownInsert s k = true) := by
  rw [compare_succ] at h
  simp only [compareWalker.nodeSteps, compareWalker.ownInsert, compareWalker.nodeIsLeaf]
  split at h
  · rename_i hnone
    simp only [Option.some.injEq] at h
    subst h
    simp only [Bool.and_eq_true, Option.isNone_iff_eq_none] at hnone
    have hsteps : ∀ a, w.atomSteps a = [] := by
      intro a
      cases a <;>
        simp [compareWalker.atomSteps, compareWalker.atomIsLeaf, hnone.1, hnone.2,
          compareWalker.derefList, compareWalker.derefMap, nilOrEmpty]
    have hst : (match s.Resolve w.typeRef with
        | some a => w.atomSteps a
        | none => []) = [] := by
      split
      · exact hsteps _
      · rfl
    rw [hst]
    simp [hnone.1, hnone.2]
  · rename_i hnone
    simp only [hnone, Bool.false_eq_true, if_false]
    split at h
    · rename_i hres
      simp only [Option.some.injEq] at h
      subst h
      simp [hres]
    · rename_i a hres
      simp only [hres, Option.map_eq_some'] at h ⊢
      obtain ⟨y, hy, hxy⟩ := h
      subst hxy
      have hsame := handleBoth_sameButLeaf (compare_keepsPath s m) _ _ _ _ _ hy
      obtain ⟨g1, g2⟩ := handleBoth_mem_iff (compare_keepsPath s m) (compare_frames s m) a w c
        y hy k p
      rw [recordRoot_mem_iff, g2, g1, sameButLeaf_path hsame, sameButLeaf_lhs hsame,
        sameButLeaf_rhs hsame]
      by_cases hleaf : w.atomIsLeaf a = true
      · simp only [hleaf, Bool.or_true, Bool.not_true, Bool.false_and, Bool.false_eq_true,
          and_false, or_false, Bool.true_and, if_true]
      · simp only [Bool.not_eq_true] at hleaf
        simp only [hleaf, Bool.or_false, Bool.false_and, Bool.false_eq_true, and_false,
          or_false, if_false]
        constructor
        · rintro ((h1 | h1) | h1)
          · exact Or.inl h1
          · exact Or.inr (Or.inl h1)
          · exact Or.inr (Or.inr h1)
        · rintro (h1 | h1 | h1)
          · exact Or.inl (Or.inl h1)
          · exact Or.inl (Or.inr h1)
          · exact Or.inr h1

/-! ## Duplicate entries -/

theorem runSteps_errors_ge (cmp : CompareFn) (P : ValidationError → Bool) (steps : List Step) :
    ∀ (c : Comparison) (errs : ValidationErrors) (y : Comparison × ValidationErrors),
      runSteps cmp steps c errs = some y →
        errs.countP P + (stepErrors steps).countP P ≤ y.2.countP P := by
  induction steps with
  | nil =>
    intro c errs y h
    simp only [runSteps, Option.some.injEq] at h
    subst h
    simp [stepErrors]
  | cons x rest ih =>
    intro c errs y h
    cases x with
    | error e =>
      simp only [runSteps] at h
      have := ih _ _ _ h
      simp only [stepErrors, List.countP_cons, List.countP_append, List.countP_nil] at this ⊢
      omega
    | descend w2 =>
      simp only [runSteps] at h
      cases hc : cmp w2 c with
      | none => simp [hc] at h
      | some r =>
        rw [hc] at h
        have := ih _ _ _ h
        simp only [stepErrors, List.countP_append] at this ⊢
        omega

theorem stepErrors_append (xs ys : List Step) :
    stepErrors (xs ++ ys) = stepErrors xs ++ stepErrors ys := by
  induction xs with
  | nil => rfl
  | cons x rest ih => cases x <;> simp [stepErrors, ih]

theorem lhsSteps_dup_count (t : ListType) (observedRHS : PathElementValueMap)
    (w : compareWalker) (l : ValueList) :
    ∀ (i : Nat) (obs : PathElementSet) (seen : List PathElement),
      (∀ pe, obs.Has pe = seen.any (fun q => q.Equals pe)) →
      (stepErrors (compareWalker.lhsSteps t observedRHS w l i obs)).countP
          (isDuplicateError .lhs) =
        repeatedOccurrences seen ((okItems t l i).map Prod.fst) := by
  induction l with
  | nil => intro i obs seen _; rfl
  | cons child rest ih =>
    intro i obs seen hseen
    simp only [compareWalker.lhsSteps, okItems]
    cases hpe : listItemToPathElement t i child with
    | error err =>
      simp only [stepErrors, List.countP_cons, isDuplicateError, Bool.false_eq_true, if_false,
        Nat.add_zero]
      exact ih _ _ _ hseen
    | ok q =>
      simp only [List.map_cons, repeatedOccurrences]
      have hnext : ∀ pe, (if obs.Has q = true then obs else obs.Insert q).Has pe =
          (seen ++ [q]).any (fun r => r.Equals pe) := by
        intro pe
        simp only [List.any_append, List.any_cons, List.any_nil, Bool.or_false]
        by_cases hq : obs.Has q = true
        · simp only [hq, if_true, hseen pe]
          cases hqe : q.Equals pe with
          | false => simp
          | true =>
            obtain ⟨r, hr, hrq⟩ := (Has_iff obs q).1 hq
            have := (Has_iff obs pe).2 ⟨r, hr, peEquals_trans hrq hqe⟩
            rw [hseen pe] at this
            simp [this]
        · simp only [hq, Bool.false_eq_true, if_false, Has_Insert, hseen pe]
      by_cases hq : obs.Has q = true
      · have hany : seen.any (fun r => r.Equals q) = true := by
          rw [← hseen q]
          exact hq
        simp only [hq, if_true] at hnext ⊢
        simp only [stepErrors, List.countP_cons, isDuplicateError, beq_self_eq_true, if_true,
          hany, ih _ _ _ hnext]
        omega
      · have hany : seen.any (fun r => r.Equals q) = false := by
          rw [← hseen q]
          simpa using hq
        simp only [hq, Bool.false_eq_true, if_false] at hnext ⊢
        simp only [stepErrors, hany, ih _ _ _ hnext, Bool.false_eq_true, if_false, Nat.zero_add]

theorem rhsOnlySteps_errors (t : ListType) (observedRHS : PathElementValueMap)
    (observedLHS : PathElementSet) (w : compareWalker) (order : List PathElement) :
    stepErrors (compareWalker.rhsOnlySteps t observedRHS observedLHS w order) = [] := by
  induction order with
  | nil => rfl
  | cons pe rest ih =>
    simp only [compareWalker.rhsOnlySteps]
    split
    · exact ih
    · simp only [stepErrors]
      exact ih

theorem find_isSome_iff (ms : List (PathElement × Value)) (pe : PathElement) :
    (PathElementValueMap.find ms pe).isSome = (ms.map Prod.fst).any (fun q => q.Equals pe) := by
  induction ms with
  | nil => rfl
  | cons e rest ih =>
    obtain ⟨q, v⟩ := e
    simp only [PathElementValueMap.find, List.map_cons, List.any_cons]
    cases hq : q.Equals pe with
    | true => simp
    | false => simpa using ih

theorem collectRHS_dup_count (t : ListType) (rhs : ValueList) :
    ∀ (i : Nat) (errs : ValidationErrors) (m : PathElementValueMap)
      (order : List PathElement),
      (compareWalker.collectRHS t rhs i errs m order).1.countP (isDuplicateError .rhs) =
        errs.countP (isDuplicateError .rhs) +
          repeatedOccurrences (m.members.map Prod.fst) ((okItems t rhs i).map Prod.fst) := by
  induction rhs with
  | nil => intro i errs m order; simp [compareWalker.collectRHS, okItems, repeatedOccurrences]
  | cons child rest ih =>
    intro i errs m order
    simp only [compareWalker.collectRHS, okItems]
    cases hpe : listItemToPathElement t i child with
    | error err =>
      simp only
      rw [ih]
      simp [List.countP_append, isDuplicateError]
    | ok q =>
      simp only [List.map_cons, repeatedOccurrences]
      rw [ih]
      simp only [PathElementValueMap.Insert, List.map_append, List.map_cons, List.map_nil,
        PathElementValueMap.Get, find_isSome_iff]
      cases hany : (m.members.map Prod.fst).any (fun r => r.Equals q) with
      | true =>
        simp only [if_true, List.countP_append, List.countP_cons, List.countP_nil,
          isDuplicateError, beq_self_eq_true]
        omega
      | false =>
        simp only [Bool.false_eq_true, if_false]
        omega

theorem listItem_index (t : ListType) (ht : t.isAssociative) (i : Nat) (x : Value) :
    listItemToPathElement t i x = listItemToPathElement t 0 x := by
  rcases ht with h | h <;> simp [listItemToPathElement, h]

theorem okItems_index (t : ListType) (ht : t.isAssociative) (l : ValueList) :
    ∀ i : Nat, okItems t l i = okItems t l 0 := by
  induction l with
  | nil => intro i; rfl
  | cons x rest ih =>
    intro i
    simp only [okItems, listItem_index t ht i x]
    cases listItemToPathElement t 0 x with
    | error e => rw [ih (i + 1), ih (0 + 1)]
    | ok pe => rw [ih (i + 1), ih (0 + 1)]

theorem okItems_filter (t : ListType) (ht : t.isAssociative) (keep : PathElement → Bool)
    (l : ValueList) :
    okItems t (l.filter (fun x =>
      match listItemToPathElement t 0 x with
      | .ok pe => keep pe
      | .error _ => true)) 0 = (okItems t l 0).filter (fun e => keep e.1) := by
  induction l with
  | nil => rfl
  | cons x rest ih =>
    simp only [List.filter_cons]
    cases hpe : listItemToPathElement t 0 x with
    | error e =>
      simp only [if_true, okItems, hpe]
      rw [okItems_index t ht _ (0 + 1), okItems_index t ht _ (0 + 1), ih]
    | ok pe =>
      simp only
      by_cases hk : keep pe = true
      · rw [if_pos hk]
        simp only [okItems, hpe, List.filter_cons, hk, if_true]
        rw [okItems_index t ht _ (0 + 1), okItems_index t ht _ (0 + 1), ih]
      · rw [if_neg hk]
        simp only [okItems, hpe, List.filter_cons, hk, Bool.false_eq_true, if_false]
        rw [okItems_index t ht _ (0 + 1), ih]

theorem peEquals_congr_right {q q2 : PathElement} (h : q.Equals q2 = true) (e : PathElement) :
    e.Equals q = e.Equals q2 := by
  cases h1 : e.Equals q with
  | true => exact (peEquals_trans h1 h).symm
  | false =>
    cases h2 : e.Equals q2 with
    | false => rfl
    | true =>
      have := peEquals_trans h2 (by rw [peEquals_symm]; exact h)
      rw [h1] at this
      cases this

theorem occurrences_congr (items : List (PathElement × Value)) {q q2 : PathElement}
    (h : q.Equals q2 = true) : occurrences items q = occurrences items q2 := by
  simp only [occurrences, peEquals_congr_right h]

theorem isRepeated_congr (t : ListType) (lhs rhs : ValueList) {q q2 : PathElement}
    (h : q.Equals q2 = true) : isRepeated t lhs rhs q = isRepeated t lhs rhs q2 := by
  simp only [isRepeated, occurrences_congr _ h]

theorem IsFirst_filter (keep : PathElement → Bool)
    (hkeep : ∀ q q2, q.Equals q2 = true → keep q = keep q2)
    (items : List (PathElement × Value)) (q : PathElement) (child : Value)
    (hq : keep q = true) :
    IsFirst (items.filter (fun e => keep e.1)) q child ↔ IsFirst items q child := by
  induction items with
  | nil => rfl
  | cons e rest ih =>
    simp only [List.filter_cons]
    cases hk : keep e.1 with
    | true => simp only [if_true, IsFirst, ih]
    | false =>
      simp only [Bool.false_eq_true, if_false, IsFirst, ih]
      have hne : e.1.Equals q = false := by
        cases hc : e.1.Equals q with
        | false => rfl
        | true =>
          rw [hkeep _ _ hc, hq] at hk
          cases hk
      have hne2 : e ≠ (q, child) := by
        intro he
        rw [he] at hk
        simp only at hk
        rw [hq] at hk
        cases hk
      simp [hne, hne2]

theorem find_filter (keep : PathElement → Bool)
    (hkeep : ∀ q q2, q.Equals q2 = true → keep q = keep q2)
    (items : List (PathElement × Value)) (q : PathElement) (hq : keep q = true) :
    PathElementValueMap.find (items.filter (fun e => keep e.1)) q =
      PathElementValueMap.find items q := by
  induction items with
  | nil => rfl
  | cons e rest ih =>
    obtain ⟨q0, v0⟩ := e
    simp only [List.filter_cons]
    cases hk : keep q0 with
    | true => simp only [if_true, PathElementValueMap.find, ih]
    | false =>
      have hne : q0.Equals q = false := by
        cases hc : q0.Equals q with
        | false => rfl
        | true =>
          rw [hkeep _ _ hc, hq] at hk
          cases hk
      simp only [Bool.false_eq_true, if_false, PathElementValueMap.find, hne, ih]

theorem itemFrame_inj (w : compareWalker) (t : ListType) (q q2 : PathElement)
    (a b a2 b2 : Option Value) (h : w.itemFrame t q a b = w.itemFrame t q2 a2 b2) : q = q2 := by
  have := congrArg compareWalker.path h
  simp only [itemFrame_path] at this
  exact List.singleton_inj.1 (List.append_cancel_left this)

theorem listSteps_dropRepeated (t : ListType) (ht : t.isAssociative) (w : compareWalker)
    (l r : ValueList) (lv rv : Option Value) (q : PathElement) (a b : Option Value)
    (hq : isRepeated t l r q = false) :
    Step.descend (w.itemFrame t q a b) ∈ w.listSteps t (some l) (some r) ↔
      Step.descend (w.itemFrame t q a b) ∈
        ({ w with lhs := lv, rhs := rv } : compareWalker).listSteps t
          (some (dropRepeated t l r l)) (some (dropRepeated t l r r)) := by
  have hkeep : ∀ q q2 : PathElement, q.Equals q2 = true →
      (!(isRepeated t l r q)) = !(isRepeated t l r q2) :=
    fun q q2 h => by rw [isRepeated_congr t l r h]
  have hframe : ∀ pe a b, ({ w with lhs := lv, rhs := rv } : compareWalker).itemFrame t pe a b =
      w.itemFrame t pe a b := fun _ _ _ => rfl
  have hq2 : (!(isRepeated t l r q)) = true := by simp [hq]
  simp only [listSteps_descend_iff, itemsOf, hframe, dropRepeated,
    okItems_filter t ht (fun pe => !(isRepeated t l r pe))]
  constructor
  · rintro (⟨q0, child, hf, he⟩ | ⟨e, hm, hnone, he⟩)
    · have := itemFrame_inj _ _ _ _ _ _ _ _ he
      subst this
      refine Or.inl ⟨q, child, (IsFirst_filter _ hkeep _ q child hq2).2 hf, ?_⟩
      rw [find_filter _ hkeep _ q hq2]
      exact he
    · have := itemFrame_inj _ _ _ _ _ _ _ _ he
      refine Or.inr ⟨e, ?_, ?_, ?_⟩
      · rw [List.mem_filter]
        exact ⟨hm, by rw [← this]; exact hq2⟩
      · rw [find_filter _ hkeep _ e.1 (by rw [← this]; exact hq2)]
        exact hnone
      · rw [find_filter _ hkeep _ e.1 (by rw [← this]; exact hq2)]
        exact he
  · rintro (⟨q0, child, hf, he⟩ | ⟨e, hm, hnone, he⟩)
    · have := itemFrame_inj _ _ _ _ _ _ _ _ he
      subst this
      refine Or.inl ⟨q, child, (IsFirst_filter _ hkeep _ q child hq2).1 hf, ?_⟩
      rw [find_filter _ hkeep _ q hq2] at he
      exact he
    · have := itemFrame_inj _ _ _ _ _ _ _ _ he
      rw [List.mem_filter] at hm
      have hk : (!(isRepeated t l r e.1)) = true := by rw [← this]; exact hq2
      rw [find_filter _ hkeep _ e.1 hk] at hnone he
      exact Or.inr ⟨e, hm.1, hnone, he⟩

theorem depthList_filter (l : List Value) (g : Value → Bool) :
    Value.depthList (l.filter g) ≤ Value.depthList l := by
  induction l with
  | nil => exact le_refl _
  | cons x rest ih =>
    simp only [List.filter_cons]
    split
    · simp only [Value.depthList]
      omega
    · simp only [Value.depthList]
      omega

theorem nodeSteps_list (s : Schema) (w : compareWalker) (t : ListType) (l r : ValueList)
    (hres : s.Resolve w.typeRef = some (.list t)) (hrel : t.ElementRelationship ≠ .atomic)
    (hl : w.lhs = some (.list l)) (hr : w.rhs = some (.list r)) :
    w.nodeSteps s = w.listSteps t (some l) (some r) := by
  simp only [compareWalker.nodeSteps, hres, compareWalker.atomSteps, compareWalker.atomIsLeaf,
    hl, hr, derefList_eq, hrel, decide_False, Bool.false_or]
  split
  · rename_i h
    simp only [nilOrEmpty, Bool.and_eq_true, beq_iff_eq, List.length_eq_zero] at h
    rw [h.1, h.2]
    rfl
  · rfl

theorem dropRepeated_fuel (w : compareWalker) (t : ListType) (L R : ValueList)
    (hl : w.lhs = some (.list L)) (hr : w.rhs = some (.list R)) :
    ({ w with lhs := some (.list (dropRepeated t L R L)),
              rhs := some (.list (dropRepeated t L R R)) } : compareWalker).fuel ≤ w.fuel := by
  have h1 := depthList_filter L (fun x =>
    match listItemToPathElement t 0 x with
    | .ok pe => !(isRepeated t L R pe)
    | .error _ => true)
  have h2 := depthList_filter R (fun x =>
    match listItemToPathElement t 0 x with
    | .ok pe => !(isRepeated t L R pe)
    | .error _ => true)
  simp only [compareWalker.fuel, hl, hr, sideDepth, Value.depth, dropRepeated]
  omega

theorem listSteps_dup_lhs (t : ListType) (w : compareWalker) (L R : ValueList) :
    (stepErrors (w.listSteps t (some L) (some R))).countP (isDuplicateError .lhs) =
      repeatedOccurrences [] ((okItems t L 0).map Prod.fst) := by
  simp only [compareWalker.listSteps, stepErrors_append, rhsOnlySteps_errors, List.append_nil,
    itemsOf]
  exact lhsSteps_dup_count t _ w L 0 ⟨[]⟩ [] (fun _ => rfl)

theorem collected_dup_rhs (t : ListType) (R : ValueList) :
    (compareWalker.collected t (some R)).1.countP (isDuplicateError .rhs) =
      repeatedOccurrences [] ((okItems t R 0).map Prod.fst) := by
  simp only [compareWalker.collected]
  rw [collectRHS_dup_count]
  simp

/-- C9: duplicate keys are reported but do not abort siblings.  For a frame of
associative list type (keyed or set, hence not atomic) with lists `L` and `R` on its
sides, the walk returns; its errors hold at least one "duplicate entries" error about
`lhs` for every repeated occurrence of a path element in `L`, and at least one about `rhs`
for every repeated occurrence in `R`; and for every path element `q` that is not repeated
on either side, the paths at or below `path ++ [q]` in each of the three sets are the
same as in the walk of the frame whose lists have lost the elements with a repeated path
element. -/
theorem C9_duplicates_reported_siblings_kept (s : Schema) (n : Nat) (w : compareWalker)
    (c : Comparison) (t : ListType) (L R : ValueList) (hn : w.fuel ≤ n)
    (hres : s.Resolve w.typeRef = some (.list t)) (hassoc : t.isAssociative)
    (hl : w.lhs = some (.list L)) (hr : w.rhs = some (.list R)) :
    ∃ x x2, compareWalker.compare s n w c = some x ∧
      compareWalker.compare s n
        { w with lhs := some (.list (dropRepeated t L R L)),
                 rhs := some (.list (dropRepeated t L R R)) } c = some x2 ∧
      repeatedOccurrences [] ((okItems t L 0).map Prod.fst) ≤
        x.2.2.countP (isDuplicateError .lhs) ∧
      repeatedOccurrences [] ((okItems t R 0).map Prod.fst) ≤
        x.2.2.countP (isDuplicateError .rhs) ∧
      ∀ (k : DiffKind) (p : Path) (q : PathElement), isRepeated t L R q = false →
        (w.path ++ [q]) <+: p → (p ∈ (x.2.1.get k).paths ↔ p ∈ (x2.2.1.get k).paths) := by
  have hrel : t.ElementRelationship ≠ .atomic := by
    rcases hassoc with h | h <;> rw [h] <;> decide
  have hfuel2 := le_trans (dropRepeated_fuel w t L R hl hr) hn
  obtain ⟨m, rfl⟩ : ∃ m, n = m + 1 := by
    cases n with
    | zero => simp [compareWalker.fuel] at hn
    | succ m => exact ⟨m, rfl⟩
  cases hx : compareWalker.compare s (m + 1) w c with
  | none =>
    have := compare_isSome s (m + 1) w c hn
    rw [hx] at this
    cases this
  | some x =>
    cases hx2 : compareWalker.compare s (m + 1)
        { w with lhs := some (.list (dropRepeated t L R L)),
                 rhs := some (.list (dropRepeated t L R R)) } c with
    | none =>
      have := compare_isSome s (m + 1) _ c hfuel2
      rw [hx2] at this
      cases this
    | some x2 =>
      have herrs : ∀ side : Side,
          (stepErrors (w.listSteps t (some L) (some R))).countP (isDuplicateError side) +
            (compareWalker.collected t (some R)).1.countP (isDuplicateError side) ≤
              x.2.2.countP (isDuplicateError side) := by
        intro side
        by_cases hne : (nilOrEmpty (compareWalker.derefList .lhs w.lhs none).2 &&
            nilOrEmpty (compareWalker.derefList .rhs w.rhs none).2) = false
        · have h := compare_list_both s m w c t _ _ hres hrel hl hr hne
          rw [hx] at h
          simp only [derefList_eq, hl, hr] at h
          cases hrun : runSteps (compareWalker.compare s m)
              (w.listSteps t (some L) (some R)) c (compareWalker.collected t (some R)).1 with
          | none =>
            rw [hrun] at h
            cases h
          | some y =>
            rw [hrun] at h
            simp only [Option.map_some', Option.some.injEq] at h
            subst h
            have := runSteps_errors_ge _ (isDuplicateError side) _ _ _ _ hrun
            simp only at this ⊢
            omega
        · simp only [derefList_eq, hl, hr, nilOrEmpty, Bool.and_eq_false_iff, not_or,
            beq_eq_false_iff_ne, ne_eq, not_not, List.length_eq_zero] at hne
          obtain ⟨h1, h2⟩ := hne
          subst h1 h2
          simp [compareWalker.listSteps, compareWalker.collected, compareWalker.collectRHS,
            compareWalker.lhsSteps, compareWalker.rhsOnlySteps, itemsOf, stepErrors]
      refine ⟨x, x2, rfl, rfl, ?_, ?_, ?_⟩
      · have := herrs .lhs
        rw [listSteps_dup_lhs] at this
        omega
      · have := herrs .rhs
        rw [collected_dup_rhs] at this
        omega
      · intro k p q hq hpre
        have hnp : p ≠ w.path := by
          intro h
          have := hpre.length_le
          rw [h] at this
          simp at this
        have hside : ∀ (wa wb : compareWalker), wa.path = w.path → wb.path = w.path →
            (∀ a b, Step.descend (w.itemFrame t q a b) ∈ wa.nodeSteps s →
              Step.descend (w.itemFrame t q a b) ∈ wb.nodeSteps s) →
            (∀ f, Step.descend f ∈ wa.nodeSteps s → ∃ pe, f = w.itemFrame t pe f.lhs f.rhs) →
            ∀ xa xb, compareWalker.compare s (m + 1) wa c = some xa →
              compareWalker.compare s (m + 1) wb c = some xb →
              p ∈ (xa.2.1.get k).paths → p ∈ (xb.2.1.get k).paths := by
          intro wa wb hpa hpb hsteps hfr xa xb ha hb hp
          rw [compare_mem_iff s m wa c xa ha k p] at hp
          rw [compare_mem_iff s m wb c xb hb k p]
          rcases hp with hp | ⟨f, hf, r2, hr2, hp⟩ | ⟨hp, _⟩
          · exact Or.inl hp
          · obtain ⟨pe, hpe⟩ := hfr f hf
            have hbelow := compare_below s m f Comparison.empty r2 hr2 k p hp
            rw [comparison_get_empty] at hbelow
            simp only [List.not_mem_nil, false_or] at hbelow
            have hfp : f.path = w.path ++ [pe] := by rw [hpe]; rfl
            rw [hfp] at hbelow
            have hpq : w.path ++ [pe] = w.path ++ [q] :=
              List.prefix_of_prefix_length_le hbelow hpre (by simp) |>.eq_of_length (by simp)
            have hpeq : pe = q := List.singleton_inj.1 (List.append_cancel_left hpq)
            subst hpeq
            rw [hpe] at hf
            exact Or.inr (Or.inl ⟨f, by rw [hpe]; exact hsteps _ _ hf, r2, hr2, hp⟩)
          · rw [hpa] at hp
            exact absurd hp hnp
        have hns := nodeSteps_list s w t L R hres hrel hl hr
        have hns2 := nodeSteps_list s
          ({ w with lhs := some (.list (dropRepeated t L R L)),
                    rhs := some (.list (dropRepeated t L R R)) } : compareWalker) t
          (dropRepeated t L R L) (dropRepeated t L R R) hres hrel rfl rfl
        have hiff := fun a b => listSteps_dropRepeated t hassoc w L R
          (some (.list (dropRepeated t L R L))) (some (.list (dropRepeated t L R R))) q a b hq
        constructor
        · refine hside w
            ({ w with lhs := some (.list (dropRepeated t L R L)),
                      rhs := some (.list (dropRepeated t L R R)) } : compareWalker) rfl rfl ?_ ?_ x x2 hx hx2
          · intro a b h
            rw [hns] at h
            rw [hns2]
            exact (hiff a b).1 h
          · intro f hf
            rw [hns] at hf
            exact (listSteps_frame t _ _ w f hf).1
        · refine hside
            ({ w with lhs := some (.list (dropRepeated t L R L)),
                      rhs := some (.list (dropRepeated t L R R)) } : compareWalker) w rfl rfl ?_ ?_ x2 x hx2 hx
          · intro a b h
            rw [hns2] at h
            rw [hns]
            exact (hiff a b).2 h
          · intro f hf
            rw [hns2] at hf
            exact (listSteps_frame t _ _ _ f hf).1

theorem C9_duplicates_reported_siblings_kept_witness :
    exDupFrame.fuel ≤ 3 ∧
    repeatedOccurrences []
      ((okItems exSetType [.string "a", .string "a", .string "b"] 0).map Prod.fst) = 1 ∧
    isRepeated exSetType [.string "a", .string "a", .string "b"] [.string "b", .string "c"]
      (.value (.string "c")) = false ∧
    ∃ x x2, compareWalker.compare ⟨[]⟩ 3 exDupFrame Comparison.empty = some x ∧
      compareWalker.compare ⟨[]⟩ 3
        { exDupFrame with
          lhs := some (.list (dropRepeated exSetType
            [.string "a", .string "a", .string "b"] [.string "b", .string "c"]
            [.string "a", .string "a", .string "b"])),
          rhs := some (.list (dropRepeated exSetType
            [.string "a", .string "a", .string "b"] [.string "b", .string "c"]
            [.string "b", .string "c"])) } Comparison.empty = some x2 ∧
      repeatedOccurrences []
          ((okItems exSetType [.string "a", .string "a", .string "b"] 0).map Prod.fst) ≤
        x.2.2.countP (isDuplicateError .lhs) ∧
      repeatedOccurrences [] ((okItems exSetType [.string "b", .string "c"] 0).map Prod.fst) ≤
        x.2.2.countP (isDuplicateError .rhs) ∧
      ∀ (k : DiffKind) (p : Path) (q : PathElement),
        isRepeated exSetType [.string "a", .string "a", .string "b"]
          [.string "b", .string "c"] q = false →
        (exDupFrame.path ++ [q]) <+: p →
          (p ∈ (x.2.1.get k).paths ↔ p ∈ (x2.2.1.get k).paths) :=
  ⟨by decide, by decide, by decide,
    C9_duplicates_reported_siblings_kept ⟨[]⟩ 3 exDupFrame Comparison.empty exSetType
      [.string "a", .string "a", .string "b"] [.string "b", .string "c"]
      (by decide) rfl (Or.inl rfl) rfl rfl⟩

/-! ## Anti-symmetry -/

theorem equalsFields_get (xs ys : List (String × Value))
    (h : Value.equalsFields xs ys = true) (f : String × Value) (hf : f ∈ xs) :
    ∃ v2, ValueMap.Get ys f.1 = some v2 ∧ f.2.Equals v2 = true := by
  induction xs with
  | nil => cases hf
  | cons e rest ih =>
    obtain ⟨k, v⟩ := e
    simp only [Value.equalsFields, Bool.and_eq_true] at h
    rcases List.mem_cons.1 hf with he | he
    · rw [he]
      cases hg : ValueMap.Get ys k with
      | none =>
        rw [hg] at h
        simp at h
      | some v2 =>
        rw [hg] at h
        exact ⟨v2, rfl, h.1⟩
    · exact ih h.2 he

theorem equalsFields_of (xs ys : List (String × Value))
    (h : ∀ f ∈ xs, ∃ v2, ValueMap.Get ys f.1 = some v2 ∧ f.2.Equals v2 = true) :
    Value.equalsFields xs ys = true := by
  induction xs with
  | nil => rfl
  | cons e rest ih =>
    obtain ⟨k, v⟩ := e
    simp only [Value.equalsFields, Bool.and_eq_true]
    obtain ⟨v2, hg, he⟩ := h (k, v) (List.mem_cons_self _ _)
    simp only at hg he
    rw [hg]
    exact ⟨he, ih (fun f hf => h f (List.mem_cons_of_mem _ hf))⟩

mutual
theorem valueEquals_symm : (a b : Value) → a.WF = true → b.WF = true →
    a.Equals b = true → b.Equals a = true
  | .null, b, _, _, h => by
    cases b <;> simp_all [Value.Equals]
  | .bool x, b, _, _, h => by
    cases b <;> simp_all [Value.Equals]
  | .int x, b, _, _, h => by
    cases b <;> simp_all [Value.Equals, f64eq_symm]
  | .float x, b, _, _, h => by
    cases b <;> simp_all [Value.Equals, f64eq_symm]
  | .string x, b, _, _, h => by
    cases b <;> simp_all [Value.Equals]
  | .list xs, b, ha, hb, h => by
    cases b with
    | list ys =>
      simp only [Value.WF] at ha hb
      simp only [Value.Equals] at h ⊢
      exact equalsList_symm xs ys ha hb h
    | _ => simp [Value.Equals] at h
  | .map xs, b, ha, hb, h => by
    cases b with
    | map ys =>
      simp only [Value.WF, Bool.and_eq_true, decide_eq_true_eq] at ha hb
      simp only [Value.Equals, Bool.and_eq_true, List.all_eq_true] at h ⊢
      obtain ⟨hkeys, hfields⟩ := h
      constructor
      · intro f hf
        obtain ⟨v2, hg, _⟩ := equalsFields_get xs ys hfields f hf
        have hm := valueMap_Get_mem ys f.1 v2 hg
        have : f.1 ∈ ValueMap.keys ys := List.mem_map.2 ⟨(f.1, v2), hm, rfl⟩
        simpa using this
      · apply equalsFields_of
        intro g hg
        have hk := hkeys g hg
        simp only [List.contains_iff_exists_mem_beq, beq_iff_eq, exists_eq_right'] at hk
        have hk2 : g.1 ∈ ValueMap.keys xs := by simpa using hk
        obtain ⟨e, he, hek⟩ := List.mem_map.1 hk2
        have hgx := Get_of_mem_nodup xs e.1 e.2 ha.1 he
        obtain ⟨v2, hg2, heq⟩ := equalsFields_get xs ys hfields e he
        have hgy := Get_of_mem_nodup ys g.1 g.2 hb.1 hg
        rw [hek, hgy] at hg2
        simp only [Option.some.injEq] at hg2
        rw [← hg2] at heq
        rw [hek] at hgx
        exact ⟨e.2, hgx, fieldsSymm xs e he g.2 (wfFields_mem xs ha.2 e he)
          (wfFields_mem ys hb.2 g hg) heq⟩
    | _ => simp [Value.Equals] at h
theorem equalsList_symm : (xs ys : List Value) → Value.wfList xs = true →
    Value.wfList ys = true → Value.equalsList xs ys = true → Value.equalsList ys xs = true
  | [], ys, _, _, h => by
    cases ys with
    | nil => rfl
    | cons y ys => simp [Value.equalsList] at h
  | x :: xs, ys, ha, hb, h => by
    cases ys with
    | nil => simp [Value.equalsList] at h
    | cons y ys =>
      simp only [Value.wfList, Bool.and_eq_true] at ha hb
      simp only [Value.equalsList, Bool.and_eq_true] at h ⊢
      exact ⟨valueEquals_symm x y ha.1 hb.1 h.1, equalsList_symm xs ys ha.2 hb.2 h.2⟩
theorem fieldsSymm : (xs : List (String × Value)) → (f : String × Value) → f ∈ xs →
    (v2 : Value) → f.2.WF = true → v2.WF = true → f.2.Equals v2 = true →
    v2.Equals f.2 = true
  | [], _, hf, _, _, _, _ => by cases hf
  | (k, v) :: rest, f, hf, v2, h1, h2, h3 => by
    by_cases he : f = (k, v)
    · rw [he] at h1 h3 ⊢
      exact valueEquals_symm v v2 h1 h2 h3
    · exact fieldsSymm rest f (by simpa [he] using hf) v2 h1 h2 h3
end

theorem nodeSteps_child (s : Schema) (w f : compareWalker)
    (hf : Step.descend f ∈ w.nodeSteps s) : f.fuel < w.fuel ∧ (SidesWF w → SidesWF f) := by
  simp only [compareWalker.nodeSteps] at hf
  cases hres : s.Resolve w.typeRef with
  | none =>
    rw [hres] at hf
    cases hf
  | some a =>
    rw [hres] at hf
    simp only [compareWalker.atomSteps] at hf
    split at hf
    · cases hf
    · cases a with
      | list t =>
        obtain ⟨_, hl, hr, _⟩ := listSteps_frame _ _ _ _ _ hf
        refine ⟨listSteps_fuel t w f hf, ?_⟩
        intro hw
        constructor
        · intro v hv
          have hm := hl v hv
          cases hlw : w.lhs with
          | none =>
            rw [hlw] at hm
            cases hm
          | some lv =>
            rw [hlw] at hm
            exact wfList_mem _ (derefList_wf .lhs lv (hw.1 lv hlw)) v hm
        · intro v hv
          have hm := hr v hv
          cases hrw : w.rhs with
          | none =>
            rw [hrw] at hm
            cases hm
          | some rv =>
            rw [hrw] at hm
            exact wfList_mem _ (derefList_wf .rhs rv (hw.2 rv hrw)) v hm
      | map t =>
        obtain ⟨⟨key, _, hl, hr⟩, hs⟩ := mapSteps_frame _ _ _ _ _ hf
        refine ⟨child_fuel_lt w f (fun v hv => derefMap_depth _ _ _ (hl v hv))
          (fun v hv => derefMap_depth _ _ _ (hr v hv)) hs, ?_⟩
        intro hw
        constructor
        · intro v hv
          have hm := hl v hv
          cases hlw : w.lhs with
          | none =>
            rw [hlw] at hm
            cases hm
          | some lv =>
            rw [hlw] at hm
            exact wfFields_mem _ (derefMap_wf .lhs lv (hw.1 lv hlw)).2 (key, v) hm
        · intro v hv
          have hm := hr v hv
          cases hrw : w.rhs with
          | none =>
            rw [hrw] at hm
            cases hm
          | some rv =>
            rw [hrw] at hm
            exact wfFields_mem _ (derefMap_wf .rhs rv (hw.2 rv hrw)).2 (key, v) hm
      | scalar t => cases hf
      | untyped => cases hf

theorem compare_untyped (s : Schema) (n : Nat) (w : compareWalker) (c : Comparison)
    (hsides : ¬ (w.lhs = none ∧ w.rhs = none)) (hres : s.Resolve w.typeRef = some .untyped) :
    ∃ c2, compareWalker.compare s (n + 1) w c = some ({ w with inLeaf := true }, c2, []) ∧
      ∀ (k : DiffKind) (p : Path), p ∈ (c2.get k).paths ↔
        p ∈ (c.get k).paths ∨ (p = w.path ∧ sidesRecord w.lhs w.rhs true k = true) := by
  have hk := compare_keepsPath s n
  rw [compare_succ]
  have h1 : (w.lhs.isNone && w.rhs.isNone) = false := by
    cases hl : w.lhs <;> cases hr : w.rhs <;> simp_all
  simp only [h1, Bool.false_eq_true, if_false, hres, compareWalker.handleBoth]
  have hleaf : ∀ (v : Option Value) (w1 : compareWalker) (c1 : Comparison),
      handleAtom (compareWalker.compare s n) (deduceAtom .untyped v) w1.typeRef w1 c1 =
        some ((w1.doLeaf c1).1, (w1.doLeaf c1).2, []) := by
    intro v w1 c1
    rw [handleAtom_eq hk, atomIsLeaf_deduced _ _ _ rfl]
    rfl
  by_cases hd : deduceAtom .untyped w.lhs = deduceAtom .untyped w.rhs
  · rw [if_pos hd, hleaf]
    refine ⟨(w.doLeaf c).2, ?_, fun k p => doLeaf_mem_iff w c k p⟩
    simp only [Option.map_some']
    rw [recordRoot_of_inLeaf _ (by rw [doLeaf_fst]), doLeaf_fst]
  · rw [if_neg hd, hleaf]
    simp only
    rw [hleaf]
    refine ⟨(((w.doLeaf c).1).doLeaf (w.doLeaf c).2).2, ?_, ?_⟩
    · simp only [Option.map_some', List.append_nil]
      rw [recordRoot_of_inLeaf _ (by rw [doLeaf_fst]), doLeaf_fst, doLeaf_fst]
    · intro k p
      rw [doLeaf_mem_iff, doLeaf_mem_iff, doLeaf_fst]
      simp only
      tauto

/-- C11: per-field type selection.  `visitMapItem` hands to `compare` the child frame
for the key `k` under the type of the declared field named `k` if the map type declares
one, and under the `elementType` of the map type otherwise.  When the map type has
neither a field named `k` nor an `elementType`, the child is untyped: whatever the two
values are, its walk returns without any error and is that of a leaf, the only path it
may insert being the child's own, as `doLeaf` classifies it. -/
theorem C11_per_field_type (s : Schema) (n : Nat) (t : MapType) (key : String)
    (lhs rhs : Option Value) (w : compareWalker) (c : Comparison) :
    (∀ cmp : CompareFn, w.visitMapItem cmp t key lhs rhs c =
      Option.map (fun r => (w.finishDescent r.1, r.2.1, r.2.2))
        (cmp { w.prepareDescent (.fieldName key) (t.fieldType key) with
          lhs := lhs, rhs := rhs } c)) ∧
    (∀ ft, t.FindField key = some ft → t.fieldType key = ft) ∧
    (∀ et, t.FindField key = none → t.declaredElementType = .some et →
      t.fieldType key = et) ∧
    (t.FindField key = none → t.declaredElementType = .none → ¬ (lhs = none ∧ rhs = none) →
      ∃ c2, compareWalker.compare s (n + 1) (w.fieldFrame t key lhs rhs) c =
          some ({ w.fieldFrame t key lhs rhs with inLeaf := true }, c2, []) ∧
        ∀ (k : DiffKind) (p : Path), p ∈ (c2.get k).paths ↔
          p ∈ (c.get k).paths ∨
            (p = w.path ++ [.fieldName key] ∧ sidesRecord lhs rhs true k = true)) := by
  refine ⟨?_, ?_, ?_, ?_⟩
  · intro cmp
    simp only [compareWalker.visitMapItem, MapType.fieldType]
    cases cmp _ c with
    | none => rfl
    | some r => rfl
  · intro ft h
    simp only [MapType.fieldType, h]
  · intro et h he
    obtain ⟨f, e, r, u⟩ := t
    simp only [MapType.declaredElementType] at he
    subst he
    simp only [MapType.fieldType, h]
    rfl
  · intro h he hsides
    have hty : t.fieldType key = .inlined .untyped := by
      obtain ⟨f, e, r, u⟩ := t
      simp only [MapType.declaredElementType] at he
      subst he
      simp only [MapType.fieldType, h]
      rfl
    have hres : s.Resolve (w.fieldFrame t key lhs rhs).typeRef = some .untyped := by
      simp only [compareWalker.fieldFrame, compareWalker.prepareDescent, hty]
      rfl
    exact compare_untyped s n (w.fieldFrame t key lhs rhs) c hsides hres

theorem C11_per_field_type_witness :
    exMapType.FindField "a" = some (.inlined (.scalar .numeric)) ∧
    exMapType.FindField "z" = none ∧ exMapType.declaredElementType = .none ∧
    ∃ c2, compareWalker.compare ⟨[]⟩ 1
        (exParent.fieldFrame exMapType "z" (some (.list [.int 1])) (some (.string "x")))
        Comparison.empty =
        some ({ exParent.fieldFrame exMapType "z" (some (.list [.int 1]))
          (some (.string "x")) with inLeaf := true }, c2, []) ∧
      ∀ (k : DiffKind) (p : Path), p ∈ (c2.get k).paths ↔
        p ∈ (Comparison.empty.get k).paths ∨
          (p = exParent.path ++ [.fieldName "z"] ∧
            sidesRecord (some (.list [.int 1])) (some (.string "x")) true k = true) :=
  ⟨rfl, rfl, rfl,
    (C11_per_field_type ⟨[]⟩ 0 exMapType "z" (some (.list [.int 1])) (some (.string "x"))
      exParent Comparison.empty).2.2.2 rfl rfl (by simp)⟩

/-! ## Empty and null sides -/

/-- C18: empty/null promotion to leaf.  For a frame of list type (atomic or not) whose
two sides are present, each an explicit null or the empty list, and likewise for a frame
of map type with each side null or the empty map, the walk returns what `doLeaf` gives,
without errors: no child is visited.  With an explicit null on one side and the empty
list (or map) on the other the path of the frame is inserted into `Modified`; with null
on both sides or empty on both sides the comparison is left as it was. -/
theorem C18_empty_null_promotion (s : Schema) (n : Nat) (w : compareWalker) (c : Comparison)
    (l r : Value) (hl : w.lhs = some l) (hr : w.rhs = some r) :
    (∀ t, s.Resolve w.typeRef = some (.list t) → (l = .null ∨ l = .list []) →
      (r = .null ∨ r = .list []) →
      compareWalker.compare s (n + 1) w c = some ((w.doLeaf c).1, (w.doLeaf c).2, []) ∧
      ((l = .null ∧ r = .list []) ∨ (l = .list [] ∧ r = .null) →
        (w.doLeaf c).2 = { c with Modified := c.Modified.Insert w.path }) ∧
      (l = r → (w.doLeaf c).2 = c)) ∧
    (∀ t, s.Resolve w.typeRef = some (.map t) → (l = .null ∨ l = .map []) →
      (r = .null ∨ r = .map []) →
      compareWalker.compare s (n + 1) w c = some ((w.doLeaf c).1, (w.doLeaf c).2, []) ∧
      ((l = .null ∧ r = .map []) ∨ (l = .map [] ∧ r = .null) →
        (w.doLeaf c).2 = { c with Modified := c.Modified.Insert w.path }) ∧
      (l = r → (w.doLeaf c).2 = c)) := by
  have hsides : ¬ (w.lhs = none ∧ w.rhs = none) := by simp [hl]
  constructor
  · intro t hres hle hre
    refine ⟨?_, ?_, ?_⟩
    · apply compare_of_leafAtom s n w c _ hsides hres (by simp)
      rcases hle with h1 | h1 <;> rcases hre with h2 | h2 <;> subst h1 <;> subst h2 <;>
        simp [handleAtom, compareWalker.doList, compareWalker.derefList, listValue,
          nilOrEmpty, hl, hr]
    · rintro (⟨h1, h2⟩ | ⟨h1, h2⟩) <;> subst h1 <;> subst h2 <;>
        simp [doLeaf_snd, hl, hr, Value.Equals, Value.equalsList]
    · intro h
      subst h
      rcases hle with h1 | h1 <;> subst h1 <;>
        simp [doLeaf_snd, hl, hr, Value.Equals, Value.equalsList]
  · intro t hres hle hre
    refine ⟨?_, ?_, ?_⟩
    · apply compare_of_leafAtom s n w c _ hsides hres (by simp)
      rcases hle with h1 | h1 <;> rcases hre with h2 | h2 <;> subst h1 <;> subst h2 <;>
        simp [handleAtom, compareWalker.doMap, compareWalker.derefMap, mapValue,
          nilOrEmpty, hl, hr]
    · rintro (⟨h1, h2⟩ | ⟨h1, h2⟩) <;> subst h1 <;> subst h2 <;>
        simp [doLeaf_snd, hl, hr, Value.Equals, Value.equalsFields]
    · intro h
      subst h
      rcases hle with h1 | h1 <;> subst h1 <;>
        simp [doLeaf_snd, hl, hr, Value.Equals, Value.equalsFields]

theorem C18_empty_null_promotion_witness :
    compareWalker.compare ⟨[]⟩ 1 exNullEmpty Comparison.empty =
        some ((exNullEmpty.doLeaf Comparison.empty).1,
          (exNullEmpty.doLeaf Comparison.empty).2, []) ∧
      (exNullEmpty.doLeaf Comparison.empty).2 =
        { Comparison.empty with Modified := PathSet.empty.Insert [.fieldName "list"] } :=
  ⟨((C18_empty_null_promotion ⟨[]⟩ 0 exNullEmpty Comparison.empty .null (.list []) rfl rfl).1
      exSetType rfl (Or.inl rfl) (Or.inr rfl)).1,
    ((C18_empty_null_promotion ⟨[]⟩ 0 exNullEmpty Comparison.empty .null (.list []) rfl rfl).1
      exSetType rfl (Or.inl rfl) (Or.inr rfl)).2.1 (Or.inl ⟨rfl, rfl⟩)⟩

/-! ## Dispatch on the deduced atoms -/

/-- C19: atom deduction dispatch.  At a frame with a side present whose type resolves to
the atom `a`, given fuel enough for the frame: if the atoms deduced for `lhs` and for
`rhs` are equal, the frame is handled once, with that atom, and `compare` returns the
result of that one run (followed by the recording of the root); if they differ, the frame
is handled with the atom of `lhs` first and then, from the frame and the comparison the
first run leaves, with the atom of `rhs`, both runs return, and the errors of `compare`
are the errors of the first run followed by those of the second. -/
theorem C19_atom_dispatch (s : Schema) (n : Nat) (w : compareWalker) (c : Comparison)
    (a : Atom) (hsides : ¬ (w.lhs = none ∧ w.rhs = none))
    (hres : s.Resolve w.typeRef = some a) (hn : w.fuel ≤ n + 1) :
    (deduceAtom a w.lhs = deduceAtom a w.rhs →
      ∃ r, handleAtom (compareWalker.compare s n) (deduceAtom a w.rhs) w.typeRef w c = some r ∧
        compareWalker.compare s (n + 1) w c = some (compareWalker.recordRoot r)) ∧
    (deduceAtom a w.lhs ≠ deduceAtom a w.rhs →
      ∃ w1 c1 e1 w2 c2 e2,
        handleAtom (compareWalker.compare s n) (deduceAtom a w.lhs) w.typeRef w c =
          some (w1, c1, e1) ∧
        handleAtom (compareWalker.compare s n) (deduceAtom a w.rhs) w1.typeRef w1 c1 =
          some (w2, c2, e2) ∧
        compareWalker.compare s (n + 1) w c =
          some (compareWalker.recordRoot (w2, c2, e1 ++ e2))) := by
  have hk := compare_keepsPath s n
  have hchild : ∀ w2 c2, w2.fuel < w.fuel →
      (compareWalker.compare s n w2 c2).isSome = true :=
    fun w2 c2 hlt => compare_isSome s n w2 c2 (by omega)
  have h1 : (w.lhs.isNone && w.rhs.isNone) = false := by
    cases hl : w.lhs <;> cases hr : w.rhs <;> simp_all
  constructor
  · intro hd
    have hsome := handleAtom_isSome hk (deduceAtom a w.rhs) w.typeRef w hchild c
    cases hh : handleAtom (compareWalker.compare s n) (deduceAtom a w.rhs) w.typeRef w c with
    | none =>
      rw [hh] at hsome
      cases hsome
    | some r =>
      refine ⟨r, rfl, ?_⟩
      rw [compare_succ]
      simp only [h1, Bool.false_eq_true, if_false, hres, compareWalker.handleBoth, hd, if_true,
        hh, Option.map_some']
  · intro hd
    have hsome := handleAtom_isSome hk (deduceAtom a w.lhs) w.typeRef w hchild c
    cases hh : handleAtom (compareWalker.compare s n) (deduceAtom a w.lhs) w.typeRef w c with
    | none =>
      rw [hh] at hsome
      cases hsome
    | some r1 =>
      obtain ⟨w1, c1, e1⟩ := r1
      have hsame := handleAtom_sameButLeaf hk _ _ _ _ _ hh
      have hsome2 := handleAtom_isSome hk (deduceAtom a w.rhs) w1.typeRef w1
        (fun w2 c2 hlt => hchild w2 c2 (by rw [← sameButLeaf_fuel hsame]; exact hlt)) c1
      cases hh2 : handleAtom (compareWalker.compare s n) (deduceAtom a w.rhs) w1.typeRef w1
          c1 with
      | none =>
        rw [hh2] at hsome2
        cases hsome2
      | some r2 =>
        obtain ⟨w2, c2, e2⟩ := r2
        refine ⟨w1, c1, e1, w2, c2, e2, rfl, hh2, ?_⟩
        rw [compare_succ]
        simp only [h1, Bool.false_eq_true, if_false, hres, compareWalker.handleBoth, hd, hh,
          hh2, Option.map_some']

theorem C19_atom_dispatch_witness :
    deduceAtom .untyped exMixed.lhs ≠ deduceAtom .untyped exMixed.rhs ∧
    ∃ w1 c1 e1 w2 c2 e2,
      handleAtom (compareWalker.compare ⟨[]⟩ 2) (deduceAtom .untyped exMixed.lhs)
          exMixed.typeRef exMixed Comparison.empty = some (w1, c1, e1) ∧
        handleAtom (compareWalker.compare ⟨[]⟩ 2) (deduceAtom .untyped exMixed.rhs)
          w1.typeRef w1 c1 = some (w2, c2, e2) ∧
        compareWalker.compare ⟨[]⟩ 3 exMixed Comparison.empty =
          some (compareWalker.recordRoot (w2, c2, e1 ++ e2)) :=
  ⟨by decide,
    (C19_atom_dispatch ⟨[]⟩ 2 exMixed Comparison.empty .untyped (by simp [exMixed]) rfl
      (by decide)).2 (by decide)⟩

/-! ## Both sides absent -/

theorem compareChars_swap (a : List Char) :
    ∀ b : List Char, compareChars b a = (compareChars a b).swap := by
  induction a with
  | nil => intro b; cases b <;> rfl
  | cons x xs ih =>
    intro b
    cases b with
    | nil => rfl
    | cons y ys =>
      simp only [compareChars]
      by_cases h1 : x.toNat < y.toNat
      · have h2 : ¬ y.toNat < x.toNat := by omega
        simp [h1, h2, Ordering.swap]
      · by_cases h2 : y.toNat < x.toNat
        · simp [h1, h2, Ordering.swap]
        · simp only [h1, h2, if_false]
          exact ih ys

theorem compareChars_refl (a : List Char) : compareChars a a = .eq := by
  induction a with
  | nil => rfl
  | cons x xs ih => simp [compareChars, ih]

theorem compareRat_swap (a b : Rat) : compareRat b a = (compareRat a b).swap := by
  simp only [compareRat]
  by_cases h1 : a < b
  · have h2 : ¬ b < a := not_lt.2 (le_of_lt h1)
    simp [h1, h2, Ordering.swap]
  · by_cases h2 : b < a
    · simp [h1, h2, Ordering.swap]
    · simp [h1, h2, Ordering.swap]

theorem f64lt_irrefl (a : F64) : a.lt a = false := by
  rcases a with _ | b | q
  · rfl
  · cases b <;> rfl
  · simp [F64.lt]

theorem f64lt_asymm {a b : F64} (h : a.lt b = true) : b.lt a = false := by
  rcases a with _ | x | p <;> rcases b with _ | y | q
  · cases h
  · cases h
  · cases h
  · cases h
  · cases x <;> cases y <;> first | rfl | cases h
  · cases x <;> first | rfl | cases h
  · cases h
  · cases y <;> first | rfl | cases h
  · simp only [F64.lt, decide_eq_true_eq, decide_eq_false_iff_not] at h ⊢
    exact not_lt.2 (le_of_lt h)

theorem compareF64_swap (a b : F64) : compareF64 b a = (compareF64 a b).swap := by
  simp only [compareF64]
  cases h1 : a.lt b with
  | true => simp [f64lt_asymm h1, Ordering.swap]
  | false => cases h2 : b.lt a <;> simp [Ordering.swap]

theorem compareF64_of_eq {a b : F64} (h : a.eq b = true) : compareF64 a b = .eq := by
  have := f64eq_eq h
  subst this
  simp [compareF64, f64lt_irrefl]

theorem compareF64_num (x y : Rat) : compareF64 (.num x) (.num y) = compareRat x y := by
  simp only [compareF64, compareRat, F64.lt, decide_eq_true_eq]

theorem compareBool_swap (a b : Bool) : compareBool b a = (compareBool a b).swap := by
  cases a <;> cases b <;> rfl

theorem compareList_swap (cmp : Value → Value → Ordering) (xs : List Value)
    (h : ∀ x ∈ xs, ∀ y, cmp y x = (cmp x y).swap) :
    ∀ ys : List Value, compareList cmp ys xs = (compareList cmp xs ys).swap := by
  induction xs with
  | nil => intro ys; cases ys <;> rfl
  | cons x rest ih =>
    intro ys
    cases ys with
    | nil => rfl
    | cons y ys =>
      simp only [compareList]
      rw [h x (List.mem_cons_self _ _) y]
      cases cmp x y with
      | eq => exact ih (fun z hz => h z (List.mem_cons_of_mem _ hz)) ys
      | lt => rfl
      | gt => rfl

theorem compareFields_swap (cmp : Value → Value → Ordering) (xs : List (String × Value))
    (h : ∀ f ∈ xs, ∀ y, cmp y f.2 = (cmp f.2 y).swap) :
    ∀ ys : List (String × Value),
      compareFields cmp ys xs = (compareFields cmp xs ys).swap := by
  induction xs with
  | nil => intro ys; cases ys <;> rfl
  | cons f rest ih =>
    intro ys
    obtain ⟨k, v⟩ := f
    cases ys with
    | nil => rfl
    | cons g ys =>
      obtain ⟨k2, v2⟩ := g
      simp only [compareFields, compareStrings]
      rw [compareChars_swap k.data k2.data]
      cases compareChars k.data k2.data with
      | eq =>
        simp only [Ordering.swap]
        have := h (k, v) (List.mem_cons_self _ _) v2
        simp only at this
        rw [this]
        cases cmp v v2 with
        | eq => exact ih (fun z hz => h z (List.mem_cons_of_mem _ hz)) ys
        | lt => rfl
        | gt => rfl
      | lt => rfl
      | gt => rfl

theorem compareN_swap {rank : ValueKind → Nat} : ∀ (n : Nat) (a b : Value),
    Value.compareN rank n b a = (Value.compareN rank n a b).swap := by
  intro n
  induction n with
  | zero => intro a b; rfl
  | succ n ih =>
    intro a b
    simp only [Value.compareN]
    by_cases h1 : rank a.kind < rank b.kind
    · have h2 : ¬ rank b.kind < rank a.kind := by omega
      simp [h1, h2, Ordering.swap]
    · by_cases h2 : rank b.kind < rank a.kind
      · simp [h1, h2, Ordering.swap]
      · simp only [h1, h2, if_false]
        cases a <;> cases b <;>
          first
          | rfl
          | exact compareRat_swap _ _
          | exact compareF64_swap _ _
          | exact compareBool_swap _ _
          | exact compareChars_swap _ _
          | exact compareList_swap _ _ (fun x _ y => ih x y) _
          | exact compareFields_swap _ _ (fun f _ y => ih f.2 y) _

theorem compare_swap_order {rank : ValueKind → Nat} (a b : Value) : Value.CompareBy rank b a = (Value.CompareBy rank a b).swap := by
  simp only [Value.CompareBy]
  rw [Nat.max_comm]
  exact compareN_swap _ a b

theorem less_asymm {rank : ValueKind → Nat} (a b : Value) : ¬ (LessBy rank a b = true ∧ LessBy rank b a = true) := by
  simp only [LessBy]
  rw [compare_swap_order a b]
  cases Value.CompareBy rank a b <;> decide

theorem char_toNat_inj {x y : Char} (h : x.toNat = y.toNat) : x = y := by
  rw [← Char.ofNat_toNat x, ← Char.ofNat_toNat y, h]

theorem compareChars_eq (a : List Char) :
    ∀ b : List Char, compareChars a b = .eq → a = b := by
  induction a with
  | nil =>
    intro b h
    cases b with
    | nil => rfl
    | cons y ys => cases h
  | cons x xs ih =>
    intro b h
    cases b with
    | nil => cases h
    | cons y ys =>
      simp only [compareChars] at h
      split at h
      · cases h
      · split at h
        · cases h
        · rw [ih ys h, char_toNat_inj (by omega : x.toNat = y.toNat)]

theorem compareStrings_eq {a b : String} (h : compareStrings a b = .eq) : a = b :=
  String.ext (compareChars_eq _ _ h)

theorem compareStrings_refl (a : String) : compareStrings a a = .eq :=
  compareChars_refl _

theorem compareChars_trans (a : List Char) :
    ∀ b c : List Char, compareChars a b = .lt → compareChars b c = .lt →
      compareChars a c = .lt := by
  induction a with
  | nil =>
    intro b c h1 h2
    cases b with
    | nil => cases h1
    | cons y ys =>
      cases c with
      | nil => cases h2
      | cons z zs => rfl
  | cons x xs ih =>
    intro b c h1 h2
    cases b with
    | nil => cases h1
    | cons y ys =>
      cases c with
      | nil => cases h2
      | cons z zs =>
        simp only [compareChars] at h1 h2 ⊢
        by_cases hxy : x.toNat < y.toNat
        · by_cases hyz : y.toNat < z.toNat
          · rw [if_pos (by omega)]
          · rw [if_neg hyz] at h2
            by_cases hzy : z.toNat < y.toNat
            · rw [if_pos hzy] at h2
              cases h2
            · rw [if_pos (by omega)]
        · rw [if_neg hxy] at h1
          by_cases hyx : y.toNat < x.toNat
          · rw [if_pos hyx] at h1
            cases h1
          · rw [if_neg hyx] at h1
            by_cases hyz : y.toNat < z.toNat
            · rw [if_pos (by omega)]
            · rw [if_neg hyz] at h2
              by_cases hzy : z.toNat < y.toNat
              · rw [if_pos hzy] at h2
                cases h2
              · rw [if_neg hzy] at h2
                rw [if_neg (by omega), if_neg (by omega)]
                exact ih ys zs h1 h2

theorem keyLt_trans {a b c : String} (h1 : keyLt a b) (h2 : keyLt b c) : keyLt a c :=
  compareChars_trans _ _ _ h1 h2

theorem keyLt_asymm {a b : String} (h1 : keyLt a b) (h2 : keyLt b a) : False := by
  simp only [keyLt, compareStrings] at h1 h2
  rw [compareChars_swap, h1] at h2
  cases h2

theorem insertField_perm (f : String × Value) (l : List (String × Value)) :
    (insertField f l).Perm (f :: l) := by
  induction l with
  | nil => exact List.Perm.refl _
  | cons g rest ih =>
    simp only [insertField]
    split
    · exact (List.Perm.cons g ih).trans (List.Perm.swap f g rest)
    · exact List.Perm.refl _

theorem sortFields_perm (l : List (String × Value)) : (sortFields l).Perm l := by
  induction l with
  | nil => exact List.Perm.refl _
  | cons f rest ih => exact (insertField_perm f _).trans (List.Perm.cons f ih)

theorem insertField_sorted (f : String × Value) (l : List (String × Value))
    (hs : (l.map Prod.fst).Pairwise keyLt) (hne : ∀ g ∈ l, g.1 ≠ f.1) :
    ((insertField f l).map Prod.fst).Pairwise keyLt := by
  induction l with
  | nil => simp [insertField]
  | cons g rest ih =>
    simp only [List.map_cons, List.pairwise_cons] at hs
    simp only [insertField]
    split
    · rename_i hgt
      simp only [List.map_cons, List.pairwise_cons]
      refine ⟨?_, ih hs.2 (fun x hx => hne x (List.mem_cons_of_mem _ hx))⟩
      intro k hk
      have hk2 : k ∈ (f :: rest).map Prod.fst :=
        ((insertField_perm f rest).map Prod.fst).subset hk
      simp only [List.map_cons, List.mem_cons] at hk2
      rcases hk2 with hk2 | hk2
      · rw [hk2]
        simp only [keyLt, compareStrings] at hgt ⊢
        rw [compareChars_swap, hgt]
        rfl
      · exact hs.1 k hk2
    · rename_i hgt
      have hlt : keyLt f.1 g.1 := by
        simp only [keyLt]
        cases hc : compareStrings f.1 g.1 with
        | lt => rfl
        | eq => exact absurd (compareStrings_eq hc).symm (hne g (List.mem_cons_self _ _))
        | gt => exact absurd hc hgt
      simp only [List.map_cons, List.pairwise_cons]
      refine ⟨?_, hs⟩
      intro k hk
      simp only [List.mem_cons] at hk
      rcases hk with hk | hk
      · rw [hk]
        exact hlt
      · exact keyLt_trans hlt (hs.1 k hk)

theorem sortFields_sorted (l : List (String × Value)) (hnd : (l.map Prod.fst).Nodup) :
    ((sortFields l).map Prod.fst).Pairwise keyLt := by
  induction l with
  | nil => simp [sortFields]
  | cons f rest ih =>
    simp only [List.map_cons, List.nodup_cons] at hnd
    simp only [sortFields]
    apply insertField_sorted f _ (ih hnd.2)
    intro g hg heq
    have hg2 : g ∈ rest := (sortFields_perm rest).subset hg
    exact hnd.1 (by rw [← heq]; exact List.mem_map_of_mem Prod.fst hg2)

theorem sortFields_keys_eq (xs ys : List (String × Value))
    (hx : (xs.map Prod.fst).Nodup) (hy : (ys.map Prod.fst).Nodup)
    (hp : (xs.map Prod.fst).Perm (ys.map Prod.fst)) :
    (sortFields xs).map Prod.fst = (sortFields ys).map Prod.fst := by
  haveI : IsAntisymm String keyLt := ⟨fun a b h1 h2 => (keyLt_asymm h1 h2).elim⟩
  apply List.eq_of_perm_of_sorted _ (sortFields_sorted xs hx) (sortFields_sorted ys hy)
  exact (((sortFields_perm xs).map Prod.fst).trans hp).trans
    ((sortFields_perm ys).map Prod.fst).symm

theorem compareFields_eq (cmp : Value → Value → Ordering) (sx : List (String × Value)) :
    ∀ sy : List (String × Value), sx.map Prod.fst = sy.map Prod.fst →
      (∀ k v v2, (k, v) ∈ sx → (k, v2) ∈ sy → cmp v v2 = .eq) →
      compareFields cmp sx sy = .eq := by
  induction sx with
  | nil =>
    intro sy hk _
    cases sy with
    | nil => rfl
    | cons g rest => cases hk
  | cons f rest ih =>
    intro sy hk h
    obtain ⟨k, v⟩ := f
    cases sy with
    | nil => cases hk
    | cons g rest2 =>
      obtain ⟨k2, v2⟩ := g
      simp only [List.map_cons, List.cons.injEq] at hk
      obtain ⟨hk1, hk2⟩ := hk
      subst hk1
      simp only [compareFields, compareStrings_refl,
        h k v v2 (List.mem_cons_self _ _) (List.mem_cons_self _ _)]
      exact ih rest2 hk2 (fun k3 v3 v4 h3 h4 =>
        h k3 v3 v4 (List.mem_cons_of_mem _ h3) (List.mem_cons_of_mem _ h4))

theorem compareList_eq (cmp : Value → Value → Ordering) (xs : List Value) :
    ∀ ys : List Value, Value.wfList xs = true → Value.wfList ys = true →
      Value.equalsList xs ys = true →
      (∀ x ∈ xs, ∀ y, x.WF = true → y.WF = true → x.Equals y = true → cmp x y = .eq) →
      compareList cmp xs ys = .eq := by
  induction xs with
  | nil =>
    intro ys _ _ he _
    cases ys with
    | nil => rfl
    | cons y ys => simp [Value.equalsList] at he
  | cons x rest ih =>
    intro ys hx hy he h
    cases ys with
    | nil => simp [Value.equalsList] at he
    | cons y ys =>
      simp only [Value.wfList, Bool.and_eq_true] at hx hy
      simp only [Value.equalsList, Bool.and_eq_true] at he
      simp only [compareList, h x (List.mem_cons_self _ _) y hx.1 hy.1 he.1]
      exact ih ys hx.2 hy.2 he.2 (fun z hz => h z (List.mem_cons_of_mem _ hz))

theorem equals_compareN {rank : ValueKind → Nat} : ∀ (n : Nat) (a b : Value), a.WF = true → b.WF = true →
    a.Equals b = true → Value.compareN rank n a b = .eq := by
  intro n
  induction n with
  | zero => intro a b _ _ _; rfl
  | succ n ih =>
    intro a b ha hb he
    cases a with
    | null => cases b <;> simp_all [Value.Equals, Value.compareN, Value.kind]
    | bool x =>
      cases b with
      | bool y =>
        simp only [Value.Equals, beq_iff_eq] at he
        subst he
        simp only [Value.compareN, Value.kind, lt_self_iff_false, if_false]
        cases x <;> rfl
      | _ => simp [Value.Equals] at he
    | int x =>
      cases b <;>
        simp_all [Value.Equals, Value.compareN, Value.kind, compareRat, compareF64_of_eq]
    | float x =>
      cases b <;>
        simp_all [Value.Equals, Value.compareN, Value.kind, compareRat, compareF64_of_eq]
    | string x =>
      cases b <;> simp_all [Value.Equals, Value.compareN, Value.kind, compareStrings_refl]
    | list xs =>
      cases b with
      | list ys =>
        simp only [Value.WF] at ha hb
        simp only [Value.Equals] at he
        simp only [Value.compareN, Value.kind, lt_self_iff_false, if_false]
        exact compareList_eq _ xs ys ha hb he (fun x _ y hx hy hxy => ih x y hx hy hxy)
      | _ => simp [Value.Equals] at he
    | map xs =>
      cases b with
      | map ys =>
        simp only [Value.WF, Bool.and_eq_true, decide_eq_true_eq] at ha hb
        simp only [Value.Equals, Bool.and_eq_true, List.all_eq_true] at he
        obtain ⟨hkeys, hfields⟩ := he
        simp only [Value.compareN, Value.kind, lt_self_iff_false, if_false]
        have hperm : (xs.map Prod.fst).Perm (ys.map Prod.fst) := by
          apply (List.perm_ext_iff_of_nodup ha.1 hb.1).2
          intro k
          constructor
          · intro hk
            obtain ⟨e, he, hek⟩ := List.mem_map.1 hk
            obtain ⟨v2, hg, _⟩ := equalsFields_get xs ys hfields e he
            rw [← hek]
            exact List.mem_map.2 ⟨(e.1, v2), valueMap_Get_mem ys e.1 v2 hg, rfl⟩
          · intro hk
            obtain ⟨e, he, hek⟩ := List.mem_map.1 hk
            have := hkeys e he
            rw [← hek]
            simpa [ValueMap.keys] using this
        apply compareFields_eq _ _ _ (sortFields_keys_eq xs ys ha.1 hb.1 hperm)
        intro k v v2 h1 h2
        have h1x : (k, v) ∈ xs := (sortFields_perm xs).subset h1
        have h2y : (k, v2) ∈ ys := (sortFields_perm ys).subset h2
        obtain ⟨v3, hg, heq⟩ := equalsFields_get xs ys hfields (k, v) h1x
        have hgy := Get_of_mem_nodup ys k v2 hb.1 h2y
        simp only at hg heq
        rw [hgy] at hg
        simp only [Option.some.injEq] at hg
        rw [← hg] at heq
        exact ih v v2 (wfFields_mem xs ha.2 (k, v) h1x) (wfFields_mem ys hb.2 (k, v2) h2y) heq
      | _ => simp [Value.Equals] at he

theorem depth_pos (a : Value) : 1 ≤ a.depth := by
  cases a <;> simp [Value.depth]

theorem compareList_congr (f g : Value → Value → Ordering) (xs : List Value)
    (h : ∀ x ∈ xs, ∀ y, f x y = g x y) :
    ∀ ys : List Value, compareList f xs ys = compareList g xs ys := by
  induction xs with
  | nil => intro ys; cases ys <;> rfl
  | cons x rest ih =>
    intro ys
    cases ys with
    | nil => rfl
    | cons y ys =>
      simp only [compareList, h x (List.mem_cons_self _ _) y]
      rw [ih (fun z hz => h z (List.mem_cons_of_mem _ hz)) ys]

theorem compareFields_congr (f g : Value → Value → Ordering) (xs : List (String × Value))
    (h : ∀ x ∈ xs, ∀ y, f x.2 y = g x.2 y) :
    ∀ ys : List (String × Value), compareFields f xs ys = compareFields g xs ys := by
  induction xs with
  | nil => intro ys; cases ys <;> rfl
  | cons x rest ih =>
    intro ys
    obtain ⟨k, v⟩ := x
    cases ys with
    | nil => rfl
    | cons y ys =>
      obtain ⟨k2, v2⟩ := y
      have := h (k, v) (List.mem_cons_self _ _) v2
      simp only at this
      simp only [compareFields, this]
      rw [ih (fun z hz => h z (List.mem_cons_of_mem _ hz)) ys]

theorem compareN_fuel {rank : ValueKind → Nat} : ∀ (n m : Nat) (a b : Value), a.depth ≤ n → a.depth ≤ m →
    Value.compareN rank n a b = Value.compareN rank m a b := by
  intro n
  induction n with
  | zero =>
    intro m a b hn _
    have := depth_pos a
    omega
  | succ n ih =>
    intro m a b hn hm
    cases m with
    | zero =>
      have := depth_pos a
      omega
    | succ m =>
      simp only [Value.compareN]
      split
      · rfl
      · split
        · rfl
        · cases a with
          | list xs =>
            cases b with
            | list ys =>
              simp only [Value.depth] at hn hm
              simp only
              apply compareList_congr
              intro x hx y
              have := depthList_mem xs x hx
              exact ih m x y (by omega) (by omega)
            | _ => rfl
          | map xs =>
            cases b with
            | map ys =>
              simp only [Value.depth] at hn hm
              simp only
              apply compareFields_congr
              intro x hx y
              have := depthFields_mem xs x ((sortFields_perm xs).subset hx)
              exact ih m x.2 y (by omega) (by omega)
            | _ => rfl
          | _ => cases b <;> rfl

theorem compareN_fuel_right {rank : ValueKind → Nat} (n m : Nat) (a b : Value) (hn : b.depth ≤ n) (hm : b.depth ≤ m) :
    Value.compareN rank n a b = Value.compareN rank m a b := by
  have h1 := @compareN_swap rank n b a
  have h2 := @compareN_swap rank m b a
  rw [h1, h2, compareN_fuel n m b a hn hm]

theorem compare_eq_compareN {rank : ValueKind → Nat} (n : Nat) (a b : Value) (hn : a.depth ≤ n) :
    Value.compareN rank n a b = Value.CompareBy rank a b :=
  compareN_fuel n _ a b hn (Nat.le_max_left _ _)

theorem compare_self {rank : ValueKind → Nat} (a : Value) : Value.CompareBy rank a a = .eq := by
  have h := @compare_swap_order rank a a
  cases hc : Value.CompareBy rank a a with
  | eq => rfl
  | lt =>
    rw [hc] at h
    cases h
  | gt =>
    rw [hc] at h
    cases h

theorem compare_list_cons {rank : ValueKind → Nat} (x y : Value) (xs ys : List Value) :
    Value.CompareBy rank (.list (x :: xs)) (.list (y :: ys)) =
      match Value.CompareBy rank x y with
      | .eq => Value.CompareBy rank (.list xs) (.list ys)
      | o => o := by
  have hfuel : ∀ n, Value.depthList (x :: xs) ≤ n →
      Value.compareN rank (n + 1) (.list (x :: xs)) (.list (y :: ys)) =
        match Value.CompareBy rank x y with
        | .eq => Value.CompareBy rank (.list xs) (.list ys)
        | o => o := by
    intro n hn
    simp only [Value.depthList] at hn
    simp only [Value.compareN, Value.kind, lt_self_iff_false, if_false, compareList]
    rw [compare_eq_compareN n x y (by omega)]
    cases Value.CompareBy rank x y with
    | eq =>
      simp only
      rw [← compare_eq_compareN (n + 1) (.list xs) (.list ys)
        (by simp only [Value.depth]; omega)]
      simp only [Value.compareN, Value.kind, lt_self_iff_false, if_false]
    | lt => rfl
    | gt => rfl
  have := hfuel (max (Value.depthList (x :: xs)) (Value.depthList (y :: ys)))
    (Nat.le_max_left _ _)
  rw [← this]
  simp only [Value.CompareBy, Value.depth]
  congr 1
  omega

theorem compare_list_prefix {rank : ValueKind → Nat} (xs : List Value) (y : Value) (ys : List Value) :
    Value.CompareBy rank (.list xs) (.list (xs ++ y :: ys)) = .lt := by
  induction xs with
  | nil =>
    rw [← compare_eq_compareN 1 (.list []) (.list ([] ++ y :: ys)) (by decide)]
    simp [Value.compareN, Value.kind, compareList]
  | cons x rest ih =>
    rw [List.cons_append, compare_list_cons, compare_self]
    exact ih

theorem compare_map {rank : ValueKind → Nat} (xs ys : List (String × Value)) :
    Value.CompareBy rank (.map xs) (.map ys) =
      compareFields (Value.CompareBy rank) (sortFields xs) (sortFields ys) := by
  simp only [Value.CompareBy, Value.depth, Value.compareN, Value.kind, lt_self_iff_false,
    if_false]
  have hmax : max (Value.depthFields xs + 1) (Value.depthFields ys + 1) =
      max (Value.depthFields xs) (Value.depthFields ys) + 1 := by omega
  rw [hmax]
  simp only [Value.compareN, Value.kind, lt_self_iff_false, if_false]
  apply compareFields_congr
  intro x hx y
  have := depthFields_mem xs x ((sortFields_perm xs).subset hx)
  exact compareN_fuel _ _ x.2 y (by omega) (Nat.le_max_left _ _)

theorem compare_of_rank_lt {rank : ValueKind → Nat} (a b : Value)
    (h : rank a.kind < rank b.kind) :
    Value.CompareBy rank a b = .lt := by
  have hpos := depth_pos a
  obtain ⟨n, hn⟩ : ∃ n, max a.depth b.depth = n + 1 :=
    ⟨max a.depth b.depth - 1, by omega⟩
  simp only [Value.CompareBy, hn, Value.compareN, h, if_true]

theorem compare_numbers {rank : ValueKind → Nat} (a b : Value) (x y : Rat)
    (ha : a.asNumber = some x) (hb : b.asNumber = some y) :
    Value.CompareBy rank a b = compareRat x y := by
  have hpos := depth_pos a
  obtain ⟨n, hn⟩ : ∃ n, max a.depth b.depth = n + 1 :=
    ⟨max a.depth b.depth - 1, by omega⟩
  simp only [Value.CompareBy, hn]
  rcases a with _ | _ | _ | (_ | _ | _) | _ | _ | _ <;>
    rcases b with _ | _ | _ | (_ | _ | _) | _ | _ | _ <;>
    simp_all [Value.asNumber, Value.compareN, Value.kind, compareF64_num, F64.ofInt]

theorem compare_bools {rank : ValueKind → Nat} (x y : Bool) :
    Value.CompareBy rank (.bool x) (.bool y) = compareBool x y := by
  simp [Value.CompareBy, Value.depth, Value.compareN, Value.kind]

theorem less_of_rank_lt {rank : ValueKind → Nat} (a b : Value) (h : rank a.kind < rank b.kind) :
    LessBy rank a b = true ∧ LessBy rank b a = false := by
  simp only [LessBy]
  rw [compare_swap_order a b, compare_of_rank_lt a b h]
  exact ⟨rfl, rfl⟩

theorem rank_lt_of_less {rank : ValueKind → Nat} (a b : Value) (hk : a.kind ≠ b.kind)
    (h : LessBy rank a b = true) : rank a.kind < rank b.kind := by
  have hpos := depth_pos a
  obtain ⟨n, hn⟩ : ∃ n, max a.depth b.depth = n + 1 :=
    ⟨max a.depth b.depth - 1, by omega⟩
  simp only [LessBy, Value.CompareBy, hn, Value.compareN] at h
  by_cases h1 : rank a.kind < rank b.kind
  · exact h1
  · rw [if_neg h1] at h
    by_cases h2 : rank b.kind < rank a.kind
    · rw [if_pos h2] at h
      cases h
    · rw [if_neg h2] at h
      cases a <;> cases b <;> first | exact absurd rfl hk | cases h

theorem table_row {rank : ValueKind → Nat} (h : lessTableHolds rank = true)
    (r : Value × Value × Bool) (hr : r ∈ lessTestTable) : lessRowHolds rank r = true :=
  List.all_eq_true.1 h r hr

theorem table_row_less {rank : ValueKind → Nat} (h : lessTableHolds rank = true)
    (a b : Value) (hr : (a, b, false) ∈ lessTestTable) : LessBy rank a b = true := by
  have := table_row h (a, b, false) hr
  simp only [lessRowHolds, Bool.false_eq_true, if_false, Bool.and_eq_true] at this
  exact this.1

theorem table_ranks {rank : ValueKind → Nat} (h : lessTableHolds rank = true) :
    rank .numeric < rank .string ∧ rank .string < rank .bool ∧ rank .bool < rank .list ∧
      rank .list < rank .map ∧ rank .map < rank .null := by
  refine ⟨?_, ?_, ?_, ?_, ?_⟩
  · exact rank_lt_of_less (.float (.num 1)) (.string "aoeu") (by decide)
      (table_row_less h _ _ (by simp [lessTestTable]))
  · exact rank_lt_of_less (.string "folate") (.bool true) (by decide)
      (table_row_less h _ _ (by simp [lessTestTable]))
  · exact rank_lt_of_less (.bool false) (.list []) (by decide)
      (table_row_less h _ _ (by simp [lessTestTable]))
  · exact rank_lt_of_less (.list []) (.map []) (by decide)
      (table_row_less h _ _ (by simp [lessTestTable]))
  · exact rank_lt_of_less (.map []) .null (by decide)
      (table_row_less h _ _ (by simp [lessTestTable]))

theorem insertField_of_lt (f : String × Value) (l : List (String × Value))
    (h : ∀ g ∈ l, keyLt f.1 g.1) : insertField f l = f :: l := by
  cases l with
  | nil => rfl
  | cons g rest =>
    have hlt := h g (List.mem_cons_self _ _)
    simp only [keyLt] at hlt
    simp [insertField, hlt]

theorem sortFields_of_sorted (l : List (String × Value))
    (h : (l.map Prod.fst).Pairwise keyLt) : sortFields l = l := by
  induction l with
  | nil => rfl
  | cons f rest ih =>
    simp only [List.map_cons, List.pairwise_cons] at h
    simp only [sortFields, ih h.2]
    apply insertField_of_lt
    intro g hg
    exact h.1 g.1 (List.mem_map_of_mem Prod.fst hg)

theorem sortFields_eq_of_perm (xs ys : List (String × Value))
    (hx : (xs.map Prod.fst).Nodup) (hp : xs.Perm ys) : sortFields xs = sortFields ys := by
  have hy : (ys.map Prod.fst).Nodup := (hp.map Prod.fst).nodup_iff.1 hx
  haveI : IsAntisymm (String × Value) (fun a b => keyLt a.1 b.1) :=
    ⟨fun a b h1 h2 => (keyLt_asymm h1 h2).elim⟩
  have h1 : (sortFields xs).Pairwise (fun a b => keyLt a.1 b.1) :=
    List.pairwise_map.1 (sortFields_sorted xs hx)
  have h2 : (sortFields ys).Pairwise (fun a b => keyLt a.1 b.1) :=
    List.pairwise_map.1 (sortFields_sorted ys hy)
  exact List.eq_of_perm_of_sorted
    ((sortFields_perm xs).trans (hp.trans (sortFields_perm ys).symm)) h1 h2

theorem compareBy_map_cons {rank : ValueKind → Nat} (k k2 : String) (v v2 : Value)
    (xs ys : List (String × Value))
    (hx : (((k, v) :: xs).map Prod.fst).Pairwise keyLt)
    (hy : (((k2, v2) :: ys).map Prod.fst).Pairwise keyLt) :
    Value.CompareBy rank (.map ((k, v) :: xs)) (.map ((k2, v2) :: ys)) =
      match compareStrings k k2 with
      | .eq =>
        match Value.CompareBy rank v v2 with
        | .eq => Value.CompareBy rank (.map xs) (.map ys)
        | o => o
      | o => o := by
  have hx2 : (xs.map Prod.fst).Pairwise keyLt := by
    simp only [List.map_cons, List.pairwise_cons] at hx
    exact hx.2
  have hy2 : (ys.map Prod.fst).Pairwise keyLt := by
    simp only [List.map_cons, List.pairwise_cons] at hy
    exact hy.2
  rw [compare_map, compare_map, sortFields_of_sorted _ hx, sortFields_of_sorted _ hy,
    sortFields_of_sorted _ hx2, sortFields_of_sorted _ hy2]
  simp only [compareFields]

/-- The rows of `TestValueLess` do not hold of the order under the rank of section 4.3
of the spec, and they hold under the rank of the test. -/
theorem lessTable_ranks : lessTableHolds specRank = false ∧ lessTableHolds testRank = true := by
  decide!

/-- C15: `Less` is a strict order.  For all values `a` and `b`, `Less a b` and
`Less b a` are never both true; and when `a` and `b` are well formed and equal
(`value.Equals`: an int and a float of the same numeric value, two maps with the same
entries, ...), `Less` is false in both directions. -/
theorem C15_less_strict_order (a b : Value) :
    ¬ (Less a b = true ∧ Less b a = true) ∧
    (a.WF = true → b.WF = true → a.Equals b = true →
      Less a b = false ∧ Less b a = false) := by
  refine ⟨@less_asymm testRank a b, ?_⟩
  intro ha hb he
  have h1 : Value.CompareBy testRank a b = .eq := equals_compareN _ a b ha hb he
  simp only [Less, LessBy]
  rw [@compare_swap_order testRank a b, h1]
  exact ⟨rfl, rfl⟩

theorem C15_less_strict_order_witness :
    (Value.int 1).Equals (.float (.num 1)) = true ∧
    (Less (.int 1) (.float (.num 1)) = false ∧ Less (.float (.num 1)) (.int 1) = false) ∧
    (Less (.map [("carotine", .int 1), ("ethanol", .int 2)])
        (.map [("ethanol", .int 2), ("carotine", .int 1)]) = false ∧
      Less (.map [("ethanol", .int 2), ("carotine", .int 1)])
        (.map [("carotine", .int 1), ("ethanol", .int 2)]) = false) :=
  ⟨by decide,
    (C15_less_strict_order (.int 1) (.float (.num 1))).2 (by decide) (by decide) (by decide),
    (C15_less_strict_order (.map [("carotine", .int 1), ("ethanol", .int 2)])
      (.map [("ethanol", .int 2), ("carotine", .int 1)])).2 (by decide) (by decide)
      (by decide)⟩

/-- C16: the order of `Less` across kinds and within a kind, as the tests assert it.
The order of values is by a rank of the kinds and, within a kind, by the values; take
any rank of the kinds.  A value of a kind of smaller rank is less than a value of a kind
of larger rank.  If every row of the table of `TestValueLess` holds under the rank, then
the rank puts the kinds in the order numerics, strings, bools, lists, maps, null, and
every numeric (int or float) is less than every string, every string than every bool,
every bool than every list, every list than every map and every map than null.  Within
a kind, under every rank: numerics compare by the numbers they denote, across ints and
floats; `false` is less than `true`; lists compare lexicographically, element by
element, a proper prefix being smaller; maps compare as their sequences of fields sorted
by key, each field by key and then by value: the sorted sequence is a permutation of the
fields, it is strictly increasing by key when no key is repeated, two maps with the same
fields in another order compare the same against every map, and two maps whose fields
are in key order compare by the first field, key before value, and then by the rest. -/
theorem C16_less_order (rank : ValueKind → Nat) :
    (∀ a b : Value, rank a.kind < rank b.kind →
      LessBy rank a b = true ∧ LessBy rank b a = false) ∧
    (lessTableHolds rank = true →
      (rank .numeric < rank .string ∧ rank .string < rank .bool ∧ rank .bool < rank .list ∧
        rank .list < rank .map ∧ rank .map < rank .null) ∧
      (∀ (a : Value) (s : String), a.kind = .numeric →
        LessBy rank a (.string s) = true ∧ LessBy rank (.string s) a = false) ∧
      (∀ (s : String) (b : Bool),
        LessBy rank (.string s) (.bool b) = true ∧ LessBy rank (.bool b) (.string s) = false) ∧
      (∀ (b : Bool) (xs : List Value),
        LessBy rank (.bool b) (.list xs) = true ∧ LessBy rank (.list xs) (.bool b) = false) ∧
      (∀ (xs : List Value) (ys : List (String × Value)),
        LessBy rank (.list xs) (.map ys) = true ∧ LessBy rank (.map ys) (.list xs) = false) ∧
      (∀ xs : List (String × Value),
        LessBy rank (.map xs) .null = true ∧ LessBy rank .null (.map xs) = false)) ∧
    (∀ (a b : Value) (x y : Rat), a.asNumber = some x → b.asNumber = some y →
      LessBy rank a b = decide (x < y)) ∧
    (∀ x y : Bool, LessBy rank (.bool x) (.bool y) = (!x && y)) ∧
    (∀ (x y : Value) (xs ys : List Value),
      Value.CompareBy rank (.list (x :: xs)) (.list (y :: ys)) =
        match Value.CompareBy rank x y with
        | .eq => Value.CompareBy rank (.list xs) (.list ys)
        | o => o) ∧
    (∀ (xs : List Value) (y : Value) (ys : List Value),
      LessBy rank (.list xs) (.list (xs ++ y :: ys)) = true ∧
        LessBy rank (.list (xs ++ y :: ys)) (.list xs) = false) ∧
    (∀ xs ys : List (String × Value),
      Value.CompareBy rank (.map xs) (.map ys) =
        compareFields (Value.CompareBy rank) (sortFields xs) (sortFields ys)) ∧
    (∀ xs : List (String × Value), (sortFields xs).Perm xs ∧
      ((xs.map Prod.fst).Nodup → ((sortFields xs).map Prod.fst).Pairwise keyLt)) ∧
    (∀ xs xs2 ys : List (String × Value), (xs.map Prod.fst).Nodup → xs.Perm xs2 →
      Value.CompareBy rank (.map xs) (.map ys) = Value.CompareBy rank (.map xs2) (.map ys) ∧
        Value.CompareBy rank (.map ys) (.map xs) = Value.CompareBy rank (.map ys) (.map xs2)) ∧
    (∀ (k k2 : String) (v v2 : Value) (xs ys : List (String × Value)),
      (((k, v) :: xs).map Prod.fst).Pairwise keyLt →
      (((k2, v2) :: ys).map Prod.fst).Pairwise keyLt →
      Value.CompareBy rank (.map ((k, v) :: xs)) (.map ((k2, v2) :: ys)) =
        match compareStrings k k2 with
        | .eq =>
          match Value.CompareBy rank v v2 with
          | .eq => Value.CompareBy rank (.map xs) (.map ys)
          | o => o
        | o => o) := by
  refine ⟨less_of_rank_lt, ?_, ?_, ?_, compare_list_cons, ?_, compare_map, ?_, ?_,
    compareBy_map_cons⟩
  · intro h
    have hr := table_ranks h
    refine ⟨hr, ?_, ?_, ?_, ?_, ?_⟩
    · intro a s ha
      apply less_of_rank_lt
      rw [ha]
      exact hr.1
    · intro s b
      exact less_of_rank_lt _ _ hr.2.1
    · intro b xs
      exact less_of_rank_lt _ _ hr.2.2.1
    · intro xs ys
      exact less_of_rank_lt _ _ hr.2.2.2.1
    · intro xs
      exact less_of_rank_lt _ _ hr.2.2.2.2
  · intro a b x y ha hb
    simp only [LessBy, compare_numbers a b x y ha hb, compareRat]
    by_cases h1 : x < y
    · simp only [h1, if_true, decide_True]
      rfl
    · by_cases h2 : y < x
      · simp only [h1, h2, if_true, if_false, decide_False]
        rfl
      · simp only [h1, h2, if_false, decide_False]
        rfl
  · intro x y
    simp only [LessBy, compare_bools]
    cases x <;> cases y <;> rfl
  · intro xs y ys
    simp only [LessBy]
    rw [@compare_swap_order rank (.list xs) (.list (xs ++ y :: ys)), compare_list_prefix]
    exact ⟨rfl, rfl⟩
  · intro xs
    exact ⟨sortFields_perm xs, sortFields_sorted xs⟩
  · intro xs xs2 ys hnd hp
    rw [compare_map, compare_map, compare_map, compare_map,
      sortFields_eq_of_perm xs xs2 hnd hp]
    exact ⟨rfl, rfl⟩

theorem C16_less_order_witness :
    lessTableHolds testRank = true ∧
    (Less (.int 1) (.string "aoeu") = true ∧ Less (.string "aoeu") (.int 1) = false) ∧
    (Less (.string "folate") (.bool true) = true ∧
      Less (.bool true) (.string "folate") = false) ∧
    (Less (.map [("carotine", .int 1)]) .null = true ∧
      Less .null (.map [("carotine", .int 1)]) = false) ∧
    Less (.int 1) (.float (.num 2)) = decide ((1 : Rat) < 2) ∧
    (Less (.list [.int 1]) (.list ([.int 1] ++ .int 1 :: [])) = true ∧
      Less (.list ([.int 1] ++ .int 1 :: [])) (.list [.int 1]) = false) ∧
    Less (.list [.int 1, .int 1]) (.list [.int 2]) = true ∧
    Value.Compare (.map [("ethanol", .int 1), ("carotine", .int 2)])
        (.map [("carotine", .int 1)]) =
      Value.Compare (.map [("carotine", .int 2), ("ethanol", .int 1)])
        (.map [("carotine", .int 1)]) ∧
    Less (.map [("carotine", .int 1)]) (.map [("ethanol", .int 1), ("carotine", .int 2)]) =
      true ∧
    ((sortFields [("ethanol", .int 1), ("carotine", .int 2)]).map Prod.fst).Pairwise keyLt ∧
    Value.Compare (.map [("carotine", .int 1), ("ethanol", .int 1)])
        (.map [("carotine", .int 2)]) =
      (match compareStrings "carotine" "carotine" with
      | .eq =>
        match Value.Compare (.int 1) (.int 2) with
        | .eq => Value.Compare (.map [("ethanol", .int 1)]) (.map [])
        | o => o
      | o => o) :=
  ⟨by decide!,
    ((C16_less_order testRank).2.1 (by decide!)).2.1 (.int 1) "aoeu" rfl,
    ((C16_less_order testRank).2.1 (by decide!)).2.2.1 "folate" true,
    ((C16_less_order testRank).2.1 (by decide!)).2.2.2.2.2 [("carotine", .int 1)],
    (C16_less_order testRank).2.2.1 (.int 1) (.float (.num 2)) 1 2 rfl rfl,
    (C16_less_order testRank).2.2.2.2.2.1 [.int 1] (.int 1) [],
    by decide,
    ((C16_less_order testRank).2.2.2.2.2.2.2.2.1 [("ethanol", .int 1), ("carotine", .int 2)]
      [("carotine", .int 2), ("ethanol", .int 1)] [("carotine", .int 1)] (by decide)
      (List.Perm.swap _ _ _)).1,
    by decide,
    ((C16_less_order testRank).2.2.2.2.2.2.2.1 [("ethanol", .int 1), ("carotine", .int 2)]).2
      (by decide),
    (C16_less_order testRank).2.2.2.2.2.2.2.2.2 "carotine" "carotine" (.int 1) (.int 2)
      [("ethanol", .int 1)] [] (by decide) (by decide)⟩

/-! ## Union normalisation -/


theorem Get_isSome_iff (m : ValueMap) (k : String) :
    (ValueMap.Get m k).isSome = true ↔ k ∈ m.map Prod.fst := by
  induction m with
  | nil => simp [ValueMap.Get]
  | cons f rest ih =>
    obtain ⟨k2, v⟩ := f
    simp only [ValueMap.Get, List.map_cons, List.mem_cons]
    by_cases h : k2 = k
    · simp [h]
    · simp only [h, if_false, ih]
      constructor
      · exact Or.inr
      · rintro (h2 | h2)
        · exact absurd h2.symm h
        · exact h2

theorem Get_isSome_of_keys (m m2 : ValueMap) (h : m.map Prod.fst = m2.map Prod.fst)
    (k : String) : (ValueMap.Get m k).isSome = (ValueMap.Get m2 k).isSome := by
  rw [Bool.eq_iff_iff, Get_isSome_iff, Get_isSome_iff, h]

theorem normalizeFields_keys (s : Schema) (t : MapType) (m : List (String × Value)) :
    ∀ fs, normalizeFields s t m = .ok fs → fs.map Prod.fst = m.map Prod.fst := by
  induction m with
  | nil =>
    intro fs h
    simp only [normalizeFields, Except.ok.injEq] at h
    rw [← h]
  | cons f rest ih =>
    intro fs h
    obtain ⟨k, v⟩ := f
    simp only [normalizeFields] at h
    cases hv : normalizeValue s (t.fieldType k) v with
    | error e => simp [hv] at h
    | ok v2 =>
      cases hr : normalizeFields s t rest with
      | error e => simp [hv, hr] at h
      | ok rest2 =>
        simp only [hv, hr, Except.ok.injEq] at h
        rw [← h]
        simp only [List.map_cons, ih rest2 hr]

theorem present_congr (u : UnionSpec) (m m2 : ValueMap)
    (h : ∀ k, (ValueMap.Get m k).isSome = (ValueMap.Get m2 k).isSome) :
    u.present m = u.present m2 := by
  simp only [UnionSpec.present, h]

theorem applyUnions_error (given : ValueMap) (u : UnionSpec)
    (hp : 1 < (u.present given).length) (us : List UnionSpec) (hu : u ∈ us) :
    ∀ out, ∃ e, applyUnions given us out = .error e := by
  induction us with
  | nil => cases hu
  | cons u2 rest ih =>
    intro out
    simp only [applyUnions]
    cases hn : u2.Normalize given out with
    | error e => exact ⟨e, rfl⟩
    | ok out2 =>
      rcases List.mem_cons.1 hu with h | h
      · subst h
        simp [UnionSpec.Normalize, hp] at hn
      · exact ih h out2

/-- C12: `NormalizeUnions` rejects multiple members.  For every map value whose type
resolves to a map type and every union of that type, if more than one member field of the
union is set in the value, `NormalizeUnions` returns an error, whether or not the union
has or deduces a discriminator and whatever the discriminator of the value is. -/
theorem C12_multiple_members_rejected (s : Schema) (tr : TypeRef) (t : MapType)
    (m : ValueMap) (u : UnionSpec) (hres : s.Resolve tr = some (.map t))
    (hu : u ∈ t.Unions) (hp : 1 < (u.present m).length) :
    ∃ e, NormalizeUnions s tr (.map m) = .error e := by
  simp only [NormalizeUnions, normalizeValue, hres]
  cases hf : normalizeFields s t m with
  | error e => exact ⟨e, rfl⟩
  | ok fs =>
    have hk := normalizeFields_keys s t m fs hf
    have hp2 : 1 < (u.present fs).length := by
      rw [present_congr u fs m (Get_isSome_of_keys fs m hk)]
      exact hp
    obtain ⟨e, he⟩ := applyUnions_error fs u hp2 t.Unions hu fs
    exact ⟨e, by simp only [he]⟩

theorem C12_multiple_members_rejected_witness :
    (∃ e, NormalizeUnions exUnionSchema (.namedType "union")
      (.map [("one", .int 2), ("two", .int 1)]) = .error e) ∧
    (∃ e, NormalizeUnions exUnionSchema (.namedType "union")
      (.map [("discriminator", .string "One"), ("one", .int 1), ("two", .int 1),
        ("three", .int 1)]) = .error e) ∧
    NormalizeUnions exUnionSchema (.namedType "union")
      (.map [("one", .int 2), ("two", .int 1)]) = .error (.multipleMembers ["one", "two"]) :=
  ⟨C12_multiple_members_rejected exUnionSchema (.namedType "union") exUnionType
      [("one", .int 2), ("two", .int 1)]
      { Discriminator := some "discriminator", DeduceDiscriminator := true,
        Fields := [⟨"one", "One"⟩, ⟨"two", "TWO"⟩, ⟨"three", "three"⟩] }
      rfl (by decide) (by decide),
    C12_multiple_members_rejected exUnionSchema (.namedType "union") exUnionType
      [("discriminator", .string "One"), ("one", .int 1), ("two", .int 1), ("three", .int 1)]
      { Discriminator := some "discriminator", DeduceDiscriminator := true,
        Fields := [⟨"one", "One"⟩, ⟨"two", "TWO"⟩, ⟨"three", "three"⟩] }
      rfl (by decide) (by decide),
    by rfl⟩

theorem Get_set_self (m : ValueMap) (k : String) (v : Value) :
    ValueMap.Get (ValueMap.set m k v) k = some v := by
  induction m with
  | nil => simp [ValueMap.set, ValueMap.Get]
  | cons f rest ih =>
    obtain ⟨k2, x⟩ := f
    simp only [ValueMap.set]
    by_cases h : k2 = k
    · simp [h, ValueMap.Get]
    · simp [h, ValueMap.Get, ih]

theorem Get_set_ne (m : ValueMap) (k k2 : String) (v : Value) (hne : k2 ≠ k) :
    ValueMap.Get (ValueMap.set m k v) k2 = ValueMap.Get m k2 := by
  induction m with
  | nil =>
    have : ¬ k = k2 := fun e => hne e.symm
    simp [ValueMap.set, ValueMap.Get, this]
  | cons f rest ih =>
    obtain ⟨k3, x⟩ := f
    simp only [ValueMap.set]
    by_cases h : k3 = k
    · have h2 : ¬ k3 = k2 := fun e => hne (e.symm.trans h)
      simp only [h, if_true, ValueMap.Get]
      have h3 : ¬ k = k2 := fun e => hne e.symm
      simp only [h3, if_false]
    · simp only [h, if_false, ValueMap.Get, ih]

theorem set_of_Get (m : ValueMap) (k : String) (v : Value)
    (h : ValueMap.Get m k = some v) : ValueMap.set m k v = m := by
  induction m with
  | nil => simp [ValueMap.Get] at h
  | cons f rest ih =>
    obtain ⟨k2, x⟩ := f
    simp only [ValueMap.Get] at h
    simp only [ValueMap.set]
    by_cases h2 : k2 = k
    · simp only [h2, if_true, Option.some.injEq] at h
      simp [h2, h]
    · simp only [h2, if_false] at h
      simp [h2, ih h]

theorem set_set (m : ValueMap) (k : String) (v : Value) :
    ValueMap.set (ValueMap.set m k v) k v = ValueMap.set m k v :=
  set_of_Get _ _ _ (Get_set_self m k v)

theorem clear_of_absent (m : ValueMap) (names : List String)
    (h : ∀ n ∈ names, ValueMap.Get m n = none) : ValueMap.clear m names = m := by
  simp only [ValueMap.clear]
  rw [List.filter_eq_self]
  intro f hf
  simp only [Bool.not_eq_true', List.contains_eq_any_beq, List.any_eq_false, beq_iff_eq]
  intro n hn heq
  have h1 := h n hn
  have h2 : (ValueMap.Get m n).isSome = true := by
    rw [Get_isSome_iff, ← heq]
    exact List.mem_map_of_mem Prod.fst hf
  rw [h1] at h2
  cases h2

theorem present_nil_iff (u : UnionSpec) (m : ValueMap) :
    u.present m = [] ↔ ∀ n ∈ u.memberNames, ValueMap.Get m n = none := by
  simp only [UnionSpec.present, List.filter_eq_nil_iff, List.mem_dedup]
  constructor
  · intro h n hn
    have := h n hn
    cases hg : ValueMap.Get m n with
    | none => rfl
    | some v => simp [hg] at this
  · intro h n hn
    simp [h n hn]

theorem mismatched_subset (u : UnionSpec) (dv : String) :
    ∀ n ∈ u.mismatched dv, n ∈ u.memberNames := by
  intro n hn
  simp only [UnionSpec.mismatched, List.mem_filter] at hn
  exact hn.1

theorem normalize_inert (u2 : UnionSpec) (given out : ValueMap)
    (hp : u2.present given = [])
    (hout : ∀ n ∈ u2.memberNames, ValueMap.Get out n = none) :
    u2.Normalize given out = .ok out := by
  simp only [UnionSpec.Normalize, hp, List.length_nil, Nat.not_lt_zero, if_false]
  split
  · rfl
  · split
    · rfl
    · split
      · rename_i dv _
        rw [clear_of_absent out _ (fun n hn => hout n (mismatched_subset u2 dv n hn))]
      · rfl

theorem normalize_deduce (u : UnionSpec) (given out : ValueMap) (d f dv : String)
    (hded : u.DeduceDiscriminator = true) (hd : u.Discriminator = some d)
    (hp : u.present given = [f]) (hdv : u.discriminatorValueOf f = some dv) :
    u.Normalize given out = .ok (ValueMap.set out d (.string dv)) := by
  simp [UnionSpec.Normalize, hp, hded, hd, hdv]

theorem clear_Get_none (m : ValueMap) (names : List String) (k : String)
    (h : ValueMap.Get m k = none) : ValueMap.Get (ValueMap.clear m names) k = none := by
  cases hg : ValueMap.Get (ValueMap.clear m names) k with
  | none => rfl
  | some v =>
    have h1 : (ValueMap.Get (ValueMap.clear m names) k).isSome = true := by rw [hg]; rfl
    rw [Get_isSome_iff] at h1
    obtain ⟨e, he, hek⟩ := List.mem_map.1 h1
    simp only [ValueMap.clear, List.mem_filter] at he
    have h2 : (ValueMap.Get m k).isSome = true := by
      rw [Get_isSome_iff, ← hek]
      exact List.mem_map_of_mem Prod.fst he.1
    rw [h] at h2
    cases h2

theorem normalize_explicit_no_gain (u : UnionSpec) (given out out2 : ValueMap)
    (hded : u.DeduceDiscriminator = false) (h : u.Normalize given out = .ok out2) (k : String)
    (hk : ValueMap.Get out k = none) : ValueMap.Get out2 k = none := by
  simp only [UnionSpec.Normalize, hded, Bool.false_eq_true, if_false] at h
  split at h
  · cases h
  · split at h
    · simp only [Except.ok.injEq] at h
      rw [← h]
      exact hk
    · split at h
      · simp only [Except.ok.injEq] at h
        rw [← h]
        exact clear_Get_none out _ k hk
      · simp only [Except.ok.injEq] at h
        rw [← h]
        exact hk

theorem applyUnions_no_gain (given : ValueMap) (us : List UnionSpec)
    (hded : ∀ u ∈ us, u.DeduceDiscriminator = false) (k : String) :
    ∀ out out2, applyUnions given us out = .ok out2 → ValueMap.Get out k = none →
      ValueMap.Get out2 k = none := by
  induction us with
  | nil =>
    intro out out2 h hk
    simp only [applyUnions, Except.ok.injEq] at h
    rw [← h]
    exact hk
  | cons u rest ih =>
    intro out out2 h hk
    simp only [applyUnions] at h
    cases hn : u.Normalize given out with
    | error e => simp [hn] at h
    | ok out3 =>
      simp only [hn] at h
      exact ih (fun u2 hu2 => hded u2 (List.mem_cons_of_mem _ hu2)) out3 out2 h
        (normalize_explicit_no_gain u given out out3 (hded u (List.mem_cons_self _ _)) hn k hk)

/-! ### The fields after the unions of a map type -/

theorem Get_clear_ne (m : ValueMap) (names : List String) (k : String)
    (hk : k ∉ names) : ValueMap.Get (ValueMap.clear m names) k = ValueMap.Get m k := by
  induction m with
  | nil => rfl
  | cons f rest ih =>
    obtain ⟨k2, v⟩ := f
    by_cases hin : k2 ∈ names
    · have hne : ¬ k2 = k := fun e => hk (e ▸ hin)
      have : ValueMap.clear ((k2, v) :: rest) names = ValueMap.clear rest names := by
        simp [ValueMap.clear, hin]
      rw [this, ih]
      simp [ValueMap.Get, hne]
    · have : ValueMap.clear ((k2, v) :: rest) names = (k2, v) :: ValueMap.clear rest names := by
        simp [ValueMap.clear, hin]
      rw [this]
      simp only [ValueMap.Get, ih]

theorem normalize_Get (u : UnionSpec) (g o o2 : ValueMap) (k : String)
    (h : u.Normalize g o = .ok o2) (hm : k ∉ u.memberNames) (hd : u.deduced ≠ some k) :
    ValueMap.Get o2 k = ValueMap.Get o k := by
  simp only [UnionSpec.Normalize] at h
  split at h
  · cases h
  · split at h
    · rename_i hded
      simp only [UnionSpec.deduced, hded, if_true] at hd
      split at h
      · rename_i f d hp hdisc
        split at h
        · simp only [Except.ok.injEq] at h
          rw [← h]
          apply Get_set_ne
          intro e
          apply hd
          rw [hdisc, e]
        · simp only [Except.ok.injEq] at h
          rw [← h]
      · simp only [Except.ok.injEq] at h
        rw [← h]
    · split at h
      · simp only [Except.ok.injEq] at h
        rw [← h]
      · split at h
        · rename_i dv _
          simp only [Except.ok.injEq] at h
          rw [← h]
          exact Get_clear_ne o _ k (fun hin => hm (mismatched_subset u dv k hin))
        · simp only [Except.ok.injEq] at h
          rw [← h]

theorem normalize_Get_none (u : UnionSpec) (g o o2 : ValueMap) (k : String)
    (h : u.Normalize g o = .ok o2) (hd : u.deduced ≠ some k)
    (hk : ValueMap.Get o k = none) : ValueMap.Get o2 k = none := by
  simp only [UnionSpec.Normalize] at h
  split at h
  · cases h
  · split at h
    · rename_i hded
      simp only [UnionSpec.deduced, hded, if_true] at hd
      split at h
      · rename_i f d hp hdisc
        split at h
        · simp only [Except.ok.injEq] at h
          rw [← h, Get_set_ne _ _ _ _ (fun e => hd (by rw [hdisc, e]))]
          exact hk
        · simp only [Except.ok.injEq] at h
          rw [← h]
          exact hk
      · simp only [Except.ok.injEq] at h
        rw [← h]
        exact hk
    · split at h
      · simp only [Except.ok.injEq] at h
        rw [← h]
        exact hk
      · split at h
        · simp only [Except.ok.injEq] at h
          rw [← h]
          exact clear_Get_none o _ k hk
        · simp only [Except.ok.injEq] at h
          rw [← h]
          exact hk

theorem applyUnions_Get (g : ValueMap) (k : String) (us : List UnionSpec)
    (hm : k ∉ membersOf us) (hd : ∀ u ∈ us, u.deduced ≠ some k) :
    ∀ o o2, applyUnions g us o = .ok o2 → ValueMap.Get o2 k = ValueMap.Get o k := by
  induction us with
  | nil =>
    intro o o2 h
    simp only [applyUnions, Except.ok.injEq] at h
    rw [h]
  | cons u rest ih =>
    intro o o2 h
    simp only [applyUnions] at h
    simp only [membersOf, List.flatMap_cons, List.mem_append, not_or] at hm
    cases hn : u.Normalize g o with
    | error e => simp [hn] at h
    | ok o3 =>
      simp only [hn] at h
      rw [ih hm.2 (fun u2 hu2 => hd u2 (List.mem_cons_of_mem _ hu2)) o3 o2 h]
      exact normalize_Get u g o o3 k hn hm.1 (hd u (List.mem_cons_self _ _))

theorem applyUnions_Get_none (g : ValueMap) (k : String) (us : List UnionSpec)
    (hd : ∀ u ∈ us, u.deduced ≠ some k) :
    ∀ o o2, applyUnions g us o = .ok o2 → ValueMap.Get o k = none →
      ValueMap.Get o2 k = none := by
  induction us with
  | nil =>
    intro o o2 h hk
    simp only [applyUnions, Except.ok.injEq] at h
    rw [← h]
    exact hk
  | cons u rest ih =>
    intro o o2 h hk
    simp only [applyUnions] at h
    cases hn : u.Normalize g o with
    | error e => simp [hn] at h
    | ok o3 =>
      simp only [hn] at h
      exact ih (fun u2 hu2 => hd u2 (List.mem_cons_of_mem _ hu2)) o3 o2 h
        (normalize_Get_none u g o o3 k hn (hd u (List.mem_cons_self _ _)) hk)

theorem applyUnions_present_le (g : ValueMap) (us : List UnionSpec) :
    ∀ o o2, applyUnions g us o = .ok o2 → ∀ u ∈ us, (u.present g).length ≤ 1 := by
  induction us with
  | nil => intro o o2 _ u hu; cases hu
  | cons u rest ih =>
    intro o o2 h u2 hu2
    simp only [applyUnions] at h
    cases hn : u.Normalize g o with
    | error e => simp [hn] at h
    | ok o3 =>
      simp only [hn] at h
      rcases List.mem_cons.1 hu2 with h2 | h2
      · subst h2
        by_contra hlt
        simp only [UnionSpec.Normalize, show 1 < (u2.present g).length by omega, if_true] at hn
        cases hn
      · exact ih o3 o2 h u2 h2

theorem applyUnions_deduced (g : ValueMap) (u : UnionSpec) (d f dv : String)
    (hded : u.DeduceDiscriminator = true) (hd : u.Discriminator = some d)
    (hp : u.present g = [f]) (hdv : u.discriminatorValueOf f = some dv)
    (us : List UnionSpec) (hne : ∀ u3 ∈ us, u3 ≠ u → u3.deduced ≠ some d)
    (hm : d ∉ membersOf us) (hu : u ∈ us) :
    ∀ o o2, applyUnions g us o = .ok o2 → ValueMap.Get o2 d = some (.string dv) := by
  induction us with
  | nil => cases hu
  | cons u2 rest ih =>
    intro o o2 h
    simp only [applyUnions] at h
    simp only [membersOf, List.flatMap_cons, List.mem_append, not_or] at hm
    cases hn : u2.Normalize g o with
    | error e => simp [hn] at h
    | ok o3 =>
      simp only [hn] at h
      by_cases hin : u ∈ rest
      · exact ih (fun u3 hu3 => hne u3 (List.mem_cons_of_mem _ hu3)) hm.2 hin o3 o2 h
      · have heq : u = u2 := by
          rcases List.mem_cons.1 hu with h2 | h2
          · exact h2
          · exact absurd h2 hin
        subst heq
        rw [normalize_deduce u g o d f dv hded hd hp hdv] at hn
        simp only [Except.ok.injEq] at hn
        rw [applyUnions_Get g d rest hm.2
          (fun u3 hu3 => hne u3 (List.mem_cons_of_mem _ hu3)
            (fun e => hin (e ▸ hu3))) o3 o2 h, ← hn]
        exact Get_set_self o d _

theorem applyUnions_cleared (g : ValueMap) (u : UnionSpec) (d dv : String)
    (hded : u.DeduceDiscriminator = false) (hd : u.Discriminator = some d)
    (hg : ValueMap.Get g d = some (.string dv)) (n : String) (hn : n ∈ u.mismatched dv)
    (us : List UnionSpec) (hdisc : ∀ u2 ∈ us, u2.deduced ≠ some n) (hu : u ∈ us) :
    ∀ o o2, applyUnions g us o = .ok o2 → ValueMap.Get o2 n = none := by
  induction us with
  | nil => cases hu
  | cons u2 rest ih =>
    intro o o2 h
    simp only [applyUnions] at h
    have hdisc2 : ∀ u3 ∈ rest, u3.deduced ≠ some n :=
      fun u3 hu3 => hdisc u3 (List.mem_cons_of_mem _ hu3)
    cases hnm : u2.Normalize g o with
    | error e => simp [hnm] at h
    | ok o3 =>
      simp only [hnm] at h
      by_cases hin : u ∈ rest
      · exact ih hdisc2 hin o3 o2 h
      · have heq : u = u2 := by
          rcases List.mem_cons.1 hu with h2 | h2
          · exact h2
          · exact absurd h2 hin
        subst heq
        apply applyUnions_Get_none g n rest hdisc2 o3 o2 h
        simp only [UnionSpec.Normalize, hded, Bool.false_eq_true, if_false, hd, hg] at hnm
        split at hnm
        · cases hnm
        · simp only [Except.ok.injEq] at hnm
          rw [← hnm]
          cases hget : ValueMap.Get (ValueMap.clear o (u.mismatched dv)) n with
          | none => rfl
          | some v =>
            have h1 : (ValueMap.Get (ValueMap.clear o (u.mismatched dv)) n).isSome = true := by
              rw [hget]; rfl
            rw [Get_isSome_iff] at h1
            obtain ⟨e, he, hek⟩ := List.mem_map.1 h1
            simp only [ValueMap.clear, List.mem_filter, Bool.not_eq_true',
              List.contains_eq_any_beq, List.any_eq_false, beq_iff_eq] at he
            exact absurd hek (he.2 n hn)

theorem applyUnions_of_fixed (g : ValueMap) (us : List UnionSpec) (o : ValueMap)
    (h : ∀ u ∈ us, u.Normalize g o = .ok o) : applyUnions g us o = .ok o := by
  induction us with
  | nil => rfl
  | cons u rest ih =>
    simp only [applyUnions, h u (List.mem_cons_self _ _)]
    exact ih (fun u2 hu2 => h u2 (List.mem_cons_of_mem _ hu2))

theorem unionsApart_iff (us : List UnionSpec) :
    unionsApart us = true ↔
      ∀ u ∈ us, ∀ d, u.deduced = some d →
        d ∉ membersOf us ∧ ∀ u2 ∈ us, u2 ≠ u → u2.Discriminator ≠ some d := by
  simp only [unionsApart, List.all_eq_true]
  constructor
  · intro h u hu d hd
    have h1 := h u hu
    rw [hd] at h1
    simp only [Bool.and_eq_true, Bool.not_eq_true', List.all_eq_true, Bool.or_eq_true,
      decide_eq_true_eq] at h1
    refine ⟨fun hin => ?_, fun u2 hu2 hne => ?_⟩
    · have : (membersOf us).contains d = true := by simpa using hin
      rw [h1.1] at this
      cases this
    · rcases h1.2 u2 hu2 with h2 | h2
      · exact absurd h2 hne
      · exact h2
  · intro h u hu
    cases hd : u.deduced with
    | none => rfl
    | some d =>
      obtain ⟨h1, h2⟩ := h u hu d hd
      simp only [Bool.and_eq_true, Bool.not_eq_true', List.all_eq_true, Bool.or_eq_true,
        decide_eq_true_eq]
      refine ⟨by simpa using h1, fun u2 hu2 => ?_⟩
      by_cases he : u2 = u
      · exact Or.inl he
      · exact Or.inr (h2 u2 hu2 he)

/-- Unions without `deduceDiscriminator` are apart, whatever fields they share. -/
theorem unionsApart_of_explicit (us : List UnionSpec)
    (h : ∀ u ∈ us, u.DeduceDiscriminator = false) : unionsApart us = true := by
  rw [unionsApart_iff]
  intro u hu d hd
  simp [UnionSpec.deduced, h u hu] at hd

theorem Get_clear_mem (m : ValueMap) (names : List String) (k : String)
    (hk : k ∈ names) : ValueMap.Get (ValueMap.clear m names) k = none := by
  cases hget : ValueMap.Get (ValueMap.clear m names) k with
  | none => rfl
  | some v =>
    have h1 : (ValueMap.Get (ValueMap.clear m names) k).isSome = true := by
      rw [hget]; rfl
    rw [Get_isSome_iff] at h1
    obtain ⟨e, he, hek⟩ := List.mem_map.1 h1
    simp only [ValueMap.clear, List.mem_filter, Bool.not_eq_true',
      List.contains_eq_any_beq, List.any_eq_false, beq_iff_eq] at he
    exact absurd hek (he.2 k hk)

theorem Get_clear_some (m : ValueMap) (names : List String) (k : String) (v : Value)
    (h : ValueMap.Get (ValueMap.clear m names) k = some v) : ValueMap.Get m k = some v := by
  by_cases hk : k ∈ names
  · rw [Get_clear_mem m names k hk] at h
    cases h
  · rw [Get_clear_ne m names k hk] at h
    exact h

theorem normalize_Get_some (u : UnionSpec) (g o o2 : ValueMap) (k : String) (v : Value)
    (h : u.Normalize g o = .ok o2) (hd : u.deduced ≠ some k)
    (hk : ValueMap.Get o2 k = some v) : ValueMap.Get o k = some v := by
  simp only [UnionSpec.Normalize] at h
  split at h
  · cases h
  · split at h
    · rename_i hded
      simp only [UnionSpec.deduced, hded, if_true] at hd
      split at h
      · rename_i f d hp hdisc
        split at h
        · simp only [Except.ok.injEq] at h
          rw [← h, Get_set_ne _ _ _ _ (fun e => hd (by rw [hdisc, e]))] at hk
          exact hk
        · simp only [Except.ok.injEq] at h
          rw [h]
          exact hk
      · simp only [Except.ok.injEq] at h
        rw [h]
        exact hk
    · split at h
      · simp only [Except.ok.injEq] at h
        rw [h]
        exact hk
      · split at h
        · simp only [Except.ok.injEq] at h
          rw [← h] at hk
          exact Get_clear_some o _ k v hk
        · simp only [Except.ok.injEq] at h
          rw [h]
          exact hk

theorem applyUnions_Get_some (g : ValueMap) (k : String) (v : Value) (us : List UnionSpec)
    (hd : ∀ u ∈ us, u.deduced ≠ some k) :
    ∀ o o2, applyUnions g us o = .ok o2 → ValueMap.Get o2 k = some v →
      ValueMap.Get o k = some v := by
  induction us with
  | nil =>
    intro o o2 h hk
    simp only [applyUnions, Except.ok.injEq] at h
    rw [h]
    exact hk
  | cons u rest ih =>
    intro o o2 h hk
    simp only [applyUnions] at h
    cases hn : u.Normalize g o with
    | error e => simp [hn] at h
    | ok o3 =>
      simp only [hn] at h
      exact normalize_Get_some u g o o3 k v hn (hd u (List.mem_cons_self _ _))
        (ih (fun u2 hu2 => hd u2 (List.mem_cons_of_mem _ hu2)) o3 o2 h hk)

theorem mem_membersOf {us : List UnionSpec} {u : UnionSpec} {n : String} (hu : u ∈ us)
    (hn : n ∈ u.memberNames) : n ∈ membersOf us := by
  simp only [membersOf, List.mem_flatMap]
  exact ⟨u, hu, hn⟩

theorem deduced_not_member (us : List UnionSpec)
    (hmem : ∀ u ∈ us, ∀ d, u.deduced = some d → d ∉ membersOf us) (n : String)
    (hn : n ∈ membersOf us) : ∀ u ∈ us, u.deduced ≠ some n :=
  fun u hu h => hmem u hu n h hn

theorem filter_sublist_filter {α : Type} (l : List α) (p q : α → Bool)
    (h : ∀ a ∈ l, p a = true → q a = true) : (l.filter p).Sublist (l.filter q) := by
  induction l with
  | nil => exact List.Sublist.refl _
  | cons a rest ih =>
    have ih2 := ih (fun b hb => h b (List.mem_cons_of_mem _ hb))
    simp only [List.filter_cons]
    by_cases hp : p a = true
    · simp only [hp, if_true, h a (List.mem_cons_self _ _) hp]
      exact List.Sublist.cons₂ a ih2
    · simp only [hp, if_false]
      by_cases hq : q a = true
      · simp only [hq, if_true]
        exact List.Sublist.cons a ih2
      · simp only [hq, if_false]
        exact ih2

theorem applyUnions_idem (fs out : ValueMap) (us : List UnionSpec)
    (hok : unionsApart us = true) (h : applyUnions fs us fs = .ok out) :
    applyUnions out us out = .ok out := by
  have hap := (unionsApart_iff us).1 hok
  have hmem : ∀ u ∈ us, ∀ d, u.deduced = some d → d ∉ membersOf us :=
    fun u hu d hd => (hap u hu d hd).1
  apply applyUnions_of_fixed
  intro u hu
  have hlen := applyUnions_present_le fs us fs out h u hu
  have hkeep : ∀ n ∈ membersOf us, ValueMap.Get fs n = none → ValueMap.Get out n = none :=
    fun n hn hg =>
      applyUnions_Get_none fs n us (deduced_not_member us hmem n hn) fs out h hg
  have hsub : (u.present out).Sublist (u.present fs) := by
    simp only [UnionSpec.present]
    apply filter_sublist_filter
    intro n hn hsome
    rw [List.mem_dedup] at hn
    cases hg : ValueMap.Get fs n with
    | some v => rfl
    | none =>
      rw [hkeep n (mem_membersOf hu hn) hg] at hsome
      cases hsome
  have hlen2 : ¬ 1 < (u.present out).length := by
    have := hsub.length_le
    omega
  simp only [UnionSpec.Normalize, hlen2, if_false]
  cases hded : u.DeduceDiscriminator with
  | true =>
    simp only [if_true]
    split
    · rename_i f d hp hdisc
      have hpf : u.present fs = [f] := by
        rw [hp] at hsub
        cases hl : u.present fs with
        | nil =>
          rw [hl] at hsub
          cases hsub
        | cons a rest =>
          rw [hl] at hsub hlen
          cases rest with
          | nil =>
            have := List.sublist_singleton.1 hsub
            simp only [List.cons_ne_nil, List.cons.injEq, and_true, false_or] at this
            rw [this]
          | cons b rest2 =>
            simp only [List.length_cons] at hlen
            omega
      split
      · rename_i dv hdv
        have hdd : u.deduced = some d := by simp [UnionSpec.deduced, hded, hdisc]
        rw [set_of_Get out d _ (applyUnions_deduced fs u d f dv hded hdisc hpf hdv us
          (fun u3 hu3 hne3 h3 => by
            simp only [UnionSpec.deduced] at h3
            split at h3
            · exact (hap u hu d hdd).2 u3 hu3 hne3 h3
            · cases h3)
          (hmem u hu d hdd) hu fs out h)]
      · rfl
    · rfl
  | false =>
    simp only [Bool.false_eq_true, if_false]
    split
    · rfl
    · rename_i d hdisc
      have hothers : ∀ u2 ∈ us, u2.deduced ≠ some d := by
        intro u2 hu2 h2
        have hne : u ≠ u2 := by
          intro e
          rw [← e] at h2
          simp [UnionSpec.deduced, hded] at h2
        exact (hap u2 hu2 d h2).2 u hu hne hdisc
      split
      · rename_i dv hget
        replace hget : ValueMap.Get fs d = some (.string dv) :=
          applyUnions_Get_some fs d _ us hothers fs out h hget
        rw [clear_of_absent out _ (fun n hn =>
          applyUnions_cleared fs u d dv hded hdisc hget n hn us
            (deduced_not_member us hmem n (mem_membersOf hu (mismatched_subset u dv n hn)))
            hu fs out h)]
      · rfl

theorem findNamedType_unionsOK (types : List TypeDef)
    (h : types.all (fun d => d.Atom.unionsOK) = true) (name : String) (a : Atom)
    (hf : Schema.FindNamedType types name = some a) : a.unionsOK = true := by
  induction types with
  | nil => simp [Schema.FindNamedType] at hf
  | cons d rest ih =>
    simp only [List.all_cons, Bool.and_eq_true] at h
    simp only [Schema.FindNamedType] at hf
    split at hf
    · simp only [Option.some.injEq] at hf
      rw [← hf]
      exact h.1
    · exact ih h.2 hf

theorem resolve_unionsOK (s : Schema) (hs : s.unionsOK = true) (tr : TypeRef) (a : Atom)
    (htr : tr.unionsOK = true) (hres : s.Resolve tr = some a) : a.unionsOK = true := by
  cases tr with
  | namedType name => exact findNamedType_unionsOK s.Types hs name a hres
  | inlined b =>
    simp only [Schema.Resolve, Option.some.injEq] at hres
    rw [← hres]
    simpa [TypeRef.unionsOK] using htr

theorem structFields_find_unionsOK : (f : StructFields) → f.unionsOK = true →
    ∀ (k : String) (sf : TypeRef), f.find k = some sf → sf.unionsOK = true
  | .nil, _, k, sf, hf => by simp [StructFields.find] at hf
  | .cons n t rest, h, k, sf, hf => by
    simp only [StructFields.unionsOK, Bool.and_eq_true] at h
    simp only [StructFields.find] at hf
    split at hf
    · simp only [Option.some.injEq] at hf
      rw [← hf]
      exact h.1
    · exact structFields_find_unionsOK rest h.2 k sf hf

theorem fieldType_unionsOK (t : MapType) (h : t.unionsOK = true) (k : String) :
    (t.fieldType k).unionsOK = true := by
  obtain ⟨f, e, r, u⟩ := t
  simp only [MapType.unionsOK, Bool.and_eq_true] at h
  simp only [MapType.fieldType, MapType.FindField, MapType.Fields]
  cases hf : f.find k with
  | some sf => exact structFields_find_unionsOK f h.1.2 k sf hf
  | none =>
    cases e with
    | none => rfl
    | some et => simpa [OptionalTypeRef.unionsOK, MapType.ElementType] using h.2

theorem mapType_unionsApart (t : MapType) (h : t.unionsOK = true) :
    unionsApart t.Unions = true := by
  obtain ⟨f, e, r, u⟩ := t
  simp only [MapType.unionsOK, Bool.and_eq_true] at h
  exact h.1.1

theorem elementType_unionsOK (t : ListType) (h : t.unionsOK = true) :
    t.ElementType.unionsOK = true := by
  obtain ⟨e, r, k⟩ := t
  simpa [ListType.unionsOK] using h

theorem normalizeFields_fixed (s : Schema) (t : MapType) (m : List (String × Value))
    (h : ∀ e ∈ m, normalizeValue s (t.fieldType e.1) e.2 = .ok e.2) :
    normalizeFields s t m = .ok m := by
  induction m with
  | nil => rfl
  | cons e rest ih =>
    obtain ⟨k, v⟩ := e
    have h1 := h (k, v) (List.mem_cons_self _ _)
    simp only at h1
    simp only [normalizeFields, h1, ih (fun e he => h e (List.mem_cons_of_mem _ he))]

theorem normalizeFields_entries (s : Schema) (t : MapType) (m : List (String × Value))
    (h : normalizeFields s t m = .ok m) :
    ∀ e ∈ m, normalizeValue s (t.fieldType e.1) e.2 = .ok e.2 := by
  induction m with
  | nil => intro e he; cases he
  | cons e rest ih =>
    obtain ⟨k, v⟩ := e
    simp only [normalizeFields] at h
    cases hv : normalizeValue s (t.fieldType k) v with
    | error x => simp [hv] at h
    | ok v2 =>
      cases hr : normalizeFields s t rest with
      | error x => simp [hv, hr] at h
      | ok rest2 =>
        simp only [hv, hr, Except.ok.injEq, List.cons.injEq, Prod.mk.injEq, true_and] at h
        obtain ⟨h1, h2⟩ := h
        subst h1 h2
        intro e he
        rcases List.mem_cons.1 he with he | he
        · rw [he]
          exact hv
        · exact ih hr e he

theorem mem_set (m : ValueMap) (k : String) (v : Value) (e : String × Value)
    (he : e ∈ ValueMap.set m k v) : e ∈ m ∨ e = (k, v) := by
  induction m with
  | nil =>
    simp only [ValueMap.set, List.mem_singleton] at he
    exact Or.inr he
  | cons f rest ih =>
    obtain ⟨k2, x⟩ := f
    simp only [ValueMap.set] at he
    split at he
    · rename_i hk
      rcases List.mem_cons.1 he with h | h
      · exact Or.inr (by rw [h, hk])
      · exact Or.inl (List.mem_cons_of_mem _ h)
    · rcases List.mem_cons.1 he with h | h
      · exact Or.inl (by rw [h]; exact List.mem_cons_self _ _)
      · rcases ih h with h2 | h2
        · exact Or.inl (List.mem_cons_of_mem _ h2)
        · exact Or.inr h2

theorem normalize_entries (u : UnionSpec) (g o o2 : ValueMap)
    (h : u.Normalize g o = .ok o2) :
    ∀ e ∈ o2, e ∈ o ∨ ∃ dv, e.2 = .string dv := by
  intro e he
  simp only [UnionSpec.Normalize] at h
  split at h
  · cases h
  · split at h
    · split at h
      · split at h
        · simp only [Except.ok.injEq] at h
          rw [← h] at he
          rcases mem_set _ _ _ _ he with h2 | h2
          · exact Or.inl h2
          · exact Or.inr ⟨_, by rw [h2]⟩
        · simp only [Except.ok.injEq] at h
          rw [← h] at he
          exact Or.inl he
      · simp only [Except.ok.injEq] at h
        rw [← h] at he
        exact Or.inl he
    · split at h
      · simp only [Except.ok.injEq] at h
        rw [← h] at he
        exact Or.inl he
      · split at h
        · simp only [Except.ok.injEq] at h
          rw [← h] at he
          simp only [ValueMap.clear, List.mem_filter] at he
          exact Or.inl he.1
        · simp only [Except.ok.injEq] at h
          rw [← h] at he
          exact Or.inl he

theorem applyUnions_entries (g : ValueMap) (us : List UnionSpec) :
    ∀ o o2, applyUnions g us o = .ok o2 → ∀ e ∈ o2, e ∈ o ∨ ∃ dv, e.2 = .string dv := by
  induction us with
  | nil =>
    intro o o2 h e he
    simp only [applyUnions, Except.ok.injEq] at h
    rw [← h] at he
    exact Or.inl he
  | cons u rest ih =>
    intro o o2 h e he
    simp only [applyUnions] at h
    cases hn : u.Normalize g o with
    | error x => simp [hn] at h
    | ok o3 =>
      simp only [hn] at h
      rcases ih o3 o2 h e he with h2 | h2
      · exact normalize_entries u g o o3 hn e h2
      · exact Or.inr h2

mutual
theorem normalizeValue_idem (s : Schema) (hs : s.unionsOK = true) :
    (v : Value) → (tr : TypeRef) → (v2 : Value) → tr.unionsOK = true →
    normalizeValue s tr v = .ok v2 → normalizeValue s tr v2 = .ok v2
  | .null, tr, v2, _, h => by
    simp only [normalizeValue, Except.ok.injEq] at h
    rw [← h]
    rfl
  | .bool _, tr, v2, _, h => by
    simp only [normalizeValue, Except.ok.injEq] at h
    rw [← h]
    rfl
  | .int _, tr, v2, _, h => by
    simp only [normalizeValue, Except.ok.injEq] at h
    rw [← h]
    rfl
  | .float _, tr, v2, _, h => by
    simp only [normalizeValue, Except.ok.injEq] at h
    rw [← h]
    rfl
  | .string _, tr, v2, _, h => by
    simp only [normalizeValue, Except.ok.injEq] at h
    rw [← h]
    rfl
  | .list items, tr, v2, htr, h => by
    simp only [normalizeValue] at h
    cases hres : s.Resolve tr with
    | none =>
      simp only [hres, Except.ok.injEq] at h
      rw [← h]
      simp only [normalizeValue, hres]
    | some a =>
      have ha := resolve_unionsOK s hs tr a htr hres
      cases a with
      | list t =>
        simp only [hres] at h
        cases hl : normalizeList s t.ElementType items with
        | error e => simp [hl] at h
        | ok xs =>
          simp only [hl, Except.ok.injEq] at h
          rw [← h]
          simp only [normalizeValue, hres,
            normalizeList_idem s hs items t.ElementType xs
              (elementType_unionsOK t (by simpa [Atom.unionsOK] using ha)) hl]
      | scalar t =>
        simp only [hres, Except.ok.injEq] at h
        rw [← h]
        simp only [normalizeValue, hres]
      | map t =>
        simp only [hres, Except.ok.injEq] at h
        rw [← h]
        simp only [normalizeValue, hres]
      | untyped =>
        simp only [hres, Except.ok.injEq] at h
        rw [← h]
        simp only [normalizeValue, hres]
  | .map fields, tr, v2, htr, h => by
    simp only [normalizeValue] at h
    cases hres : s.Resolve tr with
    | none =>
      simp only [hres, Except.ok.injEq] at h
      rw [← h]
      simp only [normalizeValue, hres]
    | some a =>
      have ha := resolve_unionsOK s hs tr a htr hres
      cases a with
      | map t =>
        have ht : t.unionsOK = true := by simpa [Atom.unionsOK] using ha
        simp only [hres] at h
        cases hf : normalizeFields s t fields with
        | error e => simp [hf] at h
        | ok fs =>
          simp only [hf] at h
          cases hu : applyUnions fs t.Unions fs with
          | error e => simp [hu] at h
          | ok out =>
            simp only [hu, Except.ok.injEq] at h
            rw [← h]
            have hfs := normalizeFields_entries s t fs
              (normalizeFields_idem s hs fields t fs ht hf)
            have hout : normalizeFields s t out = .ok out := by
              apply normalizeFields_fixed
              intro e he
              rcases applyUnions_entries fs t.Unions fs out hu e he with h2 | ⟨dv, h2⟩
              · exact hfs e h2
              · rw [h2]
                rfl
            simp only [normalizeValue, hres, hout,
              applyUnions_idem fs out t.Unions (mapType_unionsApart t ht) hu]
      | scalar t =>
        simp only [hres, Except.ok.injEq] at h
        rw [← h]
        simp only [normalizeValue, hres]
      | list t =>
        simp only [hres, Except.ok.injEq] at h
        rw [← h]
        simp only [normalizeValue, hres]
      | untyped =>
        simp only [hres, Except.ok.injEq] at h
        rw [← h]
        simp only [normalizeValue, hres]
theorem normalizeList_idem (s : Schema) (hs : s.unionsOK = true) :
    (xs : List Value) → (tr : TypeRef) → (xs2 : List Value) → tr.unionsOK = true →
    normalizeList s tr xs = .ok xs2 → normalizeList s tr xs2 = .ok xs2
  | [], tr, xs2, _, h => by
    simp only [normalizeList, Except.ok.injEq] at h
    rw [← h]
    rfl
  | x :: rest, tr, xs2, htr, h => by
    simp only [normalizeList] at h
    cases hx : normalizeValue s tr x with
    | error e => simp [hx] at h
    | ok x2 =>
      cases hr : normalizeList s tr rest with
      | error e => simp [hx, hr] at h
      | ok rest2 =>
        simp only [hx, hr, Except.ok.injEq] at h
        rw [← h]
        simp only [normalizeList, normalizeValue_idem s hs x tr x2 htr hx,
          normalizeList_idem s hs rest tr rest2 htr hr]
theorem normalizeFields_idem (s : Schema) (hs : s.unionsOK = true) :
    (m : List (String × Value)) → (t : MapType) → (fs : List (String × Value)) →
    t.unionsOK = true → normalizeFields s t m = .ok fs → normalizeFields s t fs = .ok fs
  | [], t, fs, _, h => by
    simp only [normalizeFields, Except.ok.injEq] at h
    rw [← h]
    rfl
  | (k, v) :: rest, t, fs, ht, h => by
    simp only [normalizeFields] at h
    cases hv : normalizeValue s (t.fieldType k) v with
    | error e => simp [hv] at h
    | ok v2 =>
      cases hr : normalizeFields s t rest with
      | error e => simp [hv, hr] at h
      | ok rest2 =>
        simp only [hv, hr, Except.ok.injEq] at h
        rw [← h]
        simp only [normalizeFields,
          normalizeValue_idem s hs v (t.fieldType k) v2 (fieldType_unionsOK t ht k) hv,
          normalizeFields_idem s hs rest t rest2 ht hr]
end

/-! ### Discriminator deduction -/

theorem normalize_isOk_iff (u : UnionSpec) (given out : ValueMap) :
    (∃ out2, u.Normalize given out = .ok out2) ↔ (u.present given).length ≤ 1 := by
  constructor
  · rintro ⟨out2, h⟩
    by_contra hlt
    simp only [UnionSpec.Normalize, show 1 < (u.present given).length by omega, if_true] at h
    cases h
  · intro hle
    have hlt : ¬ 1 < (u.present given).length := by omega
    simp only [UnionSpec.Normalize, hlt, if_false]
    split
    · split
      · split
        · exact ⟨_, rfl⟩
        · exact ⟨_, rfl⟩
      · exact ⟨_, rfl⟩
    · split
      · exact ⟨_, rfl⟩
      · split
        · exact ⟨_, rfl⟩
        · exact ⟨_, rfl⟩

theorem applyUnions_isOk_iff (given : ValueMap) (us : List UnionSpec) :
    ∀ out, (∃ out2, applyUnions given us out = .ok out2) ↔
      ∀ u ∈ us, (u.present given).length ≤ 1 := by
  induction us with
  | nil =>
    intro out
    simp [applyUnions]
  | cons u rest ih =>
    intro out
    constructor
    · rintro ⟨out2, h⟩
      exact applyUnions_present_le given (u :: rest) out out2 h
    · intro hall
      obtain ⟨o1, h1⟩ := (normalize_isOk_iff u given out).2 (hall u (List.mem_cons_self _ _))
      obtain ⟨o2, h2⟩ := (ih o1).2 (fun u2 hu2 => hall u2 (List.mem_cons_of_mem _ hu2))
      exact ⟨o2, by simp only [applyUnions, h1, h2]⟩

theorem normalizeFields_present (s : Schema) (t : MapType) (m m1 : ValueMap)
    (h : normalizeFields s t m = .ok m1) (u : UnionSpec) : u.present m1 = u.present m :=
  present_congr u m1 m (Get_isSome_of_keys m1 m (normalizeFields_keys s t m m1 h))

theorem applyUnions_keep (given : ValueMap) (k : String) (us : List UnionSpec)
    (hk : ∀ u2 ∈ us, ∀ out out2, u2.Normalize given out = .ok out2 →
      ValueMap.Get out2 k = ValueMap.Get out k) :
    ∀ o o2, applyUnions given us o = .ok o2 → ValueMap.Get o2 k = ValueMap.Get o k := by
  induction us with
  | nil =>
    intro o o2 h
    simp only [applyUnions, Except.ok.injEq] at h
    rw [h]
  | cons u rest ih =>
    intro o o2 h
    simp only [applyUnions] at h
    cases hn : u.Normalize given o with
    | error e => simp [hn] at h
    | ok o3 =>
      simp only [hn] at h
      rw [ih (fun u2 hu2 => hk u2 (List.mem_cons_of_mem _ hu2)) o3 o2 h]
      exact hk u (List.mem_cons_self _ _) o o3 hn

theorem applyUnions_hold (given : ValueMap) (k : String) (v : Value) (us : List UnionSpec)
    (hk : ∀ u2 ∈ us, ∀ out out2, u2.Normalize given out = .ok out2 →
      ValueMap.Get out k = some v → ValueMap.Get out2 k = some v) :
    ∀ o o2, applyUnions given us o = .ok o2 → ValueMap.Get o k = some v →
      ValueMap.Get o2 k = some v := by
  induction us with
  | nil =>
    intro o o2 h hg
    simp only [applyUnions, Except.ok.injEq] at h
    rw [← h]
    exact hg
  | cons u rest ih =>
    intro o o2 h hg
    simp only [applyUnions] at h
    cases hn : u.Normalize given o with
    | error e => simp [hn] at h
    | ok o3 =>
      simp only [hn] at h
      exact ih (fun u2 hu2 => hk u2 (List.mem_cons_of_mem _ hu2)) o3 o2 h
        (hk u (List.mem_cons_self _ _) o o3 hn hg)

theorem applyUnions_append (given : ValueMap) (us vs : List UnionSpec) :
    ∀ o o2, applyUnions given (us ++ vs) o = .ok o2 →
      ∃ o1, applyUnions given us o = .ok o1 ∧ applyUnions given vs o1 = .ok o2 := by
  induction us with
  | nil =>
    intro o o2 h
    exact ⟨o, rfl, h⟩
  | cons u rest ih =>
    intro o o2 h
    simp only [List.cons_append, applyUnions] at h ⊢
    cases hn : u.Normalize given o with
    | error e => simp [hn] at h
    | ok o3 =>
      simp only [hn] at h ⊢
      exact ih o3 o2 h

theorem applyUnions_after (given : ValueMap) (u : UnionSpec) (d f dv : String)
    (hded : u.DeduceDiscriminator = true) (hd : u.Discriminator = some d)
    (hp : u.present given = [f]) (hdv : u.discriminatorValueOf f = some dv)
    (us : List UnionSpec)
    (hother : ∀ u2 ∈ us, u2 ≠ u → ∀ out,
      (∀ k, k ≠ d → ValueMap.Get out k = ValueMap.Get given k) →
      u2.Normalize given out = .ok out) :
    applyUnions given us (ValueMap.set given d (.string dv)) =
      .ok (ValueMap.set given d (.string dv)) := by
  induction us with
  | nil => rfl
  | cons u2 rest ih =>
    simp only [applyUnions]
    have ih2 := ih (fun u3 hu3 => hother u3 (List.mem_cons_of_mem _ hu3))
    by_cases h : u2 = u
    · subst h
      rw [normalize_deduce u2 given _ d f dv hded hd hp hdv, set_set]
      exact ih2
    · rw [hother u2 (List.mem_cons_self _ _) h _ (fun k hk => Get_set_ne given d k _ hk)]
      exact ih2

theorem applyUnions_deduce (given : ValueMap) (u : UnionSpec) (d f dv : String)
    (hded : u.DeduceDiscriminator = true) (hd : u.Discriminator = some d)
    (hp : u.present given = [f]) (hdv : u.discriminatorValueOf f = some dv)
    (us : List UnionSpec) (hu : u ∈ us)
    (hother : ∀ u2 ∈ us, u2 ≠ u → ∀ out,
      (∀ k, k ≠ d → ValueMap.Get out k = ValueMap.Get given k) →
      u2.Normalize given out = .ok out) :
    applyUnions given us given = .ok (ValueMap.set given d (.string dv)) := by
  induction us with
  | nil => cases hu
  | cons u2 rest ih =>
    simp only [applyUnions]
    have hother2 : ∀ u3 ∈ rest, u3 ≠ u → ∀ out,
        (∀ k, k ≠ d → ValueMap.Get out k = ValueMap.Get given k) →
        u3.Normalize given out = .ok out :=
      fun u3 hu3 => hother u3 (List.mem_cons_of_mem _ hu3)
    by_cases h : u2 = u
    · subst h
      rw [normalize_deduce u2 given _ d f dv hded hd hp hdv]
      exact applyUnions_after given u2 d f dv hded hd hp hdv rest hother2
    · rw [hother u2 (List.mem_cons_self _ _) h given (fun _ _ => rfl)]
      rcases List.mem_cons.1 hu with h3 | h3
      · exact absurd h3.symm h
      · exact ih h3 hother2

theorem normalizeUnions_map (s : Schema) (tr : TypeRef) (t : MapType) (m m2 : ValueMap)
    (hres : s.Resolve tr = some (.map t)) :
    NormalizeUnions s tr (.map m) = .ok (.map m2) ↔
      ∃ m1, normalizeFields s t m = .ok m1 ∧ applyUnions m1 t.Unions m1 = .ok m2 := by
  simp only [NormalizeUnions, normalizeValue, hres]
  cases hf : normalizeFields s t m with
  | error e => simp
  | ok m1 =>
    cases ha : applyUnions m1 t.Unions m1 with
    | error e => simp [ha]
    | ok m3 => simp [ha]

/-- C13 (as amended): discriminator deduction.  Take a map value `m` whose type resolves
to the map type `t`.  The step of a union with `deduceDiscriminator` and the
discriminator `d`, of which exactly one member field `f` is set: it succeeds and sets
the field `d` to the `discriminatorValue` of `f`, overwriting an existing value, and it
leaves every other field as it was.  `NormalizeUnions` succeeds on `m` exactly when the
nested values normalise and no union of `t` has more than one member set in `m`.  When
it succeeds, with the nested values normalised to `m1`: the result has `d` equal to the
`discriminatorValue` of `f`, provided the step of no union that comes after the union
in `t` changes the field `d`; a field other than `d` that the step of no other union of
`t` changes is in the result as it is in `m1`; and if the step of every other union of
`t` leaves as it is every map that is `m1` but for its field `d`, then `NormalizeUnions`
succeeds and its result is `m1` with the field `d` set.  A union without
`deduceDiscriminator` never fills a field in: its step leaves absent what was absent,
and `NormalizeUnions` leaves absent every absent field that no union of `t` deduces. -/
theorem C13_discriminator_deduction (s : Schema) (tr : TypeRef) (t : MapType) (m : ValueMap)
    (hres : s.Resolve tr = some (.map t)) :
    (∀ (u : UnionSpec) (d f dv : String) (given out : ValueMap),
      u.DeduceDiscriminator = true → u.Discriminator = some d → u.present given = [f] →
      u.discriminatorValueOf f = some dv →
      u.Normalize given out = .ok (ValueMap.set out d (.string dv)) ∧
        ValueMap.Get (ValueMap.set out d (.string dv)) d = some (.string dv) ∧
        ∀ k, k ≠ d → ValueMap.Get (ValueMap.set out d (.string dv)) k = ValueMap.Get out k) ∧
    ((∃ m2, NormalizeUnions s tr (.map m) = .ok (.map m2)) ↔
      (∃ m1, normalizeFields s t m = .ok m1) ∧ ∀ u ∈ t.Unions, (u.present m).length ≤ 1) ∧
    (∀ (u : UnionSpec) (d f dv : String) (pre post : List UnionSpec) (m1 m2 : ValueMap),
      t.Unions = pre ++ u :: post →
      u.DeduceDiscriminator = true → u.Discriminator = some d → u.present m = [f] →
      u.discriminatorValueOf f = some dv →
      normalizeFields s t m = .ok m1 → NormalizeUnions s tr (.map m) = .ok (.map m2) →
      ((∀ u2 ∈ post, u2 ≠ u → ∀ out out2, u2.Normalize m1 out = .ok out2 →
          ValueMap.Get out2 d = ValueMap.Get out d) →
        ValueMap.Get m2 d = some (.string dv)) ∧
      (∀ k, k ≠ d →
        (∀ u2 ∈ t.Unions, u2 ≠ u → ∀ out out2, u2.Normalize m1 out = .ok out2 →
          ValueMap.Get out2 k = ValueMap.Get out k) →
        ValueMap.Get m2 k = ValueMap.Get m1 k)) ∧
    (∀ (u : UnionSpec) (d f dv : String) (m1 : ValueMap), u ∈ t.Unions →
      u.DeduceDiscriminator = true → u.Discriminator = some d → u.present m = [f] →
      u.discriminatorValueOf f = some dv → normalizeFields s t m = .ok m1 →
      (∀ u2 ∈ t.Unions, u2 ≠ u → ∀ out,
        (∀ k, k ≠ d → ValueMap.Get out k = ValueMap.Get m1 k) →
        u2.Normalize m1 out = .ok out) →
      NormalizeUnions s tr (.map m) = .ok (.map (ValueMap.set m1 d (.string dv)))) ∧
    (∀ (u : UnionSpec) (given out out2 : ValueMap), u.DeduceDiscriminator = false →
      u.Normalize given out = .ok out2 →
      ∀ k, ValueMap.Get out k = none → ValueMap.Get out2 k = none) ∧
    (∀ m2, NormalizeUnions s tr (.map m) = .ok (.map m2) →
      ∀ k, (∀ u ∈ t.Unions, u.deduced ≠ some k) → ValueMap.Get m k = none →
        ValueMap.Get m2 k = none) := by
  refine ⟨?_, ?_, ?_, ?_, ?_, ?_⟩
  · intro u d f dv given out hded hd hp hdv
    exact ⟨normalize_deduce u given out d f dv hded hd hp hdv, Get_set_self out d _,
      fun k hk => Get_set_ne out d k _ hk⟩
  · constructor
    · rintro ⟨m2, h⟩
      obtain ⟨m1, hf, ha⟩ := (normalizeUnions_map s tr t m m2 hres).1 h
      refine ⟨⟨m1, hf⟩, fun u hu => ?_⟩
      rw [← normalizeFields_present s t m m1 hf u]
      exact applyUnions_present_le m1 t.Unions m1 m2 ha u hu
    · rintro ⟨⟨m1, hf⟩, hall⟩
      obtain ⟨m2, ha⟩ := (applyUnions_isOk_iff m1 t.Unions m1).2 (fun u hu => by
        rw [normalizeFields_present s t m m1 hf u]
        exact hall u hu)
      exact ⟨m2, (normalizeUnions_map s tr t m m2 hres).2 ⟨m1, hf, ha⟩⟩
  · intro u d f dv pre post m1 m2 hus hded hd hp hdv hf h
    obtain ⟨m3, hf3, ha⟩ := (normalizeUnions_map s tr t m m2 hres).1 h
    rw [hf] at hf3
    simp only [Except.ok.injEq] at hf3
    subst hf3
    have hp1 : u.present m1 = [f] := by rw [normalizeFields_present s t m m1 hf u, hp]
    constructor
    · intro hpost
      rw [hus] at ha
      obtain ⟨o1, _, h2⟩ := applyUnions_append m1 pre (u :: post) m1 m2 ha
      simp only [applyUnions, normalize_deduce u m1 o1 d f dv hded hd hp1 hdv] at h2
      apply applyUnions_hold m1 d (.string dv) post _ _ m2 h2 (Get_set_self o1 d _)
      intro u2 hu2 out out2 hn hg
      by_cases he : u2 = u
      · subst he
        rw [normalize_deduce u2 m1 out d f dv hded hd hp1 hdv] at hn
        simp only [Except.ok.injEq] at hn
        rw [← hn]
        exact Get_set_self out d _
      · rw [hpost u2 hu2 he out out2 hn]
        exact hg
    · intro k hk hall
      apply applyUnions_keep m1 k t.Unions _ m1 m2 ha
      intro u2 hu2 out out2 hn
      by_cases he : u2 = u
      · subst he
        rw [normalize_deduce u2 m1 out d f dv hded hd hp1 hdv] at hn
        simp only [Except.ok.injEq] at hn
        rw [← hn]
        exact Get_set_ne out d k _ hk
      · exact hall u2 hu2 he out out2 hn
  · intro u d f dv m1 hu hded hd hp hdv hf hother
    have hp1 : u.present m1 = [f] := by rw [normalizeFields_present s t m m1 hf u, hp]
    exact (normalizeUnions_map s tr t m _ hres).2
      ⟨m1, hf, applyUnions_deduce m1 u d f dv hded hd hp1 hdv t.Unions hu hother⟩
  · intro u given out out2 hded h k hk
    exact normalize_explicit_no_gain u given out out2 hded h k hk
  · intro m2 h k hded hk
    obtain ⟨m1, hf, ha⟩ := (normalizeUnions_map s tr t m m2 hres).1 h
    apply applyUnions_Get_none m1 k t.Unions hded m1 m2 ha
    have h1 := Get_isSome_of_keys m1 m (normalizeFields_keys s t m m1 hf) k
    rw [hk] at h1
    cases hg : ValueMap.Get m1 k with
    | none => rfl
    | some v =>
      rw [hg] at h1
      cases h1

theorem C13_discriminator_deduction_witness :
    (NormalizeUnions exUnionSchema (.namedType "union") (.map [("one", .int 1)]) =
      .ok (.map (ValueMap.set [("one", .int 1)] "discriminator" (.string "One"))) ∧
      ValueMap.set [("one", .int 1)] "discriminator" (.string "One") =
        [("one", .int 1), ("discriminator", .string "One")]) ∧
    (NormalizeUnions exUnionSchema (.namedType "union")
        (.map [("one", .int 1), ("discriminator", .string "Two")]) =
      .ok (.map (ValueMap.set [("one", .int 1), ("discriminator", .string "Two")]
        "discriminator" (.string "One"))) ∧
      ValueMap.set [("one", .int 1), ("discriminator", .string "Two")] "discriminator"
          (.string "One") =
        [("one", .int 1), ("discriminator", .string "One")]) ∧
    (NormalizeUnions exUnionSchema (.namedType "union")
        (.map [("one", .int 1), ("letter", .string "b"), ("a", .int 1)]) =
      .ok (.map [("one", .int 1), ("letter", .string "b"),
        ("discriminator", .string "One")]) ∧
      ValueMap.Get [("one", .int 1), ("letter", .string "b"),
        ("discriminator", .string "One")] "discriminator" = some (.string "One") ∧
      ValueMap.Get [("one", .int 1), ("letter", .string "b"),
          ("discriminator", .string "One")] "one" =
        ValueMap.Get [("one", .int 1), ("letter", .string "b"), ("a", .int 1)] "one") ∧
    (NormalizeUnions exUnionSchema (.namedType "union") (.map [("b", .int 1)]) =
      .ok (.map [("b", .int 1)]) ∧
      ValueMap.Get [("b", .int 1)] "letter" = none) ∧
    ((∃ m2, NormalizeUnions exUnionSchema (.namedType "union")
        (.map [("one", .int 1), ("letter", .string "b"), ("a", .int 1)]) = .ok (.map m2)) ∧
      ¬ ∃ m2, NormalizeUnions exUnionSchema (.namedType "union")
        (.map [("one", .int 1), ("a", .int 1), ("b", .int 1)]) = .ok (.map m2)) :=
  ⟨⟨(C13_discriminator_deduction exUnionSchema (.namedType "union") exUnionType
        [("one", .int 1)] rfl).2.2.2.1
        exDeduced "discriminator" "one" "One" [("one", .int 1)]
        (by decide) rfl rfl (by decide) rfl rfl
        (by
          intro u2 hu2 hne out _
          have h2 : u2 = exLetter := by
            simp only [exUnionType, MapType.Unions, List.mem_cons, List.mem_singleton,
              List.not_mem_nil, or_false] at hu2
            rcases hu2 with h | h
            · exact absurd h hne
            · exact h
          subst h2
          rfl),
      by rfl⟩,
    ⟨(C13_discriminator_deduction exUnionSchema (.namedType "union") exUnionType
        [("one", .int 1), ("discriminator", .string "Two")] rfl).2.2.2.1
        exDeduced "discriminator" "one" "One"
        [("one", .int 1), ("discriminator", .string "Two")]
        (by decide) rfl rfl (by decide) rfl rfl
        (by
          intro u2 hu2 hne out _
          have h2 : u2 = exLetter := by
            simp only [exUnionType, MapType.Unions, List.mem_cons, List.mem_singleton,
              List.not_mem_nil, or_false] at hu2
            rcases hu2 with h | h
            · exact absurd h hne
            · exact h
          subst h2
          rfl),
      by rfl⟩,
    ⟨by rfl,
      ((C13_discriminator_deduction exUnionSchema (.namedType "union") exUnionType
        [("one", .int 1), ("letter", .string "b"), ("a", .int 1)] rfl).2.2.1
        exDeduced "discriminator" "one" "One" [] [exLetter]
        [("one", .int 1), ("letter", .string "b"), ("a", .int 1)]
        [("one", .int 1), ("letter", .string "b"), ("discriminator", .string "One")]
        rfl rfl rfl (by decide) rfl rfl (by rfl)).1
        (by
          intro u2 hu2 _ out out2 hn
          simp only [List.mem_singleton] at hu2
          subst hu2
          have h3 : UnionSpec.Normalize exLetter
              [("one", .int 1), ("letter", .string "b"), ("a", .int 1)] out =
              .ok (ValueMap.clear out ["a"]) := rfl
          rw [h3] at hn
          simp only [Except.ok.injEq] at hn
          rw [← hn]
          exact Get_clear_ne out _ _ (by decide)),
      ((C13_discriminator_deduction exUnionSchema (.namedType "union") exUnionType
        [("one", .int 1), ("letter", .string "b"), ("a", .int 1)] rfl).2.2.1
        exDeduced "discriminator" "one" "One" [] [exLetter]
        [("one", .int 1), ("letter", .string "b"), ("a", .int 1)]
        [("one", .int 1), ("letter", .string "b"), ("discriminator", .string "One")]
        rfl rfl rfl (by decide) rfl rfl (by rfl)).2 "one" (by decide)
        (by
          intro u2 hu2 hne out out2 hn
          have h2 : u2 = exLetter := by
            simp only [exUnionType, MapType.Unions, List.mem_cons, List.mem_singleton,
              List.not_mem_nil, or_false] at hu2
            rcases hu2 with h | h
            · exact absurd h hne
            · exact h
          subst h2
          have h3 : UnionSpec.Normalize exLetter
              [("one", .int 1), ("letter", .string "b"), ("a", .int 1)] out =
              .ok (ValueMap.clear out ["a"]) := rfl
          rw [h3] at hn
          simp only [Except.ok.injEq] at hn
          rw [← hn]
          exact Get_clear_ne out _ _ (by decide))⟩,
    ⟨by rfl,
      (C13_discriminator_deduction exUnionSchema (.namedType "union") exUnionType
        [("b", .int 1)] rfl).2.2.2.2.2 [("b", .int 1)] (by rfl) "letter" (by decide) rfl⟩,
    ⟨((C13_discriminator_deduction exUnionSchema (.namedType "union") exUnionType
        [("one", .int 1), ("letter", .string "b"), ("a", .int 1)] rfl).2.1).2
        ⟨⟨_, rfl⟩, by decide⟩,
      fun h => absurd
        ((((C13_discriminator_deduction exUnionSchema (.namedType "union") exUnionType
          [("one", .int 1), ("a", .int 1), ("b", .int 1)] rfl).2.1).1 h).2 exLetter
          (by decide))
        (by decide)⟩⟩

/-- C13, counterexample: in the schema of `unionParser` the first union has
`deduceDiscriminator` and, in each of the two values, exactly its member `one` set.  On
`{one: 1, a: 1, b: 1}` `NormalizeUnions` fails, the second union having two members
set.  On `{one: 1, letter: "b", a: 1}` it succeeds and the field `a`, which the second
union clears, is not left unchanged.  With the map type `exLateType`, whose second
union has the discriminator `d` of the first as a member, `NormalizeUnions` succeeds on
`{one: 1, letter: "X"}` and its result has no field `d`. -/
theorem C13_counterexample :
    UnionSpec.present exDeduced [("one", .int 1), ("a", .int 1), ("b", .int 1)] = ["one"] ∧
    NormalizeUnions exUnionSchema (.namedType "union")
        (.map [("one", .int 1), ("a", .int 1), ("b", .int 1)]) =
      .error (.multipleMembers ["a", "b"]) ∧
    UnionSpec.present exDeduced
      [("one", .int 1), ("letter", .string "b"), ("a", .int 1)] = ["one"] ∧
    NormalizeUnions exUnionSchema (.namedType "union")
        (.map [("one", .int 1), ("letter", .string "b"), ("a", .int 1)]) =
      .ok (.map [("one", .int 1), ("letter", .string "b"),
        ("discriminator", .string "One")]) ∧
    UnionSpec.present ⟨some "d", true, [⟨"one", "One"⟩]⟩
      [("one", .int 1), ("letter", .string "X")] = ["one"] ∧
    NormalizeUnions ⟨[]⟩ (.inlined (.map exLateType))
        (.map [("one", .int 1), ("letter", .string "X")]) =
      .ok (.map [("one", .int 1), ("letter", .string "X")]) :=
  ⟨by decide, by rfl, by decide, by rfl, by decide, by rfl⟩

/-! ### Idempotence -/

/-- C14 (as amended): union idempotence.  In a schema in which, for every map type, the
discriminator that a union deduces is not a member field of a union of the map type and
not the discriminator of another union of it (`unionsOK`; unions without
`deduceDiscriminator` are not restricted), for every typed value `v` on which
`NormalizeUnions` succeeds, with the result `v2`, `NormalizeUnions` succeeds on `v2` and
its result is `v2` again. -/
theorem C14_union_idempotence (s : Schema) (tr : TypeRef) (v v2 : Value)
    (hs : s.unionsOK = true) (htr : tr.unionsOK = true)
    (h : NormalizeUnions s tr v = .ok v2) : NormalizeUnions s tr v2 = .ok v2 :=
  normalizeValue_idem s hs v tr v2 htr h

theorem C14_union_idempotence_witness :
    (exUnionSchema.unionsOK = true ∧
      NormalizeUnions exUnionSchema (.namedType "union")
          (.map [("one", .int 1), ("letter", .string "b"), ("a", .int 1)]) =
        .ok (.map [("one", .int 1), ("letter", .string "b"),
          ("discriminator", .string "One")]) ∧
      NormalizeUnions exUnionSchema (.namedType "union")
          (.map [("one", .int 1), ("letter", .string "b"),
            ("discriminator", .string "One")]) =
        .ok (.map [("one", .int 1), ("letter", .string "b"),
          ("discriminator", .string "One")])) ∧
    (TypeRef.unionsOK (.inlined (.map exExplicitType)) = true ∧
      NormalizeUnions ⟨[]⟩ (.inlined (.map exExplicitType))
          (.map [("kind", .string "B"), ("a", .int 1), ("b", .int 2)]) =
        .error (.multipleMembers ["a", "b"]) ∧
      NormalizeUnions ⟨[]⟩ (.inlined (.map exExplicitType))
          (.map [("kind", .string "A"), ("b", .int 2)]) =
        .ok (.map []) ∧
      NormalizeUnions ⟨[]⟩ (.inlined (.map exExplicitType)) (.map []) = .ok (.map [])) :=
  ⟨⟨by decide, by rfl,
      C14_union_idempotence exUnionSchema (.namedType "union")
        (.map [("one", .int 1), ("letter", .string "b"), ("a", .int 1)])
        (.map [("one", .int 1), ("letter", .string "b"), ("discriminator", .string "One")])
        (by decide) rfl (by rfl)⟩,
    by decide, by rfl, by rfl,
    C14_union_idempotence ⟨[]⟩ (.inlined (.map exExplicitType))
      (.map [("kind", .string "A"), ("b", .int 2)]) (.map []) (by decide) (by decide)
      (by rfl)⟩

/-- C14, counterexample: `NormalizeUnions` succeeds and its result is not what a second
run gives, in each of the ways a deduced discriminator can meet another union.  With
`exOverlapType` (the deduced `d` is a member field of a union without
`deduceDiscriminator`), `{one: 1, x: 1}` becomes `{one: 1, x: 1, d: "One"}`, on which
`NormalizeUnions` fails, two members being set.  With `exChainType` (the deduced `d` is
a member field of a union that deduces), `{one: 1}` becomes `{one: 1, d: "One"}`, which
becomes `{one: 1, d: "One", e: "D"}`.  With `exSharedType` (the deduced `d` is the
discriminator of a union without `deduceDiscriminator`), `{one: 1, a: 1, d: "A"}`
becomes `{one: 1, a: 1, d: "One"}`, which loses `a`.  With `exTwinType` (two unions
deduce `d`), `{one: 1, x: 1, letter: "Y"}` becomes `{one: 1, letter: "Y", d: "X"}`, in
which `d` becomes `"One"`. -/
theorem C14_counterexample :
    (NormalizeUnions ⟨[]⟩ (.inlined (.map exOverlapType))
        (.map [("one", .int 1), ("x", .int 1)]) =
      .ok (.map [("one", .int 1), ("x", .int 1), ("d", .string "One")]) ∧
    NormalizeUnions ⟨[]⟩ (.inlined (.map exOverlapType))
        (.map [("one", .int 1), ("x", .int 1), ("d", .string "One")]) =
      .error (.multipleMembers ["d", "x"])) ∧
    (NormalizeUnions ⟨[]⟩ (.inlined (.map exChainType)) (.map [("one", .int 1)]) =
      .ok (.map [("one", .int 1), ("d", .string "One")]) ∧
    NormalizeUnions ⟨[]⟩ (.inlined (.map exChainType))
        (.map [("one", .int 1), ("d", .string "One")]) =
      .ok (.map [("one", .int 1), ("d", .string "One"), ("e", .string "D")])) ∧
    (NormalizeUnions ⟨[]⟩ (.inlined (.map exSharedType))
        (.map [("one", .int 1), ("a", .int 1), ("d", .string "A")]) =
      .ok (.map [("one", .int 1), ("a", .int 1), ("d", .string "One")]) ∧
    NormalizeUnions ⟨[]⟩ (.inlined (.map exSharedType))
        (.map [("one", .int 1), ("a", .int 1), ("d", .string "One")]) =
      .ok (.map [("one", .int 1), ("d", .string "One")])) ∧
    (NormalizeUnions ⟨[]⟩ (.inlined (.map exTwinType))
        (.map [("one", .int 1), ("x", .int 1), ("letter", .string "Y")]) =
      .ok (.map [("one", .int 1), ("letter", .string "Y"), ("d", .string "X")]) ∧
    NormalizeUnions ⟨[]⟩ (.inlined (.map exTwinType))
        (.map [("one", .int 1), ("letter", .string "Y"), ("d", .string "X")]) =
      .ok (.map [("one", .int 1), ("letter", .string "Y"), ("d", .string "One")])) :=
  ⟨⟨by rfl, by rfl⟩, ⟨by rfl, by rfl⟩, ⟨by rfl, by rfl⟩, ⟨by rfl, by rfl⟩⟩

/-! ## Apply -/

theorem mem_childFrames (s : Schema) (w f : compareWalker) :
    f ∈ childFrames s w ↔ Step.descend f ∈ w.nodeSteps s := by
  simp only [childFrames, List.mem_filterMap]
  constructor
  · rintro ⟨st, hst, h⟩
    cases st with
    | error e => cases h
    | descend f2 =>
      simp only [Option.some.injEq] at h
      rw [← h]
      exact hst
  · intro h
    exact ⟨_, h, rfl⟩

theorem applyChildren_isSome (f : compareWalker → Option ApplyOut) (ws : List compareWalker)
    (h : ∀ w ∈ ws, (f w).isSome = true) : (applyChildren f ws).isSome = true := by
  induction ws with
  | nil => rfl
  | cons w rest ih =>
    simp only [applyChildren]
    have h1 := h w (List.mem_cons_self _ _)
    cases hf : f w with
    | none => rw [hf] at h1; cases h1
    | some r =>
      have h2 := ih (fun w2 hw2 => h w2 (List.mem_cons_of_mem _ hw2))
      cases hr : applyChildren f rest with
      | none => rw [hr] at h2; cases h2
      | some rs => rfl

theorem applyChildren_mem (f : compareWalker → Option ApplyOut) (ws : List compareWalker) :
    ∀ rs, applyChildren f ws = some rs → ∀ r ∈ rs, r.1 ∈ ws ∧ f r.1 = some r.2 := by
  induction ws with
  | nil =>
    intro rs h r hr
    simp only [applyChildren, Option.some.injEq] at h
    rw [← h] at hr
    cases hr
  | cons w rest ih =>
    intro rs h r hr
    simp only [applyChildren] at h
    cases hf : f w with
    | none => simp [hf] at h
    | some r0 =>
      cases hrest : applyChildren f rest with
      | none => simp [hf, hrest] at h
      | some rs0 =>
        simp only [hf, hrest, Option.some.injEq] at h
        rw [← h] at hr
        rcases List.mem_cons.1 hr with h1 | h1
        · rw [h1]
          exact ⟨List.mem_cons_self _ _, hf⟩
        · obtain ⟨h2, h3⟩ := ih rs0 hrest r h1
          exact ⟨List.mem_cons_of_mem _ h2, h3⟩

theorem applyN_isSome (s : Schema) (owners : Owners) (owner : String) :
    ∀ (n : Nat) (w : compareWalker), w.fuel ≤ n →
      (applyN s owners owner n w).isSome = true := by
  intro n
  induction n with
  | zero =>
    intro w h
    simp [compareWalker.fuel] at h
  | succ n ih =>
    intro w h
    simp only [applyN]
    split
    · rfl
    · have hc := applyChildren_isSome (applyN s owners owner n) (childFrames s w)
        (fun f hf => ih f (by
          have := (nodeSteps_child s w f ((mem_childFrames s w f).1 hf)).1
          omega))
      cases hr : applyChildren (applyN s owners owner n) (childFrames s w) with
      | none => rw [hr] at hc; cases hc
      | some rs => rfl

theorem applyLeaf_conflicts (owners : Owners) (owner : String) (w : compareWalker)
    (pc : Path × String) (h : pc ∈ (applyLeaf owners owner w).conflicts) :
    pc.2 ≠ owner ∧ pc.2 ∈ owners.ownersOf pc.1 ∧ pc.1 = w.path ∧
      ∃ l c, w.rhs = some c ∧ w.lhs = some l ∧ Value.Equals l c = false := by
  simp only [applyLeaf] at h
  cases hr : w.rhs with
  | none =>
    simp only [hr] at h
    split at h <;> cases h
  | some c =>
    simp only [hr] at h
    cases hl : w.lhs with
    | none => simp [hl] at h
    | some l =>
      simp only [hl] at h
      cases he : Value.Equals l c with
      | true => simp [he] at h
      | false =>
        simp only [he, Bool.not_false, if_true, List.mem_map, List.mem_filter, bne_iff_ne,
          ne_eq] at h
        obtain ⟨o, ⟨ho1, ho2⟩, hpc⟩ := h
        rw [← hpc]
        exact ⟨ho2, ho1, rfl, l, c, rfl, rfl, he⟩

theorem applyN_conflicts (s : Schema) (owners : Owners) (owner : String) :
    ∀ (n : Nat) (w : compareWalker) (r : ApplyOut), applyN s owners owner n w = some r →
      ∀ pc ∈ r.conflicts, pc.2 ≠ owner ∧ pc.2 ∈ owners.ownersOf pc.1 ∧
        ∃ f l c, Reach s w f ∧ f.nodeIsLeaf s = true ∧ f.path = pc.1 ∧ f.rhs = some c ∧
          f.lhs = some l ∧ Value.Equals l c = false := by
  intro n
  induction n with
  | zero => intro w r h; simp [applyN] at h
  | succ n ih =>
    intro w r h pc hpc
    simp only [applyN] at h
    split at h
    · rename_i hleaf
      simp only [Option.some.injEq] at h
      rw [← h] at hpc
      obtain ⟨h1, h2, h3, l, c, h4, h5, h6⟩ := applyLeaf_conflicts owners owner w pc hpc
      exact ⟨h1, h2, w, l, c, Reach.here w, hleaf, h3.symm, h4, h5, h6⟩
    · cases hc : applyChildren (applyN s owners owner n) (childFrames s w) with
      | none => simp [hc] at h
      | some rs =>
        simp only [hc, Option.some.injEq] at h
        rw [← h] at hpc
        simp only [assemble, List.mem_flatMap] at hpc
        obtain ⟨r2, hr2, hpc2⟩ := hpc
        obtain ⟨hmem, hrun⟩ := applyChildren_mem _ _ rs hc r2 hr2
        obtain ⟨h1, h2, f, l, c, hreach, hrest⟩ := ih r2.1 r2.2 hrun pc hpc2
        exact ⟨h1, h2, f, l, c,
          Reach.child w r2.1 f ((mem_childFrames s w r2.1).1 hmem) hreach, hrest⟩

theorem applyLeaf_sole (owners : Owners) (owner : String) (w : compareWalker)
    (h : ∀ p, ∀ o ∈ owners.ownersOf p, o = owner) :
    (applyLeaf owners owner w).conflicts = [] := by
  cases hc : (applyLeaf owners owner w).conflicts with
  | nil => rfl
  | cons pc rest =>
    have hm : pc ∈ (applyLeaf owners owner w).conflicts := by
      rw [hc]
      exact List.mem_cons_self _ _
    obtain ⟨h1, h2, _⟩ := applyLeaf_conflicts owners owner w pc hm
    exact absurd (h pc.1 pc.2 h2) h1

theorem applyN_sole (s : Schema) (owners : Owners) (owner : String)
    (h : ∀ p, ∀ o ∈ owners.ownersOf p, o = owner) (n : Nat) (w : compareWalker) (r : ApplyOut)
    (hr : applyN s owners owner n w = some r) : r.conflicts = [] := by
  cases hc : r.conflicts with
  | nil => rfl
  | cons pc rest =>
    have hm : pc ∈ r.conflicts := by
      rw [hc]
      exact List.mem_cons_self _ _
    obtain ⟨h1, h2, _⟩ := applyN_conflicts s owners owner n w r hr pc hm
    exact absurd (h pc.1 pc.2 h2) h1

/-- C17: `Apply` without `force` conflicts only on a real disagreement with another
owner.  `Apply(live, config, owners, u, force = false)` returns; if it fails with a
conflict, the report is not empty and each of its entries `(p, o)` has an owner `o` other
than `u` that currently owns `p`, where `p` is the path of a leaf of the walk that the
config has, whose live value is there and differs from the value of the config.  In
particular, when no path has an owner other than `u`, `Apply` succeeds. -/
theorem C17_apply_conflict (s : Schema) (tr : TypeRef) (live config : Value) (owners : Owners)
    (u : String) :
    (∃ r, Apply s tr live config owners u false = some r) ∧
    (∀ cs, Apply s tr live config owners u false = some (.conflict cs) →
      cs ≠ [] ∧ ∀ pc ∈ cs, pc.2 ≠ u ∧ pc.2 ∈ owners.ownersOf pc.1 ∧
        ∃ f l c, Reach s (compareWalker.root tr live config) f ∧ f.nodeIsLeaf s = true ∧
          f.path = pc.1 ∧ f.rhs = some c ∧ f.lhs = some l ∧ Value.Equals l c = false) ∧
    ((∀ p, ∀ o ∈ owners.ownersOf p, o = u) →
      ∃ v o2, Apply s tr live config owners u false = some (.ok v o2)) := by
  have hsome := applyN_isSome s owners u _ (compareWalker.root tr live config) (le_refl _)
  cases hr : applyN s owners u (compareWalker.root tr live config).fuel
      (compareWalker.root tr live config) with
  | none =>
    rw [hr] at hsome
    cases hsome
  | some r =>
    refine ⟨?_, ?_, ?_⟩
    · simp only [Apply, hr]
      split
      · exact ⟨_, rfl⟩
      · exact ⟨_, rfl⟩
    · intro cs h
      simp only [Apply, hr, Bool.not_false, Bool.true_and] at h
      split at h
      · rename_i hne
        simp only [Option.some.injEq, ApplyResult.conflict.injEq] at h
        subst h
        refine ⟨?_, fun pc hpc => applyN_conflicts s owners u _ _ r hr pc hpc⟩
        intro he
        rw [he] at hne
        simp at hne
      · cases h
    · intro hsole
      have hnil := applyN_sole s owners u hsole _ _ r hr
      simp only [Apply, hr, hnil]
      exact ⟨_, _, rfl⟩

theorem C17_apply_conflict_witness :
    Apply exListsSchema (.namedType "lists") .null
        (.map [("list", .list [.string "a", .string "b", .string "c"])]) [] "default" false =
      some (.ok (.map [("list", .list [.string "a", .string "b", .string "c"])])
        [("default", ⟨[[.fieldName "list", .value (.string "a")],
          [.fieldName "list", .value (.string "b")],
          [.fieldName "list", .value (.string "c")]]⟩)]) ∧
    (∃ v o2, Apply exListsSchema (.namedType "lists")
        (.map [("list", .list [.string "a", .string "b", .string "c"])])
        (.map [("list", .list [.string "a", .string "b", .string "c", .string "d"])])
        [("default", ⟨[[.fieldName "list", .value (.string "a")],
          [.fieldName "list", .value (.string "b")],
          [.fieldName "list", .value (.string "c")]]⟩)] "default" false =
      some (.ok v o2)) ∧
    Apply ⟨[]⟩
        (.inlined (.map (.mk (.cons "x" (.inlined (.scalar .numeric)) .nil) .none .separable [])))
        (.map [("x", .int 1)]) (.map [("x", .int 2)]) [("u1", ⟨[[.fieldName "x"]]⟩)] "u2"
        false =
      some (.conflict [([.fieldName "x"], "u1")]) :=
  ⟨by rfl,
    (C17_apply_conflict exListsSchema (.namedType "lists")
      (.map [("list", .list [.string "a", .string "b", .string "c"])])
      (.map [("list", .list [.string "a", .string "b", .string "c", .string "d"])])
      [("default", ⟨[[.fieldName "list", .value (.string "a")],
          [.fieldName "list", .value (.string "b")],
          [.fieldName "list", .value (.string "c")]]⟩)] "default").2.2
      (by
        intro p o ho
        simp only [Owners.ownersOf, List.filter_cons, List.filter_nil] at ho
        split at ho
        · simpa using ho
        · cases ho),
    by rfl⟩

/-! ## An absent subtree is enumerated -/

theorem nonLeaf_nodeIsLeaf (s : Schema) (w : compareWalker) (v : Value)
    (hnl : NonLeafAt s w.typeRef v) (hv : w.lhs = some v ∨ w.rhs = some v) :
    w.nodeIsLeaf s = false ∧ ∃ a, s.Resolve w.typeRef = some a := by
  rcases hnl with ⟨t, x, xs, hres, hrel, rfl⟩ | ⟨t, f, fs, hres, hrel, rfl⟩
  · refine ⟨?_, _, hres⟩
    simp only [compareWalker.nodeIsLeaf, hres, compareWalker.atomIsLeaf, derefList_eq, hrel,
      decide_False, Bool.false_or]
    rcases hv with h | h
    · simp [h, nilOrEmpty]
    · simp [h, nilOrEmpty]
  · refine ⟨?_, _, hres⟩
    simp only [compareWalker.nodeIsLeaf, hres, compareWalker.atomIsLeaf, derefMap_eq, hrel,
      decide_False, Bool.false_or]
    rcases hv with h | h
    · simp [h, nilOrEmpty]
    · simp [h, nilOrEmpty]

theorem nodeSteps_inLeaf (s : Schema) (w f : compareWalker)
    (hf : Step.descend f ∈ w.nodeSteps s) : f.inLeaf = w.inLeaf := by
  simp only [compareWalker.nodeSteps] at hf
  cases hres : s.Resolve w.typeRef with
  | none =>
    rw [hres] at hf
    cases hf
  | some a =>
    rw [hres] at hf
    simp only [compareWalker.atomSteps] at hf
    split at hf
    · cases hf
    · cases a with
      | list t => exact listSteps_inLeaf _ _ _ _ _ hf
      | map t => exact mapSteps_inLeaf _ _ _ _ _ hf
      | scalar t => cases hf
      | untyped => cases hf

theorem nodeSteps_absent (s : Schema) (w f : compareWalker)
    (hf : Step.descend f ∈ w.nodeSteps s) :
    (w.lhs = none → f.lhs = none) ∧ (w.rhs = none → f.rhs = none) := by
  simp only [compareWalker.nodeSteps] at hf
  cases hres : s.Resolve w.typeRef with
  | none =>
    rw [hres] at hf
    cases hf
  | some a =>
    rw [hres] at hf
    simp only [compareWalker.atomSteps] at hf
    split at hf
    · cases hf
    · cases a with
      | list t =>
        obtain ⟨_, hl, hr, _⟩ := listSteps_frame _ _ _ _ _ hf
        constructor
        · intro h
          cases hfl : f.lhs with
          | none => rfl
          | some x =>
            have := hl x hfl
            rw [h] at this
            cases this
        · intro h
          cases hfr : f.rhs with
          | none => rfl
          | some x =>
            have := hr x hfr
            rw [h] at this
            cases this
      | map t =>
        obtain ⟨⟨key, _, hl, hr⟩, _⟩ := mapSteps_frame _ _ _ _ _ hf
        constructor
        · intro h
          cases hfl : f.lhs with
          | none => rfl
          | some x =>
            have := hl x hfl
            rw [h] at this
            cases this
        · intro h
          cases hfr : f.rhs with
          | none => rfl
          | some x =>
            have := hr x hfr
            rw [h] at this
            cases this
      | scalar t => cases hf
      | untyped => cases hf

theorem ownInsert_one_sided (s : Schema) (f : compareWalker) (k : DiffKind)
    (hleaf : f.inLeaf = false) (hres : (s.Resolve f.typeRef).isSome = true)
    (hk : (k = .added ∧ f.lhs = none ∧ f.rhs.isSome = true) ∨
      (k = .removed ∧ f.lhs.isSome = true ∧ f.rhs = none)) :
    f.ownInsert s k = true := by
  cases hr : s.Resolve f.typeRef with
  | none =>
    rw [hr] at hres
    cases hres
  | some a =>
    rcases hk with ⟨rfl, hl, hrs⟩ | ⟨rfl, hls, hrn⟩
    · cases hrv : f.rhs with
      | none =>
        rw [hrv] at hrs
        cases hrs
      | some x =>
        simp only [compareWalker.ownInsert, hl, hrv, hr, hleaf, sidesRecord,
          Option.isNone_none, Option.isNone_some, Bool.and_false, Bool.false_eq_true,
          if_false]
        split <;> simp
    · cases hlv : f.lhs with
      | none =>
        rw [hlv] at hls
        cases hls
      | some x =>
        simp only [compareWalker.ownInsert, hlv, hrn, hr, hleaf, sidesRecord,
          Option.isNone_none, Option.isNone_some, Bool.false_and, Bool.false_eq_true,
          if_false]
        split <;> simp

theorem exists_IsFirst_of_mem (items : List (PathElement × Value)) (e : PathElement × Value)
    (he : e ∈ items) :
    ∃ q child, IsFirst items q child ∧ (q = e.1 ∨ q.Equals e.1 = true) := by
  induction items with
  | nil => cases he
  | cons x rest ih =>
    rcases List.mem_cons.1 he with h | h
    · exact ⟨x.1, x.2, Or.inl rfl, Or.inl (by rw [h])⟩
    · obtain ⟨q, child, hfirst, hq⟩ := ih h
      cases hx : x.1.Equals q with
      | false => exact ⟨q, child, Or.inr ⟨hx, hfirst⟩, hq⟩
      | true =>
        refine ⟨x.1, x.2, Or.inl rfl, Or.inr ?_⟩
        rcases hq with hq | hq
        · rw [← hq]
          exact hx
        · exact peEquals_trans hx hq

theorem nodeSteps_map_field (s : Schema) (w : compareWalker) (t : MapType) (v : Value)
    (fs : List (String × Value)) (hres : s.Resolve w.typeRef = some (.map t))
    (hnl : w.nodeIsLeaf s = false) (hfs : v = .map fs)
    (hv : (w.lhs = none ∧ w.rhs = some v) ∨ (w.lhs = some v ∧ w.rhs = none))
    (e : String × Value) (he : e ∈ fs) :
    ∃ f, Step.descend f ∈ w.nodeSteps s ∧ f.path = w.path ++ [.fieldName e.1] := by
  have hal : w.atomIsLeaf (.map t) = false := by
    simpa [compareWalker.nodeIsLeaf, hres] using hnl
  subst hfs
  rcases hv with ⟨hl, hr⟩ | ⟨hl, hr⟩
  · refine ⟨w.fieldFrame t e.1 none (some e.2), ?_, rfl⟩
    simp only [compareWalker.nodeSteps, hres, compareWalker.atomSteps, hal,
      Bool.false_eq_true, if_false, derefMap_eq, hl, hr, compareWalker.mapSteps,
      List.mem_append, rhsFieldSteps_descend_mem, itemsOf]
    exact Or.inr ⟨e, he, rfl, rfl⟩
  · refine ⟨w.fieldFrame t e.1 (some e.2) none, ?_, rfl⟩
    simp only [compareWalker.nodeSteps, hres, compareWalker.atomSteps, hal,
      Bool.false_eq_true, if_false, derefMap_eq, hl, hr, compareWalker.mapSteps,
      List.mem_append, lhsFieldSteps_descend_mem, itemsOf]
    exact Or.inl ⟨e, he, rfl⟩

theorem nodeSteps_list_item (s : Schema) (w : compareWalker) (t : ListType) (v : Value)
    (l : List Value) (hres : s.Resolve w.typeRef = some (.list t))
    (hnl : w.nodeIsLeaf s = false) (hl : v = .list l)
    (hv : (w.lhs = none ∧ w.rhs = some v) ∨ (w.lhs = some v ∧ w.rhs = none))
    (e : PathElement × Value) (he : e ∈ okItems t l 0) :
    ∃ f q, Step.descend f ∈ w.nodeSteps s ∧ f.path = w.path ++ [q] ∧
      (q = e.1 ∨ q.Equals e.1 = true) := by
  have hal : w.atomIsLeaf (.list t) = false := by
    simpa [compareWalker.nodeIsLeaf, hres] using hnl
  subst hl
  rcases hv with ⟨hl, hr⟩ | ⟨hl, hr⟩
  · refine ⟨_, e.1, ?_, itemFrame_path w t e.1 none
      (PathElementValueMap.find (okItems t l 0) e.1), Or.inl rfl⟩
    simp only [compareWalker.nodeSteps, hres, compareWalker.atomSteps, hal,
      Bool.false_eq_true, if_false, derefList_eq, hl, hr]
    rw [listSteps_descend_iff]
    exact Or.inr ⟨e, he, rfl, rfl⟩
  · obtain ⟨q, child, hfirst, hq⟩ := exists_IsFirst_of_mem _ e he
    refine ⟨_, q, ?_, itemFrame_path w t q (some child)
      (PathElementValueMap.find (okItems t [] 0) q), hq⟩
    simp only [compareWalker.nodeSteps, hres, compareWalker.atomSteps, hal,
      Bool.false_eq_true, if_false, derefList_eq, hl, hr]
    rw [listSteps_descend_iff]
    exact Or.inl ⟨q, child, hfirst, rfl⟩

/-- C7, as amended (an absent subtree is enumerated).  Let a frame at path `p` that is
not inside a leaf have one side only, a non-empty list or map `v` of a type that is not
atomic; write `k` for `Added` when `lhs` is the absent side and for `Removed` when `rhs`
is.  The walk returns and records `p` in the set `k`.  It also descends: every child
frame has the absent side absent, is walked, and all the paths its walk inserts are
inserted; a child that has a side and whose type the schema resolves has its own path,
strictly below `p`, in the set `k`.  Every field of a map `v` and every element of a
list `v` that has a path element gives a child frame.  Nothing is inserted into the
other two sets, and every path inserted lies at `p` or below `p`. -/
theorem C7_absent_subtree_enumerated (s : Schema) (n : Nat) (w : compareWalker)
    (c : Comparison) (v : Value) (k : DiffKind) (hn : w.fuel ≤ n) (hleaf : w.inLeaf = false)
    (hnl : NonLeafAt s w.typeRef v)
    (hv : (k = .added ∧ w.lhs = none ∧ w.rhs = some v) ∨
      (k = .removed ∧ w.lhs = some v ∧ w.rhs = none)) :
    ∃ r, compareWalker.compare s n w c = some r ∧
      w.path ∈ (r.2.1.get k).paths ∧
      (∀ f, Step.descend f ∈ w.nodeSteps s →
        (w.lhs = none → f.lhs = none) ∧ (w.rhs = none → f.rhs = none) ∧
        ∃ r2, compareWalker.compare s (n - 1) f Comparison.empty = some r2 ∧
          (∀ k2 p, p ∈ (r2.2.1.get k2).paths → p ∈ (r.2.1.get k2).paths) ∧
          ((f.lhs.isSome = true ∨ f.rhs.isSome = true) →
            (s.Resolve f.typeRef).isSome = true → f.path ∈ (r.2.1.get k).paths)) ∧
      (∀ t fs, s.Resolve w.typeRef = some (.map t) → v = .map fs → ∀ e ∈ fs,
        ∃ f, Step.descend f ∈ w.nodeSteps s ∧ f.path = w.path ++ [.fieldName e.1]) ∧
      (∀ t l, s.Resolve w.typeRef = some (.list t) → v = .list l → ∀ e ∈ okItems t l 0,
        ∃ f q, Step.descend f ∈ w.nodeSteps s ∧ f.path = w.path ++ [q] ∧
          (q = e.1 ∨ q.Equals e.1 = true)) ∧
      (∀ k2, k2 ≠ k → r.2.1.get k2 = c.get k2) ∧
      (∀ k2 p, p ∈ (r.2.1.get k2).paths → p ∈ (c.get k2).paths ∨ w.path <+: p) := by
  have hside : w.lhs = some v ∨ w.rhs = some v := by
    rcases hv with ⟨_, _, h⟩ | ⟨_, h, _⟩
    · exact Or.inr h
    · exact Or.inl h
  have hv2 : (w.lhs = none ∧ w.rhs = some v) ∨ (w.lhs = some v ∧ w.rhs = none) := by
    rcases hv with ⟨_, h1, h2⟩ | ⟨_, h1, h2⟩
    · exact Or.inl ⟨h1, h2⟩
    · exact Or.inr ⟨h1, h2⟩
  obtain ⟨hnleaf, a, hres⟩ := nonLeaf_nodeIsLeaf s w v hnl hside
  have hsome := compare_isSome s n w c hn
  cases h : compareWalker.compare s n w c with
  | none => simp [h] at hsome
  | some r =>
    obtain ⟨m, rfl⟩ : ∃ m, n = m + 1 := by
      cases n with
      | zero => simp [compareWalker.compare] at h
      | succ m => exact ⟨m, rfl⟩
    have hmem := compare_mem_iff s m w c r h
    have hown : w.ownInsert s k = true := by
      apply ownInsert_one_sided s w k hleaf (by rw [hres]; rfl)
      rcases hv with ⟨hk, h1, h2⟩ | ⟨hk, h1, h2⟩
      · exact Or.inl ⟨hk, h1, by rw [h2]; rfl⟩
      · exact Or.inr ⟨hk, by rw [h1]; rfl, h2⟩
    refine ⟨r, rfl, (hmem k w.path).2 (Or.inr (Or.inr ⟨rfl, hown⟩)), ?_, ?_, ?_, ?_,
      fun k2 p hp => compare_below s (m + 1) w c r h k2 p hp⟩
    · intro f hf
      obtain ⟨ha1, ha2⟩ := nodeSteps_absent s w f hf
      have hlt := (nodeSteps_child s w f hf).1
      have hfm : f.fuel ≤ m := by omega
      have hfsome := compare_isSome s m f Comparison.empty hfm
      cases hf2 : compareWalker.compare s m f Comparison.empty with
      | none =>
        rw [hf2] at hfsome
        cases hfsome
      | some r2 =>
        refine ⟨ha1, ha2, r2, by simpa using hf2, ?_, ?_⟩
        · intro k2 p hp
          exact (hmem k2 p).2 (Or.inr (Or.inl ⟨f, hf, r2, hf2, hp⟩))
        · intro hfs hfres
          obtain ⟨m2, rfl⟩ : ∃ m2, m = m2 + 1 := by
            cases m with
            | zero => simp [compareWalker.compare] at hf2
            | succ m2 => exact ⟨m2, rfl⟩
          have hfown : f.ownInsert s k = true := by
            apply ownInsert_one_sided s f k (by rw [nodeSteps_inLeaf s w f hf]; exact hleaf)
              hfres
            rcases hv with ⟨hk, h1, _⟩ | ⟨hk, _, h2⟩
            · have hfl := ha1 h1
              refine Or.inl ⟨hk, hfl, ?_⟩
              rcases hfs with h3 | h3
              · rw [hfl] at h3
                cases h3
              · exact h3
            · have hfr := ha2 h2
              refine Or.inr ⟨hk, ?_, hfr⟩
              rcases hfs with h3 | h3
              · exact h3
              · rw [hfr] at h3
                cases h3
          exact (hmem k f.path).2 (Or.inr (Or.inl ⟨f, hf, r2, hf2,
            (compare_mem_iff s m2 f _ r2 hf2 k f.path).2 (Or.inr (Or.inr ⟨rfl, hfown⟩))⟩))
    · intro t fs hrt hfs e he
      exact nodeSteps_map_field s w t v fs hrt hnleaf hfs hv2 e he
    · intro t l hrt hl e he
      exact nodeSteps_list_item s w t v l hrt hnleaf hl hv2 e he
    · intro k2 hk2
      rcases hv with ⟨hk, h1, _⟩ | ⟨hk, h1, h2⟩
      · exact compare_lhs_absent s k2 (by rw [← hk]; exact hk2) (m + 1) w c r h h1
      · exact compare_rhs_absent s k2 (by rw [← hk]; exact hk2) (m + 1) w c r h
          ⟨h2, by rw [h1]; rfl⟩

theorem C7_absent_subtree_enumerated_witness :
    ∃ r, compareWalker.compare ⟨[]⟩ 3 exAbsent Comparison.empty = some r ∧
      exAbsent.path ∈ (r.2.1.get .added).paths ∧
      (∀ f, Step.descend f ∈ exAbsent.nodeSteps ⟨[]⟩ →
        (exAbsent.lhs = none → f.lhs = none) ∧ (exAbsent.rhs = none → f.rhs = none) ∧
        ∃ r2, compareWalker.compare ⟨[]⟩ (3 - 1) f Comparison.empty = some r2 ∧
          (∀ k2 p, p ∈ (r2.2.1.get k2).paths → p ∈ (r.2.1.get k2).paths) ∧
          ((f.lhs.isSome = true ∨ f.rhs.isSome = true) →
            (Schema.Resolve ⟨[]⟩ f.typeRef).isSome = true →
            f.path ∈ (r.2.1.get .added).paths)) ∧
      (∀ t fs, Schema.Resolve ⟨[]⟩ exAbsent.typeRef = some (.map t) →
        Value.map [("a", .int 1)] = .map fs → ∀ e ∈ fs,
        ∃ f, Step.descend f ∈ exAbsent.nodeSteps ⟨[]⟩ ∧
          f.path = exAbsent.path ++ [.fieldName e.1]) ∧
      (∀ t l, Schema.Resolve ⟨[]⟩ exAbsent.typeRef = some (.list t) →
        Value.map [("a", .int 1)] = .list l → ∀ e ∈ okItems t l 0,
        ∃ f q, Step.descend f ∈ exAbsent.nodeSteps ⟨[]⟩ ∧ f.path = exAbsent.path ++ [q] ∧
          (q = e.1 ∨ q.Equals e.1 = true)) ∧
      (∀ k2, k2 ≠ .added → r.2.1.get k2 = Comparison.empty.get k2) ∧
      (∀ k2 p, p ∈ (r.2.1.get k2).paths →
        p ∈ (Comparison.empty.get k2).paths ∨ exAbsent.path <+: p) :=
  C7_absent_subtree_enumerated ⟨[]⟩ 3 exAbsent Comparison.empty (.map [("a", .int 1)]) .added
    (by decide) rfl
    (Or.inr ⟨_, ("a", .int 1), [], rfl, by decide, rfl⟩)
    (Or.inl ⟨rfl, rfl, rfl⟩)

/-- C7, counterexample.  Under `outer`, the left side `{x: 1}` has no `m` and the right
side has `m: {a: 1}`, a non-empty map that is not atomic: the walk records `.m` and,
strictly below it, `.m.a`. -/
theorem C7_counterexample :
    ValueMap.Get [("x", .int 1)] "m" = none ∧
      Compare exNested (.namedType "outer") (.map [("x", .int 1)])
          (.map [("x", .int 1), ("m", .map [("a", .int 1)])]) =
        some (⟨⟨[[.fieldName "m", .fieldName "a"], [.fieldName "m"]]⟩, ⟨[]⟩, ⟨[]⟩⟩, []) :=
  ⟨rfl, by decide⟩

/-! ## The three sets are pairwise disjoint -/

theorem children_depth : ∀ (v x : Value), x ∈ v.children → x.depth < v.depth
  | .list xs, x, h => by
    simp only [Value.children] at h
    have := depthList_mem xs x h
    simp only [Value.depth]
    omega
  | .map fs, x, h => by
    simp only [Value.children, List.mem_map] at h
    obtain ⟨f, hf, hx⟩ := h
    have := depthFields_mem fs f hf
    rw [hx] at this
    simp only [Value.depth]
    omega
  | .null, _, h => by cases h
  | .bool _, _, h => by cases h
  | .int _, _, h => by cases h
  | .float _, _, h => by cases h
  | .string _, _, h => by cases h

theorem derefList_children (side : Side) (o : Option Value) (v : Value)
    (h : v ∈ itemsOf (compareWalker.derefList side o none).2) :
    ∃ l, o = some l ∧ v ∈ l.children := by
  rw [derefList_eq] at h
  cases o with
  | none => cases h
  | some l =>
    cases l with
    | list xs => exact ⟨_, rfl, h⟩
    | _ => cases h

theorem derefMap_children (side : Side) (o : Option Value) (f : String × Value)
    (h : f ∈ itemsOf (compareWalker.derefMap side o none).2) :
    ∃ l, o = some l ∧ f.2 ∈ l.children := by
  rw [derefMap_eq] at h
  cases o with
  | none => cases h
  | some l =>
    cases l with
    | map fs => exact ⟨_, rfl, List.mem_map.2 ⟨f, h, rfl⟩⟩
    | _ => cases h

theorem atomSteps_descent (a : Atom) (w f : compareWalker)
    (hf : Step.descend f ∈ w.atomSteps a) :
    (∀ v, f.lhs = some v → ∃ l, w.lhs = some l ∧ v ∈ l.children) ∧
    (∀ v, f.rhs = some v → ∃ r, w.rhs = some r ∧ v ∈ r.children) ∧
    (f.lhs.isSome = true ∨ f.rhs.isSome = true ∨
      ∃ pe, f.path = w.path ++ [pe] ∧ pe.Equals pe = false) ∧
    f.fuel < w.fuel := by
  simp only [compareWalker.atomSteps] at hf
  split at hf
  · cases hf
  · cases a with
    | list t =>
      obtain ⟨_, hl, hr, hs⟩ := listSteps_frame _ _ _ _ _ hf
      refine ⟨fun v hv => derefList_children _ _ _ (hl v hv),
        fun v hv => derefList_children _ _ _ (hr v hv), ?_, listSteps_fuel t w f hf⟩
      rcases hs with h1 | h1 | ⟨_, h1⟩
      · exact Or.inl h1
      · exact Or.inr (Or.inl h1)
      · exact Or.inr (Or.inr h1)
    | map t =>
      obtain ⟨⟨key, _, hl, hr⟩, hs⟩ := mapSteps_frame _ _ _ _ _ hf
      refine ⟨fun v hv => derefMap_children _ _ (key, v) (hl v hv),
        fun v hv => derefMap_children _ _ (key, v) (hr v hv), ?_,
        child_fuel_lt w f (fun v hv => derefMap_depth _ _ _ (hl v hv))
          (fun v hv => derefMap_depth _ _ _ (hr v hv)) hs⟩
      rcases hs with h1 | h1
      · exact Or.inl h1
      · exact Or.inr (Or.inl h1)
    | scalar t => cases hf
    | untyped => cases hf

/-- C22: the compare walk terminates on every input.  For every schema, recursive or
not, and every frame, `compare` returns, with the fuel of the frame, which is one more
than the depth of its deeper value, and with any larger fuel, always the same result.
The handler of a node is a leaf or runs `compare` on the frames of `atomSteps`, in
order; the `lhs` of each of these frames, if present, is a direct sub-value of the
`lhs` of the node and its `rhs`, if present, a direct sub-value of the `rhs` of the
node, and the frame has a side unless its path element is not equal to itself (a NaN);
in either case it needs less fuel; a direct sub-value is less deep than the value. -/
theorem C22_compare_terminates (s : Schema) (w : compareWalker) (c : Comparison) :
    (∃ r, ∀ n, w.fuel ≤ n → compareWalker.compare s n w c = some r) ∧
    (∀ (n : Nat) (a : Atom) (tr : TypeRef),
      handleAtom (compareWalker.compare s n) a tr w c =
        if w.atomIsLeaf a then some ((w.doLeaf c).1, (w.doLeaf c).2, [])
        else Option.map (fun r => (w, r.1, r.2))
          (runSteps (compareWalker.compare s n) (w.atomSteps a) c (w.atomErrors a))) ∧
    (∀ (a : Atom) (f : compareWalker), Step.descend f ∈ w.atomSteps a →
      (∀ v, f.lhs = some v → ∃ l, w.lhs = some l ∧ v ∈ l.children) ∧
      (∀ v, f.rhs = some v → ∃ r, w.rhs = some r ∧ v ∈ r.children) ∧
      (f.lhs.isSome = true ∨ f.rhs.isSome = true ∨
        ∃ pe, f.path = w.path ++ [pe] ∧ pe.Equals pe = false) ∧
      f.fuel < w.fuel) ∧
    (∀ v x : Value, x ∈ v.children → x.depth < v.depth) := by
  refine ⟨?_, ?_, ?_, children_depth⟩
  · have hsome := compare_isSome s w.fuel w c (le_refl _)
    cases hc : compareWalker.compare s w.fuel w c with
    | none =>
      rw [hc] at hsome
      cases hsome
    | some r => exact ⟨r, fun n hn => compare_mono_le s w.fuel n hn w c r hc⟩
  · intro n a tr
    exact handleAtom_eq (compare_keepsPath s n) a tr w c
  · intro a f hf
    exact atomSteps_descent a w f hf

theorem C22_compare_terminates_witness :
    Compare exRecursive (.namedType "node")
        (.map [("v", .int 1), ("next", .map [("v", .int 2)])])
        (.map [("v", .int 1),
          ("next", .map [("v", .int 3), ("next", .map [("v", .int 4)])])]) =
      some ({ Added := ⟨[[.fieldName "next", .fieldName "next", .fieldName "v"],
                [.fieldName "next", .fieldName "next"]]⟩,
              Removed := ⟨[]⟩,
              Modified := ⟨[[.fieldName "next", .fieldName "v"]]⟩ }, []) ∧
    ∃ r, ∀ n,
      (compareWalker.root (.namedType "node")
        (.map [("v", .int 1), ("next", .map [("v", .int 2)])])
        (.map [("v", .int 1),
          ("next", .map [("v", .int 3), ("next", .map [("v", .int 4)])])])).fuel ≤ n →
      compareWalker.compare exRecursive n
        (compareWalker.root (.namedType "node")
          (.map [("v", .int 1), ("next", .map [("v", .int 2)])])
          (.map [("v", .int 1),
            ("next", .map [("v", .int 3), ("next", .map [("v", .int 4)])])]))
        Comparison.empty = some r :=
  ⟨by decide,
    (C22_compare_terminates exRecursive
      (compareWalker.root (.namedType "node")
        (.map [("v", .int 1), ("next", .map [("v", .int 2)])])
        (.map [("v", .int 1),
          ("next", .map [("v", .int 3), ("next", .map [("v", .int 4)])])]))
      Comparison.empty).1⟩

end SMD
